import Mathlib

set_option linter.unusedSectionVars false

/-!
# Verification of the array-backed range-query structures

This file is a shallow embedding, in Lean 4, of the Rust sources of the
`data-strux-rs` repository:

* `src/segment_tree/core.rs` — the plain point-update / range-fold segment
  tree (`SegmentTree`), backed by a single array of length `2 * n` with the
  leaf for element `i` stored at index `n + i`;
* `src/segment_tree/lazy.rs` — the lazy-propagation segment tree
  (`LazySegmentTree`), backed by arrays of length `2 * size` / `size`
  with `size = n.next_power_of_two()`;
* `src/fenwick_tree/mod.rs` — the Fenwick tree;
* `src/disjoint_set/mod.rs` — the union-find structure (`Dsu`).

Modelling conventions, used uniformly below:

* Rust's `Monoid` trait (`id`, associative `op`) is Lean's `Monoid` class
  (`1`, associative `*`); Rust's `Action` trait (`F` a monoid together with
  `act` satisfying `F::id().act(s) == s` and `f.op(g).act(s) == f.act(g.act(s))`)
  is Lean's `MulAction F S` (`one_smul`, `mul_smul`).
* A mutable boxed slice is an immutable `List`; an unchecked indexed read
  `*d.add(i)` is `List.getD d i 1` (all reads in the algorithms are proved
  in bounds under the documented preconditions, except where the point of a
  theorem is precisely that a read is out of bounds, in which case the read
  is modelled by `List.get?` so that the overflow is observable); a write
  `*d.add(i) = x` is `List.set d i x`.
* `while`/`for` loops that are not structurally decreasing are modelled by
  structurally recursive functions with an explicit fuel argument; every
  call site passes a fuel that is proved sufficient (the loops in the
  source terminate for exactly the same reason), so the fuel-exhausted
  branches are unreachable under the stated preconditions.
* `x >> x.trailing_zeros()` (strip all trailing zero bits) is `oddPart`;
  `i >> 1` is `i / 2`; `i << 1` is `2 * i`; `usize::next_power_of_two` is
  `nextPowerOfTwo` below.
-/

/-! ## Preliminaries: odd part of a natural number -/

/-- Fueled helper for `oddPart`. -/
def oddPartAux : ℕ → ℕ → ℕ
| 0, x => x
| fuel + 1, x => if x % 2 = 1 ∨ x = 0 then x else oddPartAux fuel (x / 2)

/-- `oddPart x` models the Rust idiom `x >> x.trailing_zeros()`:
the largest odd divisor of `x` (and `0` for `x = 0`). -/
def oddPart (x : ℕ) : ℕ := oddPartAux x x

lemma oddPartAux_spec : ∀ fuel x, x ≤ fuel →
    (x ≠ 0 → oddPartAux fuel x % 2 = 1) ∧ ∃ d, x = oddPartAux fuel x * 2 ^ d := by
  intro fuel
  induction fuel with
  | zero =>
    intro x hx
    interval_cases x
    exact ⟨fun h => absurd rfl h, 0, rfl⟩
  | succ fuel ih =>
    intro x hx
    by_cases h : x % 2 = 1 ∨ x = 0
    · rw [oddPartAux, if_pos h]
      rcases h with h | h
      · exact ⟨fun _ => h, 0, by ring⟩
      · exact ⟨fun hc => absurd h hc, 0, by rw [h]; ring⟩
    · push_neg at h
      obtain ⟨h1, h2⟩ := h
      have hx2 : x % 2 = 0 := by omega
      have hhalf : x / 2 ≤ fuel := by omega
      obtain ⟨hodd, d, hd⟩ := ih (x / 2) hhalf
      rw [oddPartAux, if_neg (by push_neg; exact ⟨h1, h2⟩)]
      refine ⟨fun _ => hodd (by omega), d + 1, ?_⟩
      calc x = 2 * (x / 2) := by omega
        _ = 2 * (oddPartAux fuel (x / 2) * 2 ^ d) := by rw [← hd]
        _ = oddPartAux fuel (x / 2) * 2 ^ (d + 1) := by ring

lemma oddPart_odd {x : ℕ} (hx : x ≠ 0) : oddPart x % 2 = 1 :=
  (oddPartAux_spec x x le_rfl).1 hx

lemma oddPart_mul_pow (x : ℕ) : ∃ d, x = oddPart x * 2 ^ d :=
  (oddPartAux_spec x x le_rfl).2

lemma oddPart_zero : oddPart 0 = 0 := rfl

/-- Uniqueness of the odd-part decomposition. -/
lemma odd_mul_pow_inj {a b d e : ℕ} (ha : a % 2 = 1) (hb : b % 2 = 1)
    (h : a * 2 ^ d = b * 2 ^ e) : a = b ∧ d = e := by
  induction d generalizing e with
  | zero =>
    cases e with
    | zero => simpa using h
    | succ e =>
      exfalso
      have : a = b * 2 ^ e * 2 := by rw [pow_succ] at h; simpa [mul_assoc] using h
      omega
  | succ d ih =>
    cases e with
    | zero =>
      exfalso
      have : a * 2 ^ d * 2 = b := by rw [pow_succ] at h; simpa [mul_assoc] using h
      omega
    | succ e =>
      have h2 : a * 2 ^ d = b * 2 ^ e := by
        rw [pow_succ, pow_succ, ← mul_assoc, ← mul_assoc] at h
        omega
      obtain ⟨h3, h4⟩ := ih h2
      exact ⟨h3, by omega⟩

lemma oddPart_of_odd {x : ℕ} (hx : x % 2 = 1) : oddPart x = x := by
  unfold oddPart
  cases x with
  | zero => rfl
  | succ n => rw [oddPartAux, if_pos (Or.inl hx)]

/-! ## Preliminaries: indexed list access -/

/-- Read with identity as the (never used in bounds-respecting contexts)
default; models an unchecked array read. -/
def dval {α : Type} (d : α) (l : List α) (i : ℕ) : α := l.getD i d

lemma dval_set_self {α : Type} (d : α) (l : List α) (i : ℕ) (x : α)
    (h : i < l.length) : dval d (l.set i x) i = x := by
  unfold dval
  have h' : i < (l.set i x).length := by simpa using h
  rw [List.getD_eq_getElem _ _ h', List.getElem_set_self h']

lemma dval_set_ne {α : Type} (d : α) (l : List α) {i j : ℕ} (x : α)
    (h : i ≠ j) : dval d (l.set i x) j = dval d l j := by
  unfold dval
  by_cases hj : j < l.length
  · have hj' : j < (l.set i x).length := by simpa using hj
    rw [List.getD_eq_getElem _ _ hj', List.getD_eq_getElem _ _ hj,
      List.getElem_set_ne h hj']
  · rw [List.getD_eq_default _ _ (by simpa using not_lt.mp hj),
      List.getD_eq_default _ _ (not_lt.mp hj)]

lemma dval_replicate {α : Type} (d : α) (n i : ℕ) :
    dval d (List.replicate n d) i = d := by
  unfold dval
  by_cases h : i < n
  · rw [List.getD_eq_getElem _ _ (by simpa using h)]
    simp
  · rw [List.getD_eq_default _ _ (by simpa using not_lt.mp h)]

lemma dval_append_left {α : Type} (d : α) (l l' : List α) (i : ℕ)
    (h : i < l.length) : dval d (l ++ l') i = dval d l i :=
  List.getD_append _ _ _ _ h

lemma dval_append_right {α : Type} (d : α) (l l' : List α) (i : ℕ)
    (h : l.length ≤ i) : dval d (l ++ l') i = dval d l' (i - l.length) :=
  List.getD_append_right _ _ _ _ h

lemma set_dval_self {α : Type} (d : α) (l : List α) (i : ℕ) :
    l.set i (dval d l i) = l := by
  unfold dval
  induction l generalizing i with
  | nil => rfl
  | cons a t ih =>
    cases i with
    | zero => rfl
    | succ i => simpa using ih i

/-! ## The plain segment tree (`src/segment_tree/core.rs`)

The state of `SegmentTree<S>` is its backing boxed slice, of length
`2 * n` (`n << 1` in the source).  `len()` recovers `n` as
`data.len() >> 1`.  Leaf `i` lives at index `n + i`; internal node `i`
(for `1 <= i < n`) has children `2i` and `2i + 1`; index `0` is unused. -/

namespace SegmentTree

variable {S : Type} [Monoid S]

/-- `SegmentTree::new(n)`: `vec![S::id(); n << 1]`. -/
def new (S : Type) [Monoid S] (n : ℕ) : List S := List.replicate (2 * n) 1

/-- One iteration of the bottom-up build / upward refresh:
`data[i] = op(data[2i], data[2i + 1])`. -/
def updateAt (d : List S) (i : ℕ) : List S :=
  d.set i (dval 1 d (2 * i) * dval 1 d (2 * i + 1))

/-- The build loop of `from_slice`: `for i in (1..n).rev()` — `buildDown m d`
performs `updateAt` at `i = m, m - 1, ..., 1`. -/
def buildDown : ℕ → List S → List S
| 0, d => d
| m + 1, d => buildDown m (updateAt d (m + 1))

/-- `SegmentTree::from_slice(v)`: allocate `vec![S::id(); n << 1]`, copy `v`
to positions `n..2n`, then build internal nodes from `n - 1` down to `1`. -/
def fromSlice (v : List S) : List S :=
  buildDown (v.length - 1) (List.replicate v.length 1 ++ v)

/-- The upward refresh loop of `set`/`operate`:
`while i > 1 { i >>= 1; data[i] = op(data[2i], data[2i+1]); }`.
The first argument is fuel (the loop halves `i`, so `i` itself is enough). -/
def climbUpd : ℕ → ℕ → List S → List S
| 0, _, d => d
| fuel + 1, i, d =>
  if 1 < i then climbUpd fuel (i / 2) (updateAt d (i / 2)) else d

/-- `SegmentTree::set(i, x)` (precondition `i < len()`). -/
def set (d : List S) (i : ℕ) (x : S) : List S :=
  climbUpd (d.length / 2 + i) (d.length / 2 + i) (d.set (d.length / 2 + i) x)

/-- `SegmentTree::operate(i, x)` (precondition `i < len()`). -/
def operate (d : List S) (i : ℕ) (x : S) : List S :=
  climbUpd (d.length / 2 + i) (d.length / 2 + i)
    (d.set (d.length / 2 + i) (dval 1 d (d.length / 2 + i) * x))

/-- `SegmentTree::get(i)` (precondition `i < len()`). -/
def get (d : List S) (i : ℕ) : S := dval 1 d (d.length / 2 + i)

/-- The boundary-convergence loop of `range_fold`.  The source loop is a
`loop { if l >= r {...} else {...}; if l == r { break } }`; the first
argument is fuel (each iteration strictly decreases `l + r` under the
preconditions; the `r = 0` guard covers states unreachable under them). -/
def foldLoop : ℕ → List S → ℕ → ℕ → S → S → S
| 0, _, _, _, left, right => left * right
| fuel + 1, d, l, r, left, right =>
  if r = 0 then left * right
  else if r ≤ l then
    (if oddPart (l + 1) = r then (left * dval 1 d l) * right
     else foldLoop fuel d (oddPart (l + 1)) r (left * dval 1 d l) right)
  else
    (if l = oddPart (r - 1) then left * (dval 1 d (r - 1) * right)
     else foldLoop fuel d l (oddPart (r - 1)) left (dval 1 d (r - 1) * right))

/-- `SegmentTree::range_fold(l..r)` (preconditions `l <= r <= len()`):
map both bounds into array indices by adding `len()`, return identity for
the empty range, otherwise strip trailing zero bits from both and run the
convergence loop. -/
def rangeFold (d : List S) (l r : ℕ) : S :=
  if l + d.length / 2 = r + d.length / 2 then 1
  else
    foldLoop (l + d.length / 2 + (r + d.length / 2)) d
      (oddPart (l + d.length / 2)) (oddPart (r + d.length / 2)) 1 1

/-- `SegmentTree::all_fold()`: `self.0.get_unchecked(1)` — an unchecked
read of index 1, modelled as a fallible read so that the out-of-bounds
case (`n = 0`, backing array of length 0) is observable. -/
def allFold (d : List S) : Option S := d.get? 1

/-- `SegmentTree::len()`. -/
def len (d : List S) : ℕ := d.length / 2

end SegmentTree

/-! ## Slice products: the brute-force left-to-right combine -/

/-- `sliceProd a l r` is the specification-side brute force:
`op(a[l], a[l+1], ..., a[r-1])`, the left-to-right combine of the
half-open slice `[l, r)`, and `1` for the empty slice. -/
def sliceProd {S : Type} [Monoid S] (a : List S) (l r : ℕ) : S :=
  ((a.drop l).take (r - l)).prod

lemma sliceProd_self {S : Type} [Monoid S] (a : List S) (l : ℕ) :
    sliceProd a l l = 1 := by simp [sliceProd]

lemma sliceProd_split {S : Type} [Monoid S] (a : List S) {l m r : ℕ}
    (h1 : l ≤ m) (h2 : m ≤ r) :
    sliceProd a l m * sliceProd a m r = sliceProd a l r := by
  unfold sliceProd
  rw [← List.prod_append]
  congr 1
  have hr : r - l = (m - l) + (r - m) := by omega
  rw [hr, List.take_add, List.drop_drop]
  congr 3
  omega

lemma sliceProd_one {S : Type} [Monoid S] (a : List S) (m : ℕ) :
    sliceProd a m (m + 1) = dval 1 a m := by
  unfold sliceProd dval
  induction a generalizing m with
  | nil => simp
  | cons x t ih =>
    cases m with
    | zero => simp
    | succ m => simpa using ih m

namespace SegmentTree

variable {S : Type} [Monoid S]

/-- The intended (fixpoint) content of the backing array of a plain
segment tree whose logical array is `a`: leaves `a.length + j` hold
`a[j]`, each internal node holds the combine of its two children, and
the unused slot `0` holds the identity. -/
def treeVal (a : List S) (i : ℕ) : S :=
  if a.length ≤ i then dval 1 a (i - a.length)
  else if i = 0 then 1
  else treeVal a (2 * i) * treeVal a (2 * i + 1)
termination_by a.length - i
decreasing_by
  · omega
  · omega

/-- The key structural fact behind `range_fold`: if both boundaries of the
(scaled) interval of node `x`, read at scale `2 ^ e`, fall inside the leaf
band `[n, 2n]`, then the intended value of node `x` is the slice product
of the logical subarray it covers.  (For `n` not a power of two the root
does *not* satisfy the hypothesis, and indeed holds a rotated product.) -/
lemma treeVal_eq_sliceProd (a : List S) :
    ∀ e x, 1 ≤ x → a.length ≤ x * 2 ^ e → (x + 1) * 2 ^ e ≤ 2 * a.length →
    treeVal a x = sliceProd a (x * 2 ^ e - a.length) ((x + 1) * 2 ^ e - a.length) := by
  intro e
  induction e with
  | zero =>
    intro x hx1 hx2 hx3
    simp only [pow_zero, mul_one] at hx2 hx3 ⊢
    rw [treeVal, if_pos hx2]
    rw [show (x + 1) - a.length = (x - a.length) + 1 by omega, sliceProd_one]
  | succ e ih =>
    intro x hx1 hx2 hx3
    have hxlt : x < a.length := by
      by_contra hge
      push_neg at hge
      have h1 : 1 * 2 ^ (e + 1) ≤ (x + 1) * 2 ^ (e + 1) - x * 2 ^ (e + 1) := by
        have := Nat.mul_le_mul_right (2 ^ (e + 1)) (Nat.le_refl (x + 1))
        have hxe : x * 2 ^ (e + 1) + 1 * 2 ^ (e + 1) = (x + 1) * 2 ^ (e + 1) := by ring
        omega
      have h2 : (2 : ℕ) ≤ 2 ^ (e + 1) := by
        calc (2:ℕ) = 2 ^ 1 := by norm_num
        _ ≤ 2 ^ (e + 1) := Nat.pow_le_pow_right (by norm_num) (by omega)
      have h3 : a.length ≤ x := hge
      have h4 : x * 2 ≤ x * 2 ^ (e + 1) := Nat.mul_le_mul_left x h2
      omega
    have hij : a.length ≠ 0 := by
      intro h0
      rw [h0] at hxlt
      omega
    rw [treeVal, if_neg (by omega), if_neg (by omega)]
    have he1 : 2 * x * 2 ^ e = x * 2 ^ (e + 1) := by ring
    have he2 : (2 * x + 1 + 1) * 2 ^ e = (x + 1) * 2 ^ (e + 1) := by ring
    have hA : x * 2 ^ (e + 1) ≤ (2 * x + 1) * 2 ^ e := by
      have h : x * 2 ^ (e + 1) = 2 * x * 2 ^ e := by ring
      rw [h]
      exact Nat.mul_le_mul_right _ (by omega)
    have hB : (2 * x + 1) * 2 ^ e ≤ (x + 1) * 2 ^ (e + 1) := by
      have h : (x + 1) * 2 ^ (e + 1) = (2 * x + 2) * 2 ^ e := by ring
      rw [h]
      exact Nat.mul_le_mul_right _ (by omega)
    rw [ih (2 * x) (by omega) (by omega) (by omega),
      ih (2 * x + 1) (by omega) (by omega) (by omega)]
    rw [he1, he2]
    exact sliceProd_split a (by omega) (by omega)

end SegmentTree


namespace SegmentTree

variable {S : Type} [Monoid S]

lemma oddPart_le (x : ℕ) : oddPart x ≤ x := by
  obtain ⟨d, hd⟩ := oddPart_mul_pow x
  calc oddPart x ≤ oddPart x * 2 ^ d :=
    Nat.le_mul_of_pos_right _ (Nat.pos_pow_of_pos d (by norm_num))
  _ = x := hd.symm

lemma treeVal_leaf (a : List S) {j : ℕ} (h : a.length ≤ j) :
    treeVal a j = dval 1 a (j - a.length) := by
  rw [treeVal, if_pos h]

lemma treeVal_node (a : List S) {j : ℕ} (h1 : j < a.length) (h2 : j ≠ 0) :
    treeVal a j = treeVal a (2 * j) * treeVal a (2 * j + 1) := by
  rw [treeVal, if_neg (by omega), if_neg h2]

lemma div_pow_succ (b k : ℕ) : b / 2 ^ (k + 1) = b / 2 / 2 ^ k := by
  rw [pow_succ, Nat.mul_comm, ← Nat.div_div_eq_div_mul]

lemma div_pow_succ' (b k : ℕ) : b / 2 ^ (k + 1) = b / 2 ^ k / 2 := by
  rw [pow_succ, ← Nat.div_div_eq_div_mul]

lemma treeVal_zero {S : Type} [Monoid S] (a : List S) : treeVal a 0 = 1 := by
  rw [treeVal]
  by_cases h : a.length ≤ 0
  · rw [if_pos h]
    have ha : a = [] := List.eq_nil_of_length_eq_zero (by omega)
    subst ha
    rfl
  · rw [if_neg h, if_pos rfl]

/-- Writing the logical array off the ancestor path of leaf
`a.length + i` does not change the intended value of a node. -/
lemma treeVal_set_of_not_anc (a : List S) (i : ℕ) (x : S) :
    ∀ m j, a.length - j ≤ m → (∀ k, (a.length + i) / 2 ^ k ≠ j) →
    treeVal (a.set i x) j = treeVal a j := by
  intro m
  induction m with
  | zero =>
    intro j hm hj
    have hn : a.length ≤ j := by omega
    rw [treeVal_leaf (a.set i x) (by simpa using hn), treeVal_leaf a hn]
    simp only [List.length_set]
    exact dval_set_ne 1 a x (fun h => hj 0 (by simp; omega))
  | succ m ihm =>
    intro j hm hj
    by_cases hn : a.length ≤ j
    · rw [treeVal_leaf (a.set i x) (by simpa using hn), treeVal_leaf a hn]
      simp only [List.length_set]
      exact dval_set_ne 1 a x (fun h => hj 0 (by simp; omega))
    · push_neg at hn
      by_cases h0 : j = 0
      · subst h0
        rw [treeVal_zero, treeVal_zero]
      · rw [treeVal_node (a.set i x) (by simpa using hn) h0, treeVal_node a hn h0]
        have hj1 : ∀ k, (a.length + i) / 2 ^ k ≠ 2 * j := by
          intro k hk
          exact hj (k + 1) (by rw [div_pow_succ', hk]; omega)
        have hj2 : ∀ k, (a.length + i) / 2 ^ k ≠ 2 * j + 1 := by
          intro k hk
          exact hj (k + 1) (by rw [div_pow_succ', hk]; omega)
        rw [ihm (2 * j) (by omega) hj1, ihm (2 * j + 1) (by omega) hj2]

lemma updateAt_length (d : List S) (i : ℕ) : (updateAt d i).length = d.length := by
  simp [updateAt]

lemma buildDown_length : ∀ (m : ℕ) (d : List S), (buildDown m d).length = d.length := by
  intro m
  induction m with
  | zero => intro d; rfl
  | succ m ih => intro d; rw [buildDown, ih, updateAt_length]

lemma buildDown_spec (a : List S) :
    ∀ (m : ℕ) (d : List S), d.length = 2 * a.length → m < a.length →
    (∀ j, m < j → j < 2 * a.length → dval 1 d j = treeVal a j) →
    ∀ j, 1 ≤ j → j < 2 * a.length → dval 1 (buildDown m d) j = treeVal a j := by
  intro m
  induction m with
  | zero =>
    intro d _ _ hd j hj1 hj2
    exact hd j (by omega) hj2
  | succ m ih =>
    intro d hlen hm hd
    rw [buildDown]
    refine ih (updateAt d (m + 1)) (by rw [updateAt_length]; exact hlen) (by omega) ?_
    intro j hj1 hj2
    rcases Nat.lt_or_ge (m + 1) j with hlt | hge
    · rw [updateAt, dval_set_ne 1 d _ (by omega)]
      exact hd j (by omega) hj2
    · have hj : j = m + 1 := by omega
      subst hj
      rw [updateAt, dval_set_self 1 d _ _ (by omega)]
      rw [hd (2 * (m + 1)) (by omega) (by omega),
        hd (2 * (m + 1) + 1) (by omega) (by omega)]
      exact (treeVal_node a (by omega) (by omega)).symm

/-- The data-structure invariant of the plain segment tree: the backing
array has length `2 * n` and every slot `1 <= j < 2 * n` holds its
intended value for logical array `a`. -/
def Inv (d a : List S) : Prop :=
  d.length = 2 * a.length ∧
  ∀ j, 1 ≤ j → j < 2 * a.length → dval 1 d j = treeVal a j

lemma fromSlice_inv (v : List S) : Inv (fromSlice v) v := by
  constructor
  · rw [fromSlice, buildDown_length]
    simp
    omega
  · rcases Nat.eq_zero_or_pos v.length with h0 | hpos
    · intro j hj1 hj2
      omega
    · unfold fromSlice
      refine buildDown_spec v (v.length - 1) _ (by simp; omega) (by omega) ?_
      intro j hj1 hj2
      have hn : v.length ≤ j := by omega
      rw [dval_append_right 1 _ _ _ (by simpa using hn)]
      rw [treeVal_leaf v hn]
      congr 1
      simp

lemma climbUpd_length : ∀ (fuel base : ℕ) (d : List S),
    (climbUpd fuel base d).length = d.length := by
  intro fuel
  induction fuel with
  | zero => intro base d; rfl
  | succ fuel ih =>
    intro base d
    rw [climbUpd]
    by_cases h : 1 < base
    · rw [if_pos h, ih, updateAt_length]
    · rw [if_neg h]

lemma climbUpd_spec (a : List S) :
    ∀ (fuel base : ℕ) (d : List S), 1 ≤ base → base < 2 * a.length → base ≤ fuel →
    d.length = 2 * a.length →
    (∀ j, 1 ≤ j → j < 2 * a.length → (∀ k, base / 2 ^ k ≠ j) → dval 1 d j = treeVal a j) →
    dval 1 d base = treeVal a base →
    ∀ j, 1 ≤ j → j < 2 * a.length → dval 1 (climbUpd fuel base d) j = treeVal a j := by
  intro fuel
  induction fuel with
  | zero => intro base d h1 h2 h3; omega
  | succ fuel ih =>
    intro base d h1 h2 h3 hlen hoff hbase j hj1 hj2
    rw [climbUpd]
    by_cases hb : 1 < base
    · rw [if_pos hb]
      have hplt : base / 2 < 2 * a.length := by omega
      have hp1 : 1 ≤ base / 2 := by omega
      have hsib_val : ∀ c, c = 2 * (base / 2) ∨ c = 2 * (base / 2) + 1 →
          dval 1 d c = treeVal a c := by
        intro c hc
        by_cases hcb : c = base
        · subst hcb; exact hbase
        · have hc1 : 1 ≤ c := by omega
          have hc2 : c < 2 * a.length := by omega
          refine hoff c hc1 hc2 ?_
          intro k
          cases k with
          | zero => simpa using (Ne.symm hcb)
          | succ k =>
            intro hk
            rw [div_pow_succ] at hk
            have hle : base / 2 / 2 ^ k ≤ base / 2 := Nat.div_le_self _ _
            omega
      refine ih (base / 2) _ hp1 hplt (by omega) (by rw [updateAt_length]; exact hlen) ?_ ?_ j hj1 hj2
      · intro j' hj'1 hj'2 hj'off
        have hj'p : j' ≠ base / 2 := fun h => hj'off 0 (by simpa using h.symm)
        rw [updateAt, dval_set_ne 1 d _ (Ne.symm hj'p)]
        by_cases hjb : j' = base
        · subst hjb
          exact hbase
        · refine hoff j' hj'1 hj'2 ?_
          intro k
          cases k with
          | zero => simpa using (Ne.symm hjb)
          | succ k =>
            rw [div_pow_succ]
            exact hj'off k
      · rw [updateAt, dval_set_self 1 d _ _ (by omega)]
        rw [hsib_val (2 * (base / 2)) (Or.inl rfl), hsib_val (2 * (base / 2) + 1) (Or.inr rfl)]
        exact (treeVal_node a (by omega) (by omega)).symm
    · rw [if_neg hb]
      have hb1 : base = 1 := by omega
      subst hb1
      by_cases hjb : j = 1
      · subst hjb; exact hbase
      · refine hoff j hj1 hj2 ?_
        intro k
        have : 1 / 2 ^ k ≤ 1 := Nat.div_le_self _ _
        omega

end SegmentTree

namespace SegmentTree

variable {S : Type} [Monoid S]

lemma set_length (d : List S) (i : ℕ) (x : S) : (set d i x).length = d.length := by
  rw [set, climbUpd_length]
  simp

lemma operate_length (d : List S) (i : ℕ) (x : S) : (operate d i x).length = d.length := by
  rw [operate, climbUpd_length]
  simp

lemma set_inv {d a : List S} (hInv : Inv d a) {i : ℕ} (x : S) (hi : i < a.length) :
    Inv (set d i x) (a.set i x) := by
  obtain ⟨hlen, hval⟩ := hInv
  have hbase : d.length / 2 + i = a.length + i := by omega
  constructor
  · rw [set_length]
    simp [hlen]
  · rw [set, hbase]
    intro j hj1 hj2
    simp only [List.length_set] at hj2
    refine climbUpd_spec (a.set i x) _ (a.length + i) _ (by omega) (by simp; omega)
      (by omega) (by simp; omega) ?_ ?_ j hj1 (by simp; omega)
    · intro j' hj'1 hj'2 hj'off
      simp only [List.length_set] at hj'2
      have hj'b : j' ≠ a.length + i := fun h => hj'off 0 (by simpa using h.symm)
      rw [dval_set_ne 1 d x (Ne.symm hj'b), hval j' hj'1 hj'2]
      exact (treeVal_set_of_not_anc a i x (a.length - j') j' le_rfl
        (by simpa only [List.length_set] using hj'off)).symm
    · rw [dval_set_self 1 d _ x (by omega)]
      rw [treeVal_leaf (a.set i x) (by simp)]
      simp only [List.length_set, Nat.add_sub_cancel_left]
      rw [dval_set_self 1 a i x hi]

lemma operate_inv {d a : List S} (hInv : Inv d a) {i : ℕ} (x : S) (hi : i < a.length) :
    Inv (operate d i x) (a.set i (dval 1 a i * x)) := by
  obtain ⟨hlen, hval⟩ := hInv
  have hbase : d.length / 2 + i = a.length + i := by omega
  have hleaf : dval 1 d (d.length / 2 + i) = dval 1 a i := by
    rw [hbase, hval (a.length + i) (by omega) (by omega), treeVal_leaf a (by omega)]
    congr 1
    omega
  constructor
  · rw [operate_length]
    simp [hlen]
  · rw [operate, hleaf, hbase]
    intro j hj1 hj2
    simp only [List.length_set] at hj2
    refine climbUpd_spec (a.set i (dval 1 a i * x)) _ (a.length + i) _ (by omega)
      (by simp; omega) (by omega) (by simp; omega) ?_ ?_ j hj1 (by simp; omega)
    · intro j' hj'1 hj'2 hj'off
      simp only [List.length_set] at hj'2
      have hj'b : j' ≠ a.length + i := fun h => hj'off 0 (by simpa using h.symm)
      rw [dval_set_ne 1 d _ (Ne.symm hj'b), hval j' hj'1 hj'2]
      exact (treeVal_set_of_not_anc a i _ (a.length - j') j' le_rfl
        (by simpa only [List.length_set] using hj'off)).symm
    · rw [dval_set_self 1 d _ _ (by omega)]
      rw [treeVal_leaf _ (by simp)]
      simp only [List.length_set, Nat.add_sub_cancel_left]
      rw [dval_set_self 1 a i _ hi]

end SegmentTree

namespace SegmentTree

variable {S : Type} [Monoid S]

/-- A consumed node of the convergence walk holds the slice product of the
logical interval it covers (read off the data array via the invariant). -/
lemma dval_node (d a : List S) (hInv : Inv d a) {x e : ℕ} (hx1 : 1 ≤ x)
    (hx2 : a.length ≤ x * 2 ^ e) (hx3 : (x + 1) * 2 ^ e ≤ 2 * a.length) :
    dval 1 d x = sliceProd a (x * 2 ^ e - a.length) ((x + 1) * 2 ^ e - a.length) := by
  have hx4 : x < 2 * a.length := by
    have h1 : x ≤ x * 2 ^ e := Nat.le_mul_of_pos_right _ (Nat.pos_pow_of_pos e (by norm_num))
    have hp : (0:ℕ) < 2 ^ e := Nat.pos_pow_of_pos e (by norm_num)
    have h2 : x * 2 ^ e < (x + 1) * 2 ^ e := (Nat.mul_lt_mul_right hp).mpr (by omega)
    omega
  rw [hInv.2 x hx1 hx4]
  exact treeVal_eq_sliceProd a e x hx1 hx2 hx3

/-- The ghost-state invariant proof of the boundary-convergence loop of
`range_fold`.  `l` and `r` are the current (odd) walk positions, whose
leaf-boundary interpretations are `l * 2 ^ dl` and `r * 2 ^ dr`; `left`
and `right` are the partial products of `[l0, l * 2 ^ dl)` and
`[r * 2 ^ dr, r0)`. -/
lemma foldLoop_spec (a : List S) :
    ∀ (fuel : ℕ) (d : List S), Inv d a →
    ∀ (l r dl dr l0 r0 : ℕ) (left right : S),
    l % 2 = 1 → r % 2 = 1 →
    a.length ≤ l0 → r0 ≤ 2 * a.length →
    l0 ≤ l * 2 ^ dl → l * 2 ^ dl < r * 2 ^ dr → r * 2 ^ dr ≤ r0 →
    left = sliceProd a (l0 - a.length) (l * 2 ^ dl - a.length) →
    right = sliceProd a (r * 2 ^ dr - a.length) (r0 - a.length) →
    l + r ≤ fuel →
    foldLoop fuel d l r left right = sliceProd a (l0 - a.length) (r0 - a.length) := by
  intro fuel
  induction fuel with
  | zero =>
    intro d _ l r dl dr l0 r0 left right hlodd hrodd _ _ _ _ _ _ _ hfuel
    omega
  | succ fuel ih =>
    intro d hInv l r dl dr l0 r0 left right hlodd hrodd hl0 hr0 hlL hLR hRr hleft hright hfuel
    have hn1 : 1 ≤ a.length := by
      by_contra h
      push_neg at h
      omega
    have hl1 : 1 ≤ l := by omega
    have hr1 : 1 ≤ r := by omega
    have hpowl : (0:ℕ) < 2 ^ dl := Nat.pos_pow_of_pos dl (by norm_num)
    have hpowr : (0:ℕ) < 2 ^ dr := Nat.pos_pow_of_pos dr (by norm_num)
    rw [foldLoop, if_neg (by omega : ¬ r = 0)]
    by_cases hbranch : r ≤ l
    · -- left step: consume node l
      rw [if_pos hbranch]
      have hdlr : dl < dr := by
        by_contra hge
        push_neg at hge
        have : r * 2 ^ dr ≤ l * 2 ^ dl :=
          Nat.mul_le_mul hbranch (Nat.pow_le_pow_right (by norm_num) hge)
        omega
      have hsplit_dr : (2:ℕ) ^ dr = 2 ^ (dr - dl) * 2 ^ dl := by
        rw [← pow_add]
        congr 1
        omega
      have hstep : (l + 1) * 2 ^ dl ≤ r * 2 ^ dr := by
        have h1 : l * 2 ^ dl < (r * 2 ^ (dr - dl)) * 2 ^ dl := by
          rw [mul_assoc, ← hsplit_dr]
          exact hLR
        have h2 : l < r * 2 ^ (dr - dl) := Nat.lt_of_mul_lt_mul_right h1
        have h3 : l + 1 ≤ r * 2 ^ (dr - dl) := h2
        calc (l + 1) * 2 ^ dl ≤ (r * 2 ^ (dr - dl)) * 2 ^ dl := Nat.mul_le_mul_right _ h3
        _ = r * 2 ^ dr := by rw [mul_assoc, ← hsplit_dr]
      have hnode : dval 1 d l =
          sliceProd a (l * 2 ^ dl - a.length) ((l + 1) * 2 ^ dl - a.length) :=
        dval_node d a hInv hl1 (by omega) (by omega)
      have hLL2 : l * 2 ^ dl < (l + 1) * 2 ^ dl :=
        (Nat.mul_lt_mul_right hpowl).mpr (by omega)
      have hnewleft : left * dval 1 d l =
          sliceProd a (l0 - a.length) ((l + 1) * 2 ^ dl - a.length) := by
        rw [hleft, hnode]
        exact sliceProd_split a (by omega) (by omega)
      obtain ⟨e, he⟩ := oddPart_mul_pow (l + 1)
      have hl2odd : oddPart (l + 1) % 2 = 1 := oddPart_odd (by omega)
      have he1 : 1 ≤ e := by
        by_contra h0
        push_neg at h0
        interval_cases e
        · simp at he
          omega
      have hL2 : oddPart (l + 1) * 2 ^ (dl + e) = (l + 1) * 2 ^ dl := by
        calc oddPart (l + 1) * 2 ^ (dl + e)
            = (oddPart (l + 1) * 2 ^ e) * 2 ^ dl := by rw [pow_add]; ring
        _ = (l + 1) * 2 ^ dl := by rw [← he]
      by_cases hbreak : oddPart (l + 1) = r
      · rw [if_pos hbreak]
        -- the two boundaries coincide: l + 1 side reaches exactly r's boundary
        have heq : (l + 1) * 2 ^ dl = r * 2 ^ dr := by
          rcases Nat.lt_trichotomy (dl + e) dr with hlt | heqd | hgt
          · exfalso
            have h2 : (2:ℕ) ^ dr = 2 ^ (dl + e) * 2 ^ (dr - (dl + e)) := by
              rw [← pow_add]
              congr 1
              omega
            have h3 : (2:ℕ) ≤ 2 ^ (dr - (dl + e)) := by
              calc (2:ℕ) = 2 ^ 1 := by norm_num
              _ ≤ 2 ^ (dr - (dl + e)) := Nat.pow_le_pow_right (by norm_num) (by omega)
            have h4 : r * 2 ^ dr = ((l + 1) * 2 ^ dl) * 2 ^ (dr - (dl + e)) := by
              rw [h2, ← hbreak, ← mul_assoc, hL2]
            have h5 : ((l + 1) * 2 ^ dl) * 2 ≤ r * 2 ^ dr := by
              rw [h4]
              exact Nat.mul_le_mul_left _ h3
            have h6 : a.length + 1 ≤ (l + 1) * 2 ^ dl := by omega
            omega
          · rw [← hbreak, ← hL2, heqd]
          · exfalso
            have h2 : (2:ℕ) ^ (dl + e) = 2 ^ dr * 2 ^ (dl + e - dr) := by
              rw [← pow_add]
              congr 1
              omega
            have h4 : (l + 1) * 2 ^ dl = (r * 2 ^ dr) * 2 ^ (dl + e - dr) := by
              rw [← hL2, hbreak, h2, ← mul_assoc]
            have h6 : (2:ℕ) ≤ 2 ^ (dl + e - dr) := by
              calc (2:ℕ) = 2 ^ 1 := by norm_num
              _ ≤ 2 ^ (dl + e - dr) := Nat.pow_le_pow_right (by norm_num) (by omega)
            have h7 : (r * 2 ^ dr) * 2 ≤ (l + 1) * 2 ^ dl := by
              rw [h4]
              exact Nat.mul_le_mul_left _ h6
            omega
        rw [hnewleft, hright, heq]
        exact sliceProd_split a (by omega) (by omega)
      · rw [if_neg hbreak]
        -- recurse with the climbed left pointer
        have hL2R : oddPart (l + 1) * 2 ^ (dl + e) < r * 2 ^ dr := by
          rw [hL2]
          rcases Nat.lt_or_ge ((l + 1) * 2 ^ dl) (r * 2 ^ dr) with h | h
          · exact h
          · exfalso
            have heq2 : (l + 1) * 2 ^ dl = r * 2 ^ dr := by omega
            have := odd_mul_pow_inj hl2odd hrodd (hL2.trans heq2)
            exact hbreak this.1
        have hlfuel : oddPart (l + 1) < l := by
          have h2 : oddPart (l + 1) * 2 ≤ l + 1 := by
            calc oddPart (l + 1) * 2 = oddPart (l + 1) * 2 ^ 1 := by norm_num
            _ ≤ oddPart (l + 1) * 2 ^ e :=
              Nat.mul_le_mul_left _ (Nat.pow_le_pow_right (by norm_num) he1)
            _ = l + 1 := he.symm
          rcases Nat.lt_or_ge 1 l with hl2 | hl2
          · omega
          · -- l = 1: forced break, contradiction with hbreak
            exfalso
            have hleq : l = 1 := by omega
            have hreq : r = 1 := by omega
            apply hbreak
            rw [hleq, hreq]
            rfl
        refine ih d hInv (oddPart (l + 1)) r (dl + e) dr l0 r0 _ _
          hl2odd hrodd hl0 hr0 (by omega) hL2R hRr ?_ hright (by omega)
        rw [hnewleft, hL2]
    · -- right step: consume node r - 1
      rw [if_neg hbranch]
      push_neg at hbranch
      have hr3 : 2 ≤ r := by omega
      have hstep : l * 2 ^ dl ≤ (r - 1) * 2 ^ dr := by
        rcases Nat.lt_or_ge dl dr with hlt | hge
        · calc l * 2 ^ dl ≤ (r - 1) * 2 ^ dl := Nat.mul_le_mul_right _ (by omega)
          _ ≤ (r - 1) * 2 ^ dr :=
            Nat.mul_le_mul_left _ (Nat.pow_le_pow_right (by norm_num) (by omega))
        · have hsplit : (2:ℕ) ^ dl = 2 ^ (dl - dr) * 2 ^ dr := by
            rw [← pow_add]
            congr 1
            omega
          have h1 : (l * 2 ^ (dl - dr)) * 2 ^ dr < r * 2 ^ dr := by
            rw [mul_assoc, ← hsplit]
            exact hLR
          have h2 : l * 2 ^ (dl - dr) < r := Nat.lt_of_mul_lt_mul_right h1
          have h3 : l * 2 ^ (dl - dr) ≤ r - 1 := by omega
          calc l * 2 ^ dl = (l * 2 ^ (dl - dr)) * 2 ^ dr := by rw [mul_assoc, ← hsplit]
          _ ≤ (r - 1) * 2 ^ dr := Nat.mul_le_mul_right _ h3
      have hr1m : (r - 1) * 2 ^ dr < r * 2 ^ dr := (Nat.mul_lt_mul_right hpowr).mpr (by omega)
      have hnode : dval 1 d (r - 1) =
          sliceProd a ((r - 1) * 2 ^ dr - a.length) (r * 2 ^ dr - a.length) := by
        have h := dval_node d a hInv (x := r - 1) (e := dr) (by omega) (by omega)
          (by rw [show r - 1 + 1 = r by omega]; omega)
        rw [show r - 1 + 1 = r by omega] at h
        exact h
      have hnewright : dval 1 d (r - 1) * right =
          sliceProd a ((r - 1) * 2 ^ dr - a.length) (r0 - a.length) := by
        rw [hright, hnode]
        exact sliceProd_split a (by omega) (by omega)
      obtain ⟨e, he⟩ := oddPart_mul_pow (r - 1)
      have hr2odd : oddPart (r - 1) % 2 = 1 := oddPart_odd (by omega)
      have he1 : 1 ≤ e := by
        by_contra h0
        push_neg at h0
        interval_cases e
        · simp at he
          omega
      have hR2 : oddPart (r - 1) * 2 ^ (dr + e) = (r - 1) * 2 ^ dr := by
        calc oddPart (r - 1) * 2 ^ (dr + e)
            = (oddPart (r - 1) * 2 ^ e) * 2 ^ dr := by rw [pow_add]; ring
        _ = (r - 1) * 2 ^ dr := by rw [← he]
      by_cases hbreak : l = oddPart (r - 1)
      · rw [if_pos hbreak]
        have heq : l * 2 ^ dl = (r - 1) * 2 ^ dr := by
          rcases Nat.lt_trichotomy dl (dr + e) with hlt | heqd | hgt
          · exfalso
            have h2 : (2:ℕ) ^ (dr + e) = 2 ^ dl * 2 ^ (dr + e - dl) := by
              rw [← pow_add]
              congr 1
              omega
            have h3 : (2:ℕ) ≤ 2 ^ (dr + e - dl) := by
              calc (2:ℕ) = 2 ^ 1 := by norm_num
              _ ≤ 2 ^ (dr + e - dl) := Nat.pow_le_pow_right (by norm_num) (by omega)
            have h4 : (r - 1) * 2 ^ dr = (l * 2 ^ dl) * 2 ^ (dr + e - dl) := by
              rw [← hR2, ← hbreak, h2, ← mul_assoc]
            have h5 : (l * 2 ^ dl) * 2 ≤ (r - 1) * 2 ^ dr := by
              rw [h4]
              exact Nat.mul_le_mul_left _ h3
            have h6 : a.length ≤ l * 2 ^ dl := by omega
            omega
          · rw [hbreak, ← hR2, heqd]
          · exfalso
            have h2 : (2:ℕ) ^ dl = 2 ^ (dr + e) * 2 ^ (dl - (dr + e)) := by
              rw [← pow_add]
              congr 1
              omega
            have h3 : (2:ℕ) ≤ 2 ^ (dl - (dr + e)) := by
              calc (2:ℕ) = 2 ^ 1 := by norm_num
              _ ≤ 2 ^ (dl - (dr + e)) := Nat.pow_le_pow_right (by norm_num) (by omega)
            have h4 : l * 2 ^ dl = ((r - 1) * 2 ^ dr) * 2 ^ (dl - (dr + e)) := by
              rw [hbreak, h2, ← mul_assoc, hR2]
            have h5 : ((r - 1) * 2 ^ dr) * 2 ≤ l * 2 ^ dl := by
              rw [h4]
              exact Nat.mul_le_mul_left _ h3
            have h6 : a.length ≤ (r - 1) * 2 ^ dr := by omega
            omega
        rw [hnewright, hleft, heq]
        exact sliceProd_split a (by omega) (by omega)
      · rw [if_neg hbreak]
        have hLR2 : l * 2 ^ dl < oddPart (r - 1) * 2 ^ (dr + e) := by
          rw [hR2]
          rcases Nat.lt_or_ge (l * 2 ^ dl) ((r - 1) * 2 ^ dr) with h | h
          · exact h
          · exfalso
            have heq2 : l * 2 ^ dl = (r - 1) * 2 ^ dr := by omega
            have := odd_mul_pow_inj hlodd hr2odd (by rw [heq2, ← hR2])
            exact hbreak this.1
        have hhalf : oddPart (r - 1) * 2 ≤ r - 1 := by
          calc oddPart (r - 1) * 2 = oddPart (r - 1) * 2 ^ 1 := by norm_num
          _ ≤ oddPart (r - 1) * 2 ^ e :=
            Nat.mul_le_mul_left _ (Nat.pow_le_pow_right (by norm_num) he1)
          _ = r - 1 := he.symm
        refine ih d hInv l (oddPart (r - 1)) dl (dr + e) l0 r0 _ _
          hlodd hr2odd hl0 hr0 hlL hLR2 (by rw [hR2]; omega) hleft ?_ (by omega)
        rw [hnewright, hR2]

end SegmentTree

namespace SegmentTree

variable {S : Type} [Monoid S]

/-- Correctness of `range_fold` on any state satisfying the invariant. -/
lemma rangeFold_eq_sliceProd {d a : List S} (hInv : Inv d a) {l r : ℕ}
    (hlr : l ≤ r) (hr : r ≤ a.length) : rangeFold d l r = sliceProd a l r := by
  have hlen2 : d.length / 2 = a.length := by
    have := hInv.1
    omega
  rw [rangeFold, hlen2]
  by_cases heq : l = r
  · rw [if_pos (by omega), heq, sliceProd_self]
  · rw [if_neg (by omega)]
    have hn1 : 1 ≤ a.length := by omega
    obtain ⟨el, hel⟩ := oddPart_mul_pow (l + a.length)
    obtain ⟨er, her⟩ := oddPart_mul_pow (r + a.length)
    have hres := foldLoop_spec a (l + a.length + (r + a.length)) d hInv
      (oddPart (l + a.length)) (oddPart (r + a.length)) el er
      (l + a.length) (r + a.length) 1 1
      (oddPart_odd (by omega)) (oddPart_odd (by omega))
      (by omega) (by omega)
      (by omega) (by rw [← hel, ← her]; omega) (by omega)
      (by rw [← hel, sliceProd_self])
      (by rw [← her, sliceProd_self])
      (by
        have h1 := oddPart_le (l + a.length)
        have h2 := oddPart_le (r + a.length)
        omega)
    rw [hres]
    congr 1 <;> omega

/-- Fold a list of `set` calls over a segment-tree state. -/
def setOps (d : List S) (ops : List (ℕ × S)) : List S :=
  ops.foldl (fun t p => set t p.1 p.2) d

/-- The brute-force counterpart of `setOps` on the logical array. -/
def setOpsModel (a : List S) (ops : List (ℕ × S)) : List S :=
  ops.foldl (fun t p => t.set p.1 p.2) a

lemma setOpsModel_length (a : List S) (ops : List (ℕ × S)) :
    (setOpsModel a ops).length = a.length := by
  unfold setOpsModel
  induction ops generalizing a with
  | nil => rfl
  | cons p t ih => rw [List.foldl_cons, ih, List.length_set]

lemma setOps_inv {d a : List S} (hInv : Inv d a) (ops : List (ℕ × S))
    (hops : ∀ p ∈ ops, p.1 < a.length) :
    Inv (setOps d ops) (setOpsModel a ops) := by
  unfold setOps setOpsModel
  induction ops generalizing d a with
  | nil => exact hInv
  | cons p t ih =>
    rw [List.foldl_cons, List.foldl_cons]
    refine ih (set_inv hInv p.2 (hops p (by simp))) ?_
    intro q hq
    rw [List.length_set]
    exact hops q (by simp [hq])

end SegmentTree

/-! ## Claim C2: plain segment tree functional correctness -/

/-- C2.  For every monoid `S` (associativity and a two-sided identity only;
no commutativity), every value sequence `v`, and every sequence of
`set(i, x)` calls with in-range indices, the plain `SegmentTree` built by
`from_slice(v)` satisfies: `range_fold(l, r)` with `l <= r <= n` returns
the left-to-right combine `op(a[l], ..., a[r-1])` of the current logical
values, and the identity when `l = r` (the right-hand side is the
brute-force `sliceProd`, which is `1` on empty slices). -/
theorem segment_tree_range_fold_correct {S : Type} [Monoid S] (v : List S)
    (ops : List (ℕ × S)) (hops : ∀ p ∈ ops, p.1 < v.length)
    (l r : ℕ) (hlr : l ≤ r) (hr : r ≤ v.length) :
    SegmentTree.rangeFold (SegmentTree.setOps (SegmentTree.fromSlice v) ops) l r =
      sliceProd (SegmentTree.setOpsModel v ops) l r := by
  refine SegmentTree.rangeFold_eq_sliceProd
    (SegmentTree.setOps_inv (SegmentTree.fromSlice_inv v) ops hops) hlr ?_
  rw [SegmentTree.setOpsModel_length]
  exact hr

/-- Witness for C2 at a concrete input: `v = [2,3,5,7,11]` over `(ℕ, *, 1)`,
after `set(2, 13)`, the fold over `[1, 4)` is `3 * 13 * 7 = 273`. -/
theorem segment_tree_range_fold_correct_witness :
    (∀ p ∈ [((2:ℕ), (13:ℕ))], p.1 < 5) ∧
    SegmentTree.rangeFold (SegmentTree.setOps (SegmentTree.fromSlice [2,3,5,7,11]) [(2,13)]) 1 4 =
      sliceProd (SegmentTree.setOpsModel [2,3,5,7,11] [(2,13)]) 1 4 ∧
    sliceProd (SegmentTree.setOpsModel ([2,3,5,7,11] : List ℕ) [(2,13)]) 1 4 = 273 :=
  ⟨by decide,
   segment_tree_range_fold_correct [2,3,5,7,11] [(2,13)] (by decide) 1 4 (by decide) (by decide),
   by decide⟩

/-! ## Concrete monoids used in witnesses and counterexamples -/

/-- The free monoid on `ℕ` (words under concatenation): a decidable,
computable, *non-commutative* monoid used to separate left-to-right
combines from reordered ones. -/
structure FreeWord where
  word : List ℕ
deriving DecidableEq

instance : One FreeWord := ⟨⟨[]⟩⟩

instance : Mul FreeWord := ⟨fun a b => ⟨a.word ++ b.word⟩⟩

instance : Monoid FreeWord where
  mul_assoc a b c := congrArg FreeWord.mk (List.append_assoc a.word b.word c.word)
  one_mul a := congrArg FreeWord.mk (List.nil_append a.word)
  mul_one a := congrArg FreeWord.mk (List.append_nil a.word)

/-! ## `usize::next_power_of_two` -/

/-- Fueled helper computing the ceiling of `log2`. -/
def ceilLog2Aux : ℕ → ℕ → ℕ
| 0, _ => 0
| fuel + 1, n => if n ≤ 1 then 0 else ceilLog2Aux fuel ((n + 1) / 2) + 1

/-- `ceilLog2 n` is the smallest `k` with `n ≤ 2 ^ k` (and `0` for `n = 0`). -/
def ceilLog2 (n : ℕ) : ℕ := ceilLog2Aux n n

/-- Models `usize::next_power_of_two`: the smallest power of two `>= n`
(`1` for `n = 0`, matching Rust). -/
def nextPowerOfTwo (n : ℕ) : ℕ := 2 ^ ceilLog2 n

lemma ceilLog2Aux_spec : ∀ fuel n, n ≤ fuel → n ≤ 2 ^ ceilLog2Aux fuel n := by
  intro fuel
  induction fuel with
  | zero => intro n h; interval_cases n; simp
  | succ fuel ih =>
    intro n h
    rw [ceilLog2Aux]
    by_cases h1 : n ≤ 1
    · rw [if_pos h1]
      simpa using h1
    · rw [if_neg h1]
      have hrec := ih ((n + 1) / 2) (by omega)
      rw [pow_succ]
      omega

lemma le_nextPowerOfTwo (n : ℕ) : n ≤ nextPowerOfTwo n :=
  ceilLog2Aux_spec n n le_rfl

/-! ## Claim C4: `all_fold` on the plain tree (code bug)

The doc comment of `SegmentTree::all_fold` promises
`op(a[0], a[1], ..., a[n-1])`, and the spec says padding never observably
affects results; but the plain tree has **no** power-of-two padding
(backing length is `2 * n`), and `all_fold` returns `data[1]` directly.
For `n = 3` the subtree of node `1` lists the leaves in rotated order
`a[1], a[2], a[0]`, so for a non-commutative monoid `all_fold` returns a
rotated product.  `range_fold(0, n)` on the very same state is correct
(`segment_tree_range_fold_correct`), which isolates the defect to
`all_fold`. -/

/-- C4 (code bug, evaluation at the failing input).  Over the free monoid,
with `v = [a, b, c]` (`n = 3`, not a power of two), `all_fold` returns
`b * c * a`, while the brute-force left-to-right combine — which the
function's own documentation promises — is `a * b * c`, and the two
differ. -/
theorem segment_tree_all_fold_rotated :
    SegmentTree.allFold (SegmentTree.fromSlice
        [FreeWord.mk [0], FreeWord.mk [1], FreeWord.mk [2]]) =
      some (FreeWord.mk [1, 2, 0]) ∧
    sliceProd [FreeWord.mk [0], FreeWord.mk [1], FreeWord.mk [2]] 0 3 =
      FreeWord.mk [0, 1, 2] ∧
    FreeWord.mk [1, 2, 0] ≠ FreeWord.mk [0, 1, 2] :=
  ⟨by decide, by decide, by decide⟩

/-! ## Claim C6: folds on the empty tree (code bug)

`SegmentTree::new(0)` allocates a backing array of length `2 * 0 = 0`,
yet `all_fold` executes `self.0.get_unchecked(1)` unconditionally — an
out-of-bounds read (undefined behavior) instead of the identity the spec
and the doc comment promise.  (`range_fold` over the empty range, and both
operations on the lazy tree, are fine: the lazy tree allocates
`2 * next_power_of_two(0) = 2` slots.) -/

/-- C6 (code bug, evaluation at the failing input).  On the plain tree
with `n = 0`, the backing array is empty and the unchecked read
`data[1]` performed by `all_fold` is out of bounds (`none` in the
`Option`-valued model of the unchecked read); `range_fold` over the empty
range does return the identity. -/
theorem segment_tree_all_fold_empty_oob :
    (SegmentTree.new ℕ 0).length = 0 ∧
    SegmentTree.allFold (SegmentTree.new ℕ 0) = none ∧
    SegmentTree.rangeFold (SegmentTree.new ℕ 0) 0 0 = 1 :=
  ⟨rfl, rfl, rfl⟩

/-! ## Claim C5: backing storage layout -/

/-- C5 (counterexample).  The claim says *both* variants use one array of
length `2 * capacity` with `capacity = next_power_of_two(n)`.  The plain
`SegmentTree` does not: `new(3)` allocates `2 * 3 = 6` slots, not
`2 * next_power_of_two(3) = 8`. -/
theorem segment_tree_layout_not_padded :
    (SegmentTree.new ℕ 3).length = 6 ∧ 2 * nextPowerOfTwo 3 = 8 ∧ (6 : ℕ) ≠ 8 :=
  ⟨rfl, rfl, by decide⟩

/-! ## The Fenwick tree (`src/fenwick_tree/mod.rs`)

The state of `FenwickTree<S>` is its backing `Vec`, of length `n + 1`
(slot `0` holds the identity; slot `i` for `1 <= i <= n` is the node
covering the logical half-open block `[i - lsb(i), i)` of 0-indexed
positions).  `i & i.wrapping_neg()` (the lowest set bit) is `lsb` below. -/

/-- The lowest set bit, `i & i.wrapping_neg()` in the source: the largest
power of two dividing `i` (`0` for `i = 0`). -/
def lsb (i : ℕ) : ℕ := i / oddPart i

lemma lsb_spec {i : ℕ} (hi : i ≠ 0) :
    ∃ s, lsb i = 2 ^ s ∧ i = oddPart i * 2 ^ s := by
  obtain ⟨s, hs⟩ := oddPart_mul_pow i
  have hop : 0 < oddPart i := by
    have := oddPart_odd hi
    omega
  refine ⟨s, ?_, hs⟩
  rw [lsb]
  calc i / oddPart i = oddPart i * 2 ^ s / oddPart i := by rw [← hs]
  _ = 2 ^ s := Nat.mul_div_cancel_left _ hop

lemma oddPart_odd_mul_pow {o : ℕ} (ho : o % 2 = 1) (s : ℕ) :
    oddPart (o * 2 ^ s) = o := by
  obtain ⟨d, hd⟩ := oddPart_mul_pow (o * 2 ^ s)
  have hne : o * 2 ^ s ≠ 0 := by
    have h2 : 0 < 2 ^ s := Nat.pos_pow_of_pos s (by norm_num)
    have ho1 : 0 < o := by omega
    exact Nat.mul_ne_zero (by omega) (by omega)
  exact (odd_mul_pow_inj (oddPart_odd hne) ho hd.symm).1

lemma lsb_odd_mul_pow {o : ℕ} (ho : o % 2 = 1) (s : ℕ) :
    lsb (o * 2 ^ s) = 2 ^ s := by
  rw [lsb, oddPart_odd_mul_pow ho, Nat.mul_div_cancel_left _ (by omega)]

lemma lsb_pos {i : ℕ} (hi : i ≠ 0) : 1 ≤ lsb i := by
  obtain ⟨s, hs, _⟩ := lsb_spec hi
  rw [hs]
  exact Nat.pos_pow_of_pos s (by norm_num)

lemma lsb_le {i : ℕ} : lsb i ≤ i := Nat.div_le_self _ _

namespace FenwickTree

variable {S : Type} [Monoid S]

/-- One iteration of the build loop of `from_slice`:
`if i + lsb(i) <= n { data[i + lsb(i)] = op(data[i + lsb(i)], data[i]) }`.
(Note the argument order of the source: the child is combined on the
*right* of the partially built parent.) -/
def fenStep (n : ℕ) (d : List S) (i : ℕ) : List S :=
  if i + lsb i ≤ n then
    d.set (i + lsb i) (dval 1 d (i + lsb i) * dval 1 d i)
  else d

/-- The build loop `for i in 1..=n`, at current index `i`, fueled. -/
def buildUp (n : ℕ) : ℕ → ℕ → List S → List S
| 0, _, d => d
| fuel + 1, i, d => if i ≤ n then buildUp n fuel (i + 1) (fenStep n d i) else d

/-- `FenwickTree::new(n)`. -/
def new (S : Type) [Monoid S] (n : ℕ) : List S := List.replicate (n + 1) 1

/-- `FenwickTree::from_slice(v)`: data `[id] ++ v`, then the build loop. -/
def fromSlice (v : List S) : List S :=
  buildUp v.length (v.length + 1) 1 (1 :: v)

/-- The update loop of `operate`:
`while i < data.len() { data[i] = op(data[i], x); i += lsb(i) }`, fueled. -/
def opLoop : ℕ → ℕ → List S → S → List S
| 0, _, d, _ => d
| fuel + 1, i, d, x =>
  if i < d.length then opLoop fuel (i + lsb i) (d.set i (dval 1 d i * x)) x
  else d

/-- `FenwickTree::operate(i, x)` (precondition `i < len()`): 1-index and
run the update loop. -/
def operate (d : List S) (i : ℕ) (x : S) : List S := opLoop d.length (i + 1) d x

/-- The query loop of `prefix_fold`:
`while r > 0 { r &= r - 1; res = op(data[r], res) }`, fueled
(`r & (r - 1)` clears the lowest set bit, i.e. is `r - lsb r`). -/
def prefLoop : ℕ → List S → ℕ → S → S
| 0, _, _, res => res
| fuel + 1, d, r, res =>
  if r = 0 then res
  else prefLoop fuel d (r - lsb r) (dval 1 d (r - lsb r) * res)

/-- `FenwickTree::prefix_fold(r)` (precondition `r <= len()`). -/
def prefFold (d : List S) (r : ℕ) : S := prefLoop r d r (dval 1 d r)

/-- `FenwickTree::len()`. -/
def len (d : List S) : ℕ := d.length - 1

/-- `FenwickTree::all_fold()`. -/
def allFold (d : List S) : S := prefFold d (d.length - 1)

end FenwickTree

/-! ## Claim C9: the Fenwick tree and non-commutative monoids

The claim asserts the Fenwick tree honors the same contract as the
segment trees with *no commutativity assumption*.  It does not: already
`from_slice` combines the child into the parent in the order
`op(data[i + lsb], data[i])` (right-to-left with respect to positions),
so for the free monoid with `v = [a, b]`, node `2` holds `b * a` and
`prefix_fold(2)` returns `b * a` instead of `a * b`.  (`operate` is also
inherently commutative: it appends `x` on the right of every covering
node, past the elements that follow position `i`.)  With commutativity
added, everything is correct — see `fenwick_prefix_fold_comm_correct`. -/

/-- C9 (counterexample).  Over the free monoid (which satisfies every law
the claim assumes: associativity and a two-sided identity), `from_slice`
followed by the empty `operate` sequence and `prefix_fold(2)` returns
`b * a`, not the left-to-right combine `a * b`. -/
theorem fenwick_prefix_fold_noncomm_counterexample :
    FenwickTree.prefFold
        (FenwickTree.fromSlice [FreeWord.mk [0], FreeWord.mk [1]]) 2 =
      FreeWord.mk [1, 0] ∧
    sliceProd [FreeWord.mk [0], FreeWord.mk [1]] 0 2 = FreeWord.mk [0, 1] ∧
    FreeWord.mk [1, 0] ≠ FreeWord.mk [0, 1] :=
  ⟨by decide, by decide, by decide⟩

/-! ## Commutative products over index ranges -/

/-- Product of `dval 1 a` over the half-open index range `[lo, hi)`;
the order-insensitive (commutative) counterpart of `sliceProd`. -/
def icoProd {S : Type} [CommMonoid S] (a : List S) (lo hi : ℕ) : S :=
  (Finset.Ico lo hi).prod (dval 1 a)

lemma icoProd_empty {S : Type} [CommMonoid S] (a : List S) {lo hi : ℕ}
    (h : hi ≤ lo) : icoProd a lo hi = 1 := by
  rw [icoProd, Finset.Ico_eq_empty (by omega), Finset.prod_empty]

lemma icoProd_consec {S : Type} [CommMonoid S] (a : List S) {lo mid hi : ℕ}
    (h1 : lo ≤ mid) (h2 : mid ≤ hi) :
    icoProd a lo mid * icoProd a mid hi = icoProd a lo hi :=
  Finset.prod_Ico_consecutive _ h1 h2

lemma sliceProd_peel {S : Type} [Monoid S] (a : List S) {lo hi : ℕ}
    (h : lo < hi) : sliceProd a lo hi = dval 1 a lo * sliceProd a (lo + 1) hi := by
  rw [← sliceProd_split a (by omega : lo ≤ lo + 1) (by omega : lo + 1 ≤ hi), sliceProd_one]

lemma sliceProd_eq_icoProd {S : Type} [CommMonoid S] (a : List S) :
    ∀ (k lo : ℕ), sliceProd a lo (lo + k) = icoProd a lo (lo + k) := by
  intro k
  induction k with
  | zero =>
    intro lo
    simp only [Nat.add_zero]
    rw [sliceProd_self, icoProd_empty a le_rfl]
  | succ k ih =>
    intro lo
    rw [sliceProd_peel a (by omega), icoProd,
      Finset.prod_eq_prod_Ico_succ_bot (by omega : lo < lo + (k + 1))]
    have hk := ih (lo + 1)
    rw [show lo + 1 + k = lo + (k + 1) by omega] at hk
    rw [hk]
    rfl

/-! ## Fenwick node coverage -/

/-- The build-time children of Fenwick node `j`: the nodes `i` that get
folded into `j` by `from_slice` (`i + lsb i = j`). -/
def fenChildren (j : ℕ) : Finset ℕ := (Finset.Ico 1 j).filter (fun i => i + lsb i = j)

lemma child_form {c T s : ℕ} (hc : c % 2 = 1) (hs : s < T) :
    c * 2 ^ T - 2 ^ s = (c * 2 ^ (T - s) - 1) * 2 ^ s ∧
    (c * 2 ^ (T - s) - 1) % 2 = 1 ∧ 2 ^ (s + 1) ≤ c * 2 ^ T := by
  have hsplit : (2:ℕ) ^ T = 2 ^ (T - s) * 2 ^ s := by
    rw [← pow_add]
    congr 1
    omega
  have hTs : (2:ℕ) ^ (T - s) = 2 * 2 ^ (T - s - 1) := by
    rw [← pow_succ']
    congr 1
    omega
  have hTs2 : (2:ℕ) ≤ 2 ^ (T - s) := by
    calc (2:ℕ) = 2 ^ 1 := by norm_num
    _ ≤ 2 ^ (T - s) := Nat.pow_le_pow_right (by norm_num) (by omega)
  have heven : c * 2 ^ (T - s) = 2 * (c * 2 ^ (T - s - 1)) := by
    rw [hTs]
    ring
  have hge2 : 2 ≤ c * 2 ^ (T - s) := by
    have h1 : 1 * 2 ≤ c * 2 ^ (T - s) := Nat.mul_le_mul (by omega) hTs2
    omega
  refine ⟨?_, by omega, ?_⟩
  · rw [hsplit, ← mul_assoc, Nat.sub_mul, one_mul]
  · have h1 : 2 * 2 ^ s ≤ c * 2 ^ T := by
      rw [hsplit, ← mul_assoc]
      exact Nat.mul_le_mul_right _ hge2
    calc (2:ℕ) ^ (s + 1) = 2 * 2 ^ s := by rw [pow_succ']
    _ ≤ c * 2 ^ T := h1

lemma fenChildren_eq {c T : ℕ} (hc : c % 2 = 1) :
    fenChildren (c * 2 ^ T) = (Finset.range T).image (fun s => c * 2 ^ T - 2 ^ s) := by
  have hc1 : 1 ≤ c := by omega
  ext i
  simp only [fenChildren, Finset.mem_filter, Finset.mem_Ico, Finset.mem_image,
    Finset.mem_range]
  constructor
  · rintro ⟨⟨hi1, hij⟩, hlsb⟩
    obtain ⟨s, hs, hdecomp⟩ := lsb_spec (show i ≠ 0 by omega)
    have hodd : oddPart i % 2 = 1 := oddPart_odd (show i ≠ 0 by omega)
    have hsum : c * 2 ^ T = (oddPart i + 1) * 2 ^ s := by
      rw [← hlsb, hs]
      calc i + 2 ^ s = oddPart i * 2 ^ s + 2 ^ s := by rw [← hdecomp]
      _ = (oddPart i + 1) * 2 ^ s := by ring
    have hhalf : oddPart i + 1 = 2 * ((oddPart i + 1) / 2) := by omega
    have hsum2 : c * 2 ^ T = ((oddPart i + 1) / 2) * 2 ^ (s + 1) := by
      rw [hsum]
      calc (oddPart i + 1) * 2 ^ s = (2 * ((oddPart i + 1) / 2)) * 2 ^ s := by rw [← hhalf]
      _ = ((oddPart i + 1) / 2) * 2 ^ (s + 1) := by rw [pow_succ']; ring
    have hsT : s + 1 ≤ T := by
      by_contra hgt
      push_neg at hgt
      have hsplit : (2:ℕ) ^ (s + 1) = 2 ^ T * 2 ^ (s + 1 - T) := by
        rw [← pow_add]
        congr 1
        omega
      have : c * 2 ^ T = (((oddPart i + 1) / 2) * 2 ^ (s + 1 - T)) * 2 ^ T := by
        rw [hsum2, hsplit]
        ring
      have hceq : c = ((oddPart i + 1) / 2) * 2 ^ (s + 1 - T) :=
        Nat.eq_of_mul_eq_mul_right (Nat.pos_pow_of_pos T (by norm_num)) this
      have h2 : (2:ℕ) ^ (s + 1 - T) = 2 * 2 ^ (s - T) := by
        rw [← pow_succ']
        congr 1
        omega
      have hce : c = 2 * (((oddPart i + 1) / 2) * 2 ^ (s - T)) := by
        rw [hceq, h2]
        ring
      omega
    refine ⟨s, by omega, ?_⟩
    rw [← hlsb, hs]
    omega
  · rintro ⟨s, hs, hi⟩
    obtain ⟨hform, hodd, hbound⟩ := child_form hc hs
    have h2s : (2:ℕ) ^ s ≥ 1 := Nat.pos_pow_of_pos s (by norm_num)
    have h2s1 : 2 * 2 ^ s ≤ c * 2 ^ T := by
      calc 2 * 2 ^ s = 2 ^ (s + 1) := by rw [pow_succ']
      _ ≤ c * 2 ^ T := hbound
    refine ⟨⟨by omega, by omega⟩, ?_⟩
    rw [← hi, hform, lsb_odd_mul_pow hodd]
    rw [← hform]
    omega

lemma icoProd_one {S : Type} [CommMonoid S] (a : List S) (m : ℕ) :
    icoProd a m (m + 1) = dval 1 a m := by
  rw [icoProd, Nat.Ico_succ_right, Finset.Icc_self, Finset.prod_singleton]

lemma blocks_telescope {S : Type} [CommMonoid S] (a : List S) (j : ℕ) :
    ∀ T, 2 ^ T ≤ j →
    (Finset.range T).prod (fun s => icoProd a (j - 2 ^ (s + 1)) (j - 2 ^ s)) =
      icoProd a (j - 2 ^ T) (j - 1) := by
  intro T
  induction T with
  | zero =>
    intro h
    rw [Finset.range_zero, Finset.prod_empty, pow_zero, icoProd_empty a le_rfl]
  | succ T ih =>
    intro h
    have hT : (2:ℕ) ^ T ≤ j := by
      have : (2:ℕ) ^ T ≤ 2 ^ (T + 1) := Nat.pow_le_pow_right (by norm_num) (by omega)
      omega
    have h2T : (2:ℕ) ^ (T + 1) = 2 * 2 ^ T := by rw [pow_succ']
    have h1T : (1:ℕ) ≤ 2 ^ T := Nat.pos_pow_of_pos T (by norm_num)
    rw [Finset.prod_range_succ, ih hT, mul_comm]
    exact icoProd_consec a (by omega) (by omega)

/-- The full-coverage identity: the leaf value of node `j` times the
values contributed by all its build-time children is exactly the block
product `[j - lsb j, j)`. -/
lemma fen_children_prod {S : Type} [CommMonoid S] (a : List S) {j : ℕ} (hj : 1 ≤ j) :
    dval 1 a (j - 1) * (fenChildren j).prod (fun i => icoProd a (i - lsb i) i) =
      icoProd a (j - lsb j) j := by
  obtain ⟨T, hlsbj, hdecomp⟩ := lsb_spec (show j ≠ 0 by omega)
  have hodd : oddPart j % 2 = 1 := oddPart_odd (by omega)
  have hchild : fenChildren j = (Finset.range T).image (fun s => j - 2 ^ s) := by
    calc fenChildren j = fenChildren (oddPart j * 2 ^ T) := by rw [← hdecomp]
    _ = (Finset.range T).image (fun s => oddPart j * 2 ^ T - 2 ^ s) := fenChildren_eq hodd
    _ = (Finset.range T).image (fun s => j - 2 ^ s) := by rw [← hdecomp]
  have hjT : 2 ^ T ≤ j := by
    calc (2:ℕ) ^ T ≤ oddPart j * 2 ^ T :=
      Nat.le_mul_of_pos_left _ (by omega)
    _ = j := hdecomp.symm
  have hinj : ∀ x ∈ Finset.range T, ∀ y ∈ Finset.range T,
      j - 2 ^ x = j - 2 ^ y → x = y := by
    intro x hx y hy hxy
    simp only [Finset.mem_range] at hx hy
    have hxT : (2:ℕ) ^ x ≤ 2 ^ T := Nat.pow_le_pow_right (by norm_num) (by omega)
    have hyT : (2:ℕ) ^ y ≤ 2 ^ T := Nat.pow_le_pow_right (by norm_num) (by omega)
    have : (2:ℕ) ^ x = 2 ^ y := by omega
    exact Nat.pow_right_injective (by norm_num) this
  rw [hchild, Finset.prod_image hinj]
  have hterm : ∀ s ∈ Finset.range T,
      icoProd a (j - 2 ^ s - lsb (j - 2 ^ s)) (j - 2 ^ s) =
        icoProd a (j - 2 ^ (s + 1)) (j - 2 ^ s) := by
    intro s hs
    simp only [Finset.mem_range] at hs
    have hform := child_form hodd hs
    rw [← hdecomp] at hform
    obtain ⟨hf1, hf2, hf3⟩ := hform
    have hlsbi : lsb (j - 2 ^ s) = 2 ^ s := by
      rw [hf1, lsb_odd_mul_pow hf2]
    rw [hlsbi]
    congr 1
    have h2s1 : (2:ℕ) ^ (s + 1) = 2 * 2 ^ s := by rw [pow_succ']
    omega
  rw [Finset.prod_congr rfl hterm, blocks_telescope a j T hjT, mul_comm]
  have hfin : icoProd a (j - 1) j = dval 1 a (j - 1) := by
    have h := icoProd_one a (j - 1)
    rw [show j - 1 + 1 = j by omega] at h
    exact h
  have h1T : (1:ℕ) ≤ 2 ^ T := Nat.pos_pow_of_pos T (by norm_num)
  calc icoProd a (j - 2 ^ T) (j - 1) * dval 1 a (j - 1)
      = icoProd a (j - 2 ^ T) (j - 1) * icoProd a (j - 1) j := by rw [hfin]
  _ = icoProd a (j - 2 ^ T) j := icoProd_consec a (by omega) (by omega)
  _ = icoProd a (j - lsb j) j := by rw [hlsbj]

namespace FenwickTree

/-- Fenwick invariant (for a commutative monoid): slot `0` holds the
identity and slot `j` holds the block product `[j - lsb j, j)` of the
logical array. -/
def NodeInv {S : Type} [CommMonoid S] (d a : List S) : Prop :=
  d.length = a.length + 1 ∧ dval 1 d 0 = 1 ∧
  ∀ j, 1 ≤ j → j ≤ a.length → dval 1 d j = icoProd a (j - lsb j) j

variable {S : Type} [CommMonoid S]

lemma icoProd_set_notmem (a : List S) {i lo hi : ℕ} (y : S)
    (h : i < lo ∨ hi ≤ i) : icoProd (a.set i y) lo hi = icoProd a lo hi := by
  refine Finset.prod_congr rfl ?_
  intro q hq
  rw [Finset.mem_Ico] at hq
  exact dval_set_ne 1 a y (by omega)

lemma icoProd_set_mem (a : List S) {i lo hi : ℕ} (x : S)
    (h1 : lo ≤ i) (h2 : i < hi) (hlen : i < a.length) :
    icoProd (a.set i (dval 1 a i * x)) lo hi = icoProd a lo hi * x := by
  have hmem : i ∈ Finset.Ico lo hi := Finset.mem_Ico.mpr ⟨h1, h2⟩
  have hL : icoProd (a.set i (dval 1 a i * x)) lo hi =
      (dval 1 a i * x) * (Finset.Ico lo hi |>.erase i).prod (dval 1 a) := by
    rw [icoProd, ← Finset.mul_prod_erase _ _ hmem,
      dval_set_self 1 a i _ hlen]
    congr 1
    refine Finset.prod_congr rfl ?_
    intro q hq
    exact dval_set_ne 1 a _ (fun hiq => (Finset.mem_erase.mp hq).1 hiq.symm)
  have hR : icoProd a lo hi = dval 1 a i * (Finset.Ico lo hi |>.erase i).prod (dval 1 a) := by
    rw [icoProd, ← Finset.mul_prod_erase _ _ hmem]
  rw [hL, hR]
  exact mul_right_comm _ _ _

lemma buildUp_spec (a : List S) :
    ∀ (fuel i : ℕ) (d : List S), d.length = a.length + 1 → 1 ≤ i →
    a.length + 1 ≤ i + fuel →
    dval 1 d 0 = 1 →
    (∀ j, 1 ≤ j → j ≤ a.length → dval 1 d j =
      dval 1 a (j - 1) *
        ((fenChildren j).filter (fun q => q < i)).prod (fun q => icoProd a (q - lsb q) q)) →
    NodeInv (buildUp a.length fuel i d) a := by
  intro fuel
  induction fuel with
  | zero =>
    intro i d hlen hi1 hfuel h0 hval
    rw [buildUp, NodeInv]
    have hin : ¬ i ≤ a.length := by omega
    refine ⟨hlen, h0, ?_⟩
    intro j hj1 hj2
    have hfilter : (fenChildren j).filter (fun q => q < i) = fenChildren j := by
      refine Finset.filter_true_of_mem ?_
      intro q hq
      rw [fenChildren, Finset.mem_filter, Finset.mem_Ico] at hq
      omega
    rw [hval j hj1 hj2, hfilter]
    exact fen_children_prod a hj1
  | succ fuel ih =>
    intro i d hlen hi1 hfuel h0 hval
    rw [buildUp]
    by_cases hin : i ≤ a.length
    · rw [if_pos hin]
      by_cases hw : i + lsb i ≤ a.length
      · -- the step writes the parent p = i + lsb i
        have hp1 : 1 ≤ i + lsb i := by omega
        have hplen : i + lsb i < d.length := by omega
        have hchild_i : (fenChildren i).filter (fun q => q < i) = fenChildren i := by
          refine Finset.filter_true_of_mem ?_
          intro q hq
          rw [fenChildren, Finset.mem_filter, Finset.mem_Ico] at hq
          omega
        have hvi : dval 1 d i = icoProd a (i - lsb i) i := by
          rw [hval i hi1 hin, hchild_i]
          exact fen_children_prod a hi1
        refine ih (i + 1) _ (by rw [fenStep, if_pos hw]; simpa using hlen) (by omega)
          (by omega) ?_ ?_
        · rw [fenStep, if_pos hw, dval_set_ne 1 d _ (by omega)]
          exact h0
        · intro j hj1 hj2
          rw [fenStep, if_pos hw]
          by_cases hjp : j = i + lsb i
          · subst hjp
            rw [dval_set_self 1 d _ _ hplen, hvi,
              hval (i + lsb i) hp1 hw]
            have hmemi : i ∈ fenChildren (i + lsb i) := by
              rw [fenChildren, Finset.mem_filter, Finset.mem_Ico]
              have := lsb_pos (show i ≠ 0 by omega)
              exact ⟨⟨hi1, by omega⟩, rfl⟩
            have hinsert : (fenChildren (i + lsb i)).filter (fun q => q < i + 1) =
                insert i ((fenChildren (i + lsb i)).filter (fun q => q < i)) := by
              ext q
              simp only [Finset.mem_filter, Finset.mem_insert]
              constructor
              · rintro ⟨hq, hqi⟩
                by_cases hqeq : q = i
                · exact Or.inl hqeq
                · exact Or.inr ⟨hq, by omega⟩
              · rintro (hqeq | ⟨hq, hqi⟩)
                · subst hqeq
                  exact ⟨hmemi, by omega⟩
                · exact ⟨hq, by omega⟩
            rw [hinsert, Finset.prod_insert (by simp)]
            rw [mul_assoc]
            congr 1
            exact mul_comm _ _
          · rw [dval_set_ne 1 d _ (fun h => hjp h.symm), hval j hj1 hj2]
            have hfeq : (fenChildren j).filter (fun q => q < i + 1) =
                (fenChildren j).filter (fun q => q < i) := by
              ext q
              simp only [Finset.mem_filter]
              constructor
              · rintro ⟨hq, hqi⟩
                refine ⟨hq, ?_⟩
                rcases Nat.lt_or_ge q i with h | h
                · exact h
                · exfalso
                  have hqeq : q = i := by omega
                  subst hqeq
                  rw [fenChildren, Finset.mem_filter] at hq
                  exact hjp hq.2.symm
              · rintro ⟨hq, hqi⟩
                exact ⟨hq, by omega⟩
            rw [hfeq]
      · -- no write: the parent is out of range
        refine ih (i + 1) _ (by rw [fenStep, if_neg hw]; exact hlen) (by omega)
          (by omega) (by rw [fenStep, if_neg hw]; exact h0) ?_
        intro j hj1 hj2
        rw [fenStep, if_neg hw, hval j hj1 hj2]
        have hfeq : (fenChildren j).filter (fun q => q < i + 1) =
            (fenChildren j).filter (fun q => q < i) := by
          ext q
          simp only [Finset.mem_filter]
          constructor
          · rintro ⟨hq, hqi⟩
            refine ⟨hq, ?_⟩
            rcases Nat.lt_or_ge q i with h | h
            · exact h
            · exfalso
              have hqeq : q = i := by omega
              subst hqeq
              rw [fenChildren, Finset.mem_filter] at hq
              omega
          · rintro ⟨hq, hqi⟩
            exact ⟨hq, by omega⟩
        rw [hfeq]
    · rw [if_neg hin]
      rw [NodeInv]
      refine ⟨hlen, h0, ?_⟩
      intro j hj1 hj2
      have hfilter : (fenChildren j).filter (fun q => q < i) = fenChildren j := by
        refine Finset.filter_true_of_mem ?_
        intro q hq
        rw [fenChildren, Finset.mem_filter, Finset.mem_Ico] at hq
        omega
      rw [hval j hj1 hj2, hfilter]
      exact fen_children_prod a hj1

lemma fromSlice_nodeInv (v : List S) : NodeInv (fromSlice v) v := by
  rw [fromSlice]
  refine buildUp_spec v (v.length + 1) 1 (1 :: v) (by simp) le_rfl (by omega) rfl ?_
  intro j hj1 hj2
  have hfilter : (fenChildren j).filter (fun q => q < 1) = ∅ := by
    rw [Finset.filter_eq_empty_iff]
    intro q hq
    rw [fenChildren, Finset.mem_filter, Finset.mem_Ico] at hq
    omega
  rw [hfilter, Finset.prod_empty, mul_one]
  rw [dval]
  cases j with
  | zero => omega
  | succ j =>
    show (1 :: v).getD (j + 1) 1 = dval 1 v (j + 1 - 1)
    simp only [List.getD_cons_succ, Nat.add_sub_cancel]
    rfl

end FenwickTree

lemma lsb_mul_pow {m : ℕ} (hm : m ≠ 0) (k : ℕ) : lsb (m * 2 ^ k) = lsb m * 2 ^ k := by
  obtain ⟨s, hs, hd⟩ := lsb_spec hm
  have hodd : oddPart m % 2 = 1 := oddPart_odd hm
  have hmk : m * 2 ^ k = oddPart m * 2 ^ (s + k) := by
    rw [pow_add, ← mul_assoc, ← hd]
  rw [hmk, lsb_odd_mul_pow hodd, hs, pow_add]

/-- Positions strictly between a covering node and its successor node on
the update chain do not cover: their blocks start at or after `j`. -/
lemma lsb_add_lt {j δ : ℕ} (hj : j ≠ 0) (h1 : 1 ≤ δ) (h2 : δ < lsb j) :
    lsb (j + δ) = lsb δ := by
  obtain ⟨t, ht, hdj⟩ := lsb_spec hj
  obtain ⟨s, hsd, hdd⟩ := lsb_spec (show δ ≠ 0 by omega)
  have hst : s < t := by
    have h2s : (2:ℕ) ^ s ≤ δ := by
      calc (2:ℕ) ^ s ≤ oddPart δ * 2 ^ s := Nat.le_mul_of_pos_left _ (by
        have := oddPart_odd (show δ ≠ 0 by omega)
        omega)
      _ = δ := hdd.symm
    have : (2:ℕ) ^ s < 2 ^ t := by omega
    exact (Nat.pow_lt_pow_iff_right (by norm_num)).mp this
  have hoj : oddPart j % 2 = 1 := oddPart_odd hj
  have hod : oddPart δ % 2 = 1 := oddPart_odd (show δ ≠ 0 by omega)
  have hts : (2:ℕ) ^ t = 2 ^ (t - s) * 2 ^ s := by
    rw [← pow_add]
    congr 1
    omega
  have hsum : j + δ = (oddPart j * 2 ^ (t - s) + oddPart δ) * 2 ^ s := by
    calc j + δ = oddPart j * 2 ^ t + oddPart δ * 2 ^ s := by rw [← hdj, ← hdd]
    _ = (oddPart j * 2 ^ (t - s) + oddPart δ) * 2 ^ s := by rw [hts]; ring
  have hts2 : (2:ℕ) ^ (t - s) = 2 * 2 ^ (t - s - 1) := by
    rw [← pow_succ']
    congr 1
    omega
  have hoddsum : (oddPart j * 2 ^ (t - s) + oddPart δ) % 2 = 1 := by
    have : oddPart j * 2 ^ (t - s) = 2 * (oddPart j * 2 ^ (t - s - 1)) := by
      rw [hts2]
      ring
    omega
  rw [hsum, lsb_odd_mul_pow hoddsum, hsd]

/-- The next node on the update chain covers at least twice as much. -/
lemma lsb_cover_next {j : ℕ} (hj : j ≠ 0) : 2 * lsb j ≤ lsb (j + lsb j) := by
  obtain ⟨t, ht, hdj⟩ := lsb_spec hj
  have hoj : oddPart j % 2 = 1 := oddPart_odd hj
  have hsum : j + lsb j = ((oddPart j + 1) / 2) * 2 ^ (t + 1) := by
    calc j + lsb j = oddPart j * 2 ^ t + 2 ^ t := by rw [← hdj, ht]
    _ = (oddPart j + 1) * 2 ^ t := by ring
    _ = (2 * ((oddPart j + 1) / 2)) * 2 ^ t := by
        congr 1
        omega
    _ = ((oddPart j + 1) / 2) * 2 ^ (t + 1) := by rw [pow_succ']; ring
  have hm : (oddPart j + 1) / 2 ≠ 0 := by omega
  rw [hsum, lsb_mul_pow hm, ht, pow_succ']
  have h1 : 1 ≤ lsb ((oddPart j + 1) / 2) := lsb_pos hm
  exact Nat.le_mul_of_pos_left _ (by omega)

namespace FenwickTree

variable {S : Type} [CommMonoid S]

/-- The update-loop invariant of `operate`: `p` is the 1-indexed updated
position; nodes before the current chain position `jcur` already reflect
the updated array `a'`, the rest still reflect `a`.  (Non-covering nodes
reflect both, since their block misses position `p - 1`.) -/
lemma opLoop_spec (a : List S) (x : S) (p : ℕ) (hp1 : 1 ≤ p) (hpn : p ≤ a.length) :
    ∀ (fuel jcur : ℕ) (d : List S), d.length = a.length + 1 →
    p ≤ jcur → (jcur ≤ a.length → jcur - lsb jcur < p) →
    a.length + 1 ≤ jcur + fuel →
    dval 1 d 0 = 1 →
    (∀ q, 1 ≤ q → q ≤ a.length → dval 1 d q =
      (if q < jcur then icoProd (a.set (p - 1) (dval 1 a (p - 1) * x)) (q - lsb q) q
       else icoProd a (q - lsb q) q)) →
    NodeInv (opLoop fuel jcur d x) (a.set (p - 1) (dval 1 a (p - 1) * x)) := by
  intro fuel
  induction fuel with
  | zero =>
    intro jcur d hlen hpj hcov hfuel h0 hval
    rw [opLoop, NodeInv]
    refine ⟨by simpa using hlen, h0, ?_⟩
    intro j hj1 hj2
    simp only [List.length_set] at hj2
    have := hval j hj1 hj2
    rw [if_pos (by omega)] at this
    exact this
  | succ fuel ih =>
    intro jcur d hlen hpj hcov hfuel h0 hval
    rw [opLoop]
    by_cases hin : jcur < d.length
    · rw [if_pos hin]
      have hjn : jcur ≤ a.length := by omega
      have hj0 : jcur ≠ 0 := by omega
      have hlsb1 : 1 ≤ lsb jcur := lsb_pos hj0
      refine ih (jcur + lsb jcur) _ (by simpa using hlen) (by omega) ?_ (by omega)
        (by rw [dval_set_ne 1 d _ (by omega)]; exact h0) ?_
      · intro hnext
        have hc := lsb_cover_next hj0
        have := hcov hjn
        omega
      · intro q hq1 hq2
        by_cases hqj : q = jcur
        · subst hqj
          rw [if_pos (by omega), dval_set_self 1 d _ _ (by omega)]
          have hold := hval q hq1 hq2
          rw [if_neg (by omega)] at hold
          rw [hold]
          exact (icoProd_set_mem a x (by have := hcov hjn; omega) (by omega) (by omega)).symm
        · rw [dval_set_ne 1 d _ (fun h => hqj h.symm)]
          have hold := hval q hq1 hq2
          by_cases hqlt : q < jcur
          · rw [if_pos (by omega)]
            rw [if_pos hqlt] at hold
            exact hold
          · rw [if_neg hqlt] at hold
            by_cases hqmid : q < jcur + lsb jcur
            · -- strictly between the chain nodes: q does not cover p - 1
              rw [if_pos hqmid, hold]
              have hδ : lsb (jcur + (q - jcur)) = lsb (q - jcur) := by
                refine lsb_add_lt hj0 (by omega) (by omega)
              rw [show jcur + (q - jcur) = q by omega] at hδ
              have hqlsb : lsb (q - jcur) ≤ q - jcur := lsb_le
              refine (icoProd_set_notmem a _ ?_).symm
              left
              have := hcov hjn
              omega
            · rw [if_neg hqmid]
              exact hold
    · rw [if_neg hin]
      rw [NodeInv]
      refine ⟨by simpa using hlen, h0, ?_⟩
      intro j hj1 hj2
      simp only [List.length_set] at hj2
      have := hval j hj1 hj2
      rw [if_pos (by omega)] at this
      exact this

lemma operate_nodeInv {d a : List S} (hInv : NodeInv d a) {i : ℕ} (x : S)
    (hi : i < a.length) :
    NodeInv (operate d i x) (a.set i (dval 1 a i * x)) := by
  obtain ⟨hlen, h0, hval⟩ := hInv
  rw [operate]
  have h := opLoop_spec a x (i + 1) (by omega) (by omega) d.length (i + 1) d hlen
    (by omega) ?_ (by omega) h0 ?_
  · simpa using h
  · intro hj
    have hlsb1 : 1 ≤ lsb (i + 1) := lsb_pos (by omega)
    omega
  · intro q hq1 hq2
    by_cases hqlt : q < i + 1
    · rw [if_pos hqlt, hval q hq1 hq2]
      refine (icoProd_set_notmem a _ ?_).symm
      right
      omega
    · rw [if_neg hqlt]
      exact hval q hq1 hq2

/-- The query-loop invariant of `prefix_fold`. -/
lemma prefLoop_spec {d a : List S} (hInv : NodeInv d a) (r0 : ℕ) (hr0 : r0 ≤ a.length) :
    ∀ (fuel r : ℕ) (res : S), r ≤ fuel → r ≤ r0 →
    res = icoProd a (r - lsb r) r0 →
    prefLoop fuel d r res = icoProd a 0 r0 := by
  obtain ⟨hlen, h0, hval⟩ := hInv
  intro fuel
  induction fuel with
  | zero =>
    intro r res hf hr hres
    rw [prefLoop]
    have hr0' : r = 0 := by omega
    subst hr0'
    simpa using hres
  | succ fuel ih =>
    intro r res hf hr hres
    rw [prefLoop]
    by_cases hrz : r = 0
    · rw [if_pos hrz]
      subst hrz
      simpa using hres
    · rw [if_neg hrz]
      have hlsb1 : 1 ≤ lsb r := lsb_pos hrz
      have hlsble : lsb r ≤ r := lsb_le
      have hread : dval 1 d (r - lsb r) =
          icoProd a (r - lsb r - lsb (r - lsb r)) (r - lsb r) := by
        by_cases hz : r - lsb r = 0
        · rw [hz, h0, icoProd_empty a (by omega)]
        · exact hval _ (by omega) (by omega)
      refine ih (r - lsb r) _ (by omega) (by omega) ?_
      rw [hread, hres]
      have hlsble2 : lsb (r - lsb r) ≤ r - lsb r := lsb_le
      exact icoProd_consec a (by omega) (by omega)

/-- Fold a list of `operate` calls over a Fenwick-tree state. -/
def operateOps (d : List S) (ops : List (ℕ × S)) : List S :=
  ops.foldl (fun t p => operate t p.1 p.2) d

/-- The brute-force counterpart of `operateOps` on the logical array. -/
def operateOpsModel (a : List S) (ops : List (ℕ × S)) : List S :=
  ops.foldl (fun t p => t.set p.1 (dval 1 t p.1 * p.2)) a

lemma operateOpsModel_length (a : List S) (ops : List (ℕ × S)) :
    (operateOpsModel a ops).length = a.length := by
  unfold operateOpsModel
  induction ops generalizing a with
  | nil => rfl
  | cons p t ih => rw [List.foldl_cons, ih, List.length_set]

lemma operateOps_nodeInv {d a : List S} (hInv : NodeInv d a) (ops : List (ℕ × S))
    (hops : ∀ p ∈ ops, p.1 < a.length) :
    NodeInv (operateOps d ops) (operateOpsModel a ops) := by
  unfold operateOps operateOpsModel
  induction ops generalizing d a with
  | nil => exact hInv
  | cons p t ih =>
    rw [List.foldl_cons, List.foldl_cons]
    refine ih (operate_nodeInv hInv p.2 (hops p (by simp))) ?_
    intro q hq
    rw [List.length_set]
    exact hops q (by simp [hq])

end FenwickTree

/-! ## Claim C9 (amended): the Fenwick tree over a commutative monoid -/

/-- C9 (amended: commutativity added).  For every *commutative* monoid,
every value sequence `v`, and every sequence of in-range `operate(i, x)`
calls, the Fenwick tree built by `from_slice(v)` satisfies:
`prefix_fold(r)` returns the combine of the current logical values
`a[0], ..., a[r-1]` for every `r <= n`, and `prefix_fold(0)` returns the
identity (the right-hand side is the brute-force `sliceProd`, which is
`1` on empty slices). -/
theorem fenwick_prefix_fold_comm_correct {S : Type} [CommMonoid S] (v : List S)
    (ops : List (ℕ × S)) (hops : ∀ p ∈ ops, p.1 < v.length)
    (r : ℕ) (hr : r ≤ v.length) :
    FenwickTree.prefFold (FenwickTree.operateOps (FenwickTree.fromSlice v) ops) r =
      sliceProd (FenwickTree.operateOpsModel v ops) 0 r := by
  have hInv := FenwickTree.operateOps_nodeInv (FenwickTree.fromSlice_nodeInv v) ops hops
  have hlen := FenwickTree.operateOpsModel_length v ops
  have hr' : r ≤ (FenwickTree.operateOpsModel v ops).length := by omega
  have hconv := sliceProd_eq_icoProd (FenwickTree.operateOpsModel v ops) r 0
  rw [Nat.zero_add] at hconv
  rw [hconv, FenwickTree.prefFold]
  obtain ⟨hdlen, h0, hval⟩ := hInv
  refine FenwickTree.prefLoop_spec ⟨hdlen, h0, hval⟩ r hr' r r _ le_rfl le_rfl ?_
  by_cases hrz : r = 0
  · subst hrz
    rw [h0, icoProd_empty _ (by omega)]
  · exact hval r (by omega) hr'

/-- Witness for the amended C9: `v = [2,3,5]` over `(ℕ, *, 1)`, after
`operate(1, 7)`, `prefix_fold(3) = 2 * (3*7) * 5 = 210`. -/
theorem fenwick_prefix_fold_comm_correct_witness :
    (∀ p ∈ [((1:ℕ), (7:ℕ))], p.1 < 3) ∧
    FenwickTree.prefFold (FenwickTree.operateOps (FenwickTree.fromSlice [2,3,5]) [(1,7)]) 3 =
      sliceProd (FenwickTree.operateOpsModel [2,3,5] [(1,7)]) 0 3 ∧
    sliceProd (FenwickTree.operateOpsModel ([2,3,5] : List ℕ) [(1,7)]) 0 3 = 210 :=
  ⟨by decide,
   fenwick_prefix_fold_comm_correct [2,3,5] [(1,7)] (by decide) 3 (by decide),
   by decide⟩

/-! ## The disjoint-set union (`src/disjoint_set/mod.rs`)

`Dsu` owns a boxed slice `parent : [i32]` — negative entries mark roots
(absolute value = set size), non-negative entries are parent indices —
plus a cached `num_components`.  `root` applies path halving, `unite`
merges by size.  Mutating methods are modelled as state transformers. -/

structure Dsu where
  parent : List Int
  numComponents : ℕ
deriving DecidableEq

namespace Dsu

/-- Unchecked read of the parent array (default `-1` never used in
bounds-respecting contexts). -/
def pval (p : List Int) (i : ℕ) : Int := p.getD i (-1)

/-- `Dsu::new(n)`. -/
def new (n : ℕ) : Dsu := ⟨List.replicate n (-1), n⟩

/-- The path-halving loop of `root`:
`while p[x] >= 0 { let px = p[x]; if p[px] >= 0 { p[x] = p[px]; } x = px; }`,
fueled (`n` iterations always suffice, since the path to the root is
simple). -/
def rootAux : ℕ → List Int → ℕ → ℕ × List Int
| 0, p, x => (x, p)
| fuel + 1, p, x =>
  if 0 ≤ pval p x then
    rootAux fuel
      (if 0 ≤ pval p (pval p x).toNat then p.set x (pval p (pval p x).toNat) else p)
      (pval p x).toNat
  else (x, p)

/-- `Dsu::root(x)` (precondition `x < len()`): returns the representative
and the mutated (path-halved) state. -/
def root (d : Dsu) (x : ℕ) : ℕ × Dsu :=
  ((rootAux d.parent.length d.parent x).1,
   ⟨(rootAux d.parent.length d.parent x).2, d.numComponents⟩)

/-- The merge step of `unite` on two distinct roots: union by size
(`if p[rx] > p[ry] { swap(rx, ry) }; p[rx] += p[ry]; p[ry] = rx`). -/
def uniteRoots (d : Dsu) (rx ry : ℕ) : Dsu :=
  if pval d.parent ry < pval d.parent rx then
    ⟨(d.parent.set ry (pval d.parent ry + pval d.parent rx)).set rx (Int.ofNat ry),
     d.numComponents - 1⟩
  else
    ⟨(d.parent.set rx (pval d.parent rx + pval d.parent ry)).set ry (Int.ofNat rx),
     d.numComponents - 1⟩

/-- `Dsu::unite(x, y)` (preconditions `x, y < len()`): root both (in
source order — the second `root` runs on the state mutated by the first),
then merge by size if the representatives differ. -/
def unite (d : Dsu) (x y : ℕ) : Bool × Dsu :=
  if (root d x).1 = (root (root d x).2 y).1 then (false, (root (root d x).2 y).2)
  else (true, uniteRoots (root (root d x).2 y).2 (root d x).1 (root (root d x).2 y).1)

/-- `Dsu::is_root(x)`. -/
def isRoot (d : Dsu) (x : ℕ) : Bool := pval d.parent x < 0

/-- `Dsu::num_components()`. -/
def numComponentsFn (d : Dsu) : ℕ := d.numComponents

/-- `Dsu::len()`. -/
def len (d : Dsu) : ℕ := d.parent.length

/-- The number of root slots (negative entries) of a parent array. -/
def countRoots (p : List Int) : ℕ := p.countP (fun v => decide (v < 0))

/-- Pure parent-pointer iteration (the mathematical path, independent of
the mutating `root`): follow parent pointers `k` times, stopping at
roots. -/
def iterP (p : List Int) : ℕ → ℕ → ℕ
| 0, x => x
| k + 1, x => if 0 ≤ pval p x then iterP p k (pval p x).toNat else x

/-- The semantic representative of `x`: where parent-pointer iteration
lands after `p.length` steps (for well-formed states the path to the
root is simple, hence shorter than `p.length`). -/
def rootOf (p : List Int) (x : ℕ) : ℕ := iterP p p.length x

/-- The parent pointers are in range. -/
def Bounds (p : List Int) : Prop :=
  ∀ i, i < p.length → 0 ≤ pval p i → (pval p i).toNat < p.length

/-- Every node reaches a root after some number of steps. -/
def AllRooted (p : List Int) : Prop :=
  ∀ i, i < p.length → ∃ k, pval p (iterP p k i) < 0

/-- The data-structure invariant of `Dsu`. -/
def Wf (d : Dsu) : Prop :=
  Bounds d.parent ∧ AllRooted d.parent ∧ d.numComponents = countRoots d.parent

/-- States reachable by the public mutating interface.  (`same` and
`size` mutate state only through `root` calls, so closure under `root`
and `unite` covers every public operation sequence; `groups` likewise.) -/
inductive Reachable : Dsu → Prop
| new (n : ℕ) : Reachable (new n)
| root {d : Dsu} (x : ℕ) : Reachable d → x < d.parent.length → Reachable (root d x).2
| unite {d : Dsu} (x y : ℕ) : Reachable d → x < d.parent.length → y < d.parent.length →
    Reachable (unite d x y).2

end Dsu

namespace Dsu

lemma pval_set_self (p : List Int) (i : ℕ) (v : Int) (h : i < p.length) :
    pval (p.set i v) i = v := dval_set_self (-1) p i v h

lemma pval_set_ne (p : List Int) {i j : ℕ} (v : Int) (h : i ≠ j) :
    pval (p.set i v) j = pval p j := dval_set_ne (-1) p v h

lemma pval_replicate (n : ℕ) (i : ℕ) : pval (List.replicate n (-1)) i = -1 :=
  dval_replicate (-1) n i

lemma iterP_succ (p : List Int) (k x : ℕ) :
    iterP p (k + 1) x = if 0 ≤ pval p x then iterP p k (pval p x).toNat else x := rfl

lemma iterP_root (p : List Int) {x : ℕ} (h : pval p x < 0) :
    ∀ k, iterP p k x = x := by
  intro k
  cases k with
  | zero => rfl
  | succ k => rw [iterP_succ, if_neg (by omega)]

lemma iterP_add (p : List Int) : ∀ (j k x : ℕ),
    iterP p (j + k) x = iterP p k (iterP p j x) := by
  intro j
  induction j with
  | zero => intro k x; rw [Nat.zero_add]; rfl
  | succ j ih =>
    intro k x
    rw [show j + 1 + k = (j + k) + 1 by omega]
    by_cases hx : 0 ≤ pval p x
    · rw [iterP_succ, if_pos hx, ih]
      rw [iterP_succ, if_pos hx]
    · rw [iterP_succ, if_neg hx]
      rw [iterP_succ, if_neg hx]
      rw [iterP_root p (show pval p x < 0 by omega)]

lemma iterP_lt (p : List Int) (hb : Bounds p) :
    ∀ (k x : ℕ), x < p.length → iterP p k x < p.length := by
  intro k
  induction k with
  | zero => intro x hx; exact hx
  | succ k ih =>
    intro x hx
    rw [iterP_succ]
    by_cases h : 0 ≤ pval p x
    · rw [if_pos h]
      exact ih _ (hb x hx h)
    · rw [if_neg h]
      exact hx

lemma iterP_absorb (p : List Int) {x m : ℕ} (h : pval p (iterP p m x) < 0)
    {k : ℕ} (hk : m ≤ k) : iterP p k x = iterP p m x := by
  rw [show k = m + (k - m) by omega, iterP_add]
  exact iterP_root p h _

/-- Pigeonhole: if a node reaches a root at all, it does so in fewer than
`p.length` steps (the minimal path is simple). -/
lemma depth_lt_len (p : List Int) (hb : Bounds p) {x : ℕ} (hx : x < p.length)
    (hr : ∃ k, pval p (iterP p k x) < 0) :
    ∃ m, m < p.length ∧ pval p (iterP p m x) < 0 ∧
      ∀ j, j < m → ¬ pval p (iterP p j x) < 0 := by
  classical
  refine ⟨Nat.find hr, ?_, Nat.find_spec hr, fun j hj => Nat.find_min hr hj⟩
  by_contra hge
  push_neg at hge
  have key : ∀ a b : ℕ, a < b → b ≤ Nat.find hr → iterP p a x = iterP p b x → False := by
    intro a b hlt hble hab
    have hperiod : ∀ t, iterP p (a + t * (b - a)) x = iterP p a x := by
      intro t
      induction t with
      | zero => simp
      | succ t iht =>
        rw [show a + (t + 1) * (b - a) = (a + t * (b - a)) + (b - a) by ring,
          iterP_add, iht, ← iterP_add, show a + (b - a) = b by omega, ← hab]
    have hbig : iterP p (a + Nat.find hr * (b - a)) x = iterP p (Nat.find hr) x := by
      refine iterP_absorb p (Nat.find_spec hr) ?_
      calc Nat.find hr ≤ Nat.find hr * (b - a) := Nat.le_mul_of_pos_right _ (by omega)
      _ ≤ a + Nat.find hr * (b - a) := by omega
    have heq : iterP p a x = iterP p (Nat.find hr) x := by
      rw [← hperiod (Nat.find hr), hbig]
    have hroot : pval p (iterP p a x) < 0 := by
      rw [heq]
      exact Nat.find_spec hr
    exact Nat.find_min hr (show a < Nat.find hr by omega) hroot
  have hinj : Set.InjOn (fun j => iterP p j x) (Finset.range (Nat.find hr + 1)) := by
    intro a ha b hb2 hab
    have hab' : iterP p a x = iterP p b x := hab
    simp only [Finset.coe_range, Set.mem_Iio] at ha hb2
    by_contra hne
    rcases Nat.lt_or_ge a b with hlt | hge2
    · exact key a b hlt (by omega) hab'
    · exact key b a (by omega) (by omega) hab'.symm
  have hcard : Nat.find hr + 1 ≤ p.length := by
    have h1 : (Finset.range (Nat.find hr + 1)).card ≤ (Finset.range p.length).card := by
      refine Finset.card_le_card_of_injOn (fun j => iterP p j x) ?_ ?_
      · intro j hj
        rw [Finset.mem_range]
        exact iterP_lt p hb j x hx
      · exact hinj
    simpa using h1
  omega
lemma rootOf_of_root (p : List Int) {x : ℕ} (h : pval p x < 0) : rootOf p x = x :=
  iterP_root p h _

lemma rootOf_rooted (p : List Int) (hb : Bounds p) {x : ℕ} (hx : x < p.length)
    (hr : ∃ k, pval p (iterP p k x) < 0) : pval p (rootOf p x) < 0 := by
  obtain ⟨m, hm, hroot, -⟩ := depth_lt_len p hb hx hr
  rw [rootOf, iterP_absorb p hroot (by omega)]
  exact hroot

lemma rootOf_step (p : List Int) (hb : Bounds p) {x : ℕ} (hx : x < p.length)
    (hnr : 0 ≤ pval p x) (hr : ∃ k, pval p (iterP p k (pval p x).toNat) < 0) :
    rootOf p x = rootOf p (pval p x).toNat := by
  have hpxlt : (pval p x).toNat < p.length := hb x hx hnr
  obtain ⟨m, hm, hroot, -⟩ := depth_lt_len p hb hpxlt hr
  have hone : iterP p 1 x = (pval p x).toNat := by
    rw [iterP_succ, if_pos hnr]; rfl
  have hshift : iterP p (1 + m) x = iterP p m (pval p x).toNat := by
    rw [iterP_add, hone]
  have hroot' : pval p (iterP p (1 + m) x) < 0 := by rw [hshift]; exact hroot
  rw [rootOf, rootOf, iterP_absorb p hroot' (by omega), hshift]
  exact (iterP_absorb p hroot (show m ≤ p.length by omega)).symm

/-- The minimal path from a node to its root visits pairwise distinct
nodes. -/
lemma path_simple (p : List Int) {x m : ℕ}
    (hrooted : pval p (iterP p m x) < 0)
    (hmin : ∀ j, j < m → ¬ pval p (iterP p j x) < 0) :
    ∀ a b, a < b → b ≤ m → iterP p a x ≠ iterP p b x := by
  intro a b hlt hble hab
  have hperiod : ∀ t, iterP p (a + t * (b - a)) x = iterP p a x := by
    intro t
    induction t with
    | zero => simp
    | succ t iht =>
      rw [show a + (t + 1) * (b - a) = (a + t * (b - a)) + (b - a) by ring,
        iterP_add, iht, ← iterP_add, show a + (b - a) = b by omega, ← hab]
  have hbig : iterP p (a + m * (b - a)) x = iterP p m x := by
    refine iterP_absorb p hrooted ?_
    calc m ≤ m * (b - a) := Nat.le_mul_of_pos_right _ (by omega)
    _ ≤ a + m * (b - a) := by omega
  have heq : iterP p a x = iterP p m x := by
    rw [← hperiod m, hbig]
  have hroota : pval p (iterP p a x) < 0 := by rw [heq]; exact hrooted
  exact hmin a (by omega) hroota

lemma countRoots_set : ∀ (p : List Int) (i : ℕ) (v : Int), i < p.length →
    countRoots (p.set i v) + (if pval p i < 0 then 1 else 0)
      = countRoots p + (if v < 0 then 1 else 0) := by
  intro p
  induction p with
  | nil => intro i v h; simp at h
  | cons a p ih =>
    intro i v h
    cases i with
    | zero =>
      have hs : (a :: p).set 0 v = v :: p := rfl
      have hp : pval (a :: p) 0 = a := rfl
      rw [hs, hp, countRoots, countRoots, List.countP_cons, List.countP_cons]
      by_cases hv : v < 0 <;> by_cases ha : a < 0 <;> simp [hv, ha]
    | succ i =>
      have hs : (a :: p).set (i + 1) v = a :: p.set i v := rfl
      have hp : pval (a :: p) (i + 1) = pval p i := rfl
      have hlt : i < p.length := by simp at h; omega
      have hh := ih i v hlt
      rw [hs, hp, countRoots, countRoots, List.countP_cons, List.countP_cons]
      simp only [countRoots] at hh
      omega

/-- A write at a node not on the (first `j` steps of the) path does not
disturb parent-pointer iteration. -/
lemma iterP_set_of_avoid (p : List Int) (x : ℕ) (v : Int) :
    ∀ (j s : ℕ), (∀ j', j' < j → iterP p j' s ≠ x) →
      iterP (p.set x v) j s = iterP p j s := by
  intro j
  induction j with
  | zero => intro s _; rfl
  | succ j ih =>
    intro s havoid
    have hsx : s ≠ x := havoid 0 (by omega)
    have hq : pval (p.set x v) s = pval p s := pval_set_ne p v (fun h => hsx h.symm)
    by_cases hs : 0 ≤ pval p s
    · rw [iterP_succ, if_pos (by rw [hq]; exact hs), hq,
        iterP_succ, if_pos hs]
      refine ih _ ?_
      intro j' hj'
      have := havoid (j' + 1) (by omega)
      rw [iterP_succ, if_pos hs] at this
      exact this
    · rw [iterP_succ, if_neg (by rw [hq]; exact hs), iterP_succ, if_neg hs]
/-- The heart of path halving: rewriting `p[x]` to its grandparent pointer
`g` preserves rootedness and every representative.  Stated with the
abbreviations `px`, `g`, `q` pinned by equations. -/
lemma rootOf_set_shortcut (p q : List Int) (hb : Bounds p) (x px : ℕ) (g : Int)
    (hx : x < p.length) (hpx : 0 ≤ pval p x) (hpxv : (pval p x).toNat = px)
    (hg : pval p px = g) (hgnn : 0 ≤ g) (hq : q = p.set x g) :
    ∀ m i, i < p.length → pval p (iterP p m i) < 0 →
      (∀ j, j < m → ¬ pval p (iterP p j i) < 0) →
      (∃ k, pval q (iterP q k i) < 0) ∧ rootOf q i = rootOf p i := by
  have hlen : q.length = p.length := by rw [hq]; exact List.length_set p x g
  have hqx : pval q x = g := by rw [hq]; exact pval_set_self p x g hx
  have hqne : ∀ i, i ≠ x → pval q i = pval p i := by
    intro i hi
    rw [hq]
    exact pval_set_ne p g (fun h => hi h.symm)
  have hpxlt : px < p.length := by rw [← hpxv]; exact hb x hx hpx
  have hgp : 0 ≤ pval p px := by rw [hg]; exact hgnn
  have hgtlt : g.toNat < p.length := by
    rw [← hg]
    exact hb px hpxlt hgp
  have hbq : Bounds q := by
    intro i hi hnn
    rw [hlen] at hi
    rw [hlen]
    by_cases hix : i = x
    · subst hix
      rw [hqx]
      exact hgtlt
    · rw [hqne i hix] at hnn ⊢
      exact hb i hi hnn
  have hchain1 : ∀ j s, 0 ≤ pval p s → iterP p (j + 1) s = iterP p j (pval p s).toNat := by
    intro j s hs
    rw [iterP_succ, if_pos hs]
  have hchain2 : ∀ j, iterP p (j + 2) x = iterP p j g.toNat := by
    intro j
    rw [show j + 2 = (j + 1) + 1 by omega, hchain1 _ _ hpx, hpxv, hchain1 _ _ hgp, hg]
  intro m
  induction m using Nat.strong_induction_on with
  | _ m ih =>
    intro i hi hrooted hmin
    rcases Nat.eq_zero_or_pos m with hm0 | hmpos
    · subst hm0
      have h0 : pval p i < 0 := hrooted
      have hix : i ≠ x := by
        intro h
        subst h
        omega
      have hqi : pval q i = pval p i := hqne i hix
      refine ⟨⟨0, ?_⟩, ?_⟩
      · show pval q i < 0
        rw [hqi]
        exact h0
      · rw [rootOf_of_root q (by rw [hqi]; exact h0), rootOf_of_root p h0]
    · have hstep0 : ¬ pval p i < 0 := hmin 0 hmpos
      have hpi : 0 ≤ pval p i := by omega
      by_cases hix : i = x
      · subst hix
        have hm1 : m ≠ 1 := by
          intro h1
          subst h1
          have h2 : pval p (iterP p 1 i) < 0 := hrooted
          rw [hchain1 0 i hpi, hpxv] at h2
          have h3 : pval p px < 0 := h2
          omega
        have hm2 : 2 ≤ m := by omega
        have hrootedg : pval p (iterP p (m - 2) g.toNat) < 0 := by
          rw [← hchain2, show m - 2 + 2 = m by omega]
          exact hrooted
        have hming : ∀ j, j < m - 2 → ¬ pval p (iterP p j g.toNat) < 0 := by
          intro j hj
          rw [← hchain2]
          exact hmin (j + 2) (by omega)
        obtain ⟨⟨kg, hkg⟩, hrg⟩ := ih (m - 2) (by omega) g.toNat hgtlt hrootedg hming
        have hqstep : iterP q (kg + 1) i = iterP q kg g.toNat := by
          rw [iterP_succ, if_pos (by rw [hqx]; exact hgnn), hqx]
        refine ⟨⟨kg + 1, by rw [hqstep]; exact hkg⟩, ?_⟩
        have hqxt : (pval q i).toNat = g.toNat := by rw [hqx]
        have h1 := rootOf_step q hbq (show i < q.length by rw [hlen]; exact hi)
          (by rw [hqx]; exact hgnn) (by rw [hqxt]; exact ⟨kg, hkg⟩)
        rw [hqxt] at h1
        have hexpx : ∃ k, pval p (iterP p k (pval p i).toNat) < 0 := by
          rw [hpxv]
          refine ⟨m - 1, ?_⟩
          rw [show m - 1 = (m - 2) + 1 by omega, hchain1 _ _ hgp, hg]
          exact hrootedg
        have h2 := rootOf_step p hb hi hpx hexpx
        rw [hpxv] at h2
        have hexg : ∃ k, pval p (iterP p k (pval p px).toNat) < 0 := by
          rw [hg]
          exact ⟨m - 2, hrootedg⟩
        have h3 := rootOf_step p hb hpxlt hgp hexg
        rw [hg] at h3
        rw [h1, hrg, h2, h3]
      · have hqi : pval q i = pval p i := hqne i hix
        have hpilt : (pval p i).toNat < p.length := hb i hi hpi
        have hrootedpi : pval p (iterP p (m - 1) (pval p i).toNat) < 0 := by
          rw [← hchain1 _ _ hpi, show m - 1 + 1 = m by omega]
          exact hrooted
        have hminpi : ∀ j, j < m - 1 → ¬ pval p (iterP p j (pval p i).toNat) < 0 := by
          intro j hj
          rw [← hchain1 _ _ hpi]
          exact hmin (j + 1) (by omega)
        obtain ⟨⟨kp, hkp⟩, hrp⟩ := ih (m - 1) (by omega) (pval p i).toNat hpilt hrootedpi hminpi
        have hqstep : iterP q (kp + 1) i = iterP q kp (pval p i).toNat := by
          rw [iterP_succ, if_pos (by rw [hqi]; exact hpi), hqi]
        refine ⟨⟨kp + 1, by rw [hqstep]; exact hkp⟩, ?_⟩
        have hqit : (pval q i).toNat = (pval p i).toNat := by rw [hqi]
        have h1 := rootOf_step q hbq (show i < q.length by rw [hlen]; exact hi)
          (by rw [hqi]; exact hpi) (by rw [hqit]; exact ⟨kp, hkp⟩)
        rw [hqit] at h1
        have h2 := rootOf_step p hb hi hpi ⟨m - 1, hrootedpi⟩
        rw [h1, h2, hrp]
/-- One path-halving write preserves the `Dsu` parent-array invariants,
the root count, and every representative. -/
lemma halve_step (p q : List Int) (hb : Bounds p) (hAR : AllRooted p) (x : ℕ) (g : Int)
    (hx : x < p.length) (hpx : 0 ≤ pval p x)
    (hg : pval p (pval p x).toNat = g) (hgnn : 0 ≤ g) (hq : q = p.set x g) :
    Bounds q ∧ AllRooted q ∧ q.length = p.length ∧ countRoots q = countRoots p ∧
    (∀ i, i < p.length → rootOf q i = rootOf p i) := by
  have main := rootOf_set_shortcut p q hb x (pval p x).toNat g hx hpx rfl hg hgnn hq
  have hlen : q.length = p.length := by rw [hq]; exact List.length_set p x g
  have hqx : pval q x = g := by rw [hq]; exact pval_set_self p x g hx
  have hqne : ∀ i, i ≠ x → pval q i = pval p i := by
    intro i hi
    rw [hq]
    exact pval_set_ne p g (fun h => hi h.symm)
  have hpxlt : (pval p x).toNat < p.length := hb x hx hpx
  have hgtlt : g.toNat < p.length := by
    rw [← hg]
    exact hb _ hpxlt (by rw [hg]; exact hgnn)
  have hbq : Bounds q := by
    intro i hi hnn
    rw [hlen] at hi
    rw [hlen]
    by_cases hix : i = x
    · subst hix
      rw [hqx]
      exact hgtlt
    · rw [hqne i hix] at hnn ⊢
      exact hb i hi hnn
  refine ⟨hbq, ?_, hlen, ?_, ?_⟩
  · intro i hi
    rw [hlen] at hi
    obtain ⟨m, -, hroot, hmin⟩ := depth_lt_len p hb hi (hAR i hi)
    exact (main m i hi hroot hmin).1
  · have h := countRoots_set p x g hx
    rw [if_neg (by omega), if_neg (by omega), ← hq] at h
    omega
  · intro i hi
    obtain ⟨m, -, hroot, hmin⟩ := depth_lt_len p hb hi (hAR i hi)
    exact (main m i hi hroot hmin).2

lemma rootAux_succ (f : ℕ) (p : List Int) (x : ℕ) :
    rootAux (f + 1) p x =
      if 0 ≤ pval p x then
        rootAux f
          (if 0 ≤ pval p (pval p x).toNat then p.set x (pval p (pval p x).toNat) else p)
          (pval p x).toNat
      else (x, p) := rfl

/-- Full specification of the path-halving `root` loop: with fuel at least
the depth of `x`, it returns the representative of `x` and a state with
the same length, root count, and representatives. -/
lemma rootAux_spec : ∀ (m : ℕ) (p : List Int) (x fuel : ℕ),
    Bounds p → AllRooted p → x < p.length →
    pval p (iterP p m x) < 0 → (∀ j, j < m → ¬ pval p (iterP p j x) < 0) →
    m ≤ fuel →
    (rootAux fuel p x).1 = rootOf p x ∧
    Bounds (rootAux fuel p x).2 ∧ AllRooted (rootAux fuel p x).2 ∧
    (rootAux fuel p x).2.length = p.length ∧
    countRoots (rootAux fuel p x).2 = countRoots p ∧
    (∀ i, i < p.length → rootOf (rootAux fuel p x).2 i = rootOf p i) := by
  intro m
  induction m using Nat.strong_induction_on with
  | _ m ih =>
    intro p x fuel hb hAR hx hrooted hmin hfuel
    rcases Nat.eq_zero_or_pos m with hm0 | hmpos
    · subst hm0
      have h0 : pval p x < 0 := hrooted
      have hstop : rootAux fuel p x = (x, p) := by
        cases fuel with
        | zero => rfl
        | succ f => rw [rootAux_succ, if_neg (by omega)]
      rw [hstop]
      exact ⟨(rootOf_of_root p h0).symm, hb, hAR, rfl, rfl, fun i _ => rfl⟩
    · have hstep0 : ¬ pval p x < 0 := hmin 0 hmpos
      have hpx : 0 ≤ pval p x := by omega
      have hpxlt : (pval p x).toNat < p.length := hb x hx hpx
      obtain ⟨f, rfl⟩ : ∃ f, fuel = f + 1 := ⟨fuel - 1, by omega⟩
      rw [rootAux_succ, if_pos hpx]
      have hchain1 : ∀ j, iterP p (j + 1) x = iterP p j (pval p x).toNat := by
        intro j
        rw [iterP_succ, if_pos hpx]
      by_cases hgx : 0 ≤ pval p (pval p x).toNat
      · rw [if_pos hgx]
        obtain ⟨hbq, hARq, hlenq, hcntq, hrootq⟩ :=
          halve_step p (p.set x (pval p (pval p x).toNat)) hb hAR x
            (pval p (pval p x).toNat) hx hpx rfl hgx rfl
        have havoid : ∀ j', j' + 1 ≤ m → iterP p j' (pval p x).toNat ≠ x := by
          intro j' hj' hbad
          have h1 : iterP p (j' + 1) x = iterP p 0 x := by
            rw [hchain1, hbad]
            rfl
          exact path_simple p hrooted hmin 0 (j' + 1) (by omega) hj' h1.symm
        have htransfer : ∀ j, j ≤ m - 1 →
            iterP (p.set x (pval p (pval p x).toNat)) j (pval p x).toNat
              = iterP p j (pval p x).toNat := by
          intro j hj
          refine iterP_set_of_avoid p x (pval p (pval p x).toNat) j (pval p x).toNat ?_
          intro j' hj'
          exact havoid j' (by omega)
        have hnodene : iterP p (m - 1) (pval p x).toNat ≠ x := by
          intro hbad
          have h1 : iterP p (m - 1 + 1) x = iterP p 0 x := by
            rw [hchain1, hbad]
            rfl
          exact path_simple p hrooted hmin 0 (m - 1 + 1) (by omega) (by omega) h1.symm
        have hqval : ∀ s, s ≠ x →
            pval (p.set x (pval p (pval p x).toNat)) s = pval p s := by
          intro s hs
          exact pval_set_ne p _ (fun h => hs h.symm)
        have hrootedq :
            pval (p.set x (pval p (pval p x).toNat))
              (iterP (p.set x (pval p (pval p x).toNat)) (m - 1) (pval p x).toNat) < 0 := by
          rw [htransfer (m - 1) (le_refl _), hqval _ hnodene, ← hchain1,
            show m - 1 + 1 = m by omega]
          exact hrooted
        have hminq : ∀ j, j < m - 1 →
            ¬ pval (p.set x (pval p (pval p x).toNat))
              (iterP (p.set x (pval p (pval p x).toNat)) j (pval p x).toNat) < 0 := by
          intro j hj
          have hjne : iterP p j (pval p x).toNat ≠ x := havoid j (by omega)
          rw [htransfer j (by omega), hqval _ hjne, ← hchain1]
          exact hmin (j + 1) (by omega)
        obtain ⟨ih1, ih2, ih3, ih4, ih5, ih6⟩ :=
          ih (m - 1) (by omega) (p.set x (pval p (pval p x).toNat)) (pval p x).toNat f
            hbq hARq (by rw [hlenq]; exact hpxlt) hrootedq hminq (by omega)
        have hstepr : rootOf p x = rootOf p (pval p x).toNat :=
          rootOf_step p hb hx hpx (hAR _ hpxlt)
        refine ⟨?_, ih2, ih3, by rw [ih4, hlenq], by rw [ih5, hcntq], ?_⟩
        · rw [ih1, hrootq _ hpxlt, hstepr]
        · intro i hi
          rw [ih6 i (by rw [hlenq]; exact hi), hrootq i hi]
      · rw [if_neg hgx]
        have hgroot : pval p (pval p x).toNat < 0 := by omega
        obtain ⟨ih1, ih2, ih3, ih4, ih5, ih6⟩ :=
          ih 0 hmpos p (pval p x).toNat f hb hAR hpxlt hgroot
            (fun j hj => absurd hj (by omega)) (by omega)
        have hstepr : rootOf p x = rootOf p (pval p x).toNat :=
          rootOf_step p hb hx hpx ⟨0, hgroot⟩
        exact ⟨by rw [ih1, hstepr], ih2, ih3, ih4, ih5, ih6⟩
/-- Merging two distinct roots (`p[a] = size sum`, `p[b] = a`) preserves
bounds and rootedness and removes exactly one root. -/
lemma merge_spec (p q : List Int) (hb : Bounds p) (hAR : AllRooted p)
    (ra rb : ℕ) (v : Int)
    (hra : ra < p.length) (hrb : rb < p.length)
    (hroota : pval p ra < 0) (hrootb : pval p rb < 0) (hne : ra ≠ rb)
    (hv : v < 0) (hq : q = (p.set ra v).set rb (Int.ofNat ra)) :
    Bounds q ∧ AllRooted q ∧ q.length = p.length ∧
    countRoots q + 1 = countRoots p := by
  have hlen : q.length = p.length := by rw [hq]; simp
  have hqrb : pval q rb = Int.ofNat ra := by
    rw [hq]
    exact pval_set_self _ rb _ (by rw [List.length_set]; exact hrb)
  have hqra : pval q ra = v := by
    rw [hq, pval_set_ne _ _ (fun h => hne h.symm)]
    exact pval_set_self p ra v hra
  have hqother : ∀ i, i ≠ ra → i ≠ rb → pval q i = pval p i := by
    intro i hia hib
    rw [hq, pval_set_ne _ _ (fun h => hib h.symm), pval_set_ne _ _ (fun h => hia h.symm)]
  have hbq : Bounds q := by
    intro i hi hnn
    rw [hlen] at hi
    rw [hlen]
    by_cases hib : i = rb
    · subst hib
      rw [hqrb]
      exact hra
    · by_cases hia : i = ra
      · subst hia
        rw [hqra] at hnn
        omega
      · rw [hqother i hia hib]
        rw [hqother i hia hib] at hnn
        exact hb i hi hnn
  have hchain1 : ∀ j s, 0 ≤ pval p s → iterP p (j + 1) s = iterP p j (pval p s).toNat := by
    intro j s hs
    rw [iterP_succ, if_pos hs]
  have main : ∀ m i, i < p.length → pval p (iterP p m i) < 0 →
      (∀ j, j < m → ¬ pval p (iterP p j i) < 0) →
      ∃ k, pval q (iterP q k i) < 0 := by
    intro m
    induction m using Nat.strong_induction_on with
    | _ m ih =>
      intro i hi hrooted hmin
      rcases Nat.eq_zero_or_pos m with hm0 | hmpos
      · subst hm0
        have h0 : pval p i < 0 := hrooted
        by_cases hib : i = rb
        · refine ⟨1, ?_⟩
          rw [hib]
          have hstep : iterP q 1 rb = ra := by
            rw [iterP_succ, if_pos (show (0:Int) ≤ pval q rb by
              rw [hqrb]; exact Int.ofNat_nonneg ra), hqrb]
            rfl
          rw [hstep, hqra]
          exact hv
        · by_cases hia : i = ra
          · refine ⟨0, ?_⟩
            show pval q i < 0
            rw [hia, hqra]
            exact hv
          · refine ⟨0, ?_⟩
            show pval q i < 0
            rw [hqother i hia hib]
            exact h0
      · have hstep0 : ¬ pval p i < 0 := hmin 0 hmpos
        have hpi : 0 ≤ pval p i := by omega
        have hia : i ≠ ra := by intro h; subst h; omega
        have hib : i ≠ rb := by intro h; subst h; omega
        have hqi : pval q i = pval p i := hqother i hia hib
        have hpilt : (pval p i).toNat < p.length := hb i hi hpi
        have hrootedpi : pval p (iterP p (m - 1) (pval p i).toNat) < 0 := by
          rw [← hchain1 _ _ hpi, show m - 1 + 1 = m by omega]
          exact hrooted
        have hminpi : ∀ j, j < m - 1 → ¬ pval p (iterP p j (pval p i).toNat) < 0 := by
          intro j hj
          rw [← hchain1 _ _ hpi]
          exact hmin (j + 1) (by omega)
        obtain ⟨k, hk⟩ := ih (m - 1) (by omega) (pval p i).toNat hpilt hrootedpi hminpi
        refine ⟨k + 1, ?_⟩
        rw [show iterP q (k + 1) i = iterP q k (pval p i).toNat from by
          rw [iterP_succ, if_pos (by rw [hqi]; exact hpi), hqi]]
        exact hk
  refine ⟨hbq, ?_, hlen, ?_⟩
  · intro i hi
    rw [hlen] at hi
    obtain ⟨m, -, hroot, hmin⟩ := depth_lt_len p hb hi (hAR i hi)
    exact main m i hi hroot hmin
  · have h1 := countRoots_set (p.set ra v) rb (Int.ofNat ra)
      (by rw [List.length_set]; exact hrb)
    have hmid : pval (p.set ra v) rb = pval p rb := pval_set_ne p v hne
    rw [hmid, if_pos hrootb,
      if_neg (show ¬ Int.ofNat ra < 0 from Int.not_lt.mpr (Int.ofNat_nonneg ra)),
      ← hq] at h1
    have h2 := countRoots_set p ra v hra
    rw [if_pos hroota, if_pos hv] at h2
    omega
/-- `Dsu::root` on a well-formed state: returns the representative and
preserves all invariants, the root count, and every representative. -/
lemma root_spec (d : Dsu) (hb : Bounds d.parent) (hAR : AllRooted d.parent)
    (x : ℕ) (hx : x < d.parent.length) :
    (root d x).1 = rootOf d.parent x ∧
    Bounds (root d x).2.parent ∧ AllRooted (root d x).2.parent ∧
    (root d x).2.parent.length = d.parent.length ∧
    countRoots (root d x).2.parent = countRoots d.parent ∧
    (∀ i, i < d.parent.length → rootOf (root d x).2.parent i = rootOf d.parent i) ∧
    (root d x).2.numComponents = d.numComponents := by
  obtain ⟨m, hm, hroot, hmin⟩ := depth_lt_len d.parent hb hx (hAR x hx)
  have h := rootAux_spec m d.parent x d.parent.length hb hAR hx hroot hmin (by omega)
  exact ⟨h.1, h.2.1, h.2.2.1, h.2.2.2.1, h.2.2.2.2.1, h.2.2.2.2.2, rfl⟩

lemma countRoots_replicate (n : ℕ) : countRoots (List.replicate n (-1)) = n := by
  induction n with
  | zero => rfl
  | succ n ih =>
    rw [List.replicate_succ, countRoots, List.countP_cons]
    simp only [countRoots] at ih
    rw [ih]
    norm_num

/-- `Dsu::unite` on a well-formed state: returns `true` exactly when the
representatives differed, preserves well-formedness, and decreases the
component count by one exactly on a `true` return. -/
lemma unite_spec (d : Dsu) (hwf : Wf d) (x y : ℕ)
    (hx : x < d.parent.length) (hy : y < d.parent.length) :
    ((unite d x y).1 = true ↔ rootOf d.parent x ≠ rootOf d.parent y) ∧
    Wf (unite d x y).2 ∧
    (unite d x y).2.parent.length = d.parent.length ∧
    (unite d x y).2.numComponents =
      (if (unite d x y).1 then d.numComponents - 1 else d.numComponents) := by
  obtain ⟨hb, hAR, hnum⟩ := hwf
  obtain ⟨h1a, h1b, h1c, h1d, h1e, h1f, h1g⟩ := root_spec d hb hAR x hx
  obtain ⟨h2a, h2b, h2c, h2d, h2e, h2f, h2g⟩ :=
    root_spec (root d x).2 h1b h1c y (by rw [h1d]; exact hy)
  have hry : (root (root d x).2 y).1 = rootOf d.parent y := by
    rw [h2a, h1f y hy]
  have hlen2 : (root (root d x).2 y).2.parent.length = d.parent.length := by
    rw [h2d, h1d]
  have hcnt2 : countRoots (root (root d x).2 y).2.parent = countRoots d.parent := by
    rw [h2e, h1e]
  have hnum2 : (root (root d x).2 y).2.numComponents = d.numComponents := by
    rw [h2g, h1g]
  by_cases heq : (root d x).1 = (root (root d x).2 y).1
  · have hu : unite d x y = (false, (root (root d x).2 y).2) := by
      rw [unite, if_pos heq]
    have hxy : rootOf d.parent x = rootOf d.parent y := by
      rw [← h1a, ← hry, heq]
    rw [hu]
    refine ⟨by simp [hxy], ⟨h2b, h2c, ?_⟩, hlen2, ?_⟩
    · rw [hnum2, hnum, hcnt2]
    · rw [if_neg (by simp)]
      exact hnum2
  · have hu : unite d x y =
        (true, uniteRoots (root (root d x).2 y).2 (root d x).1 (root (root d x).2 y).1) := by
      rw [unite, if_neg heq]
    have hnexy : rootOf d.parent x ≠ rootOf d.parent y := by
      intro h
      exact heq (by rw [h1a, hry, h])
    have hrxltp : rootOf d.parent x < d.parent.length := iterP_lt d.parent hb _ x hx
    have hryltp : rootOf d.parent y < d.parent.length := iterP_lt d.parent hb _ y hy
    have hrootpx : pval d.parent (rootOf d.parent x) < 0 :=
      rootOf_rooted d.parent hb hx (hAR x hx)
    have hrootpy : pval d.parent (rootOf d.parent y) < 0 :=
      rootOf_rooted d.parent hb hy (hAR y hy)
    have hroot2 : ∀ r, r < d.parent.length → pval d.parent r < 0 →
        pval (root (root d x).2 y).2.parent r < 0 := by
      intro r hr hrt
      have he1 : rootOf (root (root d x).2 y).2.parent r = r := by
        rw [h2f r (by rw [h1d]; exact hr), h1f r hr, rootOf_of_root d.parent hrt]
      have h3 := rootOf_rooted (root (root d x).2 y).2.parent h2b
        (show r < (root (root d x).2 y).2.parent.length by rw [hlen2]; exact hr)
        (h2c r (by rw [hlen2]; exact hr))
      rw [he1] at h3
      exact h3
    have hrootrx : pval (root (root d x).2 y).2.parent (root d x).1 < 0 := by
      rw [h1a]
      exact hroot2 _ hrxltp hrootpx
    have hrootry : pval (root (root d x).2 y).2.parent (root (root d x).2 y).1 < 0 := by
      rw [hry]
      exact hroot2 _ hryltp hrootpy
    have hrxlt2 : (root d x).1 < (root (root d x).2 y).2.parent.length := by
      rw [hlen2, h1a]
      exact hrxltp
    have hrylt2 : (root (root d x).2 y).1 < (root (root d x).2 y).2.parent.length := by
      rw [hlen2, hry]
      exact hryltp
    have hcntpos : 1 ≤ countRoots d.parent := by
      have h := countRoots_set d.parent (rootOf d.parent x) 0 hrxltp
      rw [if_pos hrootpx, if_neg (by omega)] at h
      omega
    rw [hu]
    by_cases hcmp : pval (root (root d x).2 y).2.parent (root (root d x).2 y).1
        < pval (root (root d x).2 y).2.parent (root d x).1
    · have hu2 : uniteRoots (root (root d x).2 y).2 (root d x).1 (root (root d x).2 y).1 =
          ⟨((root (root d x).2 y).2.parent.set (root (root d x).2 y).1
              (pval (root (root d x).2 y).2.parent (root (root d x).2 y).1
                + pval (root (root d x).2 y).2.parent (root d x).1)).set (root d x).1
              (Int.ofNat (root (root d x).2 y).1),
            (root (root d x).2 y).2.numComponents - 1⟩ := by
        rw [uniteRoots, if_pos hcmp]
      obtain ⟨hmb, hmar, hmlen, hmcnt⟩ :=
        merge_spec (root (root d x).2 y).2.parent _ h2b h2c
          (root (root d x).2 y).1 (root d x).1
          (pval (root (root d x).2 y).2.parent (root (root d x).2 y).1
            + pval (root (root d x).2 y).2.parent (root d x).1)
          hrylt2 hrxlt2 hrootry hrootrx (fun h => heq h.symm) (by omega) rfl
      rw [hu2]
      rw [hcnt2] at hmcnt
      have hg : (root (root d x).2 y).2.numComponents - 1 =
          countRoots (((root (root d x).2 y).2.parent.set (root (root d x).2 y).1
            (pval (root (root d x).2 y).2.parent (root (root d x).2 y).1
              + pval (root (root d x).2 y).2.parent (root d x).1)).set (root d x).1
            (Int.ofNat (root (root d x).2 y).1)) := by
        rw [hnum2, hnum]
        omega
      have hg2 : (root (root d x).2 y).2.numComponents - 1 = d.numComponents - 1 := by
        rw [hnum2]
      refine ⟨⟨fun _ => hnexy, fun _ => rfl⟩, ⟨hmb, hmar, hg⟩, by rw [hmlen, hlen2], ?_⟩
      exact hg2.trans (if_pos rfl).symm
    · have hu2 : uniteRoots (root (root d x).2 y).2 (root d x).1 (root (root d x).2 y).1 =
          ⟨((root (root d x).2 y).2.parent.set (root d x).1
              (pval (root (root d x).2 y).2.parent (root d x).1
                + pval (root (root d x).2 y).2.parent (root (root d x).2 y).1)).set
              (root (root d x).2 y).1 (Int.ofNat (root d x).1),
            (root (root d x).2 y).2.numComponents - 1⟩ := by
        rw [uniteRoots, if_neg hcmp]
      obtain ⟨hmb, hmar, hmlen, hmcnt⟩ :=
        merge_spec (root (root d x).2 y).2.parent _ h2b h2c
          (root d x).1 (root (root d x).2 y).1
          (pval (root (root d x).2 y).2.parent (root d x).1
            + pval (root (root d x).2 y).2.parent (root (root d x).2 y).1)
          hrxlt2 hrylt2 hrootrx hrootry heq (by omega) rfl
      rw [hu2]
      rw [hcnt2] at hmcnt
      have hg : (root (root d x).2 y).2.numComponents - 1 =
          countRoots (((root (root d x).2 y).2.parent.set (root d x).1
            (pval (root (root d x).2 y).2.parent (root d x).1
              + pval (root (root d x).2 y).2.parent (root (root d x).2 y).1)).set
            (root (root d x).2 y).1 (Int.ofNat (root d x).1)) := by
        rw [hnum2, hnum]
        omega
      have hg2 : (root (root d x).2 y).2.numComponents - 1 = d.numComponents - 1 := by
        rw [hnum2]
      refine ⟨⟨fun _ => hnexy, fun _ => rfl⟩, ⟨hmb, hmar, hg⟩, by rw [hmlen, hlen2], ?_⟩
      exact hg2.trans (if_pos rfl).symm

/-- Every state reachable by the public interface is well-formed. -/
lemma reachable_wf : ∀ d : Dsu, Reachable d → Wf d := by
  intro d hd
  induction hd with
  | new n =>
    refine ⟨?_, ?_, ?_⟩
    · intro i hi hnn
      have h : pval (Dsu.new n).parent i = -1 := pval_replicate n i
      rw [h] at hnn
      omega
    · intro i hi
      have h2 : pval (Dsu.new n).parent i = -1 := pval_replicate n i
      have h : pval (Dsu.new n).parent i < 0 := by rw [h2]; omega
      exact ⟨0, h⟩
    · show n = countRoots (List.replicate n (-1))
      rw [countRoots_replicate]
  | root x hre hx ih =>
    obtain ⟨hb, hAR, hnum⟩ := ih
    obtain ⟨-, h1b, h1c, -, h1e, -, h1g⟩ := root_spec _ hb hAR x hx
    exact ⟨h1b, h1c, by rw [h1g, hnum, h1e]⟩
  | unite x y hre hx hy ih =>
    exact (unite_spec _ ih x y hx hy).2.1
end Dsu

/-- **C10.** In every reachable state of the `Dsu`, `num_components()`
equals the number of root indices (indices `i` with `parent[i]`
negative); `unite(x, y)` returns `true` if and only if `x` and `y` were
in different sets before the call, and exactly in that case decreases
`num_components()` by one, leaving it unchanged when it returns
`false`. -/
theorem dsu_components_unite_correct (d : Dsu) (hreach : Dsu.Reachable d) :
    d.numComponents = Dsu.countRoots d.parent ∧
    ∀ x y, x < d.parent.length → y < d.parent.length →
      (((Dsu.unite d x y).1 = true) ↔ Dsu.rootOf d.parent x ≠ Dsu.rootOf d.parent y) ∧
      ((Dsu.unite d x y).1 = true →
        (Dsu.unite d x y).2.numComponents = d.numComponents - 1) ∧
      ((Dsu.unite d x y).1 = false →
        (Dsu.unite d x y).2.numComponents = d.numComponents) := by
  have hwf := Dsu.reachable_wf d hreach
  refine ⟨hwf.2.2, ?_⟩
  intro x y hx hy
  obtain ⟨hiff, hwf2, hlen, hnum⟩ := Dsu.unite_spec d hwf x y hx hy
  refine ⟨hiff, ?_, ?_⟩
  · intro h
    rw [hnum, if_pos h]
  · intro h
    rw [hnum, if_neg (by rw [h]; simp)]

/-- Concrete instantiation of C10: on `Dsu::new(2)`, the component count
is the root count, `unite(0, 1)` reports distinct sets, and the merge
drops the component count to `1`. -/
theorem dsu_components_unite_correct_witness :
    (Dsu.new 2).numComponents = Dsu.countRoots (Dsu.new 2).parent ∧
    ((Dsu.unite (Dsu.new 2) 0 1).1 = true ↔
      Dsu.rootOf (Dsu.new 2).parent 0 ≠ Dsu.rootOf (Dsu.new 2).parent 1) ∧
    (Dsu.unite (Dsu.new 2) 0 1).1 = true ∧
    (Dsu.unite (Dsu.new 2) 0 1).2.numComponents = 1 := by
  have h := dsu_components_unite_correct (Dsu.new 2) (Dsu.Reachable.new 2)
  have h2 := h.2 0 1 (by decide) (by decide)
  refine ⟨h.1, h2.1, by decide, ?_⟩
  have h3 := h2.2.1 (by decide)
  rw [h3]
  rfl

/-! ## The lazy segment tree (`segment_tree/lazy.rs`)

Shallow embedding of `LazySegmentTree<S, F>`.  The value monoid `S` and
the action monoid `F` are Lean `Monoid`s; `Action::act` is `•` with the
`MulAction` laws (`one_smul` is the spec's identity-action law,
`mul_smul` its compatibility law).  No distributivity of the action over
the value operation is assumed unless a theorem states it explicitly.
`size` is, as in the source, the length of the `lazy` array. -/

/-- The bit length of a number (`usize::BITS - x.leading_zeros()`),
fueled. -/
def bitlenAux : ℕ → ℕ → ℕ
| 0, _ => 0
| fuel + 1, x => if x = 0 then 0 else bitlenAux fuel (x / 2) + 1

def bitlen (x : ℕ) : ℕ := bitlenAux x x

structure LazyTree (S F : Type) where
  data : List S
  lazy : List F
  n : ℕ
  log : ℕ
deriving DecidableEq

namespace Lazy

variable {S F : Type} [Monoid S] [Monoid F] [MulAction F S]

/-- `LazySegmentTree::size()` (`self.lazy.len()`). -/
def size (st : LazyTree S F) : ℕ := st.lazy.length

/-- `LazySegmentTree::len()`. -/
def len (st : LazyTree S F) : ℕ := st.n

/-- `LazySegmentTree::new(n)`. -/
def new (S F : Type) [Monoid S] [Monoid F] (n : ℕ) : LazyTree S F :=
  ⟨List.replicate (2 * nextPowerOfTwo n) 1, List.replicate (nextPowerOfTwo n) 1,
   n, ceilLog2 n⟩

/-- `LazySegmentTree::from_slice(v)`: data `[id; size] ++ v ++ [id; size - n]`,
then internal nodes built from `size - 1` down to `1`; all lazies id. -/
def fromSlice (v : List S) : LazyTree S F :=
  ⟨SegmentTree.buildDown (nextPowerOfTwo v.length - 1)
     (List.replicate (nextPowerOfTwo v.length) 1 ++ v
       ++ List.replicate (nextPowerOfTwo v.length - v.length) 1),
   List.replicate (nextPowerOfTwo v.length) 1, v.length, ceilLog2 v.length⟩

/-- `LazySegmentTree::push(i)`: move the pending action of node `i` into
its children (`data` always, `lazy` only if the children are internal),
clearing `lazy[i]`. -/
def push (sz : ℕ) (d : List S) (lz : List F) (i : ℕ) : List S × List F :=
  ((d.set (2 * i) (dval 1 lz i • dval 1 d (2 * i))).set (2 * i + 1)
     (dval 1 lz i • dval 1 d (2 * i + 1)),
   if 2 * i < sz then
     ((lz.set i 1).set (2 * i) (dval 1 lz i * dval 1 (lz.set i 1) (2 * i))).set (2 * i + 1)
       (dval 1 lz i * dval 1 (lz.set i 1) (2 * i + 1))
   else lz.set i 1)

/-- The root-to-leaf push prefix of `set`/`operate`/`apply`/`range_apply`:
`for t in (1..=T).rev() { push(i >> t) }`, fueled by `T`. -/
def pushSeq (sz : ℕ) : ℕ → List S → List F → ℕ → List S × List F
| 0, d, lz, _ => (d, lz)
| t + 1, d, lz, i =>
  pushSeq sz t (push sz d lz (i / 2 ^ (t + 1))).1 (push sz d lz (i / 2 ^ (t + 1))).2 i

/-- The push prefix of `get`, with the source's skip condition
`if (i >> t) << t != i { push(i >> t) }`. -/
def pushSeqGet (sz : ℕ) : ℕ → List S → List F → ℕ → List S × List F
| 0, d, lz, _ => (d, lz)
| t + 1, d, lz, i =>
  if i / 2 ^ (t + 1) * 2 ^ (t + 1) ≠ i then
    pushSeqGet sz t (push sz d lz (i / 2 ^ (t + 1))).1 (push sz d lz (i / 2 ^ (t + 1))).2 i
  else pushSeqGet sz t d lz i

/-- `LazySegmentTree::set(i, x)` (precondition `i < len()`): push the
leaf's ancestors root-down, write the leaf, refresh the ancestors
bottom-up. -/
def set (st : LazyTree S F) (i : ℕ) (x : S) : LazyTree S F :=
  ⟨SegmentTree.climbUpd (i + size st) (i + size st)
     ((pushSeq (size st) st.log st.data st.lazy (i + size st)).1.set (i + size st) x),
   (pushSeq (size st) st.log st.data st.lazy (i + size st)).2, st.n, st.log⟩

/-- `LazySegmentTree::operate(i, x)` (precondition `i < len()`). -/
def operate (st : LazyTree S F) (i : ℕ) (x : S) : LazyTree S F :=
  ⟨SegmentTree.climbUpd (i + size st) (i + size st)
     ((pushSeq (size st) st.log st.data st.lazy (i + size st)).1.set (i + size st)
       (dval 1 (pushSeq (size st) st.log st.data st.lazy (i + size st)).1 (i + size st) * x)),
   (pushSeq (size st) st.log st.data st.lazy (i + size st)).2, st.n, st.log⟩

/-- `LazySegmentTree::apply(i, f)` (precondition `i < len()`). -/
def apply (st : LazyTree S F) (i : ℕ) (f : F) : LazyTree S F :=
  ⟨SegmentTree.climbUpd (i + size st) (i + size st)
     ((pushSeq (size st) st.log st.data st.lazy (i + size st)).1.set (i + size st)
       (f • dval 1 (pushSeq (size st) st.log st.data st.lazy (i + size st)).1 (i + size st))),
   (pushSeq (size st) st.log st.data st.lazy (i + size st)).2, st.n, st.log⟩

/-- The state mutation of `LazySegmentTree::get(i)` (it takes `&mut self`
and pushes the not-aligned ancestors). -/
def getState (st : LazyTree S F) (i : ℕ) : LazyTree S F :=
  ⟨(pushSeqGet (size st) st.log st.data st.lazy (i + size st)).1,
   (pushSeqGet (size st) st.log st.data st.lazy (i + size st)).2, st.n, st.log⟩

/-- The return value of `LazySegmentTree::get(i)`. -/
def get (st : LazyTree S F) (i : ℕ) : S :=
  dval 1 (getState st i).data (i + size st)

/-- The boundary-convergence loop of `range_apply`: act on the maximal
uncovered node on the lower side, composing into its pending action if it
is internal, until the stripped bounds meet. -/
def applyLoop (sz : ℕ) (f : F) : ℕ → ℕ → ℕ → List S → List F → List S × List F
| 0, _, _, d, lz => (d, lz)
| fuel + 1, l, r, d, lz =>
  if r ≤ l then
    if oddPart (l + 1) = r then
      (d.set l (f • dval 1 d l), if l < sz then lz.set l (f * dval 1 lz l) else lz)
    else
      applyLoop sz f fuel (oddPart (l + 1)) r (d.set l (f • dval 1 d l))
        (if l < sz then lz.set l (f * dval 1 lz l) else lz)
  else
    if l = oddPart (r - 1) then
      (d.set (r - 1) (f • dval 1 d (r - 1)),
       if r - 1 < sz then lz.set (r - 1) (f * dval 1 lz (r - 1)) else lz)
    else
      applyLoop sz f fuel l (oddPart (r - 1)) (d.set (r - 1) (f • dval 1 d (r - 1)))
        (if r - 1 < sz then lz.set (r - 1) (f * dval 1 lz (r - 1)) else lz)

/-- The pre-push phase of `range_apply`: push the strict ancestors of the
stripped left bound, then of the node just left of the stripped right
bound. -/
def raPre (st : LazyTree S F) (l r : ℕ) : List S × List F :=
  pushSeq (size st) (bitlen (oddPart (r + size st) - 1) - 1)
    (pushSeq (size st) (bitlen (oddPart (l + size st)) - 1)
      st.data st.lazy (oddPart (l + size st))).1
    (pushSeq (size st) (bitlen (oddPart (l + size st)) - 1)
      st.data st.lazy (oddPart (l + size st))).2
    (oddPart (r + size st) - 1)

/-- The pre-push plus convergence-loop phases of `range_apply`. -/
def raLoop (st : LazyTree S F) (l r : ℕ) (f : F) : List S × List F :=
  applyLoop (size st) f (l + size st + (r + size st))
    (oddPart (l + size st)) (oddPart (r + size st))
    (raPre st l r).1 (raPre st l r).2

/-- `LazySegmentTree::range_apply(l..r, f)` (preconditions
`l <= r <= len()`): strip both mapped bounds, pre-push the stripped
bounds' ancestors, run the convergence loop, refresh both boundary
ancestor chains. -/
def rangeApply (st : LazyTree S F) (l r : ℕ) (f : F) : LazyTree S F :=
  if l + size st = r + size st then st
  else
    ⟨SegmentTree.climbUpd (oddPart (r + size st) - 1) (oddPart (r + size st) - 1)
       (SegmentTree.climbUpd (oddPart (l + size st)) (oddPart (l + size st))
         (raLoop st l r f).1),
     (raLoop st l r f).2, st.n, st.log⟩

/-- The climb of `range_fold` that applies pending ancestor actions to an
accumulator: `while i > stop { acc = lazy[i].act(acc); i >>= 1 }`,
fueled. -/
def lazyClimb (lz : List F) : ℕ → ℕ → ℕ → S → S
| 0, _, _, acc => acc
| fuel + 1, i, stop, acc =>
  if stop < i then lazyClimb lz fuel (i / 2) stop (dval 1 lz i • acc) else acc

/-- The boundary-convergence loop of `range_fold`: absorb the maximal
uncovered node on the lower side into the matching accumulator, applying
the pending actions of the ancestors crossed by the bound's jump.
Returns the final `l` together with both accumulators. -/
def lfoldLoop (d : List S) (lz : List F) : ℕ → ℕ → ℕ → S → S → ℕ × S × S
| 0, l, _, left, right => (l, left, right)
| fuel + 1, l, r, left, right =>
  if r ≤ l then
    if oddPart (l + 1) = r then
      (oddPart (l + 1),
       lazyClimb lz (l / 2) (l / 2) (oddPart (l + 1) / 2) (left * dval 1 d l), right)
    else
      lfoldLoop d lz fuel (oddPart (l + 1)) r
        (lazyClimb lz (l / 2) (l / 2) (oddPart (l + 1) / 2) (left * dval 1 d l)) right
  else
    if l = oddPart (r - 1) then
      (l, left,
       lazyClimb lz (r / 2) (r / 2) (oddPart (r - 1) / 2) (dval 1 d (r - 1) * right))
    else
      lfoldLoop d lz fuel l (oddPart (r - 1)) left
        (lazyClimb lz (r / 2) (r / 2) (oddPart (r - 1) / 2) (dval 1 d (r - 1) * right))

/-- `LazySegmentTree::range_fold(l..r)` (preconditions `l <= r <= len()`,
read-only): converge the stripped bounds, then apply the pending actions
of all remaining ancestors of the meeting point to the combined result. -/
def rangeFold (st : LazyTree S F) (l r : ℕ) : S :=
  if l + size st = r + size st then 1
  else
    lazyClimb st.lazy
      ((lfoldLoop st.data st.lazy (l + size st + (r + size st))
        (oddPart (l + size st)) (oddPart (r + size st)) 1 1).1 / 2)
      ((lfoldLoop st.data st.lazy (l + size st + (r + size st))
        (oddPart (l + size st)) (oddPart (r + size st)) 1 1).1 / 2)
      0
      ((lfoldLoop st.data st.lazy (l + size st + (r + size st))
        (oddPart (l + size st)) (oddPart (r + size st)) 1 1).2.1 *
       (lfoldLoop st.data st.lazy (l + size st + (r + size st))
        (oddPart (l + size st)) (oddPart (r + size st)) 1 1).2.2)

/-- `LazySegmentTree::all_fold()`: an unchecked read of `data[1]` (always
in bounds here: `size >= 1`). -/
def allFold (st : LazyTree S F) : S := dval 1 st.data 1

/-- The mutating public interface, as data. -/
inductive LazyOp (S F : Type) where
| set (i : ℕ) (x : S)
| operate (i : ℕ) (x : S)
| apply (i : ℕ) (f : F)
| rangeApply (l r : ℕ) (f : F)

/-- Run a sequence of mutations on the tree. -/
def applyOps (st : LazyTree S F) : List (LazyOp S F) → LazyTree S F
| [] => st
| .set i x :: ops => applyOps (set st i x) ops
| .operate i x :: ops => applyOps (operate st i x) ops
| .apply i f :: ops => applyOps (apply st i f) ops
| .rangeApply l r f :: ops => applyOps (rangeApply st l r f) ops

/-- The brute-force elementwise effect of one mutation on a plain array. -/
def modelOp (a : List S) : LazyOp S F → List S
| .set i x => a.set i x
| .operate i x => a.set i (dval 1 a i * x)
| .apply i f => a.set i (f • dval 1 a i)
| .rangeApply l r f => a.mapIdx (fun j x => if l ≤ j ∧ j < r then f • x else x)

/-- Run a sequence of mutations on the brute-force array. -/
def modelOps (a : List S) : List (LazyOp S F) → List S
| [] => a
| op :: ops => modelOps (modelOp a op) ops

/-- Validity of one mutation for element count `n`. -/
def ValidOp (n : ℕ) : LazyOp S F → Prop
| .set i _ => i < n
| .operate i _ => i < n
| .apply i _ => i < n
| .rangeApply l r _ => l ≤ r ∧ r ≤ n

/-- States reachable by the public interface (`get` takes `&mut self` and
mutates through its pushes, so it is included). -/
inductive ReachableL : LazyTree S F → Prop
| new (n : ℕ) : ReachableL (new S F n)
| fromSlice (v : List S) : ReachableL (fromSlice v)
| set {st : LazyTree S F} (i : ℕ) (x : S) :
    ReachableL st → i < st.n → ReachableL (set st i x)
| operate {st : LazyTree S F} (i : ℕ) (x : S) :
    ReachableL st → i < st.n → ReachableL (operate st i x)
| apply {st : LazyTree S F} (i : ℕ) (f : F) :
    ReachableL st → i < st.n → ReachableL (apply st i f)
| rangeApply {st : LazyTree S F} (l r : ℕ) (f : F) :
    ReachableL st → l ≤ r → r ≤ st.n → ReachableL (rangeApply st l r f)
| get {st : LazyTree S F} (i : ℕ) :
    ReachableL st → i < st.n → ReachableL (getState st i)

end Lazy

lemma dval_set_one {α : Type} (d : α) (l : List α) (i : ℕ) :
    dval d (l.set i d) i = d := by
  by_cases h : i < l.length
  · exact dval_set_self d l i d h
  · unfold dval
    rw [List.set_eq_of_length_le (by omega)]
    exact List.getD_eq_default _ _ (by omega)

namespace Lazy

variable {S F : Type} [Monoid S] [Monoid F] [MulAction F S]

lemma push_fst (sz : ℕ) (d : List S) (lz : List F) (i : ℕ) :
    (push sz d lz i).1 =
      (d.set (2 * i) (dval 1 lz i • dval 1 d (2 * i))).set (2 * i + 1)
        (dval 1 lz i • dval 1 d (2 * i + 1)) := rfl

lemma push_snd (sz : ℕ) (d : List S) (lz : List F) (i : ℕ) :
    (push sz d lz i).2 =
      if 2 * i < sz then
        ((lz.set i 1).set (2 * i) (dval 1 lz i * dval 1 (lz.set i 1) (2 * i))).set
          (2 * i + 1) (dval 1 lz i * dval 1 (lz.set i 1) (2 * i + 1))
      else lz.set i 1 := rfl

/-- After a push, the pushed (positive) node's pending action is the
identity. -/
lemma push_lazy_self (sz : ℕ) (d : List S) (lz : List F) (i : ℕ) (h1 : 1 ≤ i) :
    dval 1 (push sz d lz i).2 i = 1 := by
  rw [push_snd]
  by_cases h2i : 2 * i < sz
  · rw [if_pos h2i, dval_set_ne _ _ _ (by omega), dval_set_ne _ _ _ (by omega),
      dval_set_one]
  · rw [if_neg h2i, dval_set_one]

end Lazy

/-- **C8.** The push primitive of the lazy segment tree is idempotent:
pushing an internal node twice with no intervening mutation yields the
same `data`/`lazy` state as pushing it once, for every state and under
only the §3 laws (identity action, compatibility, monoid laws). -/
theorem lazy_push_idempotent {S F : Type} [Monoid S] [Monoid F] [MulAction F S]
    (sz : ℕ) (d : List S) (lz : List F) (i : ℕ) (h1 : 1 ≤ i) (_h2 : i < sz) :
    Lazy.push sz (Lazy.push sz d lz i).1 (Lazy.push sz d lz i).2 i
      = Lazy.push sz d lz i := by
  have hid := Lazy.push_lazy_self sz d lz i h1
  refine Prod.ext ?_ ?_
  · rw [Lazy.push_fst (d := (Lazy.push sz d lz i).1), hid, one_smul, one_smul,
      set_dval_self, set_dval_self]
  · have hgen : ∀ L1 : List F, dval 1 L1 i = 1 →
        (Lazy.push sz (Lazy.push sz d lz i).1 L1 i).2 = L1 := by
      intro L1 hL1
      rw [Lazy.push_snd]
      by_cases h2i : 2 * i < sz
      · rw [if_pos h2i, hL1, one_mul, one_mul, set_dval_self, set_dval_self]
        nth_rewrite 1 [← hL1]
        exact set_dval_self 1 L1 i
      · rw [if_neg h2i]
        nth_rewrite 1 [← hL1]
        exact set_dval_self 1 L1 i
    exact hgen _ hid

theorem lazy_push_idempotent_witness :
    1 ≤ 1 ∧ 1 < 2 ∧
    Lazy.push 2 (Lazy.push 2 [1, 35, 5, 7] ([1, 3] : List ℕ) 1).1
        (Lazy.push 2 [1, 35, 5, 7] ([1, 3] : List ℕ) 1).2 1
      = Lazy.push 2 ([1, 35, 5, 7] : List ℕ) [1, 3] 1 :=
  ⟨by decide, by decide, lazy_push_idempotent 2 [1, 35, 5, 7] [1, 3] 1 (by decide) (by decide)⟩

/-! ## Claims C1, C3, C7: the lazy tree and the §3 laws

The `ℕ`-on-`ℕ` multiplicative scaling action (`f • s = f * s`, via
`Monoid.toMulAction`) satisfies both §3 action laws — identity action
and compatibility — but does **not** distribute over the value monoid's
operation (`f * (x * y) ≠ (f * x) * (f * y)` in general).  It witnesses
that the §3 laws alone do not make the lazy tree correct. -/

/-- **C3.** `get(i)` skips pushing every ancestor `i >> t` with
`(i >> t) << t == i` — i.e. exactly the aligned ancestors, which is
backwards — so after a `range_apply` covering `i` whose pending action
still sits on an aligned ancestor, `get(i)` returns the stale leaf.
Concretely: `from_slice([5, 7])`, `range_apply(0..2, 3)` (scaling
action), then `get(0)` returns `5`, while the logical value of element
`0` is `15`.  (`set(i, x)` pushes unconditionally, so the bug is in
`get` alone.) -/
theorem lazy_get_stale_after_range_apply :
    Lazy.get (Lazy.rangeApply (Lazy.fromSlice [5, 7] : LazyTree ℕ ℕ) 0 2 3) 0 = 5 ∧
    dval 1 (Lazy.modelOps [5, 7] [Lazy.LazyOp.rangeApply 0 2 3]) 0 = 15 ∧
    (5 : ℕ) ≠ 15 := by
  refine ⟨by decide, by decide, by decide⟩

/-- **C1, counterexample.** With the §3-lawful but non-distributive
scaling action, `from_slice([5, 7])` followed by `range_apply(0..2, 3)`
makes `range_fold(0..2)` return `3 * (5 * 7) = 105`, while the
brute-force left-to-right combine of the elementwise-updated array
`[15, 21]` is `315`.  The final two conjuncts check the §3 laws for the
instance. -/
theorem lazy_range_fold_not_monoid_correct :
    Lazy.rangeFold (Lazy.rangeApply (Lazy.fromSlice [5, 7] : LazyTree ℕ ℕ) 0 2 3) 0 2
      = 105 ∧
    sliceProd (Lazy.modelOps [5, 7] [Lazy.LazyOp.rangeApply 0 2 3]) 0 2 = 315 ∧
    (105 : ℕ) ≠ 315 ∧
    (∀ s : ℕ, (1 : ℕ) • s = s) ∧
    (∀ f g s : ℕ, (f * g) • s = f • (g • s)) :=
  ⟨by decide, by decide, by decide, fun s => one_smul ℕ s, fun f g s => mul_smul f g s⟩

/-- **C7, counterexample.** In the reachable state
`get-state(range_apply(from_slice([5, 7]), 0..2, 3), 1)` (the `get`
pushed the root), the root's stored aggregate is `105` but
`act(lazy[1], op(resolved left subtree, resolved right subtree))`
`= 1 • (15 * 21) = 315`: the claimed invariant fails for a §3-lawful
action, because pushing preserves it only when the action distributes
over `op`.  The §3 laws for the instance are checked as in C1. -/
theorem lazy_invariant_not_preserved :
    Lazy.ReachableL
      (Lazy.getState (Lazy.rangeApply (Lazy.fromSlice [5, 7] : LazyTree ℕ ℕ) 0 2 3) 1) ∧
    (Lazy.getState (Lazy.rangeApply (Lazy.fromSlice [5, 7] : LazyTree ℕ ℕ) 0 2 3) 1).lazy.length = 2 ∧
    dval 1 (Lazy.getState (Lazy.rangeApply (Lazy.fromSlice [5, 7] : LazyTree ℕ ℕ) 0 2 3) 1).data 1
      = 105 ∧
    dval 1 (Lazy.getState (Lazy.rangeApply (Lazy.fromSlice [5, 7] : LazyTree ℕ ℕ) 0 2 3) 1).lazy 1 •
      (dval 1 (Lazy.getState (Lazy.rangeApply (Lazy.fromSlice [5, 7] : LazyTree ℕ ℕ) 0 2 3) 1).data 2 *
       dval 1 (Lazy.getState (Lazy.rangeApply (Lazy.fromSlice [5, 7] : LazyTree ℕ ℕ) 0 2 3) 1).data 3)
      = 315 ∧
    (105 : ℕ) ≠ 315 ∧
    (∀ s : ℕ, (1 : ℕ) • s = s) ∧
    (∀ f g s : ℕ, (f * g) • s = f • (g • s)) :=
  ⟨Lazy.ReachableL.get 1
      (Lazy.ReachableL.rangeApply 0 2 3 (Lazy.ReachableL.fromSlice [5, 7])
        (by decide) (by decide)) (by decide),
   by decide, by decide, by decide, by decide,
   fun s => one_smul ℕ s, fun f g s => mul_smul f g s⟩

/-! ## Semantic machinery for the lazy tree

`ordProd` is the ordered (left-to-right) product of `g` over `[lo, hi)`;
`upRange lz j s k` applies the pending actions of `j`'s ancestors at
heights `s, s+1, ..., s+k-1` (outermost = highest); `nodeProd` is the
fully-resolved aggregate of a node (its own pending action applied to
the resolved aggregates of its children); `aVal` is the logical value of
a leaf (all its ancestors' pending actions applied to its stored
value). -/

namespace Lazy

variable {S F : Type} [Monoid S] [Monoid F] [MulAction F S]

def ordProd (lo hi : ℕ) (g : ℕ → S) : S :=
  ((List.range (hi - lo)).map (fun k => g (lo + k))).prod

lemma ordProd_self (lo : ℕ) (g : ℕ → S) : ordProd lo lo g = 1 := by
  simp [ordProd]

lemma ordProd_succ_hi (lo hi : ℕ) (g : ℕ → S) (h : lo ≤ hi) :
    ordProd lo (hi + 1) g = ordProd lo hi g * g hi := by
  rw [ordProd, ordProd, show hi + 1 - lo = (hi - lo) + 1 by omega, List.range_succ,
    List.map_append, List.prod_append]
  simp [show lo + (hi - lo) = hi by omega]

lemma ordProd_split (lo mid hi : ℕ) (g : ℕ → S) (h1 : lo ≤ mid) (h2 : mid ≤ hi) :
    ordProd lo hi g = ordProd lo mid g * ordProd mid hi g := by
  induction hi, h2 using Nat.le_induction with
  | base => rw [ordProd_self, mul_one]
  | succ hi hmh ih =>
    rw [ordProd_succ_hi lo hi g (by omega), ordProd_succ_hi mid hi g hmh, ih, mul_assoc]

lemma ordProd_congr (lo hi : ℕ) (g g' : ℕ → S)
    (h : ∀ j, lo ≤ j → j < hi → g j = g' j) : ordProd lo hi g = ordProd lo hi g' := by
  rcases le_or_lt lo hi with hle | hlt
  · induction hi, hle using Nat.le_induction with
    | base => rw [ordProd_self, ordProd_self]
    | succ hi hmh ih =>
      rw [ordProd_succ_hi lo hi g hmh, ordProd_succ_hi lo hi g' hmh,
        ih (fun j h1 h2 => h j h1 (by omega)), h hi hmh (by omega)]
  · rw [ordProd, ordProd, show hi - lo = 0 by omega]
    rfl

lemma ordProd_single (lo : ℕ) (g : ℕ → S) : ordProd lo (lo + 1) g = g lo := by
  rw [ordProd_succ_hi lo lo g le_rfl, ordProd_self, one_mul]

lemma smul_ordProd (hdist : ∀ (f : F) (x y : S), f • (x * y) = f • x * f • y)
    (f : F) (lo hi : ℕ) (g : ℕ → S) (h : lo < hi) :
    f • ordProd lo hi g = ordProd lo hi (fun j => f • g j) := by
  induction hi, h using Nat.le_induction with
  | base => rw [ordProd_single, ordProd_single]
  | succ hi hmh ih =>
    rw [ordProd_succ_hi lo hi g (by omega), ordProd_succ_hi lo hi _ (by omega),
      hdist, ih]

def upRange (lz : List F) (j : ℕ) : ℕ → ℕ → S → S
| _, 0, acc => acc
| s, k + 1, acc => dval 1 lz (j / 2 ^ (s + k)) • upRange lz j s k acc

/-- Apply the pending actions of `j`'s ancestors at heights `1, ..., T`
(outermost = highest). -/
def upTo (lz : List F) (j : ℕ) (T : ℕ) (acc : S) : S := upRange lz j 1 T acc

lemma upRange_top (lz : List F) (j s k : ℕ) (acc : S) :
    upRange lz j s (k + 1) acc = dval 1 lz (j / 2 ^ (s + k)) • upRange lz j s k acc := rfl

lemma upRange_bottom (lz : List F) (j : ℕ) :
    ∀ (k s : ℕ) (acc : S),
      upRange lz j s (k + 1) acc = upRange lz j (s + 1) k (dval 1 lz (j / 2 ^ s) • acc) := by
  intro k
  induction k with
  | zero => intro s acc; rfl
  | succ k ih =>
    intro s acc
    rw [upRange_top, ih s acc, show s + (k + 1) = (s + 1) + k by omega, ← upRange_top]

lemma upRange_compose (lz : List F) (j : ℕ) :
    ∀ (k' k s : ℕ) (acc : S),
      upRange lz j (s + k) k' (upRange lz j s k acc) = upRange lz j s (k + k') acc := by
  intro k'
  induction k' with
  | zero => intro k s acc; rfl
  | succ k' ih =>
    intro k s acc
    rw [upRange_top, ih, show s + k + k' = s + (k + k') by omega, ← upRange_top,
      show k + (k' + 1) = (k + k') + 1 by omega]

lemma upRange_congr (lz lz' : List F) (j : ℕ) :
    ∀ (k s : ℕ) (acc : S),
      (∀ t, s ≤ t → t < s + k → dval 1 lz (j / 2 ^ t) = dval 1 lz' (j / 2 ^ t)) →
      upRange lz j s k acc = upRange lz' j s k acc := by
  intro k
  induction k with
  | zero => intro s acc _; rfl
  | succ k ih =>
    intro s acc h
    rw [upRange_top, upRange_top, h (s + k) (by omega) (by omega),
      ih s acc (fun t h1 h2 => h t h1 (by omega))]

lemma upRange_congr_node (lz : List F) (j j' : ℕ) :
    ∀ (k s : ℕ) (acc : S),
      (∀ t, s ≤ t → t < s + k → j / 2 ^ t = j' / 2 ^ t) →
      upRange lz j s k acc = upRange lz j' s k acc := by
  intro k
  induction k with
  | zero => intro s acc _; rfl
  | succ k ih =>
    intro s acc h
    rw [upRange_top, upRange_top, h (s + k) (by omega) (by omega),
      ih s acc (fun t h1 h2 => h t h1 (by omega))]

lemma upRange_one (lz : List F) (j : ℕ) :
    ∀ (k s : ℕ) (acc : S),
      (∀ t, s ≤ t → t < s + k → dval 1 lz (j / 2 ^ t) = 1) →
      upRange lz j s k acc = acc := by
  intro k
  induction k with
  | zero => intro s acc _; rfl
  | succ k ih =>
    intro s acc h
    rw [upRange_top, h (s + k) (by omega) (by omega), one_smul,
      ih s acc (fun t h1 h2 => h t h1 (by omega))]

/-- The logical value of the leaf slot `j`: all pending ancestor actions
applied (root outermost) to the stored value. -/
def aVal (LOG : ℕ) (d : List S) (lz : List F) (j : ℕ) : S :=
  upTo lz j LOG (dval 1 d j)

/-- Fully-resolved node aggregates, fueled (`fuel = sz` suffices). -/
def nodeProdAux (sz : ℕ) (d : List S) (lz : List F) : ℕ → ℕ → S
| 0, i => if i = 0 then 1 else if sz ≤ i then dval 1 d i else 1
| fuel + 1, i =>
  if i = 0 then 1
  else if sz ≤ i then dval 1 d i
  else dval 1 lz i • (nodeProdAux sz d lz fuel (2 * i) * nodeProdAux sz d lz fuel (2 * i + 1))

def nodeProd (sz : ℕ) (d : List S) (lz : List F) (i : ℕ) : S :=
  nodeProdAux sz d lz sz i

lemma nodeProdAux_zero_leaf (sz : ℕ) (d : List S) (lz : List F) (i : ℕ)
    (hi : i ≠ 0) (hle : sz ≤ i) : nodeProdAux sz d lz 0 i = dval 1 d i := by
  rw [nodeProdAux, if_neg hi, if_pos hle]

lemma nodeProdAux_zero_int (sz : ℕ) (d : List S) (lz : List F) (i : ℕ)
    (hi : i ≠ 0) (hlt : ¬ sz ≤ i) : nodeProdAux sz d lz 0 i = 1 := by
  rw [nodeProdAux, if_neg hi, if_neg hlt]

lemma nodeProdAux_succ_leaf (sz : ℕ) (d : List S) (lz : List F) (fuel i : ℕ)
    (hi : i ≠ 0) (hle : sz ≤ i) : nodeProdAux sz d lz (fuel + 1) i = dval 1 d i := by
  rw [nodeProdAux, if_neg hi, if_pos hle]

lemma nodeProdAux_succ_int (sz : ℕ) (d : List S) (lz : List F) (fuel i : ℕ)
    (hi : i ≠ 0) (hlt : ¬ sz ≤ i) :
    nodeProdAux sz d lz (fuel + 1) i =
      dval 1 lz i •
        (nodeProdAux sz d lz fuel (2 * i) * nodeProdAux sz d lz fuel (2 * i + 1)) := by
  rw [nodeProdAux, if_neg hi, if_neg hlt]

lemma nodeProdAux_congr_fuel (sz : ℕ) (d : List S) (lz : List F) :
    ∀ (f1 f2 i : ℕ), 1 ≤ i → sz ≤ 2 ^ f1 * i → sz ≤ 2 ^ f2 * i →
      nodeProdAux sz d lz f1 i = nodeProdAux sz d lz f2 i := by
  intro f1
  induction f1 with
  | zero =>
    intro f2 i hi h1 h2
    have hle : sz ≤ i := by simpa using h1
    cases f2 with
    | zero => rfl
    | succ f2 =>
      rw [nodeProdAux_zero_leaf sz d lz i (by omega) hle,
        nodeProdAux_succ_leaf sz d lz f2 i (by omega) hle]
  | succ f1 ih =>
    intro f2 i hi h1 h2
    by_cases hle : sz ≤ i
    · cases f2 with
      | zero =>
        rw [nodeProdAux_zero_leaf sz d lz i (by omega) hle,
          nodeProdAux_succ_leaf sz d lz f1 i (by omega) hle]
      | succ f2 =>
        rw [nodeProdAux_succ_leaf sz d lz f1 i (by omega) hle,
          nodeProdAux_succ_leaf sz d lz f2 i (by omega) hle]
    · cases f2 with
      | zero =>
        exfalso
        have : sz ≤ i := by simpa using h2
        omega
      | succ f2 =>
        rw [nodeProdAux_succ_int sz d lz f1 i (by omega) hle,
          nodeProdAux_succ_int sz d lz f2 i (by omega) hle,
          ih f2 (2 * i) (by omega)
            (by rw [pow_succ] at h1; exact le_of_le_of_eq h1 (by ring))
            (by rw [pow_succ] at h2; exact le_of_le_of_eq h2 (by ring)),
          ih f2 (2 * i + 1) (by omega)
            (by rw [pow_succ] at h1; nlinarith [Nat.one_le_two_pow (n := f1)])
            (by rw [pow_succ] at h2; nlinarith [Nat.one_le_two_pow (n := f2)])]

lemma nodeProd_leaf (sz : ℕ) (d : List S) (lz : List F) (i : ℕ)
    (hi : i ≠ 0) (hle : sz ≤ i) : nodeProd sz d lz i = dval 1 d i := by
  rw [nodeProd]
  cases sz with
  | zero => exact nodeProdAux_zero_leaf 0 d lz i hi hle
  | succ f => exact nodeProdAux_succ_leaf (f + 1) d lz f i hi hle

lemma nodeProd_internal (sz : ℕ) (d : List S) (lz : List F) (i : ℕ)
    (hi : 1 ≤ i) (hlt : i < sz) :
    nodeProd sz d lz i =
      dval 1 lz i • (nodeProd sz d lz (2 * i) * nodeProd sz d lz (2 * i + 1)) := by
  obtain ⟨f, hf⟩ : ∃ f, sz = f + 1 := ⟨sz - 1, by omega⟩
  have h2f : f + 1 ≤ 2 ^ f * 2 := by
    have h := Nat.lt_two_pow (n := f)
    omega
  have hc1 : nodeProdAux sz d lz f (2 * i) = nodeProdAux sz d lz sz (2 * i) := by
    refine nodeProdAux_congr_fuel sz d lz f sz (2 * i) (by omega) ?_ ?_
    · rw [hf]
      calc f + 1 ≤ 2 ^ f * 2 := h2f
      _ ≤ 2 ^ f * (2 * i) := Nat.mul_le_mul_left _ (by omega)
    · rw [hf]
      calc f + 1 ≤ 2 ^ f * 2 := h2f
      _ ≤ 2 ^ (f + 1) * (2 * i) := by
        rw [pow_succ]
        nlinarith [Nat.one_le_two_pow (n := f)]
  have hc2 : nodeProdAux sz d lz f (2 * i + 1) = nodeProdAux sz d lz sz (2 * i + 1) := by
    refine nodeProdAux_congr_fuel sz d lz f sz (2 * i + 1) (by omega) ?_ ?_
    · rw [hf]
      calc f + 1 ≤ 2 ^ f * 2 := h2f
      _ ≤ 2 ^ f * (2 * i + 1) := Nat.mul_le_mul_left _ (by omega)
    · rw [hf]
      calc f + 1 ≤ 2 ^ f * 2 := h2f
      _ ≤ 2 ^ (f + 1) * (2 * i + 1) := by
        rw [pow_succ]
        nlinarith [Nat.one_le_two_pow (n := f)]
  calc nodeProd sz d lz i = nodeProdAux sz d lz (f + 1) i := by rw [nodeProd, hf]
  _ = dval 1 lz i • (nodeProdAux sz d lz f (2 * i) * nodeProdAux sz d lz f (2 * i + 1)) :=
    nodeProdAux_succ_int sz d lz f i (by omega) (by omega)
  _ = dval 1 lz i • (nodeProd sz d lz (2 * i) * nodeProd sz d lz (2 * i + 1)) := by
    rw [hc1, hc2, nodeProd, nodeProd]

/-- `nodeProd` depends only on the entries inside the node's subtree
(leaf `data` and internal `lazy`). -/
lemma nodeProdAux_congr_subtree (sz : ℕ) (d d' : List S) (lz lz' : List F) :
    ∀ (fuel i : ℕ), 1 ≤ i →
      (∀ w, (∃ t, w / 2 ^ t = i) → sz ≤ w → dval 1 d w = dval 1 d' w) →
      (∀ w, (∃ t, w / 2 ^ t = i) → 1 ≤ w → w < sz → dval 1 lz w = dval 1 lz' w) →
      nodeProdAux sz d lz fuel i = nodeProdAux sz d' lz' fuel i := by
  intro fuel
  induction fuel with
  | zero =>
    intro i hi hd hlz
    by_cases hle : sz ≤ i
    · rw [nodeProdAux_zero_leaf sz d lz i (by omega) hle,
        nodeProdAux_zero_leaf sz d' lz' i (by omega) hle, hd i ⟨0, by simp⟩ hle]
    · rw [nodeProdAux_zero_int sz d lz i (by omega) hle,
        nodeProdAux_zero_int sz d' lz' i (by omega) hle]
  | succ fuel ih =>
    intro i hi hd hlz
    by_cases hle : sz ≤ i
    · rw [nodeProdAux_succ_leaf sz d lz fuel i (by omega) hle,
        nodeProdAux_succ_leaf sz d' lz' fuel i (by omega) hle, hd i ⟨0, by simp⟩ hle]
    · rw [nodeProdAux_succ_int sz d lz fuel i (by omega) hle,
        nodeProdAux_succ_int sz d' lz' fuel i (by omega) hle,
        hlz i ⟨0, by simp⟩ hi (by omega)]
      rw [ih (2 * i) (by omega) ?hd1 ?hl1, ih (2 * i + 1) (by omega) ?hd2 ?hl2]
      case hd1 =>
        intro w hw hwle
        obtain ⟨t, ht⟩ := hw
        refine hd w ⟨t + 1, ?_⟩ hwle
        rw [pow_succ, ← Nat.div_div_eq_div_mul, ht]
        omega
      case hl1 =>
        intro w hw hw1 hw2
        obtain ⟨t, ht⟩ := hw
        refine hlz w ⟨t + 1, ?_⟩ hw1 hw2
        rw [pow_succ, ← Nat.div_div_eq_div_mul, ht]
        omega
      case hd2 =>
        intro w hw hwle
        obtain ⟨t, ht⟩ := hw
        refine hd w ⟨t + 1, ?_⟩ hwle
        rw [pow_succ, ← Nat.div_div_eq_div_mul, ht]
        omega
      case hl2 =>
        intro w hw hw1 hw2
        obtain ⟨t, ht⟩ := hw
        refine hlz w ⟨t + 1, ?_⟩ hw1 hw2
        rw [pow_succ, ← Nat.div_div_eq_div_mul, ht]
        omega

lemma nodeProd_congr_subtree (sz : ℕ) (d d' : List S) (lz lz' : List F) (i : ℕ)
    (hi : 1 ≤ i)
    (hd : ∀ w, (∃ t, w / 2 ^ t = i) → sz ≤ w → dval 1 d w = dval 1 d' w)
    (hlz : ∀ w, (∃ t, w / 2 ^ t = i) → 1 ≤ w → w < sz → dval 1 lz w = dval 1 lz' w) :
    nodeProd sz d lz i = nodeProd sz d' lz' i :=
  nodeProdAux_congr_subtree sz d d' lz lz' sz i hi hd hlz

lemma bitlenAux_spec : ∀ (fuel x : ℕ), x ≤ fuel → 1 ≤ x →
    1 ≤ bitlenAux fuel x ∧ 2 ^ bitlenAux fuel x ≤ 2 * x ∧ x < 2 ^ bitlenAux fuel x := by
  intro fuel
  induction fuel with
  | zero => intro x h1 h2; omega
  | succ fuel ih =>
    intro x hle hx
    rw [bitlenAux, if_neg (by omega)]
    by_cases hx2 : x ≤ 1
    · have hx1 : x = 1 := by omega
      subst hx1
      have h0 : bitlenAux fuel 0 = 0 := by
        cases fuel with
        | zero => rfl
        | succ f => rw [bitlenAux, if_pos rfl]
      rw [show (1 : ℕ) / 2 = 0 by omega, h0]
      norm_num
    · obtain ⟨hb1, hb2, hb3⟩ := ih (x / 2) (by omega) (by omega)
      refine ⟨by omega, ?_, ?_⟩
      · rw [pow_succ]
        omega
      · rw [pow_succ]
        omega

lemma bitlen_spec (x : ℕ) (hx : 1 ≤ x) :
    1 ≤ bitlen x ∧ 2 ^ bitlen x ≤ 2 * x ∧ x < 2 ^ bitlen x :=
  bitlenAux_spec x x le_rfl hx

lemma bitlen_div_top (x : ℕ) (hx : 1 ≤ x) : x / 2 ^ (bitlen x - 1) = 1 := by
  obtain ⟨h1, h2, h3⟩ := bitlen_spec x hx
  have hlow : 2 ^ (bitlen x - 1) ≤ x := by
    have : 2 ^ bitlen x = 2 ^ (bitlen x - 1) * 2 := by
      rw [← pow_succ]
      congr 1
      omega
    omega
  have hup : x < 2 ^ (bitlen x - 1) * 2 := by
    have : 2 ^ bitlen x = 2 ^ (bitlen x - 1) * 2 := by
      rw [← pow_succ]
      congr 1
      omega
    omega
  have := Nat.div_eq_of_lt_le (by omega : 1 * 2 ^ (bitlen x - 1) ≤ x)
    (by omega : x < (1 + 1) * 2 ^ (bitlen x - 1))
  exact this

lemma bitlen_div_zero (x t : ℕ) (ht : bitlen x ≤ t) : x / 2 ^ t = 0 := by
  rcases Nat.eq_zero_or_pos x with h0 | hpos
  · subst h0
    simp
  · obtain ⟨-, -, h3⟩ := bitlen_spec x hpos
    refine Nat.div_eq_of_lt ?_
    calc x < 2 ^ bitlen x := h3
    _ ≤ 2 ^ t := Nat.pow_le_pow_right (by norm_num) ht

lemma div_interval {c e j : ℕ} (h1 : c * 2 ^ e ≤ j) (h2 : j < (c + 1) * 2 ^ e) :
    j / 2 ^ e = c :=
  Nat.div_eq_of_lt_le h1 h2

lemma div_div_pow (j a b : ℕ) : j / 2 ^ a / 2 ^ b = j / 2 ^ (a + b) := by
  rw [Nat.div_div_eq_div_mul, ← pow_add]

/-- The fully-resolved aggregate of a node is the ordered product over
its leaf interval of the stored leaf values with the pending actions of
the ancestors up to (and including) the node applied — provided the
action distributes over the value operation. -/
lemma nodeProd_eq_ordProd
    (hdist : ∀ (f : F) (x y : S), f • (x * y) = f • x * f • y)
    (sz : ℕ) (d : List S) (lz : List F) :
    ∀ (e c : ℕ), 1 ≤ c → sz ≤ c * 2 ^ e → (c + 1) * 2 ^ e ≤ 2 * sz →
      nodeProd sz d lz c
        = ordProd (c * 2 ^ e) ((c + 1) * 2 ^ e) (fun j => upTo lz j e (dval 1 d j)) := by
  intro e
  induction e with
  | zero =>
    intro c hc h1 h2
    rw [pow_zero, mul_one, mul_one, ordProd_single,
      nodeProd_leaf sz d lz c (by omega) (by omega)]
    rfl
  | succ e ih =>
    intro c hc h1 h2
    have hpow : (0:ℕ) < 2 ^ e := Nat.pos_pow_of_pos e (by norm_num)
    have hclt : c < sz := by
      by_contra hge
      push_neg at hge
      have : (c + 1) * 2 ^ (e + 1) ≥ (sz + 1) * 2 ^ (e + 1) := by
        exact Nat.mul_le_mul_right _ (by omega)
      have h3 : (sz + 1) * 2 ^ (e + 1) ≥ (sz + 1) * 2 := by
        refine Nat.mul_le_mul_left _ ?_
        calc (2:ℕ) = 2 ^ 1 := by norm_num
        _ ≤ 2 ^ (e + 1) := Nat.pow_le_pow_right (by norm_num) (by omega)
      omega
    have hch1 : sz ≤ 2 * c * 2 ^ e := by
      calc sz ≤ c * 2 ^ (e + 1) := h1
      _ = 2 * c * 2 ^ e := by ring
    have hch2 : (2 * c + 1) * 2 ^ e ≤ 2 * sz := by
      have h5 : (2 * c + 1) * 2 ^ e ≤ (c + 1) * 2 ^ (e + 1) := by
        have h6 : (c + 1) * 2 ^ (e + 1) = (2 * c + 2) * 2 ^ e := by ring
        rw [h6]
        exact Nat.mul_le_mul_right _ (by omega)
      omega
    have hch3 : sz ≤ (2 * c + 1) * 2 ^ e := by
      calc sz ≤ 2 * c * 2 ^ e := hch1
      _ ≤ (2 * c + 1) * 2 ^ e := Nat.mul_le_mul_right _ (by omega)
    have hch4 : (2 * c + 1 + 1) * 2 ^ e ≤ 2 * sz := by
      calc (2 * c + 1 + 1) * 2 ^ e = (c + 1) * 2 ^ (e + 1) := by ring
      _ ≤ 2 * sz := h2
    rw [nodeProd_internal sz d lz c hc hclt,
      ih (2 * c) (by omega) hch1 hch2,
      ih (2 * c + 1) (by omega) hch3 hch4]
    have hmid1 : 2 * c * 2 ^ e = c * 2 ^ (e + 1) := by ring
    have hmid2 : (2 * c + 1 + 1) * 2 ^ e = (c + 1) * 2 ^ (e + 1) := by ring
    have hmid3 : (2 * c + 1) * 2 ^ e = c * 2 ^ (e + 1) + 2 ^ e := by ring
    rw [hmid1, hmid2, ← ordProd_split _ _ _ _ (by omega)
      (by
        have h6 : (c + 1) * 2 ^ (e + 1) = (2 * c + 2) * 2 ^ e := by ring
        rw [h6]
        exact Nat.mul_le_mul_right _ (by omega))]
    rw [smul_ordProd hdist _ _ _ _ (by
      have : c * 2 ^ (e + 1) < (c + 1) * 2 ^ (e + 1) := by
        have h5 : (0:ℕ) < 2 ^ (e + 1) := Nat.pos_pow_of_pos _ (by norm_num)
        exact (Nat.mul_lt_mul_right h5).mpr (by omega)
      omega)]
    refine ordProd_congr _ _ _ _ ?_
    intro j hj1 hj2
    have hdivj : j / 2 ^ (e + 1) = c := div_interval hj1 hj2
    show dval 1 lz c • upTo lz j e (dval 1 d j) = upTo lz j (e + 1) (dval 1 d j)
    rw [upTo, upTo, upRange_top, show 1 + e = e + 1 by omega, hdivj]

lemma lazyClimb_halt (lz : List F) (fuel i stop : ℕ) (acc : S) (h : ¬ stop < i) :
    lazyClimb lz fuel i stop acc = acc := by
  cases fuel with
  | zero => rfl
  | succ fuel => rw [lazyClimb, if_neg h]

lemma lazyClimb_step (lz : List F) (fuel i stop : ℕ) (acc : S) (h : stop < i) :
    lazyClimb lz (fuel + 1) i stop acc
      = lazyClimb lz fuel (i / 2) stop (dval 1 lz i • acc) := by
  rw [lazyClimb, if_pos h]

/-- The `range_fold` climbs apply exactly the pending actions of the
ancestors at heights `s, ..., s+k-1` of `j` when the stop node sits at
height `s+k` and the intermediate ancestors are strictly above it. -/
lemma climb_chain (lz : List F) (j : ℕ) :
    ∀ (k s fuel : ℕ) (stop : ℕ) (acc : S),
      stop = j / 2 ^ (s + k) → (∀ t, s ≤ t → t < s + k → stop < j / 2 ^ t) →
      k ≤ fuel →
      lazyClimb lz fuel (j / 2 ^ s) stop acc = upRange lz j s k acc := by
  intro k
  induction k with
  | zero =>
    intro s fuel stop acc hstop _ _
    rw [Nat.add_zero] at hstop
    rw [upRange]
    exact lazyClimb_halt lz fuel _ _ acc (by omega)
  | succ k ih =>
    intro s fuel stop acc hstop hstrict hfuel
    obtain ⟨f, rfl⟩ : ∃ f, fuel = f + 1 := ⟨fuel - 1, by omega⟩
    have hdd : j / 2 ^ s / 2 = j / 2 ^ (s + 1) := by
      rw [Nat.div_div_eq_div_mul, ← pow_succ]
    rw [lazyClimb_step lz f _ _ acc (hstrict s (by omega) (by omega)), hdd,
      ih (s + 1) f stop _ (by rw [hstop, show s + (k + 1) = (s + 1) + k by omega])
        (fun t h1 h2 => hstrict t (by omega) (by omega)) (by omega),
      ← upRange_bottom]

/-- Pointwise effect of `push` on `data` (bounds keep the writes real). -/
lemma push_data_val (sz : ℕ) (d : List S) (lz : List F) (p w : ℕ)
    (hlen : 2 * p + 1 < d.length) :
    dval 1 (push sz d lz p).1 w =
      if w = 2 * p ∨ w = 2 * p + 1 then dval 1 lz p • dval 1 d w
      else dval 1 d w := by
  rw [push_fst]
  by_cases h1 : w = 2 * p + 1
  · rw [if_pos (Or.inr h1), h1, dval_set_self 1 _ _ _ (by simpa using hlen)]
  · rw [dval_set_ne 1 _ _ (fun h => h1 h.symm)]
    by_cases h2 : w = 2 * p
    · rw [if_pos (Or.inl h2), h2, dval_set_self 1 _ _ _ (by omega)]
    · rw [if_neg (by tauto), dval_set_ne 1 _ _ (fun h => h2 h.symm)]

lemma push_lazy_other (sz : ℕ) (d : List S) (lz : List F) (p w : ℕ)
    (h1 : w ≠ p) (h2 : w ≠ 2 * p) (h3 : w ≠ 2 * p + 1) :
    dval 1 (push sz d lz p).2 w = dval 1 lz w := by
  rw [push_snd]
  by_cases hc : 2 * p < sz
  · rw [if_pos hc, dval_set_ne 1 _ _ (fun h => h3 h.symm),
      dval_set_ne 1 _ _ (fun h => h2 h.symm), dval_set_ne 1 _ _ (fun h => h1 h.symm)]
  · rw [if_neg hc, dval_set_ne 1 _ _ (fun h => h1 h.symm)]

lemma push_lazy_child (sz : ℕ) (d : List S) (lz : List F) (p w : ℕ)
    (hp : 1 ≤ p) (hc : 2 * p < sz) (hw : w = 2 * p ∨ w = 2 * p + 1)
    (hlen : 2 * p + 1 < lz.length) :
    dval 1 (push sz d lz p).2 w = dval 1 lz p * dval 1 lz w := by
  rw [push_snd, if_pos hc]
  rcases hw with hw | hw
  · rw [dval_set_ne 1 _ _ (by omega), hw,
      dval_set_self 1 _ _ _ (by simpa using (by omega : 2 * p < lz.length)),
      dval_set_ne 1 _ _ (by omega)]
  · rw [hw, dval_set_self 1 _ _ _ (by simpa using hlen),
      dval_set_ne 1 _ _ (by omega)]

lemma push_len_fst (sz : ℕ) (d : List S) (lz : List F) (p : ℕ) :
    (push sz d lz p).1.length = d.length := by
  rw [push_fst]
  simp

lemma push_len_snd (sz : ℕ) (d : List S) (lz : List F) (p : ℕ) :
    (push sz d lz p).2.length = lz.length := by
  rw [push_snd]
  by_cases hc : 2 * p < sz
  · rw [if_pos hc]
    simp
  · rw [if_neg hc]
    simp

/-- Padding leaves hold the identity. -/
def PadData (sz n : ℕ) (d : List S) : Prop :=
  ∀ j, n ≤ j → j < sz → dval 1 d (sz + j) = 1

/-- Every node whose subtree reaches into the padding has an identity
pending action. -/
def PadLazy (sz n : ℕ) (lz : List F) : Prop :=
  ∀ i e, 1 ≤ i → sz ≤ i * 2 ^ e → (i + 1) * 2 ^ e ≤ 2 * sz →
    sz + n < (i + 1) * 2 ^ e → dval 1 lz i = 1

/-- The main aggregate invariant, away from an exception set: every node
outside `P` stores its fully-resolved aggregate. -/
def Dex (sz : ℕ) (d : List S) (lz : List F) (P : ℕ → Prop) : Prop :=
  ∀ v, 1 ≤ v → v < 2 * sz → ¬ P v → dval 1 d v = nodeProd sz d lz v

lemma pow2_next_multiple {a e m : ℕ} (he : e ≤ m) (h : a * 2 ^ e < 2 ^ m) :
    (a + 1) * 2 ^ e ≤ 2 ^ m := by
  have hsplit : (2:ℕ) ^ m = 2 ^ (m - e) * 2 ^ e := by
    rw [← pow_add]
    congr 1
    omega
  have hpow : (0:ℕ) < 2 ^ e := Nat.pos_pow_of_pos e (by norm_num)
  rw [hsplit] at h ⊢
  have ha : a < 2 ^ (m - e) := by
    by_contra hge
    push_neg at hge
    exact absurd (Nat.mul_le_mul_right (2 ^ e) hge) (by omega)
  exact Nat.mul_le_mul_right _ (by omega)

/-- If a child node's interval triggers the `PadLazy` condition, so does
its parent's. -/
lemma padlazy_parent (LOG : ℕ) (n : ℕ) (_hn : n ≤ 2 ^ LOG) {c e : ℕ}
    (hc2 : 2 ^ LOG ≤ c * 2 ^ e) (hc3 : (c + 1) * 2 ^ e ≤ 2 * 2 ^ LOG)
    (hc4 : 2 ^ LOG + n < (c + 1) * 2 ^ e) (hcge2 : 2 ≤ c) :
    1 ≤ c / 2 ∧ 2 ^ LOG ≤ c / 2 * 2 ^ (e + 1) ∧
      (c / 2 + 1) * 2 ^ (e + 1) ≤ 2 * 2 ^ LOG ∧
      2 ^ LOG + n < (c / 2 + 1) * 2 ^ (e + 1) := by
  have hpow : (0:ℕ) < 2 ^ e := Nat.pos_pow_of_pos e (by norm_num)
  have hub : (c / 2 + 1) * 2 ^ (e + 1) = (c / 2 * 2 + 2) * 2 ^ e := by
    rw [pow_succ]
    ring
  have hchild_ub : (c + 1) * 2 ^ e ≤ (c / 2 + 1) * 2 ^ (e + 1) := by
    rw [hub]
    exact Nat.mul_le_mul_right _ (by omega)
  have hlb : c / 2 * 2 ^ (e + 1) = (c / 2 * 2) * 2 ^ e := by
    rw [pow_succ]
    ring
  have he1 : e + 1 ≤ LOG + 1 := by
    have h2e : (2:ℕ) ^ (e + 1) ≤ 2 ^ (LOG + 1) := by
      calc (2:ℕ) ^ (e + 1) = 2 * 2 ^ e := by ring
      _ ≤ (c + 1) * 2 ^ e := Nat.mul_le_mul_right _ (by omega)
      _ ≤ 2 * 2 ^ LOG := hc3
      _ = 2 ^ (LOG + 1) := by ring
    exact (Nat.pow_le_pow_iff_right (by norm_num)).mp h2e
  refine ⟨by omega, ?_, ?_, by omega⟩
  · -- lower bound for the parent interval
    rcases Nat.even_or_odd c with ⟨m, hm⟩ | ⟨m, hm⟩
    · have hdiv : c / 2 = m := by omega
      rw [hdiv, show m * 2 ^ (e + 1) = 2 * m * 2 ^ e by rw [pow_succ]; ring,
        show 2 * m = c by omega]
      exact hc2
    · have hdiv : c / 2 = m := by omega
      rw [hdiv]
      by_contra hlt
      push_neg at hlt
      by_cases heL : e + 1 ≤ LOG
      · have h2 := pow2_next_multiple heL hlt
        have h3 : (c + 1) * 2 ^ e = (m + 1) * 2 ^ (e + 1) := by
          rw [hm, pow_succ]
          ring
        have h4 : (c + 1) * 2 ^ e ≤ 2 ^ LOG := by
          rw [h3]
          exact h2
        omega
      · have h2 : 2 * 2 ^ LOG ≤ 2 ^ (e + 1) := by
          have h5 : (2:ℕ) ^ (LOG + 1) ≤ 2 ^ (e + 1) :=
            Nat.pow_le_pow_right (by norm_num) (by omega)
          calc 2 * 2 ^ LOG = 2 ^ (LOG + 1) := by ring
          _ ≤ 2 ^ (e + 1) := h5
        have h3 : 1 ≤ m := by omega
        have h4 : 2 ^ (e + 1) ≤ m * 2 ^ (e + 1) := by
          calc (2:ℕ) ^ (e + 1) = 1 * 2 ^ (e + 1) := by ring
          _ ≤ m * 2 ^ (e + 1) := Nat.mul_le_mul_right _ h3
        omega
  · -- upper bound for the parent interval
    have hlt : c / 2 * 2 ^ (e + 1) < 2 ^ (LOG + 1) := by
      calc c / 2 * 2 ^ (e + 1) = c / 2 * 2 * 2 ^ e := by rw [pow_succ]; ring
      _ ≤ c * 2 ^ e := Nat.mul_le_mul_right _ (by omega)
      _ < (c + 1) * 2 ^ e := (Nat.mul_lt_mul_right hpow).mpr (by omega)
      _ ≤ 2 * 2 ^ LOG := hc3
      _ = 2 ^ (LOG + 1) := by ring
    have h6 := pow2_next_multiple (a := c / 2) he1 hlt
    calc (c / 2 + 1) * 2 ^ (e + 1) ≤ 2 ^ (LOG + 1) := h6
    _ = 2 * 2 ^ LOG := by ring

/-- `push` at an internal node preserves the padding-data invariant. -/
lemma push_PadData (LOG n : ℕ) (d : List S) (lz : List F) (p : ℕ)
    (hn : n ≤ 2 ^ LOG) (hdlen : d.length = 2 * 2 ^ LOG)
    (hp1 : 1 ≤ p) (hplt : p < 2 ^ LOG)
    (hPD : PadData (2 ^ LOG) n d) (hPL : PadLazy (2 ^ LOG) n lz) :
    PadData (2 ^ LOG) n (push (2 ^ LOG) d lz p).1 := by
  have hLpos : 1 ≤ LOG := by
    by_contra h0
    push_neg at h0
    interval_cases LOG
    simp at hplt
    omega
  have heven : (2:ℕ) ^ LOG % 2 = 0 := by
    have h : (2:ℕ) ^ LOG = 2 ^ (LOG - 1) * 2 := by
      rw [← pow_succ]
      congr 1
      omega
    omega
  intro j hj1 hj2
  rw [push_data_val _ _ _ _ _ (by omega)]
  by_cases hc : 2 ^ LOG + j = 2 * p ∨ 2 ^ LOG + j = 2 * p + 1
  · rw [if_pos hc]
    have hf : dval 1 lz p = 1 := by
      rcases hc with hc | hc
      · exact hPL p 1 hp1 (by rw [pow_one]; omega) (by rw [pow_one]; omega)
          (by rw [pow_one]; omega)
      · exact hPL p 1 hp1 (by rw [pow_one]; omega) (by rw [pow_one]; omega)
          (by rw [pow_one]; omega)
    rw [hf, one_smul]
    exact hPD j hj1 hj2
  · rw [if_neg hc]
    exact hPD j hj1 hj2

/-- `push` at an internal node preserves the padding-lazy invariant. -/
lemma push_PadLazy (LOG n : ℕ) (d : List S) (lz : List F) (p : ℕ)
    (hn : n ≤ 2 ^ LOG) (hlzlen : lz.length = 2 ^ LOG)
    (hp1 : 1 ≤ p) (hplt : p < 2 ^ LOG)
    (hPL : PadLazy (2 ^ LOG) n lz) :
    PadLazy (2 ^ LOG) n (push (2 ^ LOG) d lz p).2 := by
  have hLpos : 1 ≤ LOG := by
    by_contra h0
    push_neg at h0
    interval_cases LOG
    simp at hplt
    omega
  have heven : (2:ℕ) ^ LOG % 2 = 0 := by
    have h : (2:ℕ) ^ LOG = 2 ^ (LOG - 1) * 2 := by
      rw [← pow_succ]
      congr 1
      omega
    omega
  intro i e hi1 hi2 hi3 hi4
  by_cases hip : i = p
  · rw [hip]
    exact push_lazy_self _ _ _ _ hp1
  · by_cases hichild : (i = 2 * p ∨ i = 2 * p + 1) ∧ 2 * p < 2 ^ LOG
    · rw [push_lazy_child _ _ _ _ _ hp1 hichild.2 hichild.1 (by omega)]
      have hige2 : 2 ≤ i := by
        rcases hichild.1 with h | h <;> omega
      obtain ⟨hq1, hq2, hq3, hq4⟩ := padlazy_parent LOG n hn hi2 hi3 hi4 hige2
      have hdivp : i / 2 = p := by
        rcases hichild.1 with h | h <;> omega
      rw [hdivp] at hq2 hq3 hq4
      rw [hPL p (e + 1) hp1 hq2 hq3 hq4, hPL i e hi1 hi2 hi3 hi4, one_mul]
    · rcases (by tauto : i ≠ p ∧ i ≠ 2 * p ∧ i ≠ 2 * p + 1 ∨
          (i = 2 * p ∨ i = 2 * p + 1) ∧ ¬ 2 * p < 2 ^ LOG) with ⟨h1, h2, h3⟩ | ⟨h1, h2⟩
      · rw [push_lazy_other _ _ _ _ _ h1 h2 h3]
        exact hPL i e hi1 hi2 hi3 hi4
      · rw [push_snd, if_neg h2, dval_set_ne 1 _ _ (fun h => hip h.symm)]
        exact hPL i e hi1 hi2 hi3 hi4

/-- `push` preserves "all pending actions in an upward-closed set are
identity". -/
lemma push_G_ones (sz : ℕ) (d : List S) (lz : List F) (p : ℕ) (G : ℕ → Prop)
    (hGup : ∀ v, G v → G (v / 2)) (hp1 : 1 ≤ p)
    (hlzlen : lz.length = sz) (hside : sz ≤ 1 ∨ sz % 2 = 0)
    (hG : ∀ v, 1 ≤ v → G v → dval 1 lz v = 1) :
    ∀ v, 1 ≤ v → G v → dval 1 (push sz d lz p).2 v = 1 := by
  intro v hv1 hvG
  by_cases hvp : v = p
  · rw [hvp]
    exact push_lazy_self _ _ _ _ hp1
  · by_cases hvc : (v = 2 * p ∨ v = 2 * p + 1) ∧ 2 * p < sz
    · have hdivp : v / 2 = p := by
        rcases hvc.1 with h | h <;> omega
      have hlzp : dval 1 lz p = 1 := hG p hp1 (hdivp ▸ hGup v hvG)
      have hsz2 : sz % 2 = 0 := by
        rcases hside with h | h
        · omega
        · exact h
      rw [push_lazy_child _ _ _ _ _ hp1 hvc.2 hvc.1 (by omega), hlzp, one_mul]
      exact hG v hv1 hvG
    · rcases (by tauto : v ≠ p ∧ v ≠ 2 * p ∧ v ≠ 2 * p + 1 ∨
          (v = 2 * p ∨ v = 2 * p + 1) ∧ ¬ 2 * p < sz) with ⟨h1, h2, h3⟩ | ⟨h1, h2⟩
      · rw [push_lazy_other _ _ _ _ _ h1 h2 h3]
        exact hG v hv1 hvG
      · rw [push_snd, if_neg h2, dval_set_ne 1 _ _ (fun h => hvp h.symm)]
        exact hG v hv1 hvG

lemma div_pow_lt_of_lt (j : ℕ) {a b : ℕ} (hab : a < b) (hb : 1 ≤ j / 2 ^ b) :
    j / 2 ^ b < j / 2 ^ a := by
  have h1 : j / 2 ^ b = j / 2 ^ a / 2 ^ (b - a) := by
    rw [div_div_pow, show a + (b - a) = b by omega]
  have h2 : (2:ℕ) ≤ 2 ^ (b - a) := by
    calc (2:ℕ) = 2 ^ 1 := by norm_num
    _ ≤ 2 ^ (b - a) := Nat.pow_le_pow_right (by norm_num) (by omega)
  have h3 : j / 2 ^ a / 2 ^ (b - a) ≤ j / 2 ^ a / 2 := by
    exact Nat.div_le_div_left h2 (by norm_num)
  have h4 : 2 ^ (b - a) ≤ j / 2 ^ a := by
    by_contra hcon
    push_neg at hcon
    have : j / 2 ^ a / 2 ^ (b - a) = 0 := Nat.div_eq_of_lt hcon
    omega
  omega

lemma div_pow_inj (j : ℕ) {a b : ℕ} (ha : 1 ≤ j / 2 ^ a) (hb : 1 ≤ j / 2 ^ b)
    (h : j / 2 ^ a = j / 2 ^ b) : a = b := by
  rcases Nat.lt_trichotomy a b with hlt | heq | hgt
  · have := div_pow_lt_of_lt j hlt hb
    omega
  · exact heq
  · have := div_pow_lt_of_lt j hgt ha
    omega

/-- `push` at an internal node preserves every leaf's logical value. -/
lemma push_aVal (LOG : ℕ) (d : List S) (lz : List F) (p : ℕ)
    (hdlen : d.length = 2 * 2 ^ LOG) (hlzlen : lz.length = 2 ^ LOG)
    (hp1 : 1 ≤ p) (hplt : p < 2 ^ LOG) :
    ∀ j, 2 ^ LOG ≤ j → j < 2 * 2 ^ LOG →
      aVal LOG (push (2 ^ LOG) d lz p).1 (push (2 ^ LOG) d lz p).2 j
        = aVal LOG d lz j := by
  have hLpos : 1 ≤ LOG := by
    by_contra h0
    push_neg at h0
    interval_cases LOG
    simp at hplt
    omega
  have heven : (2:ℕ) ^ LOG % 2 = 0 := by
    have h : (2:ℕ) ^ LOG = 2 ^ (LOG - 1) * 2 := by
      rw [← pow_succ]
      congr 1
      omega
    omega
  intro j hj1 hj2
  by_cases hpath : ∃ t, 1 ≤ t ∧ j / 2 ^ t = p
  · obtain ⟨t0, ht01, ht0⟩ := hpath
    have ht0LOG : t0 ≤ LOG := by
      by_contra hgt
      push_neg at hgt
      have hj3 : j < 2 ^ t0 := by
        have ha : 2 * 2 ^ LOG = 2 ^ (LOG + 1) := by ring
        have hb2 : 2 ^ (LOG + 1) ≤ 2 ^ t0 := Nat.pow_le_pow_right (by norm_num) (by omega)
        omega
      have := Nat.div_eq_of_lt hj3
      omega
    have hup : ∀ t, t0 + 1 ≤ t → t < 1 + LOG →
        dval 1 (push (2 ^ LOG) d lz p).2 (j / 2 ^ t) = dval 1 lz (j / 2 ^ t) := by
      intro t h1 h2
      have hlt : j / 2 ^ t < p := by
        rcases Nat.eq_zero_or_pos (j / 2 ^ t) with h0 | hpos
        · omega
        · have := div_pow_lt_of_lt j (show t0 < t by omega) hpos
          omega
      exact push_lazy_other _ _ _ _ _ (by omega) (by omega) (by omega)
    have hsplit : ∀ (L : List F) (acc : S),
        upRange L j 1 LOG acc = upRange L j (1 + t0) (LOG - t0) (upRange L j 1 t0 acc) := by
      intro L acc
      rw [upRange_compose, show t0 + (LOG - t0) = LOG by omega]
    rw [aVal, aVal, upTo, upTo, hsplit, hsplit,
      upRange_congr ((push (2 ^ LOG) d lz p).2) lz j (LOG - t0) (1 + t0) _
        (fun t h1 h2 => hup t (by omega) (by omega))]
    congr 1
    -- the lower part: heights 1..t0
    rcases Nat.lt_or_ge t0 2 with ht0small | ht0big
    · -- t0 = 1 : j is a child of p
      have ht0eq : t0 = 1 := by omega
      subst ht0eq
      have ht0' : j / 2 = p := by simpa using ht0
      have hjc : j = 2 * p ∨ j = 2 * p + 1 := by omega
      have htop1 : ∀ (L : List F) (acc : S),
          upRange L j 1 1 acc = dval 1 L (j / 2 ^ 1) • acc := by
        intro L acc
        rfl
      rw [htop1, htop1, show j / 2 ^ 1 = p from by simpa using ht0,
        push_lazy_self _ _ _ _ hp1, one_smul,
        push_data_val _ _ _ _ _ (by omega), if_pos hjc]
    · -- t0 ≥ 2 : deeper path
      have hc : j / 2 ^ (t0 - 1) = 2 * p ∨ j / 2 ^ (t0 - 1) = 2 * p + 1 := by
        have hstep : j / 2 ^ (t0 - 1) / 2 = p := by
          rw [Nat.div_div_eq_div_mul, ← pow_succ, show t0 - 1 + 1 = t0 by omega]
          exact ht0
        omega
      have hclt : j / 2 ^ (t0 - 1) < 2 ^ LOG := by
        have h1 : j / 2 ^ (t0 - 1) ≤ j / 2 ^ 1 := by
          exact Nat.div_le_div_left (Nat.pow_le_pow_right (by norm_num) (by omega))
            (Nat.pos_pow_of_pos _ (by norm_num))
        rw [pow_one] at h1
        omega
      have h2p : 2 * p < 2 ^ LOG := by
        rcases hc with h | h <;> omega
      have hdataj : dval 1 (push (2 ^ LOG) d lz p).1 j = dval 1 d j := by
        rw [push_data_val _ _ _ _ _ (by omega)]
        refine if_neg ?_
        rintro (hj | hj)
        · rw [hj] at ht0
          have h3 : 2 * p / 2 ^ t0 ≤ 2 * p / 2 ^ 2 := by
            exact Nat.div_le_div_left (Nat.pow_le_pow_right (by norm_num) (by omega))
              (Nat.pos_pow_of_pos _ (by norm_num))
          have h4 : 2 * p / 2 ^ 2 = p / 2 := by
            rw [show (2:ℕ) ^ 2 = 2 * 2 by norm_num, ← Nat.div_div_eq_div_mul]
            congr 1
            omega
          omega
        · rw [hj] at ht0
          have h3 : (2 * p + 1) / 2 ^ t0 ≤ (2 * p + 1) / 2 ^ 2 := by
            exact Nat.div_le_div_left (Nat.pow_le_pow_right (by norm_num) (by omega))
              (Nat.pos_pow_of_pos _ (by norm_num))
          have h4 : (2 * p + 1) / 2 ^ 2 = p / 2 := by
            rw [show (2:ℕ) ^ 2 = 2 * 2 by norm_num, ← Nat.div_div_eq_div_mul]
            congr 1
            omega
          omega
      have hdeep : ∀ t, 1 ≤ t → t < 1 + (t0 - 2) →
          dval 1 (push (2 ^ LOG) d lz p).2 (j / 2 ^ t) = dval 1 lz (j / 2 ^ t) := by
        intro t h1 h2
        have hcpos : 1 ≤ j / 2 ^ (t0 - 1) := by
          rcases hc with h | h <;> omega
        have hgt : j / 2 ^ (t0 - 1) < j / 2 ^ t :=
          div_pow_lt_of_lt j (by omega) hcpos
        have hne1 : j / 2 ^ t ≠ 2 * p + 1 := by
          intro hbad
          have hrel : j / 2 ^ t / 2 ^ (t0 - 1 - t) = j / 2 ^ (t0 - 1) := by
            rw [div_div_pow, show t + (t0 - 1 - t) = t0 - 1 by omega]
          rw [hbad] at hrel
          have h5 : (2 * p + 1) / 2 ^ (t0 - 1 - t) ≤ (2 * p + 1) / 2 ^ 1 := by
            refine Nat.div_le_div_left (Nat.pow_le_pow_right (by norm_num) ?_)
              (Nat.pos_pow_of_pos _ (by norm_num))
            omega
          rw [pow_one] at h5
          omega
        exact push_lazy_other _ _ _ _ _ (by omega) (by omega) hne1
      have htop2 : ∀ (L : List F) (acc : S),
          upRange L j 1 (t0 - 2 + 1 + 1) acc =
            dval 1 L (j / 2 ^ (1 + (t0 - 2 + 1))) •
              (dval 1 L (j / 2 ^ (1 + (t0 - 2))) • upRange L j 1 (t0 - 2) acc) := by
        intro L acc
        rw [upRange_top, upRange_top]
      rw [show t0 = t0 - 2 + 1 + 1 by omega, htop2, htop2,
        show (1:ℕ) + (t0 - 2 + 1) = t0 by omega,
        show (1:ℕ) + (t0 - 2) = t0 - 1 by omega, ht0,
        push_lazy_self _ _ _ _ hp1, one_smul,
        push_lazy_child _ _ _ _ _ hp1 h2p hc (by omega), mul_smul, hdataj,
        upRange_congr ((push (2 ^ LOG) d lz p).2) lz j (t0 - 2) 1 _ hdeep]
  · push_neg at hpath
    rw [aVal, aVal, upTo, upTo,
      push_data_val _ _ _ _ _ (by omega),
      if_neg (by
        rintro (hj | hj)
        · exact hpath 1 (by omega) (by rw [hj, pow_one]; omega)
        · exact hpath 1 (by omega) (by rw [hj, pow_one]; omega))]
    refine upRange_congr _ lz j LOG 1 _ ?_
    intro t h1 h2
    refine push_lazy_other _ _ _ _ _ (hpath t h1) ?_ ?_
    · intro hbad
      exact hpath (t + 1) (by omega)
        (by rw [← div_div_pow, hbad]; omega)
    · intro hbad
      exact hpath (t + 1) (by omega)
        (by rw [← div_div_pow, hbad]; omega)

/-- `push` at `p` multiplies the resolved aggregates of `p`'s children by
`p`'s pending action and leaves every other node's resolved aggregate
unchanged (requires the action to distribute over the monoid product). -/
lemma push_nodeProd
    (hdist : ∀ (f : F) (x y : S), f • (x * y) = f • x * f • y)
    (LOG : ℕ) (d : List S) (lz : List F) (p : ℕ)
    (hdlen : d.length = 2 * 2 ^ LOG) (hlzlen : lz.length = 2 ^ LOG)
    (hp1 : 1 ≤ p) (hplt : p < 2 ^ LOG) :
    ∀ v, 1 ≤ v → v < 2 * 2 ^ LOG →
      nodeProd (2 ^ LOG) (push (2 ^ LOG) d lz p).1 (push (2 ^ LOG) d lz p).2 v =
        if v = 2 * p ∨ v = 2 * p + 1 then dval 1 lz p • nodeProd (2 ^ LOG) d lz v
        else nodeProd (2 ^ LOG) d lz v := by
  have hLpos : 1 ≤ LOG := by
    by_contra h0
    push_neg at h0
    interval_cases LOG
    simp at hplt
    omega
  have heven : (2:ℕ) ^ LOG % 2 = 0 := by
    have h : (2:ℕ) ^ LOG = 2 ^ (LOG - 1) * 2 := by
      rw [← pow_succ]
      congr 1
      omega
    omega
  -- (C) nodes that are neither ancestors of p nor children of p
  have hC : ∀ v, 1 ≤ v → (∀ t, p / 2 ^ t ≠ v) → v ≠ 2 * p → v ≠ 2 * p + 1 →
      nodeProd (2 ^ LOG) (push (2 ^ LOG) d lz p).1 (push (2 ^ LOG) d lz p).2 v =
        nodeProd (2 ^ LOG) d lz v := by
    intro v hv hanc hne2 hne3
    have hnotchild : ∀ w t, w / 2 ^ t = v → ¬ (w = 2 * p ∨ w = 2 * p + 1) := by
      intro w t hwt hbad
      rcases Nat.eq_zero_or_pos t with ht | ht
      · subst ht
        simp at hwt
        rcases hbad with h | h
        · exact hne2 (by omega)
        · exact hne3 (by omega)
      · have h2t : 2 * 2 ^ (t - 1) = 2 ^ t := by
          rw [← pow_succ']
          congr 1
          omega
        have hhalf : w / 2 = p := by rcases hbad with h | h <;> omega
        have hstep : w / 2 ^ t = p / 2 ^ (t - 1) := by
          rw [← h2t, ← Nat.div_div_eq_div_mul, hhalf]
        exact hanc (t - 1) (by rw [← hstep, hwt])
    have hnotp : ∀ w t, w / 2 ^ t = v → w ≠ p := by
      intro w t hwt hbad
      exact hanc t (by rw [← hbad, hwt])
    refine nodeProd_congr_subtree _ _ _ _ _ v hv ?_ ?_
    · intro w hsub hw
      obtain ⟨t, hwt⟩ := hsub
      rw [push_data_val _ _ _ _ _ (by omega), if_neg (hnotchild w t hwt)]
    · intro w hsub hw1 hw2
      obtain ⟨t, hwt⟩ := hsub
      refine push_lazy_other _ _ _ _ _ (hnotp w t hwt) ?_ ?_
      · intro hbad
        exact hnotchild w t hwt (Or.inl hbad)
      · intro hbad
        exact hnotchild w t hwt (Or.inr hbad)
  -- (A) the children of p pick up the pending action
  have hA : ∀ v, (v = 2 * p ∨ v = 2 * p + 1) →
      nodeProd (2 ^ LOG) (push (2 ^ LOG) d lz p).1 (push (2 ^ LOG) d lz p).2 v =
        dval 1 lz p • nodeProd (2 ^ LOG) d lz v := by
    intro v hv
    have hv1 : 1 ≤ v := by rcases hv with h | h <;> omega
    by_cases hleaf : 2 ^ LOG ≤ v
    · rw [nodeProd_leaf _ _ _ v (by omega) hleaf, nodeProd_leaf _ _ _ v (by omega) hleaf,
        push_data_val _ _ _ _ _ (by omega), if_pos hv]
    · push_neg at hleaf
      have h2p : 2 * p < 2 ^ LOG := by rcases hv with h | h <;> omega
      have hanc2v : ∀ t, p / 2 ^ t ≠ 2 * v := by
        intro t
        have := Nat.div_le_self p (2 ^ t)
        omega
      have hanc2v1 : ∀ t, p / 2 ^ t ≠ 2 * v + 1 := by
        intro t
        have := Nat.div_le_self p (2 ^ t)
        omega
      rw [nodeProd_internal _ _ _ v hv1 hleaf, nodeProd_internal (2 ^ LOG) d lz v hv1 hleaf,
        hC (2 * v) (by omega) hanc2v (by omega) (by omega),
        hC (2 * v + 1) (by omega) hanc2v1 (by omega) (by omega),
        push_lazy_child _ _ _ _ _ hp1 h2p hv (by omega), mul_smul]
  -- (A0) node p itself is unchanged
  have hA0 : nodeProd (2 ^ LOG) (push (2 ^ LOG) d lz p).1 (push (2 ^ LOG) d lz p).2 p =
      nodeProd (2 ^ LOG) d lz p := by
    rw [nodeProd_internal _ _ _ p hp1 hplt, nodeProd_internal (2 ^ LOG) d lz p hp1 hplt,
      hA (2 * p) (Or.inl rfl), hA (2 * p + 1) (Or.inr rfl),
      push_lazy_self _ _ _ _ hp1, one_smul, ← hdist]
  -- (B) strict ancestors of p are unchanged
  have hB : ∀ t v, v = p / 2 ^ (t + 1) → 1 ≤ v →
      nodeProd (2 ^ LOG) (push (2 ^ LOG) d lz p).1 (push (2 ^ LOG) d lz p).2 v =
        nodeProd (2 ^ LOG) d lz v := by
    intro t
    induction t with
    | zero =>
      intro v hveq hv1
      have hpv : p / 2 = v := by
        rw [hveq]
        norm_num
      have hplarge : 2 ≤ p := by omega
      have hvltp : v < p := by omega
      have hvlt : v < 2 ^ LOG := by omega
      have hancs : ∀ t', ∀ s, s = 2 * v ∨ s = 2 * v + 1 → s ≠ p → p / 2 ^ t' ≠ s := by
        intro t' s hs hsp
        rcases Nat.eq_zero_or_pos t' with ht' | ht'
        · subst ht'
          simp
          omega
        · have h5 : p / 2 ^ t' ≤ p / 2 ^ 1 :=
            Nat.div_le_div_left (Nat.pow_le_pow_right (by norm_num) (by omega)) (by norm_num)
          rw [pow_one] at h5
          rcases hs with h | h <;> omega
      rcases (show p = 2 * v ∨ p = 2 * v + 1 by omega) with hpc | hpc
      · have h1 : nodeProd (2 ^ LOG) (push (2 ^ LOG) d lz p).1 (push (2 ^ LOG) d lz p).2
            (2 * v) = nodeProd (2 ^ LOG) d lz (2 * v) := by
          rw [← hpc]
          exact hA0
        have h2 := hC (2 * v + 1) (by omega) (hancs · (2 * v + 1) (Or.inr rfl) (by omega))
          (by omega) (by omega)
        rw [nodeProd_internal _ _ _ v hv1 hvlt, nodeProd_internal (2 ^ LOG) d lz v hv1 hvlt,
          push_lazy_other _ _ _ _ _ (by omega) (by omega) (by omega), h1, h2]
      · have h1 := hC (2 * v) (by omega) (hancs · (2 * v) (Or.inl rfl) (by omega))
          (by omega) (by omega)
        have h2 : nodeProd (2 ^ LOG) (push (2 ^ LOG) d lz p).1 (push (2 ^ LOG) d lz p).2
            (2 * v + 1) = nodeProd (2 ^ LOG) d lz (2 * v + 1) := by
          rw [← hpc]
          exact hA0
        rw [nodeProd_internal _ _ _ v hv1 hvlt, nodeProd_internal (2 ^ LOG) d lz v hv1 hvlt,
          push_lazy_other _ _ _ _ _ (by omega) (by omega) (by omega), h1, h2]
    | succ t ih =>
      intro v hveq hv1
      rw [show t + 1 + 1 = t + 2 by omega] at hveq
      have h5 : p / 2 ^ (t + 2) ≤ p / 2 ^ 2 :=
        Nat.div_le_div_left (Nat.pow_le_pow_right (by norm_num) (by omega)) (by norm_num)
      have h6 : p / 2 ^ 2 = p / 4 := by norm_num
      have hvltp : v < p := by omega
      have hp4 : 4 ≤ p := by omega
      have hvlt : v < 2 ^ LOG := by omega
      have hcv : p / 2 ^ (t + 1) / 2 = v := by
        rw [Nat.div_div_eq_div_mul, ← pow_succ, hveq]
      have hc1 : 1 ≤ p / 2 ^ (t + 1) := by omega
      have hancs : ∀ t', ∀ s, s = 2 * v ∨ s = 2 * v + 1 → s ≠ p / 2 ^ (t + 1) →
          p / 2 ^ t' ≠ s := by
        intro t' s hs hsc hbad
        have hs1 : 1 ≤ p / 2 ^ t' := by rcases hs with h | h <;> omega
        have hs2 : p / 2 ^ t' / 2 = v := by rcases hs with h | h <;> omega
        have hs3 : p / 2 ^ (t' + 1) = v := by
          rw [← hs2, Nat.div_div_eq_div_mul, ← pow_succ]
        have := div_pow_inj p (a := t' + 1) (b := t + 2) (by omega) (by omega) (by omega)
        have ht' : t' = t + 1 := by omega
        rw [ht'] at hbad
        exact hsc hbad.symm
      have hihc := ih (p / 2 ^ (t + 1)) rfl hc1
      rcases (show p / 2 ^ (t + 1) = 2 * v ∨ p / 2 ^ (t + 1) = 2 * v + 1 by omega)
        with hpc | hpc
      · have h1 : nodeProd (2 ^ LOG) (push (2 ^ LOG) d lz p).1 (push (2 ^ LOG) d lz p).2
            (2 * v) = nodeProd (2 ^ LOG) d lz (2 * v) := by
          rw [← hpc]
          exact hihc
        have h2 := hC (2 * v + 1) (by omega)
          (hancs · (2 * v + 1) (Or.inr rfl) (by omega)) (by omega) (by omega)
        rw [nodeProd_internal _ _ _ v hv1 hvlt, nodeProd_internal (2 ^ LOG) d lz v hv1 hvlt,
          push_lazy_other _ _ _ _ _ (by omega) (by omega) (by omega), h1, h2]
      · have h1 := hC (2 * v) (by omega)
          (hancs · (2 * v) (Or.inl rfl) (by omega)) (by omega) (by omega)
        have h2 : nodeProd (2 ^ LOG) (push (2 ^ LOG) d lz p).1 (push (2 ^ LOG) d lz p).2
            (2 * v + 1) = nodeProd (2 ^ LOG) d lz (2 * v + 1) := by
          rw [← hpc]
          exact hihc
        rw [nodeProd_internal _ _ _ v hv1 hvlt, nodeProd_internal (2 ^ LOG) d lz v hv1 hvlt,
          push_lazy_other _ _ _ _ _ (by omega) (by omega) (by omega), h1, h2]
  intro v hv1 hv2
  by_cases hch : v = 2 * p ∨ v = 2 * p + 1
  · rw [if_pos hch]
    exact hA v hch
  · rw [if_neg hch]
    push_neg at hch
    obtain ⟨hne2, hne3⟩ := hch
    by_cases hanc : ∃ t, p / 2 ^ t = v
    · obtain ⟨t, ht⟩ := hanc
      rcases Nat.eq_zero_or_pos t with ht0 | ht0
      · subst ht0
        simp at ht
        rw [← ht]
        exact hA0
      · refine hB (t - 1) v ?_ hv1
        rw [show t - 1 + 1 = t by omega]
        exact ht.symm
    · push_neg at hanc
      exact hC v hv1 hanc hne2 hne3

/-- `push` preserves the data-matches-resolved-aggregate invariant away
from any exception set that contains `p`'s children or nothing at all —
in fact away from an arbitrary exception predicate, since the children's
data and resolved aggregates change by the same factor. -/
lemma push_Dex
    (hdist : ∀ (f : F) (x y : S), f • (x * y) = f • x * f • y)
    (LOG : ℕ) (d : List S) (lz : List F) (p : ℕ) (P : ℕ → Prop)
    (hdlen : d.length = 2 * 2 ^ LOG) (hlzlen : lz.length = 2 ^ LOG)
    (hp1 : 1 ≤ p) (hplt : p < 2 ^ LOG)
    (hD : Dex (2 ^ LOG) d lz P) :
    Dex (2 ^ LOG) (push (2 ^ LOG) d lz p).1 (push (2 ^ LOG) d lz p).2 P := by
  intro v hv1 hv2 hvP
  rw [push_data_val _ _ _ _ _ (by omega),
    push_nodeProd hdist LOG d lz p hdlen hlzlen hp1 hplt v hv1 hv2]
  by_cases hch : v = 2 * p ∨ v = 2 * p + 1
  · rw [if_pos hch, if_pos hch, hD v hv1 hv2 hvP]
  · rw [if_neg hch, if_neg hch, hD v hv1 hv2 hvP]

lemma pushSeq_len (sz : ℕ) : ∀ (T : ℕ) (d : List S) (lz : List F) (i : ℕ),
    (pushSeq sz T d lz i).1.length = d.length ∧
    (pushSeq sz T d lz i).2.length = lz.length := by
  intro T
  induction T with
  | zero => intro d lz i; exact ⟨rfl, rfl⟩
  | succ T ih =>
    intro d lz i
    rw [pushSeq]
    refine ⟨(ih _ _ i).1.trans (push_len_fst _ _ _ _), (ih _ _ i).2.trans (push_len_snd _ _ _ _)⟩

lemma pushSeq_lazy_untouched (sz : ℕ) : ∀ (T : ℕ) (d : List S) (lz : List F) (i w : ℕ),
    (∀ t, 1 ≤ t → t ≤ T → w ≠ i / 2 ^ t ∧ w ≠ 2 * (i / 2 ^ t) ∧ w ≠ 2 * (i / 2 ^ t) + 1) →
    dval 1 (pushSeq sz T d lz i).2 w = dval 1 lz w := by
  intro T
  induction T with
  | zero => intro d lz i w _; rfl
  | succ T ih =>
    intro d lz i w h
    rw [pushSeq, ih _ _ i w (fun t h1 h2 => h t h1 (by omega))]
    obtain ⟨ha, hb, hc⟩ := h (T + 1) (by omega) (by omega)
    exact push_lazy_other _ _ _ _ _ ha hb hc

/-- After the root-down push prefix, every pushed ancestor's pending
action is the identity. -/
lemma pushSeq_chain (sz : ℕ) : ∀ (T : ℕ) (d : List S) (lz : List F) (i : ℕ),
    1 ≤ i / 2 ^ T →
    ∀ t, 1 ≤ t → t ≤ T → dval 1 (pushSeq sz T d lz i).2 (i / 2 ^ t) = 1 := by
  intro T
  induction T with
  | zero => intro d lz i _ t h1 h2; omega
  | succ T ih =>
    intro d lz i hi t h1 h2
    have hiT : 1 ≤ i / 2 ^ T := by
      have h3 : i / 2 ^ (T + 1) ≤ i / 2 ^ T :=
        Nat.div_le_div_left (Nat.pow_le_pow_right (by norm_num) (by omega)) (by positivity)
      omega
    rcases Nat.lt_or_ge t (T + 1) with hlt | hge
    · rw [pushSeq]
      exact ih _ _ i hiT t h1 (by omega)
    · have ht : t = T + 1 := by omega
      subst ht
      rw [pushSeq, pushSeq_lazy_untouched]
      · exact push_lazy_self _ _ _ _ hi
      · intro u h1u h2u
        have hlt : i / 2 ^ (T + 1) < i / 2 ^ u := div_pow_lt_of_lt i (by omega) hi
        have hu0 : 1 ≤ i / 2 ^ u := by omega
        refine ⟨by omega, by omega, by omega⟩

/-- The push prefix preserves the padding invariants (both the identity
padding leaves and the identity pending actions above them). -/
lemma pushSeq_slim (LOG n : ℕ) : ∀ (T : ℕ) (d : List S) (lz : List F) (i : ℕ),
    n ≤ 2 ^ LOG → d.length = 2 * 2 ^ LOG → lz.length = 2 ^ LOG →
    1 ≤ i / 2 ^ T → i < 2 * 2 ^ LOG →
    PadData (2 ^ LOG) n d → PadLazy (2 ^ LOG) n lz →
    PadData (2 ^ LOG) n (pushSeq (2 ^ LOG) T d lz i).1 ∧
    PadLazy (2 ^ LOG) n (pushSeq (2 ^ LOG) T d lz i).2 := by
  intro T
  induction T with
  | zero => intro d lz i _ _ _ _ _ hPD hPL; exact ⟨hPD, hPL⟩
  | succ T ih =>
    intro d lz i hn hdlen hlzlen hi hibnd hPD hPL
    have hiT : 1 ≤ i / 2 ^ T := by
      have h3 : i / 2 ^ (T + 1) ≤ i / 2 ^ T :=
        Nat.div_le_div_left (Nat.pow_le_pow_right (by norm_num) (by omega)) (by positivity)
      omega
    have hplt : i / 2 ^ (T + 1) < 2 ^ LOG := by
      have h3 : i / 2 ^ (T + 1) ≤ i / 2 ^ 1 :=
        Nat.div_le_div_left (Nat.pow_le_pow_right (by norm_num) (by omega)) (by positivity)
      rw [pow_one] at h3
      omega
    rw [pushSeq]
    exact ih _ _ i hn (by rw [push_len_fst, hdlen]) (by rw [push_len_snd, hlzlen]) hiT hibnd
      (push_PadData LOG n d lz _ hn hdlen hi hplt hPD hPL)
      (push_PadLazy LOG n d lz _ hn hlzlen hi hplt hPL)

/-- The push prefix preserves every leaf's logical value. -/
lemma pushSeq_aVal (LOG : ℕ) : ∀ (T : ℕ) (d : List S) (lz : List F) (i : ℕ),
    d.length = 2 * 2 ^ LOG → lz.length = 2 ^ LOG →
    1 ≤ i / 2 ^ T → i < 2 * 2 ^ LOG →
    ∀ j, 2 ^ LOG ≤ j → j < 2 * 2 ^ LOG →
      aVal LOG (pushSeq (2 ^ LOG) T d lz i).1 (pushSeq (2 ^ LOG) T d lz i).2 j
        = aVal LOG d lz j := by
  intro T
  induction T with
  | zero => intro d lz i _ _ _ _ j _ _; rfl
  | succ T ih =>
    intro d lz i hdlen hlzlen hi hibnd j hj1 hj2
    have hiT : 1 ≤ i / 2 ^ T := by
      have h3 : i / 2 ^ (T + 1) ≤ i / 2 ^ T :=
        Nat.div_le_div_left (Nat.pow_le_pow_right (by norm_num) (by omega)) (by positivity)
      omega
    have hplt : i / 2 ^ (T + 1) < 2 ^ LOG := by
      have h3 : i / 2 ^ (T + 1) ≤ i / 2 ^ 1 :=
        Nat.div_le_div_left (Nat.pow_le_pow_right (by norm_num) (by omega)) (by positivity)
      rw [pow_one] at h3
      omega
    rw [pushSeq,
      ih _ _ i (by rw [push_len_fst, hdlen]) (by rw [push_len_snd, hlzlen]) hiT hibnd j hj1 hj2]
    exact push_aVal LOG d lz _ hdlen hlzlen hi hplt j hj1 hj2

/-- The push prefix preserves the aggregate invariant away from any
exception set. -/
lemma pushSeq_Dex
    (hdist : ∀ (f : F) (x y : S), f • (x * y) = f • x * f • y)
    (LOG : ℕ) (P : ℕ → Prop) : ∀ (T : ℕ) (d : List S) (lz : List F) (i : ℕ),
    d.length = 2 * 2 ^ LOG → lz.length = 2 ^ LOG →
    1 ≤ i / 2 ^ T → i < 2 * 2 ^ LOG →
    Dex (2 ^ LOG) d lz P →
    Dex (2 ^ LOG) (pushSeq (2 ^ LOG) T d lz i).1 (pushSeq (2 ^ LOG) T d lz i).2 P := by
  intro T
  induction T with
  | zero => intro d lz i _ _ _ _ hD; exact hD
  | succ T ih =>
    intro d lz i hdlen hlzlen hi hibnd hD
    have hiT : 1 ≤ i / 2 ^ T := by
      have h3 : i / 2 ^ (T + 1) ≤ i / 2 ^ T :=
        Nat.div_le_div_left (Nat.pow_le_pow_right (by norm_num) (by omega)) (by positivity)
      omega
    have hplt : i / 2 ^ (T + 1) < 2 ^ LOG := by
      have h3 : i / 2 ^ (T + 1) ≤ i / 2 ^ 1 :=
        Nat.div_le_div_left (Nat.pow_le_pow_right (by norm_num) (by omega)) (by positivity)
      rw [pow_one] at h3
      omega
    rw [pushSeq]
    exact ih _ _ i (by rw [push_len_fst, hdlen]) (by rw [push_len_snd, hlzlen]) hiT hibnd
      (push_Dex hdist LOG d lz _ P hdlen hlzlen hi hplt hD)

/-- The push prefix preserves an upward-closed all-identity set of
pending actions. -/
lemma pushSeq_G_ones (sz : ℕ) (G : ℕ → Prop) (hGup : ∀ v, G v → G (v / 2))
    (hside : sz ≤ 1 ∨ sz % 2 = 0) : ∀ (T : ℕ) (d : List S) (lz : List F) (i : ℕ),
    lz.length = sz → 1 ≤ i / 2 ^ T →
    (∀ v, 1 ≤ v → G v → dval 1 lz v = 1) →
    ∀ v, 1 ≤ v → G v → dval 1 (pushSeq sz T d lz i).2 v = 1 := by
  intro T
  induction T with
  | zero => intro d lz i _ _ hG; exact hG
  | succ T ih =>
    intro d lz i hlzlen hi hG
    have hiT : 1 ≤ i / 2 ^ T := by
      have h3 : i / 2 ^ (T + 1) ≤ i / 2 ^ T :=
        Nat.div_le_div_left (Nat.pow_le_pow_right (by norm_num) (by omega)) (by positivity)
      omega
    rw [pushSeq]
    exact ih _ _ i (by rw [push_len_snd, hlzlen]) hiT
      (push_G_ones sz d lz _ G hGup hi hlzlen hside hG)

lemma pushSeqGet_len (sz : ℕ) : ∀ (T : ℕ) (d : List S) (lz : List F) (i : ℕ),
    (pushSeqGet sz T d lz i).1.length = d.length ∧
    (pushSeqGet sz T d lz i).2.length = lz.length := by
  intro T
  induction T with
  | zero => intro d lz i; exact ⟨rfl, rfl⟩
  | succ T ih =>
    intro d lz i
    rw [pushSeqGet]
    by_cases hc : i / 2 ^ (T + 1) * 2 ^ (T + 1) ≠ i
    · rw [if_pos hc]
      exact ⟨(ih _ _ i).1.trans (push_len_fst _ _ _ _),
        (ih _ _ i).2.trans (push_len_snd _ _ _ _)⟩
    · rw [if_neg hc]
      exact ih _ _ i

lemma pushSeqGet_slim (LOG n : ℕ) : ∀ (T : ℕ) (d : List S) (lz : List F) (i : ℕ),
    n ≤ 2 ^ LOG → d.length = 2 * 2 ^ LOG → lz.length = 2 ^ LOG →
    1 ≤ i / 2 ^ T → i < 2 * 2 ^ LOG →
    PadData (2 ^ LOG) n d → PadLazy (2 ^ LOG) n lz →
    PadData (2 ^ LOG) n (pushSeqGet (2 ^ LOG) T d lz i).1 ∧
    PadLazy (2 ^ LOG) n (pushSeqGet (2 ^ LOG) T d lz i).2 := by
  intro T
  induction T with
  | zero => intro d lz i _ _ _ _ _ hPD hPL; exact ⟨hPD, hPL⟩
  | succ T ih =>
    intro d lz i hn hdlen hlzlen hi hibnd hPD hPL
    have hiT : 1 ≤ i / 2 ^ T := by
      have h3 : i / 2 ^ (T + 1) ≤ i / 2 ^ T :=
        Nat.div_le_div_left (Nat.pow_le_pow_right (by norm_num) (by omega)) (by positivity)
      omega
    have hplt : i / 2 ^ (T + 1) < 2 ^ LOG := by
      have h3 : i / 2 ^ (T + 1) ≤ i / 2 ^ 1 :=
        Nat.div_le_div_left (Nat.pow_le_pow_right (by norm_num) (by omega)) (by positivity)
      rw [pow_one] at h3
      omega
    rw [pushSeqGet]
    by_cases hc : i / 2 ^ (T + 1) * 2 ^ (T + 1) ≠ i
    · rw [if_pos hc]
      exact ih _ _ i hn (by rw [push_len_fst, hdlen]) (by rw [push_len_snd, hlzlen]) hiT hibnd
        (push_PadData LOG n d lz _ hn hdlen hi hplt hPD hPL)
        (push_PadLazy LOG n d lz _ hn hlzlen hi hplt hPL)
    · rw [if_neg hc]
      exact ih _ _ i hn hdlen hlzlen hiT hibnd hPD hPL

lemma pushSeqGet_aVal (LOG : ℕ) : ∀ (T : ℕ) (d : List S) (lz : List F) (i : ℕ),
    d.length = 2 * 2 ^ LOG → lz.length = 2 ^ LOG →
    1 ≤ i / 2 ^ T → i < 2 * 2 ^ LOG →
    ∀ j, 2 ^ LOG ≤ j → j < 2 * 2 ^ LOG →
      aVal LOG (pushSeqGet (2 ^ LOG) T d lz i).1 (pushSeqGet (2 ^ LOG) T d lz i).2 j
        = aVal LOG d lz j := by
  intro T
  induction T with
  | zero => intro d lz i _ _ _ _ j _ _; rfl
  | succ T ih =>
    intro d lz i hdlen hlzlen hi hibnd j hj1 hj2
    have hiT : 1 ≤ i / 2 ^ T := by
      have h3 : i / 2 ^ (T + 1) ≤ i / 2 ^ T :=
        Nat.div_le_div_left (Nat.pow_le_pow_right (by norm_num) (by omega)) (by positivity)
      omega
    have hplt : i / 2 ^ (T + 1) < 2 ^ LOG := by
      have h3 : i / 2 ^ (T + 1) ≤ i / 2 ^ 1 :=
        Nat.div_le_div_left (Nat.pow_le_pow_right (by norm_num) (by omega)) (by positivity)
      rw [pow_one] at h3
      omega
    rw [pushSeqGet]
    by_cases hc : i / 2 ^ (T + 1) * 2 ^ (T + 1) ≠ i
    · rw [if_pos hc,
        ih _ _ i (by rw [push_len_fst, hdlen]) (by rw [push_len_snd, hlzlen]) hiT hibnd j hj1 hj2]
      exact push_aVal LOG d lz _ hdlen hlzlen hi hplt j hj1 hj2
    · rw [if_neg hc]
      exact ih _ _ i hdlen hlzlen hiT hibnd j hj1 hj2

lemma pushSeqGet_Dex
    (hdist : ∀ (f : F) (x y : S), f • (x * y) = f • x * f • y)
    (LOG : ℕ) (P : ℕ → Prop) : ∀ (T : ℕ) (d : List S) (lz : List F) (i : ℕ),
    d.length = 2 * 2 ^ LOG → lz.length = 2 ^ LOG →
    1 ≤ i / 2 ^ T → i < 2 * 2 ^ LOG →
    Dex (2 ^ LOG) d lz P →
    Dex (2 ^ LOG) (pushSeqGet (2 ^ LOG) T d lz i).1 (pushSeqGet (2 ^ LOG) T d lz i).2 P := by
  intro T
  induction T with
  | zero => intro d lz i _ _ _ _ hD; exact hD
  | succ T ih =>
    intro d lz i hdlen hlzlen hi hibnd hD
    have hiT : 1 ≤ i / 2 ^ T := by
      have h3 : i / 2 ^ (T + 1) ≤ i / 2 ^ T :=
        Nat.div_le_div_left (Nat.pow_le_pow_right (by norm_num) (by omega)) (by positivity)
      omega
    have hplt : i / 2 ^ (T + 1) < 2 ^ LOG := by
      have h3 : i / 2 ^ (T + 1) ≤ i / 2 ^ 1 :=
        Nat.div_le_div_left (Nat.pow_le_pow_right (by norm_num) (by omega)) (by positivity)
      rw [pow_one] at h3
      omega
    rw [pushSeqGet]
    by_cases hc : i / 2 ^ (T + 1) * 2 ^ (T + 1) ≠ i
    · rw [if_pos hc]
      exact ih _ _ i (by rw [push_len_fst, hdlen]) (by rw [push_len_snd, hlzlen]) hiT hibnd
        (push_Dex hdist LOG d lz _ P hdlen hlzlen hi hplt hD)
    · rw [if_neg hc]
      exact ih _ _ i hdlen hlzlen hiT hibnd hD

lemma climbUpd_dval_untouched : ∀ (fuel i : ℕ) (d : List S) (w : ℕ),
    (∀ t, 1 ≤ t → w ≠ i / 2 ^ t) →
    dval 1 (SegmentTree.climbUpd fuel i d) w = dval 1 d w := by
  intro fuel
  induction fuel with
  | zero => intro i d w _; rfl
  | succ fuel ih =>
    intro i d w h
    rw [SegmentTree.climbUpd]
    by_cases hgt : 1 < i
    · rw [if_pos hgt, ih (i / 2) _ w ?_]
      · rw [SegmentTree.updateAt]
        refine dval_set_ne 1 _ _ ?_
        have h1 := h 1 (by omega)
        rw [pow_one] at h1
        exact fun hh => h1 hh.symm
      · intro t ht
        have heq : i / 2 / 2 ^ t = i / 2 ^ (t + 1) := by
          rw [Nat.div_div_eq_div_mul, ← pow_succ']
        rw [heq]
        exact h (t + 1) (by omega)
    · rw [if_neg hgt]

lemma climbUpd_dval_high (sz fuel i : ℕ) (d : List S) (w : ℕ)
    (hi : i < 2 * sz) (hw : sz ≤ w) :
    dval 1 (SegmentTree.climbUpd fuel i d) w = dval 1 d w := by
  refine climbUpd_dval_untouched fuel i d w ?_
  intro t ht
  have h3 : i / 2 ^ t ≤ i / 2 ^ 1 :=
    Nat.div_le_div_left (Nat.pow_le_pow_right (by norm_num) (by omega)) (by positivity)
  rw [pow_one] at h3
  omega

/-- The upward refresh touches no leaf, hence no logical value. -/
lemma climbUpd_aVal (LOG fuel i : ℕ) (d : List S) (lz : List F)
    (hi : i < 2 * 2 ^ LOG) :
    ∀ j, 2 ^ LOG ≤ j →
      aVal LOG (SegmentTree.climbUpd fuel i d) lz j = aVal LOG d lz j := by
  intro j hj
  rw [aVal, aVal, climbUpd_dval_high (2 ^ LOG) fuel i d j hi hj]

/-- The upward refresh changes no resolved aggregate. -/
lemma climbUpd_nodeProd (LOG fuel i : ℕ) (d : List S) (lz : List F)
    (hi : i < 2 * 2 ^ LOG) :
    ∀ v, 1 ≤ v →
      nodeProd (2 ^ LOG) (SegmentTree.climbUpd fuel i d) lz v
        = nodeProd (2 ^ LOG) d lz v := by
  intro v hv
  refine nodeProd_congr_subtree _ _ _ _ _ v hv ?_ (fun _ _ _ _ => rfl)
  intro w _ hw
  exact climbUpd_dval_high _ fuel i d w hi hw

/-- Writing a leaf breaks the aggregate invariant at most at the leaf's
strict ancestors. -/
lemma set_leaf_Dex (sz : ℕ) (d : List S) (lz : List F) (P : ℕ → Prop) (j : ℕ) (x : S)
    (hj : sz ≤ j) (hD : Dex sz d lz P) :
    Dex sz (d.set j x) lz (fun v => P v ∨ ∃ t, 1 ≤ t ∧ j / 2 ^ t = v) := by
  intro v hv1 hv2 hvP
  have hP : ¬ P v := fun h => hvP (Or.inl h)
  have hanc : ¬ ∃ t, 1 ≤ t ∧ j / 2 ^ t = v := fun h => hvP (Or.inr h)
  by_cases hvj : v = j
  · subst hvj
    rw [nodeProd_leaf _ _ _ v (by omega) (by omega)]
  · have hdval : dval 1 (d.set j x) v = dval 1 d v :=
      dval_set_ne 1 _ _ (fun h => hvj h.symm)
    rw [hdval, hD v hv1 hv2 hP]
    refine nodeProd_congr_subtree _ _ _ _ _ v hv1 ?_ (fun _ _ _ _ => rfl)
    intro w hsub hw
    obtain ⟨t, hwt⟩ := hsub
    refine (dval_set_ne 1 _ _ ?_).symm
    intro hjw
    rcases Nat.eq_zero_or_pos t with ht | ht
    · subst ht
      simp at hwt
      exact hvj (by omega)
    · refine hanc ⟨t, ht, ?_⟩
      rw [hjw, hwt]

/-- `climbUpd` from a node repairs the aggregate invariant along the
node's strict-ancestor chain, provided the chain's pending actions are
identity, the chain is not excepted afterwards, and no non-ancestor child
of a chain node is excepted. -/
lemma climbUpd_repair (LOG : ℕ) (lz : List F) (E : ℕ → Prop) :
    ∀ (fuel i : ℕ) (d : List S),
    d.length = 2 * 2 ^ LOG → 1 ≤ i → i < 2 * 2 ^ LOG → i ≤ fuel →
    (∀ t, 1 ≤ t → ¬ E (i / 2 ^ t)) →
    (∀ t, 1 ≤ t → 1 ≤ i / 2 ^ t → dval 1 lz (i / 2 ^ t) = 1) →
    (∀ t, 1 ≤ t → ∀ w, 1 ≤ w → w / 2 = i / 2 ^ t →
      (¬ ∃ s, 1 ≤ s ∧ i / 2 ^ s = w) → ¬ E w) →
    Dex (2 ^ LOG) d lz (fun v => E v ∨ ∃ t, 1 ≤ t ∧ i / 2 ^ t = v) →
    Dex (2 ^ LOG) (SegmentTree.climbUpd fuel i d) lz E := by
  intro fuel
  induction fuel with
  | zero =>
    intro i d _ hi1 _ hifuel _ _ _ _
    omega
  | succ fuel ih =>
    intro i d hdlen hi1 hi2 hifuel hE hlz1 hsibE hD
    rw [SegmentTree.climbUpd]
    by_cases hgt : 1 < i
    · rw [if_pos hgt]
      have hplt : i / 2 < 2 ^ LOG := by omega
      have hp1 : 1 ≤ i / 2 := by omega
      -- the non-ancestor-or-self children of i/2 carry no exception
      have hcfacts : ∀ c, c = 2 * (i / 2) ∨ c = 2 * (i / 2) + 1 →
          ¬ (E c ∨ ∃ t, 1 ≤ t ∧ i / 2 ^ t = c) := by
        intro c hc
        have hnoanc : ¬ ∃ s, 1 ≤ s ∧ i / 2 ^ s = c := by
          rintro ⟨s, hs1, hs2⟩
          have h3 : i / 2 ^ s ≤ i / 2 ^ 1 :=
            Nat.div_le_div_left (Nat.pow_le_pow_right (by norm_num) (by omega)) (by positivity)
          rw [pow_one] at h3
          rcases hc with h | h <;> omega
        rintro (h | hanc)
        · exact hsibE 1 (by omega) c (by rcases hc with h' | h' <;> omega)
            (by rw [pow_one]; rcases hc with h' | h' <;> omega) hnoanc h
        · exact hnoanc hanc
      have hDnext : Dex (2 ^ LOG) (SegmentTree.updateAt d (i / 2)) lz
          (fun v => E v ∨ ∃ t, 1 ≤ t ∧ i / 2 / 2 ^ t = v) := by
        have hNP : ∀ u, 1 ≤ u →
            nodeProd (2 ^ LOG) (SegmentTree.updateAt d (i / 2)) lz u
              = nodeProd (2 ^ LOG) d lz u := by
          intro u hu
          refine nodeProd_congr_subtree _ _ _ _ _ u hu ?_ (fun _ _ _ _ => rfl)
          intro w _ hw
          rw [SegmentTree.updateAt]
          exact dval_set_ne 1 _ _ (by omega)
        intro v hv1 hv2 hvP
        have hvE : ¬ E v := fun h => hvP (Or.inl h)
        have hvanc2 : ¬ ∃ t, 1 ≤ t ∧ i / 2 / 2 ^ t = v := fun h => hvP (Or.inr h)
        by_cases hvp : v = i / 2
        · subst hvp
          have hlzp : dval 1 lz (i / 2) = 1 := by
            have h := hlz1 1 (by omega) (by rw [pow_one]; omega)
            rw [pow_one] at h
            exact h
          have hval : dval 1 (SegmentTree.updateAt d (i / 2)) (i / 2)
              = dval 1 d (2 * (i / 2)) * dval 1 d (2 * (i / 2) + 1) := by
            rw [SegmentTree.updateAt]
            exact dval_set_self 1 d (i / 2) _ (by omega)
          rw [hval, hNP (i / 2) hp1,
            nodeProd_internal (2 ^ LOG) d lz (i / 2) hp1 hplt, hlzp, one_smul,
            hD (2 * (i / 2)) (by omega) (by omega) (hcfacts _ (Or.inl rfl)),
            hD (2 * (i / 2) + 1) (by omega) (by omega) (hcfacts _ (Or.inr rfl))]
        · have hdv : dval 1 (SegmentTree.updateAt d (i / 2)) v = dval 1 d v := by
            rw [SegmentTree.updateAt]
            exact dval_set_ne 1 _ _ (fun h => hvp h.symm)
          rw [hdv, hNP v hv1]
          apply hD v hv1 hv2
          rintro (h | ⟨t, ht1, ht2⟩)
          · exact hvE h
          · rcases Nat.lt_or_ge t 2 with h2 | h2
            · have ht1' : t = 1 := by omega
              rw [ht1', pow_one] at ht2
              exact hvp ht2.symm
            · refine hvanc2 ⟨t - 1, by omega, ?_⟩
              have heq : i / 2 / 2 ^ (t - 1) = i / 2 ^ t := by
                rw [Nat.div_div_eq_div_mul, ← pow_succ', show t - 1 + 1 = t by omega]
              rw [heq]
              exact ht2
      refine ih (i / 2) (SegmentTree.updateAt d (i / 2))
        (by rw [SegmentTree.updateAt_length, hdlen]) hp1 (by omega) (by omega)
        ?_ ?_ ?_ hDnext
      · intro t ht
        have heq : i / 2 / 2 ^ t = i / 2 ^ (t + 1) := by
          rw [Nat.div_div_eq_div_mul, ← pow_succ']
        rw [heq]
        exact hE (t + 1) (by omega)
      · intro t ht hpos
        have heq : i / 2 / 2 ^ t = i / 2 ^ (t + 1) := by
          rw [Nat.div_div_eq_div_mul, ← pow_succ']
        rw [heq] at hpos ⊢
        exact hlz1 (t + 1) (by omega) hpos
      · intro t ht w hw1 hw2 hwnoanc
        have heq : i / 2 / 2 ^ t = i / 2 ^ (t + 1) := by
          rw [Nat.div_div_eq_div_mul, ← pow_succ']
        rw [heq] at hw2
        by_cases hwp : w = i / 2
        · subst hwp
          have h := hE 1 (by omega)
          rw [pow_one] at h
          exact h
        · refine hsibE (t + 1) (by omega) w hw1 hw2 ?_
          rintro ⟨s, hs1, hs2⟩
          rcases Nat.lt_or_ge s 2 with h2 | h2
          · have hs1' : s = 1 := by omega
            rw [hs1', pow_one] at hs2
            exact hwp hs2.symm
          · refine hwnoanc ⟨s - 1, by omega, ?_⟩
            have heq2 : i / 2 / 2 ^ (s - 1) = i / 2 ^ s := by
              rw [Nat.div_div_eq_div_mul, ← pow_succ', show s - 1 + 1 = s by omega]
            rw [heq2]
            exact hs2
    · rw [if_neg hgt]
      intro v hv1 hv2 hvE
      refine hD v hv1 hv2 ?_
      rintro (h | ⟨t, ht1, ht2⟩)
      · exact hvE h
      · have h2t : (2:ℕ) ≤ 2 ^ t := by
          calc (2:ℕ) = 2 ^ 1 := by norm_num
          _ ≤ 2 ^ t := Nat.pow_le_pow_right (by norm_num) (by omega)
        have h0 : i / 2 ^ t = 0 := Nat.div_eq_of_lt (by omega)
        omega

/-- The master invariant tying a lazy tree state to its brute-force
model array `a`: well-formed lengths, identity padding (leaves and
pending actions), every leaf's logical value matches the model, and
every node stores its fully-resolved aggregate. -/
structure Inv (a : List S) (st : LazyTree S F) : Prop where
  hdlen : st.data.length = 2 * 2 ^ st.log
  hlzlen : st.lazy.length = 2 ^ st.log
  hnle : st.n ≤ 2 ^ st.log
  halen : a.length = st.n
  hPD : PadData (2 ^ st.log) st.n st.data
  hPL : PadLazy (2 ^ st.log) st.n st.lazy
  hmodel : ∀ j, j < st.n → aVal st.log st.data st.lazy (j + 2 ^ st.log) = dval 1 a j
  hDex : Dex (2 ^ st.log) st.data st.lazy (fun _ => False)

/-- After the root-down push prefix, the leaf's stored value is its
logical value (the pending actions above it are all identity). -/
lemma pushSeq_leaf_val (LOG : ℕ) (d : List S) (lz : List F) (j : ℕ)
    (hdlen : d.length = 2 * 2 ^ LOG) (hlzlen : lz.length = 2 ^ LOG)
    (hj1 : 2 ^ LOG ≤ j) (hj2 : j < 2 * 2 ^ LOG) :
    dval 1 (pushSeq (2 ^ LOG) LOG d lz j).1 j = aVal LOG d lz j := by
  have hjdiv : 1 ≤ j / 2 ^ LOG := (Nat.one_le_div_iff (by positivity)).mpr hj1
  have h2 := pushSeq_aVal LOG LOG d lz j hdlen hlzlen hjdiv hj2 j hj1 hj2
  rw [← h2, aVal, upTo,
    upRange_one _ j LOG 1 _
      (fun t h1 h2 => pushSeq_chain _ LOG d lz j hjdiv t h1 (by omega))]

/-- Every height above a leaf's chain is exhausted: nodes above height
`LOG` vanish. -/
lemma leaf_div_high (LOG j t : ℕ) (hj2 : j < 2 * 2 ^ LOG) (ht : LOG + 1 ≤ t) :
    j / 2 ^ t = 0 := by
  have h3 : j / 2 ^ t ≤ j / 2 ^ (LOG + 1) :=
    Nat.div_le_div_left (Nat.pow_le_pow_right (by norm_num) (by omega)) (by positivity)
  have h4 : j / 2 ^ (LOG + 1) = 0 := by
    refine Nat.div_eq_of_lt ?_
    have : (2:ℕ) ^ (LOG + 1) = 2 * 2 ^ LOG := by ring
    omega
  rw [h4] at h3
  exact Nat.le_zero.mp h3

/-- Core preservation lemma for the three point mutations: pushing the
leaf's chain, writing the leaf, and refreshing upward preserves the
master invariant with the model updated at the written position. -/
lemma pointWrite_Inv
    (hdist : ∀ (f : F) (x y : S), f • (x * y) = f • x * f • y)
    (a : List S) (st : LazyTree S F) (i : ℕ) (w : S)
    (hInv : Inv a st) (hi : i < st.n) :
    Inv (a.set i w)
      (⟨SegmentTree.climbUpd (i + 2 ^ st.log) (i + 2 ^ st.log)
          ((pushSeq (2 ^ st.log) st.log st.data st.lazy (i + 2 ^ st.log)).1.set
            (i + 2 ^ st.log) w),
        (pushSeq (2 ^ st.log) st.log st.data st.lazy (i + 2 ^ st.log)).2,
        st.n, st.log⟩ : LazyTree S F) := by
  obtain ⟨hdlen, hlzlen, hnle, halen, hPD, hPL, hmodel, hDex⟩ := hInv
  have hj1 : 2 ^ st.log ≤ i + 2 ^ st.log := by omega
  have hj2 : i + 2 ^ st.log < 2 * 2 ^ st.log := by omega
  have hjdiv : 1 ≤ (i + 2 ^ st.log) / 2 ^ st.log :=
    (Nat.one_le_div_iff (by positivity)).mpr hj1
  have hd1len : (pushSeq (2 ^ st.log) st.log st.data st.lazy (i + 2 ^ st.log)).1.length
      = 2 * 2 ^ st.log :=
    (pushSeq_len _ _ _ _ _).1.trans hdlen
  have hlz1len : (pushSeq (2 ^ st.log) st.log st.data st.lazy (i + 2 ^ st.log)).2.length
      = 2 ^ st.log :=
    (pushSeq_len _ _ _ _ _).2.trans hlzlen
  have hslim := pushSeq_slim st.log st.n st.log st.data st.lazy (i + 2 ^ st.log)
    hnle hdlen hlzlen hjdiv hj2 hPD hPL
  have hchain : ∀ t, 1 ≤ t → 1 ≤ (i + 2 ^ st.log) / 2 ^ t →
      dval 1 (pushSeq (2 ^ st.log) st.log st.data st.lazy (i + 2 ^ st.log)).2
        ((i + 2 ^ st.log) / 2 ^ t) = 1 := by
    intro t h1 hpos
    have htle : t ≤ st.log := by
      by_contra hgt
      push_neg at hgt
      rw [leaf_div_high st.log _ t hj2 (by omega)] at hpos
      omega
    exact pushSeq_chain _ st.log st.data st.lazy _ hjdiv t h1 htle
  refine ⟨?_, ?_, hnle, by simpa using halen, ?_, ?_, ?_, ?_⟩
  · show (SegmentTree.climbUpd _ _ _).length = 2 * 2 ^ st.log
    rw [SegmentTree.climbUpd_length]
    simpa using hd1len
  · exact hlz1len
  · -- padding leaves untouched
    show PadData (2 ^ st.log) st.n
      (SegmentTree.climbUpd (i + 2 ^ st.log) (i + 2 ^ st.log)
        ((pushSeq (2 ^ st.log) st.log st.data st.lazy (i + 2 ^ st.log)).1.set
          (i + 2 ^ st.log) w))
    intro jj hjjn hjjlt
    rw [climbUpd_dval_high (2 ^ st.log) _ _ _ _ hj2 (by omega),
      dval_set_ne 1 _ _ (by omega)]
    exact hslim.1 jj hjjn hjjlt
  · exact hslim.2
  · -- the model after the write
    show ∀ jj, jj < st.n →
      aVal st.log
        (SegmentTree.climbUpd (i + 2 ^ st.log) (i + 2 ^ st.log)
          ((pushSeq (2 ^ st.log) st.log st.data st.lazy (i + 2 ^ st.log)).1.set
            (i + 2 ^ st.log) w))
        (pushSeq (2 ^ st.log) st.log st.data st.lazy (i + 2 ^ st.log)).2
        (jj + 2 ^ st.log) = dval 1 (a.set i w) jj
    intro jj hjjn
    rw [climbUpd_aVal st.log _ _ _ _ hj2 _ (by omega)]
    by_cases hji : jj = i
    · rw [hji, aVal, dval_set_self 1 _ _ _ (by omega), upTo,
        upRange_one _ _ st.log 1 _
          (fun t h1 h2 => hchain t h1 (by
            have h3 : (i + 2 ^ st.log) / 2 ^ st.log ≤ (i + 2 ^ st.log) / 2 ^ t :=
              Nat.div_le_div_left (Nat.pow_le_pow_right (by norm_num) (by omega))
                (by positivity)
            omega)),
        dval_set_self 1 a i w (by omega)]
    · rw [aVal, dval_set_ne 1 _ _ (by omega)]
      have h4 := pushSeq_aVal st.log st.log st.data st.lazy (i + 2 ^ st.log)
        hdlen hlzlen hjdiv hj2 (jj + 2 ^ st.log) (by omega) (by omega)
      rw [aVal] at h4
      rw [h4, hmodel jj hjjn, dval_set_ne 1 _ _ (fun h => hji h.symm)]
  · -- the aggregate invariant, repaired along the chain
    show Dex (2 ^ st.log)
      (SegmentTree.climbUpd (i + 2 ^ st.log) (i + 2 ^ st.log)
        ((pushSeq (2 ^ st.log) st.log st.data st.lazy (i + 2 ^ st.log)).1.set
          (i + 2 ^ st.log) w))
      (pushSeq (2 ^ st.log) st.log st.data st.lazy (i + 2 ^ st.log)).2 (fun _ => False)
    refine climbUpd_repair st.log _ (fun _ => False) _ (i + 2 ^ st.log) _
      (by simpa using hd1len) (by omega) hj2 (le_refl _)
      (fun _ _ => id) hchain (fun _ _ _ _ _ _ => id) ?_
    exact set_leaf_Dex (2 ^ st.log) _ _ (fun _ => False) (i + 2 ^ st.log) w hj1
      (pushSeq_Dex hdist st.log (fun _ => False) st.log st.data st.lazy _
        hdlen hlzlen hjdiv hj2 hDex)

/-- `set` preserves the master invariant, updating the model at `i`. -/
lemma set_Inv
    (hdist : ∀ (f : F) (x y : S), f • (x * y) = f • x * f • y)
    (a : List S) (st : LazyTree S F) (i : ℕ) (x : S)
    (hInv : Inv a st) (hi : i < st.n) :
    Inv (a.set i x) (set st i x) := by
  have hsz : size st = 2 ^ st.log := hInv.hlzlen
  show Inv (a.set i x)
    (⟨SegmentTree.climbUpd (i + size st) (i + size st)
        ((pushSeq (size st) st.log st.data st.lazy (i + size st)).1.set (i + size st) x),
      (pushSeq (size st) st.log st.data st.lazy (i + size st)).2,
      st.n, st.log⟩ : LazyTree S F)
  rw [hsz]
  exact pointWrite_Inv hdist a st i x hInv hi

/-- `operate` preserves the master invariant, multiplying the model at
`i` on the right by `x`. -/
lemma operate_Inv
    (hdist : ∀ (f : F) (x y : S), f • (x * y) = f • x * f • y)
    (a : List S) (st : LazyTree S F) (i : ℕ) (x : S)
    (hInv : Inv a st) (hi : i < st.n) :
    Inv (a.set i (dval 1 a i * x)) (operate st i x) := by
  have hsz : size st = 2 ^ st.log := hInv.hlzlen
  have hval : dval 1 (pushSeq (2 ^ st.log) st.log st.data st.lazy (i + 2 ^ st.log)).1
      (i + 2 ^ st.log) = dval 1 a i := by
    refine (pushSeq_leaf_val st.log st.data st.lazy _ hInv.hdlen hInv.hlzlen
      (by omega) ?_).trans (hInv.hmodel i hi)
    have := hInv.hnle
    omega
  show Inv (a.set i (dval 1 a i * x))
    (⟨SegmentTree.climbUpd (i + size st) (i + size st)
        ((pushSeq (size st) st.log st.data st.lazy (i + size st)).1.set (i + size st)
          (dval 1 (pushSeq (size st) st.log st.data st.lazy (i + size st)).1
            (i + size st) * x)),
      (pushSeq (size st) st.log st.data st.lazy (i + size st)).2,
      st.n, st.log⟩ : LazyTree S F)
  rw [hsz, hval]
  exact pointWrite_Inv hdist a st i (dval 1 a i * x) hInv hi

/-- `apply` preserves the master invariant, acting on the model at `i`. -/
lemma apply_Inv
    (hdist : ∀ (f : F) (x y : S), f • (x * y) = f • x * f • y)
    (a : List S) (st : LazyTree S F) (i : ℕ) (f : F)
    (hInv : Inv a st) (hi : i < st.n) :
    Inv (a.set i (f • dval 1 a i)) (apply st i f) := by
  have hsz : size st = 2 ^ st.log := hInv.hlzlen
  have hval : dval 1 (pushSeq (2 ^ st.log) st.log st.data st.lazy (i + 2 ^ st.log)).1
      (i + 2 ^ st.log) = dval 1 a i := by
    refine (pushSeq_leaf_val st.log st.data st.lazy _ hInv.hdlen hInv.hlzlen
      (by omega) ?_).trans (hInv.hmodel i hi)
    have := hInv.hnle
    omega
  show Inv (a.set i (f • dval 1 a i))
    (⟨SegmentTree.climbUpd (i + size st) (i + size st)
        ((pushSeq (size st) st.log st.data st.lazy (i + size st)).1.set (i + size st)
          (f • dval 1 (pushSeq (size st) st.log st.data st.lazy (i + size st)).1
            (i + size st))),
      (pushSeq (size st) st.log st.data st.lazy (i + size st)).2,
      st.n, st.log⟩ : LazyTree S F)
  rw [hsz, hval]
  exact pointWrite_Inv hdist a st i (f • dval 1 a i) hInv hi

/-- The state mutation of `get` preserves the master invariant with the
model unchanged. -/
lemma getState_Inv
    (hdist : ∀ (f : F) (x y : S), f • (x * y) = f • x * f • y)
    (a : List S) (st : LazyTree S F) (i : ℕ)
    (hInv : Inv a st) (hi : i < st.n) :
    Inv a (getState st i) := by
  obtain ⟨hdlen, hlzlen, hnle, halen, hPD, hPL, hmodel, hDex⟩ := hInv
  have hsz : size st = 2 ^ st.log := hlzlen
  have hj1 : 2 ^ st.log ≤ i + 2 ^ st.log := by omega
  have hj2 : i + 2 ^ st.log < 2 * 2 ^ st.log := by omega
  have hjdiv : 1 ≤ (i + 2 ^ st.log) / 2 ^ st.log :=
    (Nat.one_le_div_iff (by positivity)).mpr hj1
  show Inv a
    (⟨(pushSeqGet (size st) st.log st.data st.lazy (i + size st)).1,
      (pushSeqGet (size st) st.log st.data st.lazy (i + size st)).2, st.n, st.log⟩ :
      LazyTree S F)
  rw [hsz]
  have hslim := pushSeqGet_slim st.log st.n st.log st.data st.lazy (i + 2 ^ st.log)
    hnle hdlen hlzlen hjdiv hj2 hPD hPL
  refine ⟨?_, ?_, hnle, halen, hslim.1, hslim.2, ?_, ?_⟩
  · show (pushSeqGet (2 ^ st.log) st.log st.data st.lazy (i + 2 ^ st.log)).1.length
      = 2 * 2 ^ st.log
    exact (pushSeqGet_len _ _ _ _ _).1.trans hdlen
  · show (pushSeqGet (2 ^ st.log) st.log st.data st.lazy (i + 2 ^ st.log)).2.length
      = 2 ^ st.log
    exact (pushSeqGet_len _ _ _ _ _).2.trans hlzlen
  · show ∀ jj, jj < st.n →
      aVal st.log (pushSeqGet (2 ^ st.log) st.log st.data st.lazy (i + 2 ^ st.log)).1
        (pushSeqGet (2 ^ st.log) st.log st.data st.lazy (i + 2 ^ st.log)).2
        (jj + 2 ^ st.log) = dval 1 a jj
    intro jj hjjn
    rw [pushSeqGet_aVal st.log st.log st.data st.lazy _ hdlen hlzlen hjdiv hj2
      (jj + 2 ^ st.log) (by omega) (by omega)]
    exact hmodel jj hjjn
  · show Dex (2 ^ st.log)
      (pushSeqGet (2 ^ st.log) st.log st.data st.lazy (i + 2 ^ st.log)).1
      (pushSeqGet (2 ^ st.log) st.log st.data st.lazy (i + 2 ^ st.log)).2
      (fun _ => False)
    exact pushSeqGet_Dex hdist st.log (fun _ => False) st.log st.data st.lazy _
      hdlen hlzlen hjdiv hj2 hDex

lemma nodeProd_const_one (sz : ℕ) (d : List S) (lz : List F)
    (hd : ∀ u, sz ≤ u → u < 2 * sz → dval 1 d u = 1)
    (hlz : ∀ u, 1 ≤ u → u < sz → dval 1 lz u = 1) :
    ∀ k v, 1 ≤ v → v < 2 * sz → 2 * sz - v ≤ k → nodeProd sz d lz v = 1 := by
  intro k
  induction k with
  | zero => intro v h1 h2 h3; omega
  | succ k ih =>
    intro v h1 h2 h3
    by_cases hleaf : sz ≤ v
    · rw [nodeProd_leaf _ _ _ v (by omega) hleaf]
      exact hd v hleaf h2
    · rw [nodeProd_internal _ _ _ v h1 (by omega),
        hlz v h1 (by omega), one_smul,
        ih (2 * v) (by omega) (by omega) (by omega),
        ih (2 * v + 1) (by omega) (by omega) (by omega), one_mul]

/-- With identity pending actions, a tree whose array agrees with the
plain-tree node values of `w` satisfies the aggregate invariant. -/
lemma ones_treeVal_Dex (sz : ℕ) (d w : List S) (lz : List F)
    (hwlen : w.length = sz)
    (hones : ∀ u, 1 ≤ u → u < sz → dval 1 lz u = 1)
    (htv : ∀ j, 1 ≤ j → j < 2 * sz → dval 1 d j = SegmentTree.treeVal w j) :
    Dex sz d lz (fun _ => False) := by
  have main : ∀ k v, 1 ≤ v → v < 2 * sz → 2 * sz - v ≤ k →
      dval 1 d v = nodeProd sz d lz v := by
    intro k
    induction k with
    | zero => intro v h1 h2 h3; omega
    | succ k ih =>
      intro v h1 h2 h3
      by_cases hleaf : sz ≤ v
      · rw [nodeProd_leaf _ _ _ v (by omega) hleaf]
      · rw [nodeProd_internal _ _ _ v h1 (by omega), hones v h1 (by omega), one_smul,
          ← ih (2 * v) (by omega) (by omega) (by omega),
          ← ih (2 * v + 1) (by omega) (by omega) (by omega),
          htv v h1 h2, htv (2 * v) (by omega) (by omega),
          htv (2 * v + 1) (by omega) (by omega)]
        exact SegmentTree.treeVal_node w (by omega) (by omega)
  exact fun v h1 h2 _ => main (2 * sz) v h1 h2 (by omega)

/-- The freshly created tree satisfies the master invariant with the
all-identity model. -/
lemma new_Inv (n : ℕ) : Inv (List.replicate n (1:S)) (new S F n) := by
  have hnle : n ≤ 2 ^ ceilLog2 n := le_nextPowerOfTwo n
  refine ⟨?_, ?_, hnle, ?_, ?_, ?_, ?_, ?_⟩
  · show (List.replicate (2 * nextPowerOfTwo n) (1:S)).length = 2 * 2 ^ ceilLog2 n
    simp [nextPowerOfTwo]
  · show (List.replicate (nextPowerOfTwo n) (1:F)).length = 2 ^ ceilLog2 n
    simp [nextPowerOfTwo]
  · simp [new]
  · intro jj _ _
    exact dval_replicate 1 _ _
  · intro u e _ _ _ _
    exact dval_replicate 1 _ _
  · intro jj hjj
    show aVal (ceilLog2 n) (List.replicate (2 * nextPowerOfTwo n) 1)
      (List.replicate (nextPowerOfTwo n) 1) (jj + 2 ^ ceilLog2 n) = _
    rw [aVal, upTo, upRange_one _ _ (ceilLog2 n) 1 _ (fun t _ _ => dval_replicate 1 _ _),
      dval_replicate, dval_replicate]
  · show Dex (2 ^ ceilLog2 n) (List.replicate (2 * nextPowerOfTwo n) 1)
      (List.replicate (nextPowerOfTwo n) 1) (fun _ => False)
    intro v h1 h2 _
    rw [dval_replicate,
      nodeProd_const_one (2 ^ ceilLog2 n) _ _
        (fun u _ _ => dval_replicate 1 _ _) (fun u _ _ => dval_replicate 1 _ _)
        (2 * 2 ^ ceilLog2 n) v h1 h2 (by omega)]

/-- The tree built from a slice satisfies the master invariant with the
slice as model. -/
lemma fromSlice_Inv (v : List S) : Inv v (fromSlice v : LazyTree S F) := by
  have hnle : v.length ≤ 2 ^ ceilLog2 v.length := le_nextPowerOfTwo v.length
  have hpow : (1:ℕ) ≤ 2 ^ ceilLog2 v.length := Nat.one_le_two_pow
  have hwlen2 : (v ++ List.replicate (2 ^ ceilLog2 v.length - v.length) (1:S)).length
      = 2 ^ ceilLog2 v.length := by
    simp only [List.length_append, List.length_replicate]
    omega
  have hdata : (fromSlice v : LazyTree S F).data
      = SegmentTree.fromSlice (v ++ List.replicate (2 ^ ceilLog2 v.length - v.length) 1) := by
    show SegmentTree.buildDown (2 ^ ceilLog2 v.length - 1)
      (List.replicate (2 ^ ceilLog2 v.length) 1 ++ v
        ++ List.replicate (2 ^ ceilLog2 v.length - v.length) 1) = _
    rw [SegmentTree.fromSlice, hwlen2, List.append_assoc]
  have hSI0 := SegmentTree.fromSlice_inv
    (v ++ List.replicate (2 ^ ceilLog2 v.length - v.length) (1:S))
  rw [← hdata] at hSI0
  have hSI : ∀ j, 1 ≤ j →
      j < 2 * (v ++ List.replicate (2 ^ ceilLog2 v.length - v.length) (1:S)).length →
      dval 1 (fromSlice v : LazyTree S F).data j
        = SegmentTree.treeVal (v ++ List.replicate (2 ^ ceilLog2 v.length - v.length) 1) j :=
    hSI0.2
  have hSI' : ∀ j, 1 ≤ j → j < 2 * 2 ^ ceilLog2 v.length →
      dval 1 (fromSlice v : LazyTree S F).data j
        = SegmentTree.treeVal (v ++ List.replicate (2 ^ ceilLog2 v.length - v.length) 1) j :=
    fun j h1 h2 => hSI j h1 (by rw [hwlen2]; exact h2)
  refine ⟨?_, ?_, hnle, rfl, ?_, ?_, ?_, ?_⟩
  · show ((fromSlice v : LazyTree S F)).data.length = 2 * 2 ^ ceilLog2 v.length
    rw [hSI0.1, hwlen2]
  · show (List.replicate (nextPowerOfTwo v.length) (1:F)).length = 2 ^ ceilLog2 v.length
    simp [nextPowerOfTwo]
  · -- padding leaves hold the identity
    show PadData (2 ^ ceilLog2 v.length) v.length (fromSlice v : LazyTree S F).data
    intro jj hjjn hjjlt
    rw [hSI' _ (by omega) (by omega),
      SegmentTree.treeVal_leaf _ (by rw [hwlen2]; omega), hwlen2,
      show 2 ^ ceilLog2 v.length + jj - 2 ^ ceilLog2 v.length = jj by omega,
      dval_append_right 1 v _ jj (by omega)]
    exact dval_replicate 1 _ _
  · -- all pending actions are the identity
    intro u e _ _ _ _
    exact dval_replicate 1 _ _
  · -- the model: real leaves hold the slice values
    show ∀ jj, jj < v.length →
      aVal (ceilLog2 v.length) (fromSlice v : LazyTree S F).data
        (List.replicate (nextPowerOfTwo v.length) 1) (jj + 2 ^ ceilLog2 v.length)
        = dval 1 v jj
    intro jj hjj
    rw [aVal, upTo,
      upRange_one _ _ (ceilLog2 v.length) 1 _ (fun t _ _ => dval_replicate 1 _ _),
      hSI' _ (by omega) (by omega),
      SegmentTree.treeVal_leaf _ (by rw [hwlen2]; omega), hwlen2,
      show jj + 2 ^ ceilLog2 v.length - 2 ^ ceilLog2 v.length = jj by omega]
    exact dval_append_left 1 v _ jj hjj
  · show Dex (2 ^ ceilLog2 v.length) (fromSlice v : LazyTree S F).data
      (List.replicate (nextPowerOfTwo v.length) 1) (fun _ => False)
    exact ones_treeVal_Dex (2 ^ ceilLog2 v.length) _
      (v ++ List.replicate (2 ^ ceilLog2 v.length - v.length) 1) _
      hwlen2 (fun u _ _ => dval_replicate 1 _ _) hSI'

/-- Left-step safety of the convergence loop: when the guard picks the
left node, its whole interval fits below the right boundary. -/
lemma conv_left {l r dl dr L R : ℕ} (hl1 : 1 ≤ l)
    (hL : l * 2 ^ dl = L) (hR : r * 2 ^ dr = R) (hlt : L < R) (hguard : r ≤ l) :
    L + 2 ^ dl ≤ R := by
  rcases le_or_lt dl dr with hle | hgt
  · have hlz : l < r * 2 ^ (dr - dl) := by
      have h2 : l * 2 ^ dl < r * 2 ^ (dr - dl) * 2 ^ dl := by
        rw [mul_assoc, ← pow_add, show dr - dl + dl = dr by omega, hL, hR]
        exact hlt
      exact lt_of_mul_lt_mul_right h2 (Nat.zero_le _)
    have h3 : (l + 1) * 2 ^ dl ≤ r * 2 ^ (dr - dl) * 2 ^ dl :=
      Nat.mul_le_mul_right _ (by omega)
    calc L + 2 ^ dl = (l + 1) * 2 ^ dl := by rw [← hL]; ring
    _ ≤ r * 2 ^ (dr - dl) * 2 ^ dl := h3
    _ = R := by rw [mul_assoc, ← pow_add, show dr - dl + dl = dr by omega, hR]
  · exfalso
    have h2 : l * 2 ^ (dl - dr) * 2 ^ dr < r * 2 ^ dr := by
      rw [mul_assoc, ← pow_add, show dl - dr + dr = dl by omega, hL, hR]
      exact hlt
    have h3 : l * 2 ^ (dl - dr) < r := lt_of_mul_lt_mul_right h2 (Nat.zero_le _)
    have h5 : (2:ℕ) ≤ 2 ^ (dl - dr) := by
      calc (2:ℕ) = 2 ^ 1 := by norm_num
      _ ≤ 2 ^ (dl - dr) := Nat.pow_le_pow_right (by norm_num) (by omega)
    have h4 : l * 2 ≤ l * 2 ^ (dl - dr) := Nat.mul_le_mul_left _ h5
    omega

/-- Right-step safety of the convergence loop: when the guard picks the
right node, its whole interval fits above the left boundary. -/
lemma conv_right {l r dl dr L R : ℕ}
    (hL : l * 2 ^ dl = L) (hR : r * 2 ^ dr = R) (hlt : L < R) (hguard : l < r) :
    L + 2 ^ dr ≤ R := by
  have hr1 : 1 ≤ r := by omega
  rcases le_or_lt dl dr with hle | hgt
  · have h1 : l * 2 ^ dl ≤ (r - 1) * 2 ^ dl := Nat.mul_le_mul_right _ (by omega)
    have h2 : (r - 1) * 2 ^ dl ≤ (r - 1) * 2 ^ dr :=
      Nat.mul_le_mul_left _ (Nat.pow_le_pow_right (by norm_num) hle)
    have h3 : (r - 1) * 2 ^ dr + 2 ^ dr = r * 2 ^ dr := by
      calc (r - 1) * 2 ^ dr + 2 ^ dr = (r - 1 + 1) * 2 ^ dr := by ring
      _ = r * 2 ^ dr := by rw [show r - 1 + 1 = r by omega]
    omega
  · have h2 : l * 2 ^ (dl - dr) * 2 ^ dr < r * 2 ^ dr := by
      rw [mul_assoc, ← pow_add, show dl - dr + dr = dl by omega, hL, hR]
      exact hlt
    have h3 : l * 2 ^ (dl - dr) < r := lt_of_mul_lt_mul_right h2 (Nat.zero_le _)
    have h4 : l * 2 ^ (dl - dr) * 2 ^ dr ≤ (r - 1) * 2 ^ dr :=
      Nat.mul_le_mul_right _ (by omega)
    have h5 : (r - 1) * 2 ^ dr + 2 ^ dr = r * 2 ^ dr := by
      calc (r - 1) * 2 ^ dr + 2 ^ dr = (r - 1 + 1) * 2 ^ dr := by ring
      _ = r * 2 ^ dr := by rw [show r - 1 + 1 = r by omega]
    have h7 : l * 2 ^ (dl - dr) * 2 ^ dr = L := by
      rw [mul_assoc, ← pow_add, show dl - dr + dr = dl by omega, hL]
    omega

/-- A node fitting inside the tree has exactly one valid height witness. -/
lemma height_unique {sz u a b : ℕ} (_hu : 1 ≤ u)
    (h1a : sz ≤ u * 2 ^ a) (h2a : (u + 1) * 2 ^ a ≤ 2 * sz)
    (h1b : sz ≤ u * 2 ^ b) (h2b : (u + 1) * 2 ^ b ≤ 2 * sz) : a = b := by
  have key : ∀ x y, x < y → sz ≤ u * 2 ^ x → (u + 1) * 2 ^ y ≤ 2 * sz → False := by
    intro x y hxy hx hy
    have h3 : (u + 1) * 2 ^ (x + 1) ≤ (u + 1) * 2 ^ y :=
      Nat.mul_le_mul_left _ (Nat.pow_le_pow_right (by norm_num) (by omega))
    have h4 : (u + 1) * 2 ^ (x + 1) = 2 * ((u + 1) * 2 ^ x) := by ring
    have h6 : (u + 1) * 2 ^ x ≤ u * 2 ^ x := by omega
    have h7 : u + 1 ≤ u := Nat.le_of_mul_le_mul_right h6 (by positivity)
    omega
  rcases Nat.lt_trichotomy a b with h | h | h
  · exact absurd (key a b h h1a h2b) (by simp)
  · exact h
  · exact absurd (key b a h h1b h2a) (by simp)

/-- A node interval starting inside the array also ends inside it. -/
lemma interval_fits {u e LOG : ℕ} (hu : 1 ≤ u) (h : u * 2 ^ e < 2 * 2 ^ LOG) :
    (u + 1) * 2 ^ e ≤ 2 * 2 ^ LOG := by
  have h2 : 2 * 2 ^ LOG = 2 ^ (LOG + 1) := by ring
  rw [h2] at h ⊢
  refine pow2_next_multiple ?_ h
  by_contra hgt
  push_neg at hgt
  have h3 : 2 ^ (LOG + 1 + 1) ≤ 2 ^ e := Nat.pow_le_pow_right (by norm_num) (by omega)
  have h5 : (2:ℕ) ^ (LOG + 1 + 1) = 2 * 2 ^ (LOG + 1) := by ring
  have h4 : 2 ^ e ≤ u * 2 ^ e := by
    calc (2:ℕ) ^ e = 1 * 2 ^ e := by ring
    _ ≤ u * 2 ^ e := Nat.mul_le_mul_right _ hu
  have hpow : (1:ℕ) ≤ 2 ^ (LOG + 1) := Nat.one_le_two_pow
  omega

/-- Acting on a node whose interval sits inside the real leaf range
leaves the padding leaves untouched. -/
lemma act_PadData (LOG n : ℕ) (d : List S) (f : F) (u e U : ℕ)
    (hn : n ≤ 2 ^ LOG)
    (hU : u * 2 ^ e = U) (_hU1 : 2 ^ LOG ≤ U) (hU2 : U + 2 ^ e ≤ 2 ^ LOG + n)
    (hPD : PadData (2 ^ LOG) n d) :
    PadData (2 ^ LOG) n (d.set u (f • dval 1 d u)) := by
  intro jj hjjn hjjlt
  rw [dval_set_ne 1 _ _ ?_]
  · exact hPD jj hjjn hjjlt
  · intro hbad
    have hu_ge : 2 ^ LOG ≤ u := by omega
    have hpe : (1:ℕ) ≤ 2 ^ e := Nat.one_le_two_pow
    have he0 : e = 0 := by
      by_contra hene
      have h2 : (2:ℕ) ≤ 2 ^ e := by
        calc (2:ℕ) = 2 ^ 1 := by norm_num
        _ ≤ 2 ^ e := Nat.pow_le_pow_right (by norm_num) (by omega)
      have h3 : u * 2 ≤ u * 2 ^ e := Nat.mul_le_mul_left _ h2
      omega
    subst he0
    simp at hU
    omega

/-- Composing an action into a node whose interval sits inside the real
leaf range preserves the identity of the pending actions over padding. -/
lemma act_PadLazy (LOG n : ℕ) (lz : List F) (f : F) (u e U : ℕ) (hu1 : 1 ≤ u)
    (hn : n ≤ 2 ^ LOG)
    (hU : u * 2 ^ e = U) (_hU1 : 2 ^ LOG ≤ U) (hU2 : U + 2 ^ e ≤ 2 ^ LOG + n)
    (hPL : PadLazy (2 ^ LOG) n lz) :
    PadLazy (2 ^ LOG) n (lz.set u (f * dval 1 lz u)) := by
  intro i e' hi1 hie1 hie2 hie3
  rw [dval_set_ne 1 _ _ ?_]
  · exact hPL i e' hi1 hie1 hie2 hie3
  · intro hbad
    subst hbad
    have hpe : (1:ℕ) ≤ 2 ^ e := Nat.one_le_two_pow
    have hfit : (u + 1) * 2 ^ e ≤ 2 * 2 ^ LOG := interval_fits hu1 (by omega)
    have heq : e' = e := height_unique hi1 hie1 hie2 (by omega) hfit
    subst heq
    have hexp : (u + 1) * 2 ^ e' = U + 2 ^ e' := by
      rw [← hU]
      ring
    omega

/-- The convergence loop of `range_apply` preserves the array lengths
and both padding invariants: every acted node's interval sits inside the
real-leaf range `[L0, R0)`. -/
lemma applyLoop_slim (LOG n : ℕ) (f : F) (hn : n ≤ 2 ^ LOG) :
    ∀ (fuel l r dl dr L R : ℕ) (d : List S) (lz : List F),
    l % 2 = 1 → r % 2 = 1 →
    l * 2 ^ dl = L → r * 2 ^ dr = R →
    2 ^ LOG ≤ L → L < R → R ≤ 2 ^ LOG + n →
    l + r ≤ fuel →
    d.length = 2 * 2 ^ LOG → lz.length = 2 ^ LOG →
    PadData (2 ^ LOG) n d → PadLazy (2 ^ LOG) n lz →
    (applyLoop (2 ^ LOG) f fuel l r d lz).1.length = 2 * 2 ^ LOG ∧
    (applyLoop (2 ^ LOG) f fuel l r d lz).2.length = 2 ^ LOG ∧
    PadData (2 ^ LOG) n (applyLoop (2 ^ LOG) f fuel l r d lz).1 ∧
    PadLazy (2 ^ LOG) n (applyLoop (2 ^ LOG) f fuel l r d lz).2 := by
  intro fuel
  induction fuel with
  | zero =>
    intro l r dl dr L R d lz hl hr _ _ _ _ _ hfuel _ _ _ _
    omega
  | succ fuel ih =>
    intro l r dl dr L R d lz hl hr hLeq hReq hszL hLR hRN hfuel hdlen hlzlen hPD hPL
    rw [applyLoop]
    by_cases hg : r ≤ l
    · rw [if_pos hg]
      have hfits : L + 2 ^ dl ≤ R := conv_left (by omega) hLeq hReq hLR hg
      have hPD' : PadData (2 ^ LOG) n (d.set l (f • dval 1 d l)) :=
        act_PadData LOG n d f l dl L hn hLeq hszL (by omega) hPD
      have hPL' : PadLazy (2 ^ LOG) n
          (if l < 2 ^ LOG then lz.set l (f * dval 1 lz l) else lz) := by
        by_cases hls : l < 2 ^ LOG
        · rw [if_pos hls]
          exact act_PadLazy LOG n lz f l dl L (by omega) hn hLeq hszL (by omega) hPL
        · rw [if_neg hls]
          exact hPL
      by_cases hstop : oddPart (l + 1) = r
      · rw [if_pos hstop]
        refine ⟨by simpa using hdlen, ?_, hPD', hPL'⟩
        by_cases hls : l < 2 ^ LOG
        · rw [if_pos hls]
          simpa using hlzlen
        · rw [if_neg hls]
          exact hlzlen
      · rw [if_neg hstop]
        obtain ⟨k, hk⟩ := oddPart_mul_pow (l + 1)
        have hlodd : oddPart (l + 1) % 2 = 1 := oddPart_odd (by omega)
        have hk1 : 1 ≤ k := by
          by_contra h0
          push_neg at h0
          interval_cases k
          simp at hk
          omega
        have hlge : 3 ≤ l := by
          by_contra h0
          push_neg at h0
          have hl1 : l = 1 := by omega
          have hr1 : r = 1 := by omega
          rw [hl1, hr1] at hstop
          exact hstop rfl
        have hl'le : oddPart (l + 1) * 2 ≤ l + 1 := by
          calc oddPart (l + 1) * 2 = oddPart (l + 1) * 2 ^ 1 := by norm_num
          _ ≤ oddPart (l + 1) * 2 ^ k :=
            Nat.mul_le_mul_left _ (Nat.pow_le_pow_right (by norm_num) hk1)
          _ = l + 1 := hk.symm
        have hL' : oddPart (l + 1) * 2 ^ (dl + k) = L + 2 ^ dl := by
          calc oddPart (l + 1) * 2 ^ (dl + k)
              = oddPart (l + 1) * 2 ^ k * 2 ^ dl := by rw [mul_assoc, ← pow_add]; ring_nf
          _ = (l + 1) * 2 ^ dl := by rw [← hk]
          _ = L + 2 ^ dl := by rw [← hLeq]; ring
        have hstrict : L + 2 ^ dl < R := by
          rcases Nat.lt_or_ge (L + 2 ^ dl) R with h | h
          · exact h
          · exfalso
            have heq : L + 2 ^ dl = R := by omega
            rw [heq, ← hReq] at hL'
            exact hstop (odd_mul_pow_inj hlodd hr hL').1
        exact ih (oddPart (l + 1)) r (dl + k) dr (L + 2 ^ dl) R _ _
          hlodd hr hL' hReq (le_trans hszL (Nat.le_add_right _ _)) hstrict hRN (by omega)
          (by simpa using hdlen)
          (by by_cases hls : l < 2 ^ LOG
              · rw [if_pos hls]; simpa using hlzlen
              · rw [if_neg hls]; exact hlzlen)
          hPD' hPL'
    · rw [if_neg hg]
      push_neg at hg
      have hr3 : 3 ≤ r := by omega
      have hfits : L + 2 ^ dr ≤ R := conv_right hLeq hReq hLR hg
      have hUeq : (r - 1) * 2 ^ dr = R - 2 ^ dr := by
        have h3 : (r - 1) * 2 ^ dr + 2 ^ dr = r * 2 ^ dr := by
          calc (r - 1) * 2 ^ dr + 2 ^ dr = (r - 1 + 1) * 2 ^ dr := by ring
          _ = r * 2 ^ dr := by rw [show r - 1 + 1 = r by omega]
        omega
      have hpow : (1:ℕ) ≤ 2 ^ dr := Nat.one_le_two_pow
      have hPD' : PadData (2 ^ LOG) n (d.set (r - 1) (f • dval 1 d (r - 1))) :=
        act_PadData LOG n d f (r - 1) dr (R - 2 ^ dr) hn hUeq (by omega) (by omega) hPD
      have hPL' : PadLazy (2 ^ LOG) n
          (if r - 1 < 2 ^ LOG then lz.set (r - 1) (f * dval 1 lz (r - 1)) else lz) := by
        by_cases hls : r - 1 < 2 ^ LOG
        · rw [if_pos hls]
          exact act_PadLazy LOG n lz f (r - 1) dr (R - 2 ^ dr) (by omega) hn hUeq
            (by omega) (by omega) hPL
        · rw [if_neg hls]
          exact hPL
      by_cases hstop : l = oddPart (r - 1)
      · rw [if_pos hstop]
        refine ⟨by simpa using hdlen, ?_, hPD', hPL'⟩
        by_cases hls : r - 1 < 2 ^ LOG
        · rw [if_pos hls]
          simpa using hlzlen
        · rw [if_neg hls]
          exact hlzlen
      · rw [if_neg hstop]
        obtain ⟨k, hk⟩ := oddPart_mul_pow (r - 1)
        have hrodd : oddPart (r - 1) % 2 = 1 := oddPart_odd (by omega)
        have hk1 : 1 ≤ k := by
          by_contra h0
          push_neg at h0
          interval_cases k
          simp at hk
          omega
        have hr'le : oddPart (r - 1) * 2 ≤ r - 1 := by
          calc oddPart (r - 1) * 2 = oddPart (r - 1) * 2 ^ 1 := by norm_num
          _ ≤ oddPart (r - 1) * 2 ^ k :=
            Nat.mul_le_mul_left _ (Nat.pow_le_pow_right (by norm_num) hk1)
          _ = r - 1 := hk.symm
        have hR' : oddPart (r - 1) * 2 ^ (dr + k) = R - 2 ^ dr := by
          calc oddPart (r - 1) * 2 ^ (dr + k)
              = oddPart (r - 1) * 2 ^ k * 2 ^ dr := by rw [mul_assoc, ← pow_add]; ring_nf
          _ = (r - 1) * 2 ^ dr := by rw [← hk]
          _ = R - 2 ^ dr := hUeq
        have hstrict : L < R - 2 ^ dr := by
          rcases Nat.lt_or_ge L (R - 2 ^ dr) with h | h
          · exact h
          · exfalso
            have heq : L = R - 2 ^ dr := by omega
            rw [← heq, ← hLeq] at hR'
            exact hstop (odd_mul_pow_inj hl hrodd hR'.symm).1
        exact ih l (oddPart (r - 1)) dl (dr + k) L (R - 2 ^ dr) _ _
          hl hrodd hLeq hR' hszL hstrict (by omega) (by omega)
          (by simpa using hdlen)
          (by by_cases hls : r - 1 < 2 ^ LOG
              · rw [if_pos hls]; simpa using hlzlen
              · rw [if_neg hls]; exact hlzlen)
          hPD' hPL'

/-- The layout invariant of the lazy tree, independent of any algebraic
law beyond the monoid/action signature: array lengths are determined by
the power-of-two capacity, and all padding (leaves and pending actions
over padding) is the identity. -/
structure SlimInv (st : LazyTree S F) : Prop where
  hdlen : st.data.length = 2 * 2 ^ st.log
  hlzlen : st.lazy.length = 2 ^ st.log
  hnle : st.n ≤ 2 ^ st.log
  hlog : 2 ^ st.log = nextPowerOfTwo st.n
  hPD : PadData (2 ^ st.log) st.n st.data
  hPL : PadLazy (2 ^ st.log) st.n st.lazy

lemma new_SlimInv (n : ℕ) : SlimInv (new S F n) :=
  ⟨(new_Inv n).hdlen, (new_Inv n).hlzlen, (new_Inv n).hnle, rfl,
   (new_Inv n).hPD, (new_Inv n).hPL⟩

lemma fromSlice_SlimInv (v : List S) : SlimInv (fromSlice v : LazyTree S F) :=
  ⟨(fromSlice_Inv v).hdlen, (fromSlice_Inv v).hlzlen, (fromSlice_Inv v).hnle, rfl,
   (fromSlice_Inv v).hPD, (fromSlice_Inv v).hPL⟩

lemma pointWrite_SlimInv (st : LazyTree S F) (i : ℕ) (w : S)
    (hs : SlimInv st) (hi : i < st.n) :
    SlimInv
      (⟨SegmentTree.climbUpd (i + 2 ^ st.log) (i + 2 ^ st.log)
          ((pushSeq (2 ^ st.log) st.log st.data st.lazy (i + 2 ^ st.log)).1.set
            (i + 2 ^ st.log) w),
        (pushSeq (2 ^ st.log) st.log st.data st.lazy (i + 2 ^ st.log)).2,
        st.n, st.log⟩ : LazyTree S F) := by
  obtain ⟨hdlen, hlzlen, hnle, hlog, hPD, hPL⟩ := hs
  have hj1 : 2 ^ st.log ≤ i + 2 ^ st.log := by omega
  have hj2 : i + 2 ^ st.log < 2 * 2 ^ st.log := by omega
  have hjdiv : 1 ≤ (i + 2 ^ st.log) / 2 ^ st.log :=
    (Nat.one_le_div_iff (by positivity)).mpr hj1
  have hslim := pushSeq_slim st.log st.n st.log st.data st.lazy (i + 2 ^ st.log)
    hnle hdlen hlzlen hjdiv hj2 hPD hPL
  refine ⟨?_, ?_, hnle, hlog, ?_, hslim.2⟩
  · show (SegmentTree.climbUpd _ _ _).length = 2 * 2 ^ st.log
    rw [SegmentTree.climbUpd_length]
    simpa using (pushSeq_len _ _ _ _ _).1.trans hdlen
  · exact (pushSeq_len _ _ _ _ _).2.trans hlzlen
  · show PadData (2 ^ st.log) st.n
      (SegmentTree.climbUpd (i + 2 ^ st.log) (i + 2 ^ st.log)
        ((pushSeq (2 ^ st.log) st.log st.data st.lazy (i + 2 ^ st.log)).1.set
          (i + 2 ^ st.log) w))
    intro jj hjjn hjjlt
    rw [climbUpd_dval_high (2 ^ st.log) _ _ _ _ hj2 (by omega),
      dval_set_ne 1 _ _ (by omega)]
    exact hslim.1 jj hjjn hjjlt

lemma set_SlimInv (st : LazyTree S F) (i : ℕ) (x : S)
    (hs : SlimInv st) (hi : i < st.n) : SlimInv (set st i x) := by
  have hsz : size st = 2 ^ st.log := hs.hlzlen
  show SlimInv
    (⟨SegmentTree.climbUpd (i + size st) (i + size st)
        ((pushSeq (size st) st.log st.data st.lazy (i + size st)).1.set (i + size st) x),
      (pushSeq (size st) st.log st.data st.lazy (i + size st)).2,
      st.n, st.log⟩ : LazyTree S F)
  rw [hsz]
  exact pointWrite_SlimInv st i x hs hi

lemma operate_SlimInv (st : LazyTree S F) (i : ℕ) (x : S)
    (hs : SlimInv st) (hi : i < st.n) : SlimInv (operate st i x) := by
  have hsz : size st = 2 ^ st.log := hs.hlzlen
  show SlimInv
    (⟨SegmentTree.climbUpd (i + size st) (i + size st)
        ((pushSeq (size st) st.log st.data st.lazy (i + size st)).1.set (i + size st)
          (dval 1 (pushSeq (size st) st.log st.data st.lazy (i + size st)).1
            (i + size st) * x)),
      (pushSeq (size st) st.log st.data st.lazy (i + size st)).2,
      st.n, st.log⟩ : LazyTree S F)
  rw [hsz]
  exact pointWrite_SlimInv st i _ hs hi

lemma apply_SlimInv (st : LazyTree S F) (i : ℕ) (f : F)
    (hs : SlimInv st) (hi : i < st.n) : SlimInv (apply st i f) := by
  have hsz : size st = 2 ^ st.log := hs.hlzlen
  show SlimInv
    (⟨SegmentTree.climbUpd (i + size st) (i + size st)
        ((pushSeq (size st) st.log st.data st.lazy (i + size st)).1.set (i + size st)
          (f • dval 1 (pushSeq (size st) st.log st.data st.lazy (i + size st)).1
            (i + size st))),
      (pushSeq (size st) st.log st.data st.lazy (i + size st)).2,
      st.n, st.log⟩ : LazyTree S F)
  rw [hsz]
  exact pointWrite_SlimInv st i _ hs hi

lemma getState_SlimInv (st : LazyTree S F) (i : ℕ)
    (hs : SlimInv st) (hi : i < st.n) : SlimInv (getState st i) := by
  obtain ⟨hdlen, hlzlen, hnle, hlog, hPD, hPL⟩ := hs
  have hsz : size st = 2 ^ st.log := hlzlen
  have hj1 : 2 ^ st.log ≤ i + 2 ^ st.log := by omega
  have hj2 : i + 2 ^ st.log < 2 * 2 ^ st.log := by omega
  have hjdiv : 1 ≤ (i + 2 ^ st.log) / 2 ^ st.log :=
    (Nat.one_le_div_iff (by positivity)).mpr hj1
  show SlimInv
    (⟨(pushSeqGet (size st) st.log st.data st.lazy (i + size st)).1,
      (pushSeqGet (size st) st.log st.data st.lazy (i + size st)).2, st.n, st.log⟩ :
      LazyTree S F)
  rw [hsz]
  have hslim := pushSeqGet_slim st.log st.n st.log st.data st.lazy (i + 2 ^ st.log)
    hnle hdlen hlzlen hjdiv hj2 hPD hPL
  exact ⟨(pushSeqGet_len _ _ _ _ _).1.trans hdlen, (pushSeqGet_len _ _ _ _ _).2.trans hlzlen,
    hnle, hlog, hslim.1, hslim.2⟩

/-- The bitlen-bounded push prefix of `range_apply` (handles the `0`
target of an empty right chain). -/
lemma pushSeq_bitlen_slim (LOG n : ℕ) (d : List S) (lz : List F) (i : ℕ)
    (hn : n ≤ 2 ^ LOG) (hdlen : d.length = 2 * 2 ^ LOG) (hlzlen : lz.length = 2 ^ LOG)
    (hi : i < 2 * 2 ^ LOG)
    (hPD : PadData (2 ^ LOG) n d) (hPL : PadLazy (2 ^ LOG) n lz) :
    (pushSeq (2 ^ LOG) (bitlen i - 1) d lz i).1.length = 2 * 2 ^ LOG ∧
    (pushSeq (2 ^ LOG) (bitlen i - 1) d lz i).2.length = 2 ^ LOG ∧
    PadData (2 ^ LOG) n (pushSeq (2 ^ LOG) (bitlen i - 1) d lz i).1 ∧
    PadLazy (2 ^ LOG) n (pushSeq (2 ^ LOG) (bitlen i - 1) d lz i).2 := by
  rcases Nat.eq_zero_or_pos i with h0 | hpos
  · subst h0
    exact ⟨hdlen, hlzlen, hPD, hPL⟩
  · have hT : 1 ≤ i / 2 ^ (bitlen i - 1) := le_of_eq (bitlen_div_top i hpos).symm
    exact ⟨(pushSeq_len _ _ _ _ _).1.trans hdlen, (pushSeq_len _ _ _ _ _).2.trans hlzlen,
      (pushSeq_slim LOG n _ d lz i hn hdlen hlzlen hT hi hPD hPL).1,
      (pushSeq_slim LOG n _ d lz i hn hdlen hlzlen hT hi hPD hPL).2⟩

lemma rangeApply_SlimInv (st : LazyTree S F) (l r : ℕ) (f : F)
    (hs : SlimInv st) (hlr : l ≤ r) (hrn : r ≤ st.n) :
    SlimInv (rangeApply st l r f) := by
  obtain ⟨hdlen, hlzlen, hnle, hlog, hPD, hPL⟩ := hs
  have hsz : size st = 2 ^ st.log := hlzlen
  rw [rangeApply]
  by_cases hne : l + size st = r + size st
  · rw [if_pos hne]
    exact ⟨hdlen, hlzlen, hnle, hlog, hPD, hPL⟩
  · rw [if_neg hne, raLoop, raPre, hsz]
    have hlltr : l < r := by
      rcases Nat.lt_or_ge l r with h | h
      · exact h
      · exact absurd (by omega : l + size st = r + size st) hne
    -- the two pre-push chains
    have hi1pos : 1 ≤ oddPart (l + 2 ^ st.log) := by
      have h := oddPart_odd (x := l + 2 ^ st.log) (by positivity)
      omega
    have hi1lt : oddPart (l + 2 ^ st.log) < 2 * 2 ^ st.log := by
      have h := SegmentTree.oddPart_le (l + 2 ^ st.log)
      omega
    have hi2lt : oddPart (r + 2 ^ st.log) - 1 < 2 * 2 ^ st.log := by
      have h := SegmentTree.oddPart_le (r + 2 ^ st.log)
      omega
    have hp1 := pushSeq_bitlen_slim st.log st.n st.data st.lazy
      (oddPart (l + 2 ^ st.log)) hnle hdlen hlzlen hi1lt hPD hPL
    have hp2 := pushSeq_bitlen_slim st.log st.n _ _
      (oddPart (r + 2 ^ st.log) - 1) hnle hp1.1 hp1.2.1 hi2lt hp1.2.2.1 hp1.2.2.2
    -- the convergence loop
    obtain ⟨a, ha⟩ := oddPart_mul_pow (l + 2 ^ st.log)
    obtain ⟨b, hb⟩ := oddPart_mul_pow (r + 2 ^ st.log)
    have hloop := applyLoop_slim st.log st.n f hnle
      (l + 2 ^ st.log + (r + 2 ^ st.log))
      (oddPart (l + 2 ^ st.log)) (oddPart (r + 2 ^ st.log)) a b
      (l + 2 ^ st.log) (r + 2 ^ st.log) _ _
      (oddPart_odd (by positivity)) (oddPart_odd (by positivity))
      ha.symm hb.symm (by omega) (by omega) (by omega)
      (by
        have h1 := SegmentTree.oddPart_le (l + 2 ^ st.log)
        have h2 := SegmentTree.oddPart_le (r + 2 ^ st.log)
        omega)
      hp2.1 hp2.2.1 hp2.2.2.1 hp2.2.2.2
    -- the two upward refreshes
    refine ⟨?_, ?_, hnle, hlog, ?_, hloop.2.2.2⟩
    · show (SegmentTree.climbUpd _ _ (SegmentTree.climbUpd _ _ _)).length = 2 * 2 ^ st.log
      rw [SegmentTree.climbUpd_length, SegmentTree.climbUpd_length]
      exact hloop.1
    · exact hloop.2.1
    · show PadData (2 ^ st.log) st.n
        (SegmentTree.climbUpd (oddPart (r + 2 ^ st.log) - 1) (oddPart (r + 2 ^ st.log) - 1)
          (SegmentTree.climbUpd (oddPart (l + 2 ^ st.log)) (oddPart (l + 2 ^ st.log)) _))
      intro jj hjjn hjjlt
      rw [climbUpd_dval_high (2 ^ st.log) _ _ _ _ hi2lt (by omega),
        climbUpd_dval_high (2 ^ st.log) _ _ _ _ hi1lt (by omega)]
      exact hloop.2.2.1 jj hjjn hjjlt

/-- Every reachable lazy-tree state satisfies the layout invariant,
for arbitrary monoid/action instances. -/
lemma reachable_SlimInv (st : LazyTree S F) (h : ReachableL st) : SlimInv st := by
  induction h with
  | new n => exact new_SlimInv n
  | fromSlice v => exact fromSlice_SlimInv v
  | set i x _ hi ih => exact set_SlimInv _ i x ih hi
  | operate i x _ hi ih => exact operate_SlimInv _ i x ih hi
  | apply i f _ hi ih => exact apply_SlimInv _ i f ih hi
  | rangeApply l r f _ hlr hrn ih => exact rangeApply_SlimInv _ l r f ih hlr hrn
  | get i _ hi ih => exact getState_SlimInv _ i ih hi

lemma odd_mod_pow_lb {c h e : ℕ} (hc : c % 2 = 1) (he : h < e) :
    2 ^ h ≤ c * 2 ^ h % 2 ^ e := by
  rw [show (2:ℕ) ^ e = 2 ^ (e - h) * 2 ^ h by rw [← pow_add]; congr 1; omega,
    Nat.mul_mod_mul_right]
  have h2 : c % 2 ^ (e - h) % 2 = c % 2 :=
    Nat.mod_mod_of_dvd c ⟨2 ^ (e - h - 1), by rw [← pow_succ']; congr 1; omega⟩
  have h3 : 1 ≤ c % 2 ^ (e - h) := by omega
  calc (2:ℕ) ^ h = 1 * 2 ^ h := by ring
  _ ≤ c % 2 ^ (e - h) * 2 ^ h := Nat.mul_le_mul_right _ h3

lemma mul_mod_pow_ub {c h e : ℕ} (he : h < e) :
    c * 2 ^ h % 2 ^ e ≤ 2 ^ e - 2 ^ h := by
  have hsplit : (2:ℕ) ^ e = 2 ^ (e - h) * 2 ^ h := by
    rw [← pow_add]
    congr 1
    omega
  rw [hsplit, Nat.mul_mod_mul_right]
  have h2 : c % 2 ^ (e - h) < 2 ^ (e - h) := Nat.mod_lt _ (by positivity)
  have h3 : c % 2 ^ (e - h) * 2 ^ h ≤ (2 ^ (e - h) - 1) * 2 ^ h :=
    Nat.mul_le_mul_right _ (by omega)
  have h4 : (2 ^ (e - h) - 1) * 2 ^ h = 2 ^ (e - h) * 2 ^ h - 2 ^ h := by
    have h5 : (1:ℕ) ≤ 2 ^ (e - h) := Nat.one_le_two_pow
    calc (2 ^ (e - h) - 1) * 2 ^ h = 2 ^ (e - h) * 2 ^ h - 1 * 2 ^ h :=
      Nat.sub_mul _ _ _
    _ = 2 ^ (e - h) * 2 ^ h - 2 ^ h := by rw [one_mul]
  omega

/-- Two points within the slack around `X` inside its `2^e`-block share
`X`'s block. -/
lemma same_block_around (X e a b : ℕ) (ha : a ≤ X % 2 ^ e)
    (hb : X % 2 ^ e + b < 2 ^ e) :
    (X - a) / 2 ^ e = X / 2 ^ e ∧ (X + b) / 2 ^ e = X / 2 ^ e := by
  have hdm := Nat.div_add_mod X (2 ^ e)
  have hcomm : 2 ^ e * (X / 2 ^ e) = X / 2 ^ e * 2 ^ e := Nat.mul_comm _ _
  have hc1 : (X / 2 ^ e + 1) * 2 ^ e = X / 2 ^ e * 2 ^ e + 2 ^ e := by ring
  constructor
  · exact div_interval (by omega) (by omega)
  · exact div_interval (by omega) (by omega)

/-- Every nonvanishing ancestor of an in-range position is a valid node
with both its interval endpoints inside the array. -/
lemma node_valid (LOG X e : ℕ) (hX1 : 2 ^ LOG ≤ X) (hX2 : X < 2 * 2 ^ LOG)
    (hpos : 1 ≤ X / 2 ^ e) :
    2 ^ LOG ≤ X / 2 ^ e * 2 ^ e ∧ (X / 2 ^ e + 1) * 2 ^ e ≤ 2 * 2 ^ LOG := by
  have heLOG : e ≤ LOG := by
    by_contra hgt
    push_neg at hgt
    rw [leaf_div_high LOG X e hX2 (by omega)] at hpos
    omega
  have hlow : 2 ^ (LOG - e) ≤ X / 2 ^ e := by
    have h1 : 2 ^ LOG / 2 ^ e ≤ X / 2 ^ e := Nat.div_le_div_right hX1
    have h2 : (2:ℕ) ^ LOG / 2 ^ e = 2 ^ (LOG - e) := by
      rw [Nat.pow_div heLOG (by norm_num)]
    omega
  have h3 : 2 ^ LOG ≤ X / 2 ^ e * 2 ^ e := by
    calc (2:ℕ) ^ LOG = 2 ^ (LOG - e) * 2 ^ e := by rw [← pow_add]; congr 1; omega
    _ ≤ X / 2 ^ e * 2 ^ e := Nat.mul_le_mul_right _ hlow
  refine ⟨h3, interval_fits hpos ?_⟩
  have h4 := Nat.div_mul_le_self X (2 ^ e)
  calc X / 2 ^ e * 2 ^ e ≤ X := h4
  _ < 2 * 2 ^ LOG := hX2

lemma div_rev {u e w : ℕ} (h : w / 2 ^ e = u) :
    u * 2 ^ e ≤ w ∧ w < (u + 1) * 2 ^ e := by
  have hdm := Nat.div_add_mod w (2 ^ e)
  have hmlt : w % 2 ^ e < 2 ^ e := Nat.mod_lt _ (by positivity)
  have hc1 : (u + 1) * 2 ^ e = u * 2 ^ e + 2 ^ e := by ring
  rw [h] at hdm
  have hcomm : 2 ^ e * u = u * 2 ^ e := Nat.mul_comm _ _
  omega

/-- Acting on one node (data always, pending action if internal) lifts
exactly the logical values of the leaves under that node by `f`,
provided all strict ancestors of the node carry the identity action. -/
lemma act_aVal (LOG : ℕ) (d : List S) (lz : List F) (f : F) (u e U : ℕ)
    (hdlen : d.length = 2 * 2 ^ LOG) (hlzlen : lz.length = 2 ^ LOG)
    (hu1 : 1 ≤ u) (hU : u * 2 ^ e = U) (hU1 : 2 ^ LOG ≤ U)
    (hfit : U + 2 ^ e ≤ 2 * 2 ^ LOG)
    (hanc : ∀ s, 1 ≤ s → 1 ≤ u / 2 ^ s → dval 1 lz (u / 2 ^ s) = 1) :
    ∀ w, 2 ^ LOG ≤ w → w < 2 * 2 ^ LOG →
      aVal LOG (d.set u (f • dval 1 d u))
        (if u < 2 ^ LOG then lz.set u (f * dval 1 lz u) else lz) w
        = if U ≤ w ∧ w < U + 2 ^ e then f • aVal LOG d lz w
          else aVal LOG d lz w := by
  have hU' : (u + 1) * 2 ^ e = U + 2 ^ e := by rw [← hU]; ring
  have hpe : 2 ^ e ≤ U := by
    calc (2:ℕ) ^ e = 1 * 2 ^ e := by ring
    _ ≤ u * 2 ^ e := Nat.mul_le_mul_right _ hu1
    _ = U := hU
  have he_le : e ≤ LOG := by
    by_contra hgt
    push_neg at hgt
    have h1 : 2 ^ (LOG + 1) ≤ 2 ^ e := Nat.pow_le_pow_right (by norm_num) (by omega)
    have h2 : (2:ℕ) ^ (LOG + 1) = 2 * 2 ^ LOG := by ring
    have h3 : (1:ℕ) ≤ 2 ^ e := Nat.one_le_two_pow
    omega
  intro w hw1 hw2
  have hiff : (U ≤ w ∧ w < U + 2 ^ e) ↔ w / 2 ^ e = u := by
    constructor
    · rintro ⟨h1, h2⟩
      exact div_interval (by omega) (by omega)
    · intro h
      have := div_rev h
      omega
  have hge1all : ∀ t, t ≤ LOG → 1 ≤ w / 2 ^ t := by
    intro t ht
    have h1' : 2 ^ LOG / 2 ^ t ≤ w / 2 ^ t := Nat.div_le_div_right hw1
    have h2' : (2:ℕ) ^ LOG / 2 ^ t = 2 ^ (LOG - t) := Nat.pow_div ht (by norm_num)
    have h3' : (1:ℕ) ≤ 2 ^ (LOG - t) := Nat.one_le_two_pow
    omega
  by_cases hin : w / 2 ^ e = u
  · rw [if_pos (hiff.mpr hin)]
    by_cases hus : u < 2 ^ LOG
    · -- internal acted node
      rw [if_pos hus]
      have he1 : 1 ≤ e := by
        by_contra h0
        push_neg at h0
        interval_cases e
        simp at hU
        omega
      have hdw : dval 1 (d.set u (f • dval 1 d u)) w = dval 1 d w :=
        dval_set_ne 1 _ _ (by omega)
      have hsplit : ∀ (L : List F) (acc : S),
          upRange L w 1 LOG acc = upRange L w (1 + e) (LOG - e) (upRange L w 1 e acc) := by
        intro L acc
        rw [upRange_compose, show e + (LOG - e) = LOG by omega]
      have hwt_anc : ∀ t, 1 + e ≤ t → t < 1 + LOG → w / 2 ^ t = u / 2 ^ (t - e) := by
        intro t h1 h2
        rw [← hin, div_div_pow, show e + (t - e) = t by omega]
      have htop_old : ∀ t, 1 + e ≤ t → t < 1 + e + (LOG - e) →
          dval 1 lz (w / 2 ^ t) = 1 := by
        intro t h1 h2
        rw [hwt_anc t h1 (by omega)]
        exact hanc (t - e) (by omega)
          (by rw [← hwt_anc t h1 (by omega)]; exact hge1all t (by omega))
      have htop_new : ∀ t, 1 + e ≤ t → t < 1 + e + (LOG - e) →
          dval 1 (lz.set u (f * dval 1 lz u)) (w / 2 ^ t) = 1 := by
        intro t h1 h2
        have hne : u ≠ w / 2 ^ t := by
          rw [hwt_anc t h1 (by omega)]
          have h4 : u / 2 ^ (t - e) ≤ u / 2 ^ 1 :=
            Nat.div_le_div_left (Nat.pow_le_pow_right (by norm_num) (by omega))
              (by positivity)
          rw [pow_one] at h4
          omega
        rw [dval_set_ne 1 _ _ hne]
        exact htop_old t h1 h2
      rw [aVal, aVal, upTo, upTo, hsplit, hsplit,
        upRange_one _ w (LOG - e) (1 + e) _ htop_new,
        upRange_one lz w (LOG - e) (1 + e) _ htop_old, hdw,
        show e = e - 1 + 1 by omega, upRange_top, upRange_top,
        show (1:ℕ) + (e - 1) = e by omega, hin,
        dval_set_self 1 lz u _ (by rw [hlzlen]; exact hus), mul_smul,
        upRange_congr (lz.set u (f * dval 1 lz u)) lz w (e - 1) 1 _ ?_]
      intro t h1 h2
      refine dval_set_ne 1 _ _ ?_
      rw [← hin]
      have h4 := div_pow_lt_of_lt w (show t < e by omega) (by rw [hin]; omega)
      omega
    · -- the acted node is a leaf
      rw [if_neg hus]
      push_neg at hus
      have he0 : e = 0 := by
        by_contra hene
        have h2 : (2:ℕ) ≤ 2 ^ e := by
          calc (2:ℕ) = 2 ^ 1 := by norm_num
          _ ≤ 2 ^ e := Nat.pow_le_pow_right (by norm_num) (by omega)
        have h3 : u * 2 ≤ u * 2 ^ e := Nat.mul_le_mul_left _ h2
        omega
      subst he0
      simp only [pow_zero, mul_one, Nat.div_one] at hU hin
      subst hU
      subst hin
      have hanc1 : ∀ t, 1 ≤ t → t < 1 + LOG → dval 1 lz (w / 2 ^ t) = 1 :=
        fun t h1 h2 => hanc t h1 (hge1all t (by omega))
      rw [aVal, aVal, upTo, upTo, dval_set_self 1 d w _ (by rw [hdlen]; omega),
        upRange_one lz w LOG 1 _ hanc1, upRange_one lz w LOG 1 _ hanc1]
  · rw [if_neg (fun hc => hin (hiff.mp hc))]
    have hchain_ne : ∀ t, w / 2 ^ t ≠ u := by
      intro t hbad
      have hge1 : 1 ≤ w / 2 ^ t := by rw [hbad]; omega
      have hv := node_valid LOG w t hw1 hw2 hge1
      rw [hbad] at hv
      have ht_e : t = e := height_unique hu1 hv.1 hv.2 (by omega) (by omega)
      exact hin (ht_e ▸ hbad)
    have hwu : w ≠ u := by
      have h0 := hchain_ne 0
      simpa using h0
    have hdw : dval 1 (d.set u (f • dval 1 d u)) w = dval 1 d w :=
      dval_set_ne 1 _ _ (fun h => hwu h.symm)
    by_cases hus : u < 2 ^ LOG
    · rw [if_pos hus, aVal, aVal, upTo, upTo, hdw]
      refine upRange_congr _ lz w LOG 1 _ ?_
      intro t h1 h2
      exact dval_set_ne 1 _ _ (fun h => hchain_ne t h.symm)
    · rw [if_neg hus, aVal, aVal, upTo, upTo, hdw]

/-- Acting on one node preserves the aggregate invariant away from an
exception set that contains all its strict ancestors but not the node
itself. -/
lemma act_Dex (LOG : ℕ) (d : List S) (lz : List F) (f : F) (u : ℕ) (P : ℕ → Prop)
    (hdlen : d.length = 2 * 2 ^ LOG) (hlzlen : lz.length = 2 ^ LOG)
    (hPanc : ∀ s, 1 ≤ s → 1 ≤ u / 2 ^ s → P (u / 2 ^ s))
    (hD : Dex (2 ^ LOG) d lz P) :
    Dex (2 ^ LOG) (d.set u (f • dval 1 d u))
      (if u < 2 ^ LOG then lz.set u (f * dval 1 lz u) else lz) P := by
  intro v hv1 hv2 hvP
  by_cases hvu : v = u
  · subst hvu
    by_cases hus : v < 2 ^ LOG
    · rw [if_pos hus]
      have hch : ∀ c, c = 2 * v ∨ c = 2 * v + 1 →
          nodeProd (2 ^ LOG) (d.set v (f • dval 1 d v)) (lz.set v (f * dval 1 lz v)) c
            = nodeProd (2 ^ LOG) d lz c := by
        intro c hc
        have hcv : v < c := by rcases hc with h | h <;> omega
        have hsub_big : ∀ ww t, ww / 2 ^ t = c → v < ww := by
          intro ww t hwt
          have h1 := (div_rev hwt).1
          have h2 : c ≤ c * 2 ^ t := by
            calc c = c * 1 := by ring
            _ ≤ c * 2 ^ t := Nat.mul_le_mul_left _ Nat.one_le_two_pow
          omega
        refine nodeProd_congr_subtree _ _ _ _ _ c (by omega) ?_ ?_
        · intro ww hsub hww
          obtain ⟨t, hwt⟩ := hsub
          exact dval_set_ne 1 _ _ (by have := hsub_big ww t hwt; omega)
        · intro ww hsub h1 h2
          obtain ⟨t, hwt⟩ := hsub
          exact dval_set_ne 1 _ _ (by have := hsub_big ww t hwt; omega)
      have hRHS : nodeProd (2 ^ LOG) (d.set v (f • dval 1 d v))
          (lz.set v (f * dval 1 lz v)) v
            = (f * dval 1 lz v) •
              (nodeProd (2 ^ LOG) d lz (2 * v) * nodeProd (2 ^ LOG) d lz (2 * v + 1)) := by
        rw [nodeProd_internal _ _ _ v hv1 hus, dval_set_self 1 lz v _ (by rw [hlzlen]; exact hus),
          hch (2 * v) (Or.inl rfl), hch (2 * v + 1) (Or.inr rfl)]
      rw [hRHS, dval_set_self 1 d v _ (by rw [hdlen]; omega), hD v hv1 hv2 hvP,
        nodeProd_internal (2 ^ LOG) d lz v hv1 hus, mul_smul]
    · rw [if_neg hus]
      push_neg at hus
      rw [nodeProd_leaf _ _ _ v (by omega) hus]
  · have hnotin : ∀ ww t, ww / 2 ^ t = v → u ≠ ww := by
      intro ww t hwt h
      rcases Nat.eq_zero_or_pos t with ht | ht
      · subst ht
        simp at hwt
        exact hvu (by omega)
      · have h5 : u / 2 ^ t = v := by rw [h, hwt]
        refine hvP ?_
        have h6 := hPanc t ht (by rw [h5]; omega)
        rw [h5] at h6
        exact h6
    have hdv : dval 1 (d.set u (f • dval 1 d u)) v = dval 1 d v :=
      dval_set_ne 1 _ _ (hnotin v 0 (by simp))
    have hNP : nodeProd (2 ^ LOG) (d.set u (f • dval 1 d u))
        (if u < 2 ^ LOG then lz.set u (f * dval 1 lz u) else lz) v
          = nodeProd (2 ^ LOG) d lz v := by
      refine nodeProd_congr_subtree _ _ _ _ _ v hv1 ?_ ?_
      · intro ww hsub hww
        obtain ⟨t, hwt⟩ := hsub
        exact dval_set_ne 1 _ _ (hnotin ww t hwt)
      · intro ww hsub h1 h2
        obtain ⟨t, hwt⟩ := hsub
        by_cases hus : u < 2 ^ LOG
        · rw [if_pos hus]
          exact dval_set_ne 1 _ _ (hnotin ww t hwt)
        · rw [if_neg hus]
    rw [hdv, hNP]
    exact hD v hv1 hv2 hvP

/-- `v` is a strict ancestor of the node `X / 2 ^ d0`: an ancestor of the
leaf position `X` at some height strictly above `d0`. -/
def StrictAncL (X d0 v : ℕ) : Prop := ∃ e, d0 < e ∧ X / 2 ^ e = v

/-- The node acted on by a left step of the convergence loop is disjoint
from both pre-pushed boundary ancestor chains. -/
lemma acted_left_not_anc (LOG n : ℕ) (hn : n ≤ 2 ^ LOG)
    (L0 R0 dl0 dr0 l0 r0 l r dl dr L R : ℕ)
    (hl0 : l0 % 2 = 1) (hr0 : r0 % 2 = 1) (hl : l % 2 = 1) (hr : r % 2 = 1)
    (hL0eq : l0 * 2 ^ dl0 = L0) (hR0eq : r0 * 2 ^ dr0 = R0)
    (hLeq : l * 2 ^ dl = L) (hReq : r * 2 ^ dr = R)
    (hszL0 : 2 ^ LOG ≤ L0) (hR0N : R0 ≤ 2 ^ LOG + n) (hL0R0 : L0 < R0)
    (hL0le : L0 ≤ L) (hRle : R ≤ R0) (hfits : L + 2 ^ dl ≤ R) :
    ¬ (StrictAncL L0 dl0 l ∨ StrictAncL (R0 - 1) dr0 l) := by
  have hl1 : 1 ≤ l := by omega
  have h5 : (l + 1) * 2 ^ dl = L + 2 ^ dl := by rw [← hLeq]; ring
  have hdlv1 : 2 ^ LOG ≤ l * 2 ^ dl := by rw [hLeq]; omega
  have hdlv2 : (l + 1) * 2 ^ dl ≤ 2 * 2 ^ LOG := by omega
  rintro (⟨e, he, hdiv⟩ | ⟨e, he, hdiv⟩)
  · have hpos : 1 ≤ L0 / 2 ^ e := by rw [hdiv]; exact hl1
    have hv := node_valid LOG L0 e hszL0 (by omega) hpos
    rw [hdiv] at hv
    have hee : e = dl := height_unique hl1 hv.1 hv.2 hdlv1 hdlv2
    subst hee
    have hdr2 := div_rev hdiv
    rw [hLeq] at hdr2
    have hLL0 : L0 = L := by omega
    obtain ⟨-, hdeq⟩ := odd_mul_pow_inj hl hl0
      (show l * 2 ^ e = l0 * 2 ^ dl0 by rw [hLeq, ← hLL0]; exact hL0eq.symm)
    omega
  · have hpos : 1 ≤ (R0 - 1) / 2 ^ e := by rw [hdiv]; exact hl1
    have hv := node_valid LOG (R0 - 1) e (by omega) (by omega) hpos
    rw [hdiv] at hv
    have hee : e = dl := height_unique hl1 hv.1 hv.2 hdlv1 hdlv2
    subst hee
    have hdr2 := div_rev hdiv
    rw [hLeq] at hdr2
    have hRR0 : R = R0 ∧ L + 2 ^ e = R0 := by omega
    obtain ⟨k, hk⟩ := oddPart_mul_pow (l + 1)
    have hlodd2 : oddPart (l + 1) % 2 = 1 := oddPart_odd (by omega)
    have hval : oddPart (l + 1) * 2 ^ (k + e) = r0 * 2 ^ dr0 := by
      calc oddPart (l + 1) * 2 ^ (k + e) = oddPart (l + 1) * 2 ^ k * 2 ^ e := by
            rw [pow_add, ← mul_assoc]
      _ = (l + 1) * 2 ^ e := by rw [← hk]
      _ = L + 2 ^ e := h5
      _ = R0 := hRR0.2
      _ = r0 * 2 ^ dr0 := hR0eq.symm
    obtain ⟨-, hkd⟩ := odd_mul_pow_inj hlodd2 hr0 hval
    omega

/-- The node acted on by a right step of the convergence loop is disjoint
from both pre-pushed boundary ancestor chains. -/
lemma acted_right_not_anc (LOG n : ℕ) (hn : n ≤ 2 ^ LOG)
    (L0 R0 dl0 dr0 l0 r0 l r dl dr L R : ℕ)
    (hl0 : l0 % 2 = 1) (hr0 : r0 % 2 = 1) (hl : l % 2 = 1) (hr : r % 2 = 1)
    (hL0eq : l0 * 2 ^ dl0 = L0) (hR0eq : r0 * 2 ^ dr0 = R0)
    (hLeq : l * 2 ^ dl = L) (hReq : r * 2 ^ dr = R)
    (hszL0 : 2 ^ LOG ≤ L0) (hR0N : R0 ≤ 2 ^ LOG + n) (hL0R0 : L0 < R0)
    (hL0le : L0 ≤ L) (hRle : R ≤ R0) (hfits : L + 2 ^ dr ≤ R) (hg : l < r) :
    ¬ (StrictAncL L0 dl0 (r - 1) ∨ StrictAncL (R0 - 1) dr0 (r - 1)) := by
  have hl1 : 1 ≤ l := by omega
  have hr3 : 3 ≤ r := by omega
  have hu1 : 1 ≤ r - 1 := by omega
  have hszL : 2 ^ LOG ≤ L := le_trans hszL0 hL0le
  have h3 : (r - 1) * 2 ^ dr + 2 ^ dr = R := by
    calc (r - 1) * 2 ^ dr + 2 ^ dr = (r - 1 + 1) * 2 ^ dr := by ring
    _ = r * 2 ^ dr := by rw [show r - 1 + 1 = r by omega]
    _ = R := hReq
  have h6 : (r - 1 + 1) * 2 ^ dr = (r - 1) * 2 ^ dr + 2 ^ dr := by ring
  have hdrv1 : 2 ^ LOG ≤ (r - 1) * 2 ^ dr := by omega
  have hdrv2 : (r - 1 + 1) * 2 ^ dr ≤ 2 * 2 ^ LOG := by omega
  rintro (⟨e, he, hdiv⟩ | ⟨e, he, hdiv⟩)
  · have hpos : 1 ≤ L0 / 2 ^ e := by rw [hdiv]; exact hu1
    have hv := node_valid LOG L0 e hszL0 (by omega) hpos
    rw [hdiv] at hv
    have hee : e = dr := height_unique hu1 hv.1 hv.2 hdrv1 hdrv2
    subst hee
    have hdr2 := div_rev hdiv
    have hLL0 : L0 = L ∧ (r - 1) * 2 ^ e = L := by omega
    obtain ⟨k, hk⟩ := oddPart_mul_pow (r - 1)
    have hrodd2 : oddPart (r - 1) % 2 = 1 := oddPart_odd (by omega)
    have hval : oddPart (r - 1) * 2 ^ (k + e) = l0 * 2 ^ dl0 := by
      calc oddPart (r - 1) * 2 ^ (k + e) = oddPart (r - 1) * 2 ^ k * 2 ^ e := by
            rw [pow_add, ← mul_assoc]
      _ = (r - 1) * 2 ^ e := by rw [← hk]
      _ = L := hLL0.2
      _ = L0 := hLL0.1.symm
      _ = l0 * 2 ^ dl0 := hL0eq.symm
    obtain ⟨-, hkd⟩ := odd_mul_pow_inj hrodd2 hl0 hval
    omega
  · have hpos : 1 ≤ (R0 - 1) / 2 ^ e := by rw [hdiv]; exact hu1
    have hv := node_valid LOG (R0 - 1) e (by omega) (by omega) hpos
    rw [hdiv] at hv
    have hee : e = dr := height_unique hu1 hv.1 hv.2 hdrv1 hdrv2
    subst hee
    have hdr2 := div_rev hdiv
    have hRR0 : R = R0 := by omega
    obtain ⟨-, hdreq⟩ := odd_mul_pow_inj hr hr0
      (show r * 2 ^ e = r0 * 2 ^ dr0 by rw [hReq, hRR0]; exact hR0eq.symm)
    omega

/-- Full effect of the `range_apply` convergence loop: it multiplies the
logical value of every leaf in the remaining gap `[L, R)` by `f`, keeps
the pre-pushed boundary ancestor chains identity, and preserves the
aggregate invariant away from those chains. -/
lemma applyLoop_full (LOG n : ℕ) (f : F) (hn : n ≤ 2 ^ LOG)
    (L0 R0 dl0 dr0 l0 r0 : ℕ)
    (hl0 : l0 % 2 = 1) (hr0 : r0 % 2 = 1)
    (hL0eq : l0 * 2 ^ dl0 = L0) (hR0eq : r0 * 2 ^ dr0 = R0)
    (hszL0 : 2 ^ LOG ≤ L0) (hR0N : R0 ≤ 2 ^ LOG + n) (hL0R0 : L0 < R0) :
    ∀ (fuel l r dl dr L R : ℕ) (d : List S) (lz : List F),
    l % 2 = 1 → r % 2 = 1 →
    l * 2 ^ dl = L → r * 2 ^ dr = R →
    L < R → dl0 ≤ dl → dr0 ≤ dr →
    L0 ≤ L → L - L0 < 2 ^ dl → R ≤ R0 → R0 - R < 2 ^ dr →
    (∀ e, dl < e → L / 2 ^ e = L0 / 2 ^ e) →
    (∀ e, dr < e → (R - 1) / 2 ^ e = (R0 - 1) / 2 ^ e) →
    l + r ≤ fuel →
    d.length = 2 * 2 ^ LOG → lz.length = 2 ^ LOG →
    (∀ v, 1 ≤ v → StrictAncL L0 dl0 v ∨ StrictAncL (R0 - 1) dr0 v →
      dval 1 lz v = 1) →
    Dex (2 ^ LOG) d lz (fun v => StrictAncL L0 dl0 v ∨ StrictAncL (R0 - 1) dr0 v) →
    (applyLoop (2 ^ LOG) f fuel l r d lz).1.length = 2 * 2 ^ LOG ∧
    (applyLoop (2 ^ LOG) f fuel l r d lz).2.length = 2 ^ LOG ∧
    (∀ w, 2 ^ LOG ≤ w → w < 2 * 2 ^ LOG →
      aVal LOG (applyLoop (2 ^ LOG) f fuel l r d lz).1
        (applyLoop (2 ^ LOG) f fuel l r d lz).2 w
        = if L ≤ w ∧ w < R then f • aVal LOG d lz w else aVal LOG d lz w) ∧
    (∀ v, 1 ≤ v → StrictAncL L0 dl0 v ∨ StrictAncL (R0 - 1) dr0 v →
      dval 1 (applyLoop (2 ^ LOG) f fuel l r d lz).2 v = 1) ∧
    Dex (2 ^ LOG) (applyLoop (2 ^ LOG) f fuel l r d lz).1
      (applyLoop (2 ^ LOG) f fuel l r d lz).2
      (fun v => StrictAncL L0 dl0 v ∨ StrictAncL (R0 - 1) dr0 v) := by
  intro fuel
  induction fuel with
  | zero =>
    intro l r dl dr L R d lz hl hr _ _ _ _ _ _ _ _ _ _ _ hfuel _ _ _ _
    omega
  | succ fuel ih =>
    intro l r dl dr L R d lz hl hr hLeq hReq hLR hdl0 hdr0 hL0le hLprog hRle
      hRprog HCL HCR hfuel hdlen hlzlen hOnes hDex
    have hszL : 2 ^ LOG ≤ L := le_trans hszL0 hL0le
    have hRN : R ≤ 2 ^ LOG + n := le_trans hRle hR0N
    have hP : (1:ℕ) ≤ 2 ^ LOG := Nat.one_le_two_pow
    rw [applyLoop]
    by_cases hg : r ≤ l
    · rw [if_pos hg]
      have hfits : L + 2 ^ dl ≤ R := conv_left (by omega) hLeq hReq hLR hg
      have hnotA : ¬ (StrictAncL L0 dl0 l ∨ StrictAncL (R0 - 1) dr0 l) :=
        acted_left_not_anc LOG n hn L0 R0 dl0 dr0 l0 r0 l r dl dr L R
          hl0 hr0 hl hr hL0eq hR0eq hLeq hReq hszL0 hR0N hL0R0 hL0le hRle hfits
      have hLdiv : L / 2 ^ dl = l := by
        rw [← hLeq]
        exact Nat.mul_div_cancel _ (by positivity)
      have hancA : ∀ s, 1 ≤ s → 1 ≤ l / 2 ^ s →
          (StrictAncL L0 dl0 (l / 2 ^ s) ∨ StrictAncL (R0 - 1) dr0 (l / 2 ^ s)) := by
        intro s hs hpos
        left
        refine ⟨dl + s, by omega, ?_⟩
        calc L0 / 2 ^ (dl + s) = L / 2 ^ (dl + s) := (HCL (dl + s) (by omega)).symm
        _ = L / 2 ^ dl / 2 ^ s := (div_div_pow L dl s).symm
        _ = l / 2 ^ s := by rw [hLdiv]
      have hanc1 : ∀ s, 1 ≤ s → 1 ≤ l / 2 ^ s → dval 1 lz (l / 2 ^ s) = 1 :=
        fun s h1 h2 => hOnes _ h2 (hancA s h1 h2)
      have haV := act_aVal LOG d lz f l dl L hdlen hlzlen (by omega) hLeq hszL
        (by omega) hanc1
      have hOnes' : ∀ v, 1 ≤ v → StrictAncL L0 dl0 v ∨ StrictAncL (R0 - 1) dr0 v →
          dval 1 (if l < 2 ^ LOG then lz.set l (f * dval 1 lz l) else lz) v = 1 := by
        intro v hv hA
        by_cases hls : l < 2 ^ LOG
        · rw [if_pos hls, dval_set_ne 1 _ _ (fun h => hnotA (by rw [h]; exact hA))]
          exact hOnes v hv hA
        · rw [if_neg hls]
          exact hOnes v hv hA
      have hDex' := act_Dex LOG d lz f l _ hdlen hlzlen hancA hDex
      by_cases hstop : oddPart (l + 1) = r
      · rw [if_pos hstop]
        obtain ⟨k, hk⟩ := oddPart_mul_pow (l + 1)
        rw [hstop] at hk
        have h1 : r * 2 ^ (k + dl) = L + 2 ^ dl := by
          calc r * 2 ^ (k + dl) = r * 2 ^ k * 2 ^ dl := by rw [pow_add, ← mul_assoc]
          _ = (l + 1) * 2 ^ dl := by rw [← hk]
          _ = L + 2 ^ dl := by rw [← hLeq]; ring
        have hone : (1:ℕ) ≤ 2 ^ dl := Nat.one_le_two_pow
        have hRLeq : R = L + 2 ^ dl := by
          rcases lt_trichotomy (k + dl) dr with hc | hc | hc
          · exfalso
            have h2 : r * 2 ^ (k + dl) * 2 ≤ r * 2 ^ dr := by
              calc r * 2 ^ (k + dl) * 2 = r * 2 ^ (k + dl + 1) := by ring
              _ ≤ r * 2 ^ dr :=
                Nat.mul_le_mul_left _ (Nat.pow_le_pow_right (by norm_num) (by omega))
            rw [h1, hReq] at h2
            omega
          · rw [hc] at h1
            omega
          · exfalso
            have h2 : r * 2 ^ dr * 2 ≤ r * 2 ^ (k + dl) := by
              calc r * 2 ^ dr * 2 = r * 2 ^ (dr + 1) := by ring
              _ ≤ r * 2 ^ (k + dl) :=
                Nat.mul_le_mul_left _ (Nat.pow_le_pow_right (by norm_num) (by omega))
            rw [h1, hReq] at h2
            omega
        refine ⟨by simpa using hdlen, ?_, ?_, hOnes', hDex'⟩
        · by_cases hls : l < 2 ^ LOG
          · rw [if_pos hls]
            simpa using hlzlen
          · rw [if_neg hls]
            exact hlzlen
        · intro w hw1 hw2
          show aVal LOG (d.set l (f • dval 1 d l))
              (if l < 2 ^ LOG then lz.set l (f * dval 1 lz l) else lz) w
            = if L ≤ w ∧ w < R then f • aVal LOG d lz w else aVal LOG d lz w
          rw [haV w hw1 hw2, hRLeq]
      · rw [if_neg hstop]
        obtain ⟨k, hk⟩ := oddPart_mul_pow (l + 1)
        have hlodd : oddPart (l + 1) % 2 = 1 := oddPart_odd (by omega)
        have hk1 : 1 ≤ k := by
          by_contra h0
          push_neg at h0
          interval_cases k
          simp at hk
          omega
        have hlge : 3 ≤ l := by
          by_contra h0
          push_neg at h0
          have hl1 : l = 1 := by omega
          have hr1 : r = 1 := by omega
          rw [hl1, hr1] at hstop
          exact hstop rfl
        have hl'le : oddPart (l + 1) * 2 ≤ l + 1 := by
          calc oddPart (l + 1) * 2 = oddPart (l + 1) * 2 ^ 1 := by norm_num
          _ ≤ oddPart (l + 1) * 2 ^ k :=
            Nat.mul_le_mul_left _ (Nat.pow_le_pow_right (by norm_num) hk1)
          _ = l + 1 := hk.symm
        have hL' : oddPart (l + 1) * 2 ^ (dl + k) = L + 2 ^ dl := by
          calc oddPart (l + 1) * 2 ^ (dl + k)
              = oddPart (l + 1) * 2 ^ k * 2 ^ dl := by rw [mul_assoc, ← pow_add]; ring_nf
          _ = (l + 1) * 2 ^ dl := by rw [← hk]
          _ = L + 2 ^ dl := by rw [← hLeq]; ring
        have hstrict : L + 2 ^ dl < R := by
          rcases Nat.lt_or_ge (L + 2 ^ dl) R with h | h
          · exact h
          · exfalso
            have heq : L + 2 ^ dl = R := by omega
            rw [heq, ← hReq] at hL'
            exact hstop (odd_mul_pow_inj hlodd hr hL').1
        have hLprog' : L + 2 ^ dl - L0 < 2 ^ (dl + k) := by
          have hp1 : (2:ℕ) ^ (dl + 1) ≤ 2 ^ (dl + k) :=
            Nat.pow_le_pow_right (by norm_num) (by omega)
          have hp2 : (2:ℕ) ^ (dl + 1) = 2 * 2 ^ dl := by ring
          omega
        have HCL' : ∀ e, dl + k < e → (L + 2 ^ dl) / 2 ^ e = L0 / 2 ^ e := by
          intro e he
          have hm1 := odd_mod_pow_lb hlodd (show dl + k < e from he)
          rw [hL'] at hm1
          have hmlt : (L + 2 ^ dl) % 2 ^ e < 2 ^ e := Nat.mod_lt _ (by positivity)
          have hkk : (2:ℕ) ^ dl ≤ 2 ^ (dl + k) :=
            Nat.pow_le_pow_right (by norm_num) (by omega)
          have hsb := same_block_around (L + 2 ^ dl) e (2 ^ dl) 0 (by omega) (by omega)
          have hLL : L + 2 ^ dl - 2 ^ dl = L := by omega
          rw [hLL] at hsb
          rw [← hsb.1]
          exact HCL e (by omega)
        have hres := ih (oddPart (l + 1)) r (dl + k) dr (L + 2 ^ dl) R _ _
          hlodd hr hL' hReq hstrict (by omega) hdr0 (by omega) hLprog' hRle hRprog
          HCL' HCR (by omega) (by simpa using hdlen)
          (by by_cases hls : l < 2 ^ LOG
              · rw [if_pos hls]; simpa using hlzlen
              · rw [if_neg hls]; exact hlzlen)
          hOnes' hDex'
        refine ⟨hres.1, hres.2.1, ?_, hres.2.2.2.1, hres.2.2.2.2⟩
        intro w hw1 hw2
        rw [hres.2.2.1 w hw1 hw2, haV w hw1 hw2]
        by_cases hA : L ≤ w ∧ w < L + 2 ^ dl
        · rw [if_pos hA, if_neg (show ¬ (L + 2 ^ dl ≤ w ∧ w < R) by omega),
            if_pos (show L ≤ w ∧ w < R by omega)]
        · rw [if_neg hA]
          by_cases hB : L + 2 ^ dl ≤ w ∧ w < R
          · rw [if_pos hB, if_pos (show L ≤ w ∧ w < R by omega)]
          · rw [if_neg hB, if_neg (show ¬ (L ≤ w ∧ w < R) by omega)]
    · rw [if_neg hg]
      push_neg at hg
      have hr3 : 3 ≤ r := by omega
      have hfits : L + 2 ^ dr ≤ R := conv_right hLeq hReq hLR hg
      have h3 : (r - 1) * 2 ^ dr + 2 ^ dr = R := by
        calc (r - 1) * 2 ^ dr + 2 ^ dr = (r - 1 + 1) * 2 ^ dr := by ring
        _ = r * 2 ^ dr := by rw [show r - 1 + 1 = r by omega]
        _ = R := hReq
      have hUeq : (r - 1) * 2 ^ dr = R - 2 ^ dr := by omega
      have hone : (1:ℕ) ≤ 2 ^ dr := Nat.one_le_two_pow
      have hiv : R - 2 ^ dr + 2 ^ dr = R := by omega
      have hnotA : ¬ (StrictAncL L0 dl0 (r - 1) ∨ StrictAncL (R0 - 1) dr0 (r - 1)) :=
        acted_right_not_anc LOG n hn L0 R0 dl0 dr0 l0 r0 l r dl dr L R
          hl0 hr0 hl hr hL0eq hR0eq hLeq hReq hszL0 hR0N hL0R0 hL0le hRle hfits hg
      have hRdiv : (R - 1) / 2 ^ dr = r - 1 :=
        div_interval (by omega) (by rw [show r - 1 + 1 = r by omega, hReq]; omega)
      have hancA : ∀ s, 1 ≤ s → 1 ≤ (r - 1) / 2 ^ s →
          (StrictAncL L0 dl0 ((r - 1) / 2 ^ s) ∨
            StrictAncL (R0 - 1) dr0 ((r - 1) / 2 ^ s)) := by
        intro s hs hpos
        right
        refine ⟨dr + s, by omega, ?_⟩
        calc (R0 - 1) / 2 ^ (dr + s) = (R - 1) / 2 ^ (dr + s) :=
            (HCR (dr + s) (by omega)).symm
        _ = (R - 1) / 2 ^ dr / 2 ^ s := (div_div_pow _ _ _).symm
        _ = (r - 1) / 2 ^ s := by rw [hRdiv]
      have hanc1 : ∀ s, 1 ≤ s → 1 ≤ (r - 1) / 2 ^ s →
          dval 1 lz ((r - 1) / 2 ^ s) = 1 :=
        fun s h1 h2 => hOnes _ h2 (hancA s h1 h2)
      have haV := act_aVal LOG d lz f (r - 1) dr (R - 2 ^ dr) hdlen hlzlen
        (by omega) hUeq (by omega) (by omega) hanc1
      have hOnes' : ∀ v, 1 ≤ v → StrictAncL L0 dl0 v ∨ StrictAncL (R0 - 1) dr0 v →
          dval 1 (if r - 1 < 2 ^ LOG then lz.set (r - 1) (f * dval 1 lz (r - 1))
            else lz) v = 1 := by
        intro v hv hA
        by_cases hls : r - 1 < 2 ^ LOG
        · rw [if_pos hls, dval_set_ne 1 _ _ (fun h => hnotA (by rw [h]; exact hA))]
          exact hOnes v hv hA
        · rw [if_neg hls]
          exact hOnes v hv hA
      have hDex' := act_Dex LOG d lz f (r - 1) _ hdlen hlzlen hancA hDex
      by_cases hstop : l = oddPart (r - 1)
      · rw [if_pos hstop]
        obtain ⟨k, hk⟩ := oddPart_mul_pow (r - 1)
        rw [← hstop] at hk
        have h1 : l * 2 ^ (k + dr) = R - 2 ^ dr := by
          calc l * 2 ^ (k + dr) = l * 2 ^ k * 2 ^ dr := by rw [pow_add, ← mul_assoc]
          _ = (r - 1) * 2 ^ dr := by rw [← hk]
          _ = R - 2 ^ dr := hUeq
        have honeL : (1:ℕ) ≤ 2 ^ dl := Nat.one_le_two_pow
        have hLeq2 : L = R - 2 ^ dr := by
          rcases lt_trichotomy dl (k + dr) with hc | hc | hc
          · exfalso
            have h2 : l * 2 ^ dl * 2 ≤ l * 2 ^ (k + dr) := by
              calc l * 2 ^ dl * 2 = l * 2 ^ (dl + 1) := by ring
              _ ≤ l * 2 ^ (k + dr) :=
                Nat.mul_le_mul_left _ (Nat.pow_le_pow_right (by norm_num) (by omega))
            rw [hLeq, h1] at h2
            omega
          · rw [hc] at hLeq
            omega
          · exfalso
            have h2 : l * 2 ^ (k + dr) * 2 ≤ l * 2 ^ dl := by
              calc l * 2 ^ (k + dr) * 2 = l * 2 ^ (k + dr + 1) := by ring
              _ ≤ l * 2 ^ dl :=
                Nat.mul_le_mul_left _ (Nat.pow_le_pow_right (by norm_num) (by omega))
            rw [h1, hLeq] at h2
            omega
        refine ⟨by simpa using hdlen, ?_, ?_, hOnes', hDex'⟩
        · by_cases hls : r - 1 < 2 ^ LOG
          · rw [if_pos hls]
            simpa using hlzlen
          · rw [if_neg hls]
            exact hlzlen
        · intro w hw1 hw2
          show aVal LOG (d.set (r - 1) (f • dval 1 d (r - 1)))
              (if r - 1 < 2 ^ LOG then lz.set (r - 1) (f * dval 1 lz (r - 1)) else lz) w
            = if L ≤ w ∧ w < R then f • aVal LOG d lz w else aVal LOG d lz w
          rw [haV w hw1 hw2, hiv, ← hLeq2]
      · rw [if_neg hstop]
        obtain ⟨k, hk⟩ := oddPart_mul_pow (r - 1)
        have hrodd : oddPart (r - 1) % 2 = 1 := oddPart_odd (by omega)
        have hk1 : 1 ≤ k := by
          by_contra h0
          push_neg at h0
          interval_cases k
          simp at hk
          omega
        have hr'le : oddPart (r - 1) * 2 ≤ r - 1 := by
          calc oddPart (r - 1) * 2 = oddPart (r - 1) * 2 ^ 1 := by norm_num
          _ ≤ oddPart (r - 1) * 2 ^ k :=
            Nat.mul_le_mul_left _ (Nat.pow_le_pow_right (by norm_num) hk1)
          _ = r - 1 := hk.symm
        have hR' : oddPart (r - 1) * 2 ^ (dr + k) = R - 2 ^ dr := by
          calc oddPart (r - 1) * 2 ^ (dr + k)
              = oddPart (r - 1) * 2 ^ k * 2 ^ dr := by rw [mul_assoc, ← pow_add]; ring_nf
          _ = (r - 1) * 2 ^ dr := by rw [← hk]
          _ = R - 2 ^ dr := hUeq
        have hstrict : L < R - 2 ^ dr := by
          rcases Nat.lt_or_ge L (R - 2 ^ dr) with h | h
          · exact h
          · exfalso
            have heq : L = R - 2 ^ dr := by omega
            rw [← heq, ← hLeq] at hR'
            exact hstop (odd_mul_pow_inj hl hrodd hR'.symm).1
        have hRprog' : R0 - (R - 2 ^ dr) < 2 ^ (dr + k) := by
          have hp1 : (2:ℕ) ^ (dr + 1) ≤ 2 ^ (dr + k) :=
            Nat.pow_le_pow_right (by norm_num) (by omega)
          have hp2 : (2:ℕ) ^ (dr + 1) = 2 * 2 ^ dr := by ring
          omega
        have HCR' : ∀ e, dr + k < e → (R - 2 ^ dr - 1) / 2 ^ e = (R0 - 1) / 2 ^ e := by
          intro e he
          have hm1 := odd_mod_pow_lb hrodd (show dr + k < e from he)
          rw [hR'] at hm1
          have hm2 : oddPart (r - 1) * 2 ^ (dr + k) % 2 ^ e ≤ 2 ^ e - 2 ^ (dr + k) :=
            mul_mod_pow_ub (show dr + k < e from he)
          rw [hR'] at hm2
          have hmlt : (R - 2 ^ dr) % 2 ^ e < 2 ^ e := Nat.mod_lt _ (by positivity)
          have hkk : (2:ℕ) ^ dr ≤ 2 ^ (dr + k) :=
            Nat.pow_le_pow_right (by norm_num) (by omega)
          have hsb := same_block_around (R - 2 ^ dr) e 1 (2 ^ dr - 1)
            (by omega) (by omega)
          have hRR : R - 2 ^ dr + (2 ^ dr - 1) = R - 1 := by omega
          rw [hRR] at hsb
          rw [hsb.1, ← hsb.2]
          exact HCR e (by omega)
        have hres := ih l (oddPart (r - 1)) dl (dr + k) L (R - 2 ^ dr) _ _
          hl hrodd hLeq hR' hstrict hdl0 (by omega) hL0le hLprog (by omega) hRprog'
          HCL HCR' (by omega) (by simpa using hdlen)
          (by by_cases hls : r - 1 < 2 ^ LOG
              · rw [if_pos hls]; simpa using hlzlen
              · rw [if_neg hls]; exact hlzlen)
          hOnes' hDex'
        refine ⟨hres.1, hres.2.1, ?_, hres.2.2.2.1, hres.2.2.2.2⟩
        intro w hw1 hw2
        rw [hres.2.2.1 w hw1 hw2, haV w hw1 hw2, hiv]
        by_cases hA : R - 2 ^ dr ≤ w ∧ w < R
        · rw [if_pos hA, if_neg (show ¬ (L ≤ w ∧ w < R - 2 ^ dr) by omega),
            if_pos (show L ≤ w ∧ w < R by omega)]
        · rw [if_neg hA]
          by_cases hB : L ≤ w ∧ w < R - 2 ^ dr
          · rw [if_pos hB, if_pos (show L ≤ w ∧ w < R by omega)]
          · rw [if_neg hB, if_neg (show ¬ (L ≤ w ∧ w < R) by omega)]

/-- A smaller exception set gives a stronger aggregate invariant. -/
lemma Dex_mono {sz : ℕ} {d : List S} {lz : List F} {P Q : ℕ → Prop}
    (hPQ : ∀ v, P v → Q v) (hD : Dex sz d lz P) : Dex sz d lz Q :=
  fun v h1 h2 hQ => hD v h1 h2 (fun hP => hQ (hPQ v hP))

/-- Reading an index-mapped list. -/
lemma dval_mapIdx {α : Type} (d : α) (a : List α) (g : ℕ → α → α) (j : ℕ)
    (hj : j < a.length) :
    dval d (a.mapIdx g) j = g j (dval d a j) := by
  unfold dval
  rw [List.getD_eq_getElem _ _ (by simpa using hj), List.getD_eq_getElem _ _ hj]
  simp [List.getElem_mapIdx]

/-- Strict ancestors of an aligned leaf position are exactly the strict
ancestors of its stripped node. -/
lemma StrictAncL_shift {X d0 x0 : ℕ} (heq : x0 * 2 ^ d0 = X) (v : ℕ) :
    StrictAncL X d0 v ↔ ∃ s, 1 ≤ s ∧ x0 / 2 ^ s = v := by
  have hdiv : X / 2 ^ d0 = x0 := by
    rw [← heq]
    exact Nat.mul_div_cancel _ (by positivity)
  constructor
  · rintro ⟨e, he, hd⟩
    refine ⟨e - d0, by omega, ?_⟩
    rw [← hdiv, div_div_pow, show d0 + (e - d0) = e by omega]
    exact hd
  · rintro ⟨s, hs, hd⟩
    exact ⟨d0 + s, by omega, by rw [← hdiv, div_div_pow] at hd; exact hd⟩

/-- Strict ancestors of the position left of an aligned bound are exactly
the strict ancestors of the node left of its stripped node. -/
lemma StrictAncL_pred_shift {R0 dr0 r0 : ℕ} (heq : r0 * 2 ^ dr0 = R0)
    (hr0 : 1 ≤ r0) (v : ℕ) :
    StrictAncL (R0 - 1) dr0 v ↔ ∃ s, 1 ≤ s ∧ (r0 - 1) / 2 ^ s = v := by
  have hone : (1:ℕ) ≤ 2 ^ dr0 := Nat.one_le_two_pow
  have h3 : (r0 - 1) * 2 ^ dr0 + 2 ^ dr0 = R0 := by
    calc (r0 - 1) * 2 ^ dr0 + 2 ^ dr0 = (r0 - 1 + 1) * 2 ^ dr0 := by ring
    _ = r0 * 2 ^ dr0 := by rw [show r0 - 1 + 1 = r0 by omega]
    _ = R0 := heq
  have hdiv : (R0 - 1) / 2 ^ dr0 = r0 - 1 :=
    div_interval (by omega) (by rw [show r0 - 1 + 1 = r0 by omega, heq]; omega)
  constructor
  · rintro ⟨e, he, hd⟩
    refine ⟨e - dr0, by omega, ?_⟩
    rw [← hdiv, div_div_pow, show dr0 + (e - dr0) = e by omega]
    exact hd
  · rintro ⟨s, hs, hd⟩
    exact ⟨dr0 + s, by omega, by rw [← hdiv, div_div_pow] at hd; exact hd⟩

/-- `climbUpd` from a node repairs the aggregate invariant along the
node's strict-ancestor chain, for a parent-closed exception set: every
write either lands on an excepted node (no obligation) or recomputes a
node from children that the parent-closedness forces to be unexcepted. -/
lemma climbUpd_repair_pc (LOG : ℕ) (lz : List F) (E : ℕ → Prop)
    (hpc : ∀ v, 1 ≤ v → E v → E (v / 2)) :
    ∀ (fuel i : ℕ) (d : List S),
    d.length = 2 * 2 ^ LOG → 1 ≤ i → i < 2 * 2 ^ LOG → i ≤ fuel →
    (∀ t, 1 ≤ t → 1 ≤ i / 2 ^ t → dval 1 lz (i / 2 ^ t) = 1) →
    Dex (2 ^ LOG) d lz (fun v => E v ∨ ∃ t, 1 ≤ t ∧ i / 2 ^ t = v) →
    Dex (2 ^ LOG) (SegmentTree.climbUpd fuel i d) lz E := by
  intro fuel
  induction fuel with
  | zero =>
    intro i d _ hi1 _ hifuel _ _
    omega
  | succ fuel ih =>
    intro i d hdlen hi1 hi2 hifuel hlz1 hD
    rw [SegmentTree.climbUpd]
    by_cases hgt : 1 < i
    · rw [if_pos hgt]
      have hplt : i / 2 < 2 ^ LOG := by omega
      have hp1 : 1 ≤ i / 2 := by omega
      have hDnext : Dex (2 ^ LOG) (SegmentTree.updateAt d (i / 2)) lz
          (fun v => E v ∨ ∃ t, 1 ≤ t ∧ i / 2 / 2 ^ t = v) := by
        have hNP : ∀ u, 1 ≤ u →
            nodeProd (2 ^ LOG) (SegmentTree.updateAt d (i / 2)) lz u
              = nodeProd (2 ^ LOG) d lz u := by
          intro u hu
          refine nodeProd_congr_subtree _ _ _ _ _ u hu ?_ (fun _ _ _ _ => rfl)
          intro w _ hw
          rw [SegmentTree.updateAt]
          exact dval_set_ne 1 _ _ (by omega)
        intro v hv1 hv2 hvP
        have hvE : ¬ E v := fun h => hvP (Or.inl h)
        have hvanc2 : ¬ ∃ t, 1 ≤ t ∧ i / 2 / 2 ^ t = v := fun h => hvP (Or.inr h)
        by_cases hvp : v = i / 2
        · subst hvp
          have hcfacts : ∀ c, c = 2 * (i / 2) ∨ c = 2 * (i / 2) + 1 →
              ¬ (E c ∨ ∃ t, 1 ≤ t ∧ i / 2 ^ t = c) := by
            intro c hc
            have hnoanc : ¬ ∃ s, 1 ≤ s ∧ i / 2 ^ s = c := by
              rintro ⟨s, hs1, hs2⟩
              have h3 : i / 2 ^ s ≤ i / 2 ^ 1 :=
                Nat.div_le_div_left (Nat.pow_le_pow_right (by norm_num) (by omega))
                  (by positivity)
              rw [pow_one] at h3
              rcases hc with h | h <;> omega
            rintro (h | hanc)
            · have hc1 : 1 ≤ c := by rcases hc with h' | h' <;> omega
              have hc2 : c / 2 = i / 2 := by rcases hc with h' | h' <;> omega
              have h4 := hpc c hc1 h
              rw [hc2] at h4
              exact hvE h4
            · exact hnoanc hanc
          have hlzp : dval 1 lz (i / 2) = 1 := by
            have h := hlz1 1 (by omega) (by rw [pow_one]; omega)
            rw [pow_one] at h
            exact h
          have hval : dval 1 (SegmentTree.updateAt d (i / 2)) (i / 2)
              = dval 1 d (2 * (i / 2)) * dval 1 d (2 * (i / 2) + 1) := by
            rw [SegmentTree.updateAt]
            exact dval_set_self 1 d (i / 2) _ (by omega)
          rw [hval, hNP (i / 2) hp1,
            nodeProd_internal (2 ^ LOG) d lz (i / 2) hp1 hplt, hlzp, one_smul,
            hD (2 * (i / 2)) (by omega) (by omega) (hcfacts _ (Or.inl rfl)),
            hD (2 * (i / 2) + 1) (by omega) (by omega) (hcfacts _ (Or.inr rfl))]
        · have hdv : dval 1 (SegmentTree.updateAt d (i / 2)) v = dval 1 d v := by
            rw [SegmentTree.updateAt]
            exact dval_set_ne 1 _ _ (fun h => hvp h.symm)
          rw [hdv, hNP v hv1]
          apply hD v hv1 hv2
          rintro (h | ⟨t, ht1, ht2⟩)
          · exact hvE h
          · rcases Nat.lt_or_ge t 2 with h2 | h2
            · have ht1' : t = 1 := by omega
              rw [ht1', pow_one] at ht2
              exact hvp ht2.symm
            · refine hvanc2 ⟨t - 1, by omega, ?_⟩
              have heq : i / 2 / 2 ^ (t - 1) = i / 2 ^ t := by
                rw [Nat.div_div_eq_div_mul, ← pow_succ', show t - 1 + 1 = t by omega]
              rw [heq]
              exact ht2
      refine ih (i / 2) (SegmentTree.updateAt d (i / 2))
        (by rw [SegmentTree.updateAt_length, hdlen]) hp1 (by omega) (by omega)
        ?_ hDnext
      intro t ht hpos
      have heq : i / 2 / 2 ^ t = i / 2 ^ (t + 1) := by
        rw [Nat.div_div_eq_div_mul, ← pow_succ']
      rw [heq] at hpos ⊢
      exact hlz1 (t + 1) (by omega) hpos
    · rw [if_neg hgt]
      intro v hv1 hv2 hvE
      refine hD v hv1 hv2 ?_
      rintro (h | ⟨t, ht1, ht2⟩)
      · exact hvE h
      · have h2t : (2:ℕ) ≤ 2 ^ t := by
          calc (2:ℕ) = 2 ^ 1 := by norm_num
          _ ≤ 2 ^ t := Nat.pow_le_pow_right (by norm_num) (by omega)
        have h0 : i / 2 ^ t = 0 := Nat.div_eq_of_lt (by omega)
        omega

/-- Pre-push effect on logical values, bitlen-bounded (handles the `0`
target of an empty right chain). -/
lemma pushSeq_bitlen_aVal (LOG : ℕ) (d : List S) (lz : List F) (i : ℕ)
    (hdlen : d.length = 2 * 2 ^ LOG) (hlzlen : lz.length = 2 ^ LOG)
    (hi : i < 2 * 2 ^ LOG) :
    ∀ j, 2 ^ LOG ≤ j → j < 2 * 2 ^ LOG →
      aVal LOG (pushSeq (2 ^ LOG) (bitlen i - 1) d lz i).1
        (pushSeq (2 ^ LOG) (bitlen i - 1) d lz i).2 j = aVal LOG d lz j := by
  rcases Nat.eq_zero_or_pos i with h0 | hpos
  · subst h0
    intro j _ _
    rfl
  · exact pushSeq_aVal LOG (bitlen i - 1) d lz i hdlen hlzlen
      (le_of_eq (bitlen_div_top i hpos).symm) hi

/-- After the bitlen-bounded pre-push from `i`, every strict ancestor of
`i` carries the identity pending action. -/
lemma pushSeq_bitlen_ones (sz : ℕ) (d : List S) (lz : List F) (i : ℕ) :
    ∀ v, 1 ≤ v → (∃ s, 1 ≤ s ∧ i / 2 ^ s = v) →
      dval 1 (pushSeq sz (bitlen i - 1) d lz i).2 v = 1 := by
  rintro v hv ⟨s, hs, hdiv⟩
  have hipos : 1 ≤ i := by
    by_contra h0
    push_neg at h0
    interval_cases i
    simp at hdiv
    omega
  have hsle : s ≤ bitlen i - 1 := by
    by_contra hgt
    push_neg at hgt
    rw [bitlen_div_zero i s (by omega)] at hdiv
    omega
  have h := pushSeq_chain sz (bitlen i - 1) d lz i
    (le_of_eq (bitlen_div_top i hipos).symm) s hs hsle
  rw [hdiv] at h
  exact h

/-- The bitlen-bounded pre-push preserves the aggregate invariant away
from any exception set. -/
lemma pushSeq_bitlen_Dex
    (hdist : ∀ (f : F) (x y : S), f • (x * y) = f • x * f • y)
    (LOG : ℕ) (P : ℕ → Prop) (d : List S) (lz : List F) (i : ℕ)
    (hdlen : d.length = 2 * 2 ^ LOG) (hlzlen : lz.length = 2 ^ LOG)
    (hi : i < 2 * 2 ^ LOG) (hD : Dex (2 ^ LOG) d lz P) :
    Dex (2 ^ LOG) (pushSeq (2 ^ LOG) (bitlen i - 1) d lz i).1
      (pushSeq (2 ^ LOG) (bitlen i - 1) d lz i).2 P := by
  rcases Nat.eq_zero_or_pos i with h0 | hpos
  · subst h0
    exact hD
  · exact pushSeq_Dex hdist LOG P (bitlen i - 1) d lz i hdlen hlzlen
      (le_of_eq (bitlen_div_top i hpos).symm) hi hD

/-- The bitlen-bounded pre-push preserves an upward-closed all-identity
set of pending actions. -/
lemma pushSeq_bitlen_G_ones (sz : ℕ) (G : ℕ → Prop) (hGup : ∀ v, G v → G (v / 2))
    (hside : sz ≤ 1 ∨ sz % 2 = 0) (d : List S) (lz : List F) (i : ℕ)
    (hlzlen : lz.length = sz)
    (hG : ∀ v, 1 ≤ v → G v → dval 1 lz v = 1) :
    ∀ v, 1 ≤ v → G v → dval 1 (pushSeq sz (bitlen i - 1) d lz i).2 v = 1 := by
  rcases Nat.eq_zero_or_pos i with h0 | hpos
  · subst h0
    exact hG
  · exact pushSeq_G_ones sz G hGup hside (bitlen i - 1) d lz i hlzlen
      (le_of_eq (bitlen_div_top i hpos).symm) hG

/-- `range_apply` preserves the master invariant, with the model acted
on elementwise over the half-open range. -/
lemma rangeApply_Inv
    (hdist : ∀ (f : F) (x y : S), f • (x * y) = f • x * f • y)
    (a : List S) (st : LazyTree S F) (l r : ℕ) (f : F)
    (hInv : Inv a st) (hlr : l ≤ r) (hrn : r ≤ st.n) :
    Inv (a.mapIdx (fun j x => if l ≤ j ∧ j < r then f • x else x))
      (rangeApply st l r f) := by
  obtain ⟨hdlen, hlzlen, hnle, halen, hPD, hPL, hmodel, hDex⟩ := hInv
  have hsz : size st = 2 ^ st.log := hlzlen
  have hmaplen : (a.mapIdx (fun j x => if l ≤ j ∧ j < r then f • x else x)).length
      = st.n := by
    rw [List.length_mapIdx]
    exact halen
  rw [rangeApply]
  by_cases hne : l + size st = r + size st
  · rw [if_pos hne]
    refine ⟨hdlen, hlzlen, hnle, hmaplen, hPD, hPL, ?_, hDex⟩
    intro j hj
    rw [dval_mapIdx 1 a _ j (by omega), if_neg (by omega)]
    exact hmodel j hj
  · rw [if_neg hne, raLoop, raPre, hsz]
    have hlltr : l < r := by
      rcases Nat.lt_or_ge l r with h | h
      · exact h
      · exact absurd (by omega : l + size st = r + size st) hne
    set l0 := oddPart (l + 2 ^ st.log) with hl0def
    set r0 := oddPart (r + 2 ^ st.log) with hr0def
    have hl0odd : l0 % 2 = 1 := oddPart_odd (by positivity)
    have hr0odd : r0 % 2 = 1 := oddPart_odd (by positivity)
    obtain ⟨da, hda⟩ := oddPart_mul_pow (l + 2 ^ st.log)
    obtain ⟨db, hdb⟩ := oddPart_mul_pow (r + 2 ^ st.log)
    rw [← hl0def] at hda
    rw [← hr0def] at hdb
    have hl0le := SegmentTree.oddPart_le (l + 2 ^ st.log)
    have hr0le := SegmentTree.oddPart_le (r + 2 ^ st.log)
    rw [← hl0def] at hl0le
    rw [← hr0def] at hr0le
    have hl01 : 1 ≤ l0 := by omega
    have hr01 : 1 ≤ r0 := by omega
    have hi1lt : l0 < 2 * 2 ^ st.log := by omega
    have hi2lt : r0 - 1 < 2 * 2 ^ st.log := by omega
    have hEL : ∀ v, StrictAncL (l + 2 ^ st.log) da v ↔
        ∃ s, 1 ≤ s ∧ l0 / 2 ^ s = v := StrictAncL_shift hda.symm
    have hER : ∀ v, StrictAncL (r + 2 ^ st.log - 1) db v ↔
        ∃ s, 1 ≤ s ∧ (r0 - 1) / 2 ^ s = v := StrictAncL_pred_shift hdb.symm hr01
    set p1 := pushSeq (2 ^ st.log) (bitlen l0 - 1) st.data st.lazy l0 with hp1def
    set p2 := pushSeq (2 ^ st.log) (bitlen (r0 - 1) - 1) p1.1 p1.2 (r0 - 1) with hp2def
    set res := applyLoop (2 ^ st.log) f (l + 2 ^ st.log + (r + 2 ^ st.log)) l0 r0
      p2.1 p2.2 with hresdef
    -- first pre-push
    have hT1 : 1 ≤ l0 / 2 ^ (bitlen l0 - 1) := le_of_eq (bitlen_div_top l0 hl01).symm
    have hp1d : p1.1.length = 2 * 2 ^ st.log :=
      (pushSeq_len _ _ _ _ _).1.trans hdlen
    have hp1lz : p1.2.length = 2 ^ st.log :=
      (pushSeq_len _ _ _ _ _).2.trans hlzlen
    have hav1 : ∀ j, 2 ^ st.log ≤ j → j < 2 * 2 ^ st.log →
        aVal st.log p1.1 p1.2 j = aVal st.log st.data st.lazy j :=
      pushSeq_aVal st.log (bitlen l0 - 1) st.data st.lazy l0 hdlen hlzlen hT1 hi1lt
    have hones1 : ∀ v, 1 ≤ v → (∃ s, 1 ≤ s ∧ l0 / 2 ^ s = v) →
        dval 1 p1.2 v = 1 :=
      pushSeq_bitlen_ones (2 ^ st.log) st.data st.lazy l0
    have hDex1 : Dex (2 ^ st.log) p1.1 p1.2
        (fun v => StrictAncL (l + 2 ^ st.log) da v ∨
          StrictAncL (r + 2 ^ st.log - 1) db v) :=
      pushSeq_Dex hdist st.log _ (bitlen l0 - 1) st.data st.lazy l0 hdlen hlzlen
        hT1 hi1lt (Dex_mono (fun v h => h.elim) hDex)
    -- second pre-push
    have hp2d : p2.1.length = 2 * 2 ^ st.log :=
      (pushSeq_len _ _ _ _ _).1.trans hp1d
    have hp2lz : p2.2.length = 2 ^ st.log :=
      (pushSeq_len _ _ _ _ _).2.trans hp1lz
    have hav2 : ∀ j, 2 ^ st.log ≤ j → j < 2 * 2 ^ st.log →
        aVal st.log p2.1 p2.2 j = aVal st.log p1.1 p1.2 j :=
      pushSeq_bitlen_aVal st.log p1.1 p1.2 (r0 - 1) hp1d hp1lz hi2lt
    have hones2R : ∀ v, 1 ≤ v → (∃ s, 1 ≤ s ∧ (r0 - 1) / 2 ^ s = v) →
        dval 1 p2.2 v = 1 :=
      pushSeq_bitlen_ones (2 ^ st.log) p1.1 p1.2 (r0 - 1)
    have hGup : ∀ v, (∃ s, 1 ≤ s ∧ l0 / 2 ^ s = v) →
        (∃ s, 1 ≤ s ∧ l0 / 2 ^ s = v / 2) := by
      rintro v ⟨s, hs, hdiv⟩
      exact ⟨s + 1, by omega, by rw [pow_succ, ← Nat.div_div_eq_div_mul, hdiv]⟩
    have hside : (2:ℕ) ^ st.log ≤ 1 ∨ (2:ℕ) ^ st.log % 2 = 0 := by
      rcases Nat.eq_zero_or_pos st.log with h | h
      · left
        rw [h]
        norm_num
      · right
        rw [show st.log = st.log - 1 + 1 by omega, pow_succ]
        simp
    have hones2L : ∀ v, 1 ≤ v → (∃ s, 1 ≤ s ∧ l0 / 2 ^ s = v) →
        dval 1 p2.2 v = 1 :=
      pushSeq_bitlen_G_ones (2 ^ st.log) _ hGup hside p1.1 p1.2 (r0 - 1) hp1lz hones1
    have hDex2 : Dex (2 ^ st.log) p2.1 p2.2
        (fun v => StrictAncL (l + 2 ^ st.log) da v ∨
          StrictAncL (r + 2 ^ st.log - 1) db v) :=
      pushSeq_bitlen_Dex hdist st.log _ p1.1 p1.2 (r0 - 1) hp1d hp1lz hi2lt hDex1
    have honesA : ∀ v, 1 ≤ v →
        StrictAncL (l + 2 ^ st.log) da v ∨ StrictAncL (r + 2 ^ st.log - 1) db v →
        dval 1 p2.2 v = 1 := by
      rintro v hv (h | h)
      · exact hones2L v hv ((hEL v).mp h)
      · exact hones2R v hv ((hER v).mp h)
    -- pads through the pre-pushes (for the padding conclusions)
    have hp1slim := pushSeq_bitlen_slim st.log st.n st.data st.lazy l0
      hnle hdlen hlzlen hi1lt hPD hPL
    have hp2slim := pushSeq_bitlen_slim st.log st.n p1.1 p1.2 (r0 - 1)
      hnle hp1d hp1lz hi2lt hp1slim.2.2.1 hp1slim.2.2.2
    -- the convergence loop: full effect and layout
    have hfuel : l0 + r0 ≤ l + 2 ^ st.log + (r + 2 ^ st.log) := by omega
    have hloopF := applyLoop_full st.log st.n f hnle
      (l + 2 ^ st.log) (r + 2 ^ st.log) da db l0 r0 hl0odd hr0odd hda.symm hdb.symm
      (by omega) (by omega) (by omega)
      (l + 2 ^ st.log + (r + 2 ^ st.log)) l0 r0 da db
      (l + 2 ^ st.log) (r + 2 ^ st.log) p2.1 p2.2
      hl0odd hr0odd hda.symm hdb.symm (by omega) (le_refl da) (le_refl db)
      (le_refl _) (by have h := Nat.one_le_two_pow (n := da); omega)
      (le_refl _) (by have h := Nat.one_le_two_pow (n := db); omega)
      (fun e he => rfl) (fun e he => rfl)
      hfuel hp2d hp2lz honesA hDex2
    have hloopS := applyLoop_slim st.log st.n f hnle
      (l + 2 ^ st.log + (r + 2 ^ st.log)) l0 r0 da db
      (l + 2 ^ st.log) (r + 2 ^ st.log) p2.1 p2.2
      hl0odd hr0odd hda.symm hdb.symm (by omega) (by omega) (by omega)
      hfuel hp2d hp2lz hp2slim.2.2.1 hp2slim.2.2.2
    have hresd : res.1.length = 2 * 2 ^ st.log := hloopF.1
    have hreslz : res.2.length = 2 ^ st.log := hloopF.2.1
    have honesR := hloopF.2.2.2.1
    have hDexR := hloopF.2.2.2.2
    -- first upward repair, excepting the right chain
    have hpc1 : ∀ v, 1 ≤ v → StrictAncL (r + 2 ^ st.log - 1) db v →
        StrictAncL (r + 2 ^ st.log - 1) db (v / 2) := by
      rintro v hv ⟨e, he, hdiv⟩
      exact ⟨e + 1, by omega, by rw [pow_succ, ← Nat.div_div_eq_div_mul, hdiv]⟩
    have hlz1chain : ∀ t, 1 ≤ t → 1 ≤ l0 / 2 ^ t → dval 1 res.2 (l0 / 2 ^ t) = 1 := by
      intro t ht hpos
      exact honesR _ hpos (Or.inl ((hEL _).mpr ⟨t, ht, rfl⟩))
    have hD1 : Dex (2 ^ st.log) (SegmentTree.climbUpd l0 l0 res.1) res.2
        (fun v => StrictAncL (r + 2 ^ st.log - 1) db v) :=
      climbUpd_repair_pc st.log res.2 _ hpc1 l0 l0 res.1 hresd hl01 hi1lt
        (le_refl _) hlz1chain
        (Dex_mono (by
          rintro v (h | h)
          · exact Or.inr ((hEL v).mp h)
          · exact Or.inl h) hDexR)
    have hd2len : (SegmentTree.climbUpd l0 l0 res.1).length = 2 * 2 ^ st.log := by
      rw [SegmentTree.climbUpd_length]
      exact hresd
    -- second upward repair, clearing all exceptions
    have hDfinal : Dex (2 ^ st.log)
        (SegmentTree.climbUpd (r0 - 1) (r0 - 1) (SegmentTree.climbUpd l0 l0 res.1))
        res.2 (fun _ => False) := by
      rcases Nat.lt_or_ge (r0 - 1) 1 with hr00 | hr01'
      · have hE1empty : ∀ v, 1 ≤ v → ¬ StrictAncL (r + 2 ^ st.log - 1) db v := by
          rintro v hv ⟨e, he, hdiv⟩
          have hr0eq : r0 = 1 := by omega
          rw [hr0eq, one_mul] at hdb
          have hlt : r + 2 ^ st.log - 1 < 2 ^ e := by
            have hpw : (2:ℕ) ^ db ≤ 2 ^ e := Nat.pow_le_pow_right (by norm_num) (by omega)
            omega
          rw [Nat.div_eq_of_lt hlt] at hdiv
          omega
        intro v hv1 hv2 _
        have h0 : r0 - 1 = 0 := by omega
        rw [h0]
        exact hD1 v hv1 hv2 (hE1empty v hv1)
      · have hlz2chain : ∀ t, 1 ≤ t → 1 ≤ (r0 - 1) / 2 ^ t →
            dval 1 res.2 ((r0 - 1) / 2 ^ t) = 1 := by
          intro t ht hpos
          exact honesR _ hpos (Or.inr ((hER _).mpr ⟨t, ht, rfl⟩))
        exact climbUpd_repair_pc st.log res.2 _ (fun _ _ h => h) (r0 - 1) (r0 - 1)
          _ hd2len hr01' hi2lt (le_refl _) hlz2chain
          (Dex_mono (fun v h => Or.inr ((hER v).mp h)) hD1)
    -- assemble the invariant
    refine ⟨?_, hreslz, hnle, hmaplen, ?_, hloopS.2.2.2, ?_, hDfinal⟩
    · show (SegmentTree.climbUpd (r0 - 1) (r0 - 1)
          (SegmentTree.climbUpd l0 l0 res.1)).length = 2 * 2 ^ st.log
      rw [SegmentTree.climbUpd_length, SegmentTree.climbUpd_length]
      exact hresd
    · show PadData (2 ^ st.log) st.n
        (SegmentTree.climbUpd (r0 - 1) (r0 - 1) (SegmentTree.climbUpd l0 l0 res.1))
      intro jj hjjn hjjlt
      rw [climbUpd_dval_high (2 ^ st.log) _ _ _ _ hi2lt (by omega),
        climbUpd_dval_high (2 ^ st.log) _ _ _ _ hi1lt (by omega)]
      exact hloopS.2.2.1 jj hjjn hjjlt
    · show ∀ j, j < st.n →
        aVal st.log
          (SegmentTree.climbUpd (r0 - 1) (r0 - 1) (SegmentTree.climbUpd l0 l0 res.1))
          res.2 (j + 2 ^ st.log)
          = dval 1 (a.mapIdx (fun j x => if l ≤ j ∧ j < r then f • x else x)) j
      intro j hj
      rw [climbUpd_aVal st.log (r0 - 1) (r0 - 1) _ res.2 hi2lt _ (by omega),
        climbUpd_aVal st.log l0 l0 _ res.2 hi1lt _ (by omega),
        hloopF.2.2.1 (j + 2 ^ st.log) (by omega) (by omega),
        dval_mapIdx 1 a _ j (by omega)]
      have hpre : aVal st.log p2.1 p2.2 (j + 2 ^ st.log) = dval 1 a j := by
        rw [hav2 (j + 2 ^ st.log) (by omega) (by omega),
          hav1 (j + 2 ^ st.log) (by omega) (by omega)]
        exact hmodel j hj
      rw [hpre]
      by_cases hc : l ≤ j ∧ j < r
      · rw [if_pos (by omega : l + 2 ^ st.log ≤ j + 2 ^ st.log ∧
            j + 2 ^ st.log < r + 2 ^ st.log), if_pos hc]
      · rw [if_neg (by omega : ¬ (l + 2 ^ st.log ≤ j + 2 ^ st.log ∧
            j + 2 ^ st.log < r + 2 ^ st.log)), if_neg hc]

/-- Exact division of an aligned multiple. -/
lemma mul_pow_div (m k t : ℕ) (ht : t ≤ k) : m * 2 ^ k / 2 ^ t = m * 2 ^ (k - t) := by
  have h : m * 2 ^ k = m * 2 ^ (k - t) * 2 ^ t := by
    rw [mul_assoc, ← pow_add, show k - t + t = k by omega]
  rw [h, Nat.mul_div_cancel _ (by positivity)]

/-- Division of the predecessor of an aligned value. -/
lemma pred_div_aligned (A t X : ℕ) (hA : 1 ≤ A) (h : A * 2 ^ t = X) :
    (X - 1) / 2 ^ t = A - 1 := by
  have h3 : (1:ℕ) ≤ 2 ^ t := Nat.one_le_two_pow
  obtain ⟨B, hB⟩ : ∃ B, A = B + 1 := ⟨A - 1, by omega⟩
  subst hB
  rw [Nat.add_sub_cancel]
  have h5 : B * 2 ^ t + 2 ^ t = X := by
    calc B * 2 ^ t + 2 ^ t = (B + 1) * 2 ^ t := by ring
    _ = X := h
  have h6 : (B + 1) * 2 ^ t = B * 2 ^ t + 2 ^ t := by ring
  exact div_interval (by omega) (by omega)

/-- Ancestors of the position just left of an aligned boundary. -/
lemma aligned_pred_div (m k t : ℕ) (hm : 1 ≤ m) (ht : t ≤ k) :
    (m * 2 ^ k - 1) / 2 ^ t = m * 2 ^ (k - t) - 1 := by
  have h1 : m * 2 ^ (k - t) * 2 ^ t = m * 2 ^ k := by
    rw [mul_assoc, ← pow_add, show k - t + t = k by omega]
  have h2 : (1:ℕ) ≤ 2 ^ (k - t) := Nat.one_le_two_pow
  have h4 : 1 ≤ m * 2 ^ (k - t) := by
    calc (1:ℕ) = 1 * 1 := by norm_num
    _ ≤ m * 2 ^ (k - t) := Nat.mul_le_mul hm h2
  exact pred_div_aligned (m * 2 ^ (k - t)) t (m * 2 ^ k) h4 h1

/-- The jump target of a boundary climb: the stop node is the parent of
the stripped node. -/
lemma aligned_pred_div_top (m k : ℕ) (hm : m % 2 = 1) :
    (m * 2 ^ k - 1) / 2 ^ (k + 1) = m / 2 := by
  have h3 : (1:ℕ) ≤ 2 ^ k := Nat.one_le_two_pow
  have h2 : m / 2 * 2 + 1 = m := by omega
  refine div_interval ?_ ?_
  · have h5 : m / 2 * 2 ^ (k + 1) + 2 ^ k = m * 2 ^ k := by
      calc m / 2 * 2 ^ (k + 1) + 2 ^ k = (m / 2 * 2 + 1) * 2 ^ k := by ring
      _ = m * 2 ^ k := by rw [h2]
    omega
  · have h6 : (m / 2 + 1) * 2 ^ (k + 1) = m * 2 ^ k + 2 ^ k := by
      calc (m / 2 + 1) * 2 ^ (k + 1) = (m / 2 * 2 + 1) * 2 ^ k + 2 ^ k := by ring
      _ = m * 2 ^ k + 2 ^ k := by rw [h2]
    omega

/-- Every position within reach of an aligned boundary shares the
boundary's left-adjacent ancestors. -/
lemma left_block_anc (m j t w : ℕ) (hm : 1 ≤ m) (htj : t ≤ j)
    (hw1 : m * 2 ^ j - 2 ^ t ≤ w) (hw2 : w < m * 2 ^ j) :
    w / 2 ^ t = m * 2 ^ (j - t) - 1 := by
  have h1 : m * 2 ^ (j - t) * 2 ^ t = m * 2 ^ j := by
    rw [mul_assoc, ← pow_add, show j - t + t = j by omega]
  have h2 : (1:ℕ) ≤ 2 ^ (j - t) := Nat.one_le_two_pow
  have h3 : (1:ℕ) ≤ 2 ^ t := Nat.one_le_two_pow
  have h4 : 1 ≤ m * 2 ^ (j - t) := by
    calc (1:ℕ) = 1 * 1 := by norm_num
    _ ≤ m * 2 ^ (j - t) := Nat.mul_le_mul hm h2
  obtain ⟨B, hB⟩ : ∃ B, m * 2 ^ (j - t) = B + 1 := ⟨m * 2 ^ (j - t) - 1, by omega⟩
  rw [hB, Nat.add_sub_cancel]
  have h5 : B * 2 ^ t + 2 ^ t = m * 2 ^ j := by
    calc B * 2 ^ t + 2 ^ t = (B + 1) * 2 ^ t := by ring
    _ = m * 2 ^ j := by rw [← hB]; exact h1
  have h6 : (B + 1) * 2 ^ t = B * 2 ^ t + 2 ^ t := by ring
  exact div_interval (by omega) (by omega)

/-- Applying a shared chain of pending actions to an ordered product of
a distributive action distributes onto each factor. -/
lemma upRange_ordProd
    (hdist : ∀ (f : F) (x y : S), f • (x * y) = f • x * f • y)
    (lz : List F) (u base : ℕ) :
    ∀ (k s lo hi : ℕ) (g : ℕ → S), lo < hi →
    (∀ w, lo ≤ w → w < hi → ∀ t, s ≤ t → t < s + k → w / 2 ^ (base + t) = u / 2 ^ t) →
    upRange lz u s k (ordProd lo hi g)
      = ordProd lo hi (fun w => upRange lz w (base + s) k (g w)) := by
  intro k
  induction k with
  | zero => intro s lo hi g _ _; rfl
  | succ k ih =>
    intro s lo hi g hlh hcomm
    rw [upRange_top,
      ih s lo hi g hlh (fun w h1 h2 t ht1 ht2 => hcomm w h1 h2 t ht1 (by omega)),
      smul_ordProd hdist _ lo hi _ hlh]
    refine ordProd_congr lo hi _ _ ?_
    intro w hw1 hw2
    rw [upRange_top, show base + s + k = base + (s + k) by omega,
      hcomm w hw1 hw2 (s + k) (by omega) (by omega)]

/-- The height of the meeting node: its bit length completes the tree
depth. -/
lemma meet_height (LOG : ℕ) {c dc M : ℕ} (hc : c % 2 = 1) (hc3 : 3 ≤ c)
    (hM : c * 2 ^ dc = M) (h1 : 2 ^ LOG < M) (h2 : M ≤ 2 * 2 ^ LOG) :
    bitlen c - 1 + dc = LOG := by
  obtain ⟨hbl1, hb2, hb3⟩ := bitlen_spec c (by omega)
  have hlow : 2 ^ (bitlen c - 1) ≤ c := by
    have h7 : 2 ^ (bitlen c - 1) * 2 = 2 ^ bitlen c := by
      rw [← pow_succ, show bitlen c - 1 + 1 = bitlen c by omega]
    omega
  rcases lt_trichotomy (bitlen c - 1 + dc) LOG with h | h | h
  · exfalso
    have hm1 : M < 2 ^ (bitlen c - 1 + dc + 1) := by
      calc M = c * 2 ^ dc := hM.symm
      _ < 2 ^ bitlen c * 2 ^ dc := mul_lt_mul_of_pos_right hb3 (by positivity)
      _ = 2 ^ (bitlen c + dc) := by rw [← pow_add]
      _ = 2 ^ (bitlen c - 1 + dc + 1) := by
          rw [show bitlen c + dc = bitlen c - 1 + dc + 1 by omega]
    have hm2 : (2:ℕ) ^ (bitlen c - 1 + dc + 1) ≤ 2 ^ LOG :=
      Nat.pow_le_pow_right (by norm_num) (by omega)
    omega
  · exact h
  · exfalso
    have hm1 : 2 ^ (bitlen c - 1 + dc) ≤ M := by
      calc (2:ℕ) ^ (bitlen c - 1 + dc) = 2 ^ (bitlen c - 1) * 2 ^ dc := by rw [← pow_add]
      _ ≤ c * 2 ^ dc := Nat.mul_le_mul_right _ hlow
      _ = M := hM
    have hm2 : (2:ℕ) ^ (LOG + 1) ≤ 2 ^ (bitlen c - 1 + dc) :=
      Nat.pow_le_pow_right (by norm_num) (by omega)
    have h3 : (2:ℕ) ^ (LOG + 1) = 2 * 2 ^ LOG := by ring
    have hMeq : c * 2 ^ dc = 1 * 2 ^ (LOG + 1) := by
      rw [hM, one_mul, h3]
      omega
    obtain ⟨hc1, -⟩ := odd_mul_pow_inj hc (by norm_num) hMeq
    omega

/-- The final climb of `range_fold`: applying the remaining ancestors of
the meeting node resolves every absorbed leaf to its logical value. -/
lemma final_climb
    (hdist : ∀ (f : F) (x y : S), f • (x * y) = f • x * f • y)
    (LOG : ℕ) (lz : List F) (d : List S) (c dc M L0 R0 : ℕ)
    (hc : c % 2 = 1) (hc3 : 3 ≤ c) (hM : c * 2 ^ dc = M)
    (hM1 : 2 ^ LOG < M) (hM2 : M ≤ 2 * 2 ^ LOG)
    (hL0 : M - 2 ^ dc < L0) (hR0 : R0 < M + 2 ^ dc) (hL0R0 : L0 < R0) :
    lazyClimb lz (c / 2) (c / 2) 0
        (ordProd L0 R0 (fun w => upRange lz w 1 dc (dval 1 d w)))
      = ordProd L0 R0 (fun w => upRange lz w 1 LOG (dval 1 d w)) := by
  obtain ⟨hbl1, hb2, hb3⟩ := bitlen_spec c (by omega)
  have hlow : 2 ^ (bitlen c - 1) ≤ c := by
    have h7 : 2 ^ (bitlen c - 1) * 2 = 2 ^ bitlen c := by
      rw [← pow_succ, show bitlen c - 1 + 1 = bitlen c by omega]
    omega
  have hkc := meet_height LOG hc hc3 hM hM1 hM2
  have hcomm : ∀ w, L0 ≤ w → w < R0 → ∀ t, 1 ≤ t → t < 1 + (bitlen c - 1) →
      w / 2 ^ (dc + t) = c / 2 ^ t := by
    intro w hw1 hw2 t ht1 ht2
    have h2 : c / 2 * 2 + 1 = c := by omega
    have hq : w / 2 ^ (dc + 1) = c / 2 := by
      refine div_interval ?_ ?_
      · have h4 : c / 2 * 2 ^ (dc + 1) + 2 ^ dc = M := by
          calc c / 2 * 2 ^ (dc + 1) + 2 ^ dc = (c / 2 * 2 + 1) * 2 ^ dc := by ring
          _ = c * 2 ^ dc := by rw [h2]
          _ = M := hM
        omega
      · have h4 : (c / 2 + 1) * 2 ^ (dc + 1) = M + 2 ^ dc := by
          calc (c / 2 + 1) * 2 ^ (dc + 1) = (c / 2 * 2 + 1) * 2 ^ dc + 2 ^ dc := by ring
          _ = c * 2 ^ dc + 2 ^ dc := by rw [h2]
          _ = M + 2 ^ dc := by rw [hM]
        omega
    rcases Nat.lt_or_ge t 2 with ht' | ht'
    · have ht'' : t = 1 := by omega
      subst ht''
      rw [pow_one, hq]
    · have hrhs : c / 2 / 2 ^ (t - 1) = c / 2 ^ t := by
        rw [show c / 2 = c / 2 ^ 1 by rw [pow_one], div_div_pow,
          show 1 + (t - 1) = t by omega]
      rw [show dc + t = dc + 1 + (t - 1) by omega, ← div_div_pow, hq, hrhs]
  have hchain : lazyClimb lz (c / 2) (c / 2) 0
      (ordProd L0 R0 (fun w => upRange lz w 1 dc (dval 1 d w)))
      = upRange lz c 1 (bitlen c - 1)
        (ordProd L0 R0 (fun w => upRange lz w 1 dc (dval 1 d w))) := by
    rw [show c / 2 = c / 2 ^ 1 by rw [pow_one]]
    refine climb_chain lz c (bitlen c - 1) 1 (c / 2 ^ 1) 0 _ ?_ ?_ ?_
    · rw [bitlen_div_zero c (1 + (bitlen c - 1)) (by omega)]
    · intro t ht1 ht2
      have h3 : (2:ℕ) ^ t ≤ 2 ^ (bitlen c - 1) :=
        Nat.pow_le_pow_right (by norm_num) (by omega)
      have h4 : 1 ≤ c / 2 ^ t :=
        (Nat.one_le_div_iff (by positivity)).mpr (le_trans h3 hlow)
      omega
    · rw [pow_one]
      rcases Nat.eq_zero_or_pos (bitlen c - 1) with h0 | hpos
      · omega
      · have h7 : 2 ^ (bitlen c - 1 - 1) * 2 = 2 ^ (bitlen c - 1) := by
          rw [← pow_succ, show bitlen c - 1 - 1 + 1 = bitlen c - 1 by omega]
        have h8 := Nat.lt_two_pow (n := bitlen c - 1 - 1)
        omega
  rw [hchain, upRange_ordProd hdist lz c dc (bitlen c - 1) 1 L0 R0 _ hL0R0 hcomm]
  refine ordProd_congr _ _ _ _ ?_
  intro w hw1 hw2
  rw [show dc + 1 = 1 + dc by omega, upRange_compose,
    show dc + (bitlen c - 1) = LOG by omega]

/-- A left boundary step of the fold loop: absorbing node `l` and
climbing to the next boundary node applies exactly the pending actions
at heights `dl+1, ..., dl+k` to every absorbed leaf. -/
lemma absorb_left_climb
    (hdist : ∀ (f : F) (x y : S), f • (x * y) = f • x * f • y)
    (lz : List F) (d : List S) (l l' k dl L L0 : ℕ)
    (hl : l % 2 = 1) (hlk : l + 1 = l' * 2 ^ k) (hl'odd : l' % 2 = 1)
    (hk1 : 1 ≤ k) (hl'3 : 3 ≤ l')
    (hLeq : l * 2 ^ dl = L) (hL0le : L0 ≤ L) (hLprog : L - L0 < 2 ^ dl) :
    lazyClimb lz (l / 2) (l / 2) (l' / 2)
        (ordProd L0 (L + 2 ^ dl) (fun w => upRange lz w 1 dl (dval 1 d w)))
      = ordProd L0 (L + 2 ^ dl) (fun w => upRange lz w 1 (dl + k) (dval 1 d w)) := by
  have honedl : (1:ℕ) ≤ 2 ^ dl := Nat.one_le_two_pow
  have honek : (1:ℕ) ≤ 2 ^ k := Nat.one_le_two_pow
  have hl6 : 3 * 2 ^ k ≤ l' * 2 ^ k := Nat.mul_le_mul_right _ hl'3
  have hl3 : 3 ≤ l := by omega
  have hle : l = l' * 2 ^ k - 1 := by omega
  have hstop : l' / 2 = l / 2 ^ (1 + k) := by
    rw [hle, show (1:ℕ) + k = k + 1 by omega]
    exact (aligned_pred_div_top l' k hl'odd).symm
  have hchain : ∀ t, 1 ≤ t → t < 1 + k → l' / 2 < l / 2 ^ t := by
    intro t ht1 ht2
    have hdt : l / 2 ^ t = l' * 2 ^ (k - t) - 1 := by
      rw [hle]
      exact aligned_pred_div l' k t (by omega) (by omega)
    have h2 : (1:ℕ) ≤ 2 ^ (k - t) := Nat.one_le_two_pow
    have h3 : l' ≤ l' * 2 ^ (k - t) := by
      calc l' = l' * 1 := by ring
      _ ≤ l' * 2 ^ (k - t) := Nat.mul_le_mul_left _ h2
    omega
  have hfuelk : k ≤ l / 2 := by
    have h4 : (2:ℕ) ^ (k + 1) = 2 ^ k * 2 := by ring
    have h5 := Nat.lt_two_pow (n := k)
    omega
  have hne : L0 < L + 2 ^ dl := by omega
  have hMw : l' * 2 ^ (dl + k) = L + 2 ^ dl := by
    calc l' * 2 ^ (dl + k) = l' * 2 ^ k * 2 ^ dl := by rw [pow_add]; ring
    _ = (l + 1) * 2 ^ dl := by rw [← hlk]
    _ = L + 2 ^ dl := by rw [← hLeq]; ring
  have hcomm : ∀ w, L0 ≤ w → w < L + 2 ^ dl → ∀ t, 1 ≤ t → t < 1 + k →
      w / 2 ^ (dl + t) = l / 2 ^ t := by
    intro w hw1 hw2 t ht1 ht2
    have hp : (2:ℕ) ^ (dl + 1) ≤ 2 ^ (dl + t) :=
      Nat.pow_le_pow_right (by norm_num) (by omega)
    have hp2 : (2:ℕ) ^ (dl + 1) = 2 * 2 ^ dl := by ring
    have hwdiv : w / 2 ^ (dl + t) = l' * 2 ^ (dl + k - (dl + t)) - 1 :=
      left_block_anc l' (dl + k) (dl + t) w (by omega) (by omega)
        (by omega) (by omega)
    have hldiv : l / 2 ^ t = l' * 2 ^ (k - t) - 1 := by
      rw [hle]
      exact aligned_pred_div l' k t (by omega) (by omega)
    rw [hwdiv, hldiv, show dl + k - (dl + t) = k - t by omega]
  rw [show l / 2 = l / 2 ^ 1 by rw [pow_one],
    climb_chain lz l k 1 (l / 2 ^ 1) (l' / 2) _ hstop hchain
      (by rw [pow_one]; exact hfuelk),
    upRange_ordProd hdist lz l dl k 1 L0 (L + 2 ^ dl) _ hne hcomm]
  refine ordProd_congr _ _ _ _ ?_
  intro w hw1 hw2
  rw [show dl + 1 = 1 + dl by omega, upRange_compose]

/-- The terminal left step against a power-of-two right bound: the climb
runs to the root and applies the pending actions at heights
`dl+1, ..., dl+k-1`. -/
lemma absorb_left_top_climb
    (hdist : ∀ (f : F) (x y : S), f • (x * y) = f • x * f • y)
    (lz : List F) (d : List S) (l k dl L L0 : ℕ)
    (hl : l % 2 = 1) (hlk : l + 1 = 2 ^ k) (hk1 : 1 ≤ k)
    (hLeq : l * 2 ^ dl = L) (hL0le : L0 ≤ L) (hLprog : L - L0 < 2 ^ dl) :
    lazyClimb lz (l / 2) (l / 2) 0
        (ordProd L0 (L + 2 ^ dl) (fun w => upRange lz w 1 dl (dval 1 d w)))
      = ordProd L0 (L + 2 ^ dl)
          (fun w => upRange lz w 1 (dl + (k - 1)) (dval 1 d w)) := by
  have honedl : (1:ℕ) ≤ 2 ^ dl := Nat.one_le_two_pow
  have honek : (1:ℕ) ≤ 2 ^ (k - 1) := Nat.one_le_two_pow
  have hkk : (2:ℕ) ^ (k - 1) * 2 = 2 ^ k := by
    rw [← pow_succ, show k - 1 + 1 = k by omega]
  have hle : l = 1 * 2 ^ k - 1 := by omega
  have hstop : (0:ℕ) = l / 2 ^ (1 + (k - 1)) := by
    rw [show (1:ℕ) + (k - 1) = k by omega]
    refine (Nat.div_eq_of_lt ?_).symm
    omega
  have hchain : ∀ t, 1 ≤ t → t < 1 + (k - 1) → 0 < l / 2 ^ t := by
    intro t ht1 ht2
    have h3 : (2:ℕ) ^ t * 2 ≤ 2 ^ (k - 1) * 2 :=
      Nat.mul_le_mul_right _ (Nat.pow_le_pow_right (by norm_num) (by omega))
    have h4 : (2:ℕ) ^ t ≤ l := by omega
    exact (Nat.one_le_div_iff (by positivity)).mpr h4
  have hfuelk : k - 1 ≤ l / 2 := by
    have h5 := Nat.lt_two_pow (n := k - 1)
    omega
  have hne : L0 < L + 2 ^ dl := by omega
  have hMw : 1 * 2 ^ (dl + k) = L + 2 ^ dl := by
    calc 1 * 2 ^ (dl + k) = 2 ^ k * 2 ^ dl := by rw [pow_add]; ring
    _ = (l + 1) * 2 ^ dl := by rw [hlk]
    _ = L + 2 ^ dl := by rw [← hLeq]; ring
  have hcomm : ∀ w, L0 ≤ w → w < L + 2 ^ dl → ∀ t, 1 ≤ t → t < 1 + (k - 1) →
      w / 2 ^ (dl + t) = l / 2 ^ t := by
    intro w hw1 hw2 t ht1 ht2
    have hp : (2:ℕ) ^ (dl + 1) ≤ 2 ^ (dl + t) :=
      Nat.pow_le_pow_right (by norm_num) (by omega)
    have hp2 : (2:ℕ) ^ (dl + 1) = 2 * 2 ^ dl := by ring
    have hwdiv : w / 2 ^ (dl + t) = 1 * 2 ^ (dl + k - (dl + t)) - 1 :=
      left_block_anc 1 (dl + k) (dl + t) w (by omega) (by omega)
        (by omega) (by omega)
    have hldiv : l / 2 ^ t = 1 * 2 ^ (k - t) - 1 := by
      rw [hle]
      exact aligned_pred_div 1 k t (by omega) (by omega)
    rw [hwdiv, hldiv, show dl + k - (dl + t) = k - t by omega]
  rw [show l / 2 = l / 2 ^ 1 by rw [pow_one],
    climb_chain lz l (k - 1) 1 (l / 2 ^ 1) 0 _ hstop hchain
      (by rw [pow_one]; exact hfuelk),
    upRange_ordProd hdist lz l dl (k - 1) 1 L0 (L + 2 ^ dl) _ hne hcomm]
  refine ordProd_congr _ _ _ _ ?_
  intro w hw1 hw2
  rw [show dl + 1 = 1 + dl by omega, upRange_compose]

/-- A right boundary step of the fold loop: absorbing node `r-1` and
climbing to the next boundary node applies exactly the pending actions
at heights `dr+1, ..., dr+k` to every absorbed leaf. -/
lemma absorb_right_climb
    (hdist : ∀ (f : F) (x y : S), f • (x * y) = f • x * f • y)
    (lz : List F) (d : List S) (r r' k dr R R0 : ℕ)
    (hr : r % 2 = 1) (hrk : r - 1 = r' * 2 ^ k) (hr' : 1 ≤ r') (hk1 : 1 ≤ k)
    (hReq : r * 2 ^ dr = R) (hRle : R ≤ R0) (hRprog : R0 - R < 2 ^ dr) :
    lazyClimb lz (r / 2) (r / 2) (r' / 2)
        (ordProd (R - 2 ^ dr) R0 (fun w => upRange lz w 1 dr (dval 1 d w)))
      = ordProd (R - 2 ^ dr) R0
          (fun w => upRange lz w 1 (dr + k) (dval 1 d w)) := by
  have honedr : (1:ℕ) ≤ 2 ^ dr := Nat.one_le_two_pow
  have honek : (1:ℕ) ≤ 2 ^ k := Nat.one_le_two_pow
  have hr2k : 1 * 2 ^ k ≤ r' * 2 ^ k := Nat.mul_le_mul_right _ hr'
  have hr3 : 3 ≤ r := by omega
  have h3 : (r - 1) * 2 ^ dr + 2 ^ dr = R := by
    calc (r - 1) * 2 ^ dr + 2 ^ dr = (r - 1 + 1) * 2 ^ dr := by ring
    _ = r * 2 ^ dr := by rw [show r - 1 + 1 = r by omega]
    _ = R := hReq
  have hrdiv : ∀ t, t ≤ k → (r - 1) / 2 ^ t = r' * 2 ^ (k - t) := by
    intro t ht
    rw [hrk]
    exact mul_pow_div r' k t ht
  have hstart : r / 2 = (r - 1) / 2 ^ 1 := by
    rw [pow_one]
    omega
  have hstop : r' / 2 = (r - 1) / 2 ^ (1 + k) := by
    rw [hrk, show (1:ℕ) + k = k + 1 by omega, pow_succ,
      ← Nat.div_div_eq_div_mul, Nat.mul_div_cancel _ (by positivity)]
  have hchain : ∀ t, 1 ≤ t → t < 1 + k → r' / 2 < (r - 1) / 2 ^ t := by
    intro t ht1 ht2
    rw [hrdiv t (by omega)]
    have h2 : (1:ℕ) ≤ 2 ^ (k - t) := Nat.one_le_two_pow
    have h4 : r' * 1 ≤ r' * 2 ^ (k - t) := Nat.mul_le_mul_left _ h2
    omega
  have hfuelk : k ≤ r / 2 := by
    have h5 := Nat.lt_two_pow (n := k - 1)
    have h6 : (2:ℕ) ^ (k - 1) * 2 = 2 ^ k := by
      rw [← pow_succ, show k - 1 + 1 = k by omega]
    have h7 : 1 * 2 ^ (k - 1) ≤ r' * 2 ^ (k - 1) := Nat.mul_le_mul_right _ hr'
    have h8 : r / 2 = r' * 2 ^ (k - 1) := by
      rw [hstart, hrdiv 1 (by omega)]
    omega
  have hne : R - 2 ^ dr < R0 := by omega
  have hRw : r' * 2 ^ (dr + k) = R - 2 ^ dr := by
    calc r' * 2 ^ (dr + k) = r' * 2 ^ k * 2 ^ dr := by rw [pow_add]; ring
    _ = (r - 1) * 2 ^ dr := by rw [← hrk]
    _ = R - 2 ^ dr := by omega
  have hcomm : ∀ w, R - 2 ^ dr ≤ w → w < R0 → ∀ t, 1 ≤ t → t < 1 + k →
      w / 2 ^ (dr + t) = (r - 1) / 2 ^ t := by
    intro w hw1 hw2 t ht1 ht2
    have hp : (2:ℕ) ^ (dr + 1) ≤ 2 ^ (dr + t) :=
      Nat.pow_le_pow_right (by norm_num) (by omega)
    have hp2 : (2:ℕ) ^ (dr + 1) = 2 * 2 ^ dr := by ring
    have hc1 : r' * 2 ^ (k - t) * 2 ^ (dr + t) = R - 2 ^ dr := by
      calc r' * 2 ^ (k - t) * 2 ^ (dr + t) = r' * 2 ^ (k - t + (dr + t)) := by
            rw [mul_assoc, ← pow_add]
      _ = r' * 2 ^ (dr + k) := by rw [show k - t + (dr + t) = dr + k by omega]
      _ = R - 2 ^ dr := hRw
    have hc2 : (r' * 2 ^ (k - t) + 1) * 2 ^ (dr + t)
        = R - 2 ^ dr + 2 ^ (dr + t) := by
      calc (r' * 2 ^ (k - t) + 1) * 2 ^ (dr + t)
          = r' * 2 ^ (k - t) * 2 ^ (dr + t) + 2 ^ (dr + t) := by ring
      _ = R - 2 ^ dr + 2 ^ (dr + t) := by rw [hc1]
    rw [hrdiv t (by omega)]
    exact div_interval (by omega) (by omega)
  rw [hstart,
    climb_chain lz (r - 1) k 1 ((r - 1) / 2 ^ 1) (r' / 2) _ hstop hchain
      (by rw [pow_one]; omega),
    upRange_ordProd hdist lz (r - 1) dr k 1 (R - 2 ^ dr) R0 _ hne hcomm]
  refine ordProd_congr _ _ _ _ ?_
  intro w hw1 hw2
  rw [show dr + 1 = 1 + dr by omega, upRange_compose]

end Lazy



















lemma setOps_length {S : Type} [Monoid S] (ops : List (ℕ × S)) :
    ∀ d : List S, (SegmentTree.setOps d ops).length = d.length := by
  induction ops with
  | nil => intro d; rfl
  | cons p t ih =>
    intro d
    exact (ih (SegmentTree.set d p.1 p.2)).trans (SegmentTree.set_length d p.1 p.2)

/-- **C5** (corrected): the claimed `2 * next_power_of_two(n)` padded
layout is wrong for the plain `SegmentTree`, whose backing array always
has length `2 * n` with no padding (counterexample
`segment_tree_layout_not_padded`); it is right for the
`LazySegmentTree`: in every reachable state its `data` array has length
`2 * capacity` and its `lazy` array length `capacity`, where
`capacity = next_power_of_two(n) ≥ n` never changes after construction,
and every padding leaf slot `capacity + j` for `n ≤ j < capacity` holds
the identity. -/
theorem segment_tree_layout_amended {S F : Type} [Monoid S] [Monoid F] [MulAction F S]
    (v : List S) (ops : List (ℕ × S)) (st : LazyTree S F) (hst : Lazy.ReachableL st) :
    (SegmentTree.setOps (SegmentTree.fromSlice v) ops).length = 2 * v.length ∧
    st.data.length = 2 * nextPowerOfTwo st.n ∧
    st.lazy.length = nextPowerOfTwo st.n ∧
    st.n ≤ nextPowerOfTwo st.n ∧
    ∀ j, st.n ≤ j → j < nextPowerOfTwo st.n →
      dval 1 st.data (nextPowerOfTwo st.n + j) = 1 := by
  have hs := Lazy.reachable_SlimInv st hst
  have hlog := hs.hlog
  refine ⟨(setOps_length ops (SegmentTree.fromSlice v)).trans
      (SegmentTree.fromSlice_inv v).1, ?_, ?_, ?_, ?_⟩
  · rw [← hlog]
    exact hs.hdlen
  · rw [← hlog]
    exact hs.hlzlen
  · rw [← hlog]
    exact hs.hnle
  · intro j h1 h2
    rw [← hlog] at h2 ⊢
    exact hs.hPD j h1 h2

theorem segment_tree_layout_amended_witness :
    Lazy.ReachableL (Lazy.rangeApply (Lazy.fromSlice [2, 3, 5] : LazyTree ℕ ℕ) 1 3 7) ∧
    ((SegmentTree.setOps (SegmentTree.fromSlice ([2, 3, 5] : List ℕ)) [(0, 7)]).length
        = 2 * ([2, 3, 5] : List ℕ).length ∧
      (Lazy.rangeApply (Lazy.fromSlice [2, 3, 5] : LazyTree ℕ ℕ) 1 3 7).data.length
        = 2 * nextPowerOfTwo (Lazy.rangeApply (Lazy.fromSlice [2, 3, 5] : LazyTree ℕ ℕ) 1 3 7).n ∧
      (Lazy.rangeApply (Lazy.fromSlice [2, 3, 5] : LazyTree ℕ ℕ) 1 3 7).lazy.length
        = nextPowerOfTwo (Lazy.rangeApply (Lazy.fromSlice [2, 3, 5] : LazyTree ℕ ℕ) 1 3 7).n ∧
      (Lazy.rangeApply (Lazy.fromSlice [2, 3, 5] : LazyTree ℕ ℕ) 1 3 7).n
        ≤ nextPowerOfTwo (Lazy.rangeApply (Lazy.fromSlice [2, 3, 5] : LazyTree ℕ ℕ) 1 3 7).n ∧
      ∀ j, (Lazy.rangeApply (Lazy.fromSlice [2, 3, 5] : LazyTree ℕ ℕ) 1 3 7).n ≤ j →
        j < nextPowerOfTwo (Lazy.rangeApply (Lazy.fromSlice [2, 3, 5] : LazyTree ℕ ℕ) 1 3 7).n →
        dval 1 (Lazy.rangeApply (Lazy.fromSlice [2, 3, 5] : LazyTree ℕ ℕ) 1 3 7).data
          (nextPowerOfTwo (Lazy.rangeApply (Lazy.fromSlice [2, 3, 5] : LazyTree ℕ ℕ) 1 3 7).n + j)
          = 1) :=
  ⟨Lazy.ReachableL.rangeApply 1 3 7 (Lazy.ReachableL.fromSlice _) (by decide) (by decide),
   segment_tree_layout_amended [2, 3, 5] [(0, 7)] _
     (Lazy.ReachableL.rangeApply 1 3 7 (Lazy.ReachableL.fromSlice _) (by decide) (by decide))⟩
